import Mathlib

/-!
# CsPointer: intrusive handles and the node manager

A shallow embedding of `src/cs_intrusive_pointer.h` and `src/cs_nodemanager.h`.

* An address (`T *`) is a natural number, `nullptr` is address `0`.
* The heap maps every address to the object stored there: its embedded counter
  `m_count` (a `std::size_t`, arithmetic modulo `2 ^ 64`) and, for objects that
  are node managers, the child vector `m_children` (the `m_ptr` of each entry).
* A handle is a place holding one address (`m_ptr`).  Places are named handle
  variables, temporaries, and the entries of a child vector.
* `delete this` runs the destructor of the object, which for a node manager
  clears the child vector and thereby releases every child; the recursion is
  bounded by a fuel argument.
-/

namespace CsPointer

/-- An address `T *`. -/
abbrev Pointer := Nat

/-- The null address. -/
abbrev nullptr : Pointer := 0

/-- Number of values of `std::size_t`; counter arithmetic wraps modulo this. -/
def SIZE_MODULUS : Nat := 2 ^ 64

/-- The `enum class CsIntrusiveAction`. -/
inductive CsIntrusiveAction where
  | Normal
  | NoDelete
deriving DecidableEq, Repr

/-- An object deriving from `CsIntrusiveBase` (or `CsIntrusiveBase_CM`) and possibly from
`CsNodeManager`: the counter and the child vector. An object that is no node manager has no
children. -/
structure Object where
  m_count : Nat
  m_children : List Pointer
deriving DecidableEq, Repr

/-- A place that holds a handle (`CsIntrusivePointer`): a named variable, a temporary or
by-value parameter, or entry `idx` of the child vector of the object at `node`. -/
inductive Loc where
  | var (i : Nat)
  | tmp (i : Nat)
  | child (node : Pointer) (idx : Nat)
deriving DecidableEq, Repr

/-- The program state: the heap, the `m_ptr` of every handle variable and temporary, and the
addresses on which `delete this` has run, oldest first. -/
structure State where
  heap : Pointer → Object
  handles : Nat → Pointer
  temps : Nat → Pointer
  deleted : List Pointer

namespace State

/-- A state with no counted object and only empty handles. -/
def init : State :=
  { heap := fun _ => { m_count := 0, m_children := [] },
    handles := fun _ => nullptr,
    temps := fun _ => nullptr,
    deleted := [] }

/-- Store `n` into the counter of the object at `a`. -/
def set_count (s : State) (a : Pointer) (n : Nat) : State :=
  { s with heap := fun x => if x = a then { s.heap a with m_count := n } else s.heap x }

/-- Store `l` as the child vector of the object at `a`. -/
def set_children (s : State) (a : Pointer) (l : List Pointer) : State :=
  { s with heap := fun x => if x = a then { s.heap a with m_children := l } else s.heap x }

/-- Read the `m_ptr` of the handle at a place. -/
def m_ptr (s : State) : Loc → Pointer
  | .var i => s.handles i
  | .tmp i => s.temps i
  | .child node idx => (s.heap node).m_children.getD idx nullptr

/-- Write the `m_ptr` of the handle at a place. -/
def set_m_ptr (s : State) (l : Loc) (p : Pointer) : State :=
  match l with
  | .var i => { s with handles := fun j => if j = i then p else s.handles j }
  | .tmp i => { s with temps := fun j => if j = i then p else s.temps j }
  | .child node idx => s.set_children node ((s.heap node).m_children.set idx p)

end State

/-! ## `CsIntrusiveBase` / `CsIntrusiveBase_CM` -/

/-- Method `cs_inc_ref_count`: `m_count.fetch_add(1)`. -/
def cs_inc_ref_count (s : State) (this : Pointer) : State :=
  s.set_count this (((s.heap this).m_count + 1) % SIZE_MODULUS)

/-- Method `cs_dec_ref_count`: `m_count.fetch_sub(1)`, then `delete this` when the action is not
`NoDelete` and the old count was 1. `del` is what `delete this` does. -/
def cs_dec_ref_count (del : State → Pointer → Option State) (s : State) (this : Pointer)
    (action : CsIntrusiveAction) : Option State :=
  let old_count := (s.heap this).m_count
  let s := s.set_count this ((old_count + (SIZE_MODULUS - 1)) % SIZE_MODULUS)
  if action ≠ CsIntrusiveAction.NoDelete then
    if old_count = 1 then del s this else some s
  else
    some s

/-- Method `cs_get_ref_count`: `m_count.load()`. -/
def cs_get_ref_count (s : State) (this : Pointer) : Nat :=
  (s.heap this).m_count

/-! ## `CsIntrusiveDefaultPolicy` -/

namespace CsIntrusiveDefaultPolicy

/-- Policy function `inc_ref_count(ptr)`. -/
def inc_ref_count (s : State) (ptr : Pointer) : State :=
  cs_inc_ref_count s ptr

/-- Policy function `dec_ref_count(ptr, action)`. -/
def dec_ref_count (del : State → Pointer → Option State) (s : State) (ptr : Pointer)
    (action : CsIntrusiveAction) : Option State :=
  cs_dec_ref_count del s ptr action

/-- Policy function `get_ref_count(ptr)`. -/
def get_ref_count (s : State) (ptr : Pointer) : Nat :=
  cs_get_ref_count s ptr

end CsIntrusiveDefaultPolicy

/-! ## `CsIntrusivePointer` -/

namespace CsIntrusivePointer

open CsIntrusiveDefaultPolicy

/-- Constructors `CsIntrusivePointer()` and `CsIntrusivePointer(std::nullptr_t)`. -/
def ctor_null (s : State) (this : Loc) : State :=
  s.set_m_ptr this nullptr

/-- Constructor `explicit CsIntrusivePointer(U *p)`. -/
def ctor_raw (s : State) (this : Loc) (p : Pointer) : State :=
  let s := s.set_m_ptr this p
  if s.m_ptr this ≠ nullptr then inc_ref_count s (s.m_ptr this) else s

/-- Destructor `~CsIntrusivePointer()` of a handle whose `m_ptr` is the given address (the destructor
only reads the handle). -/
def dtor (del : State → Pointer → Option State) (s : State) (m_ptr : Pointer) : Option State :=
  if m_ptr ≠ nullptr then dec_ref_count del s m_ptr CsIntrusiveAction.Normal else some s

/-- Copy constructor `CsIntrusivePointer(const CsIntrusivePointer &other)`. -/
def copy_ctor (s : State) (this other : Loc) : State :=
  let s := s.set_m_ptr this (s.m_ptr other)
  if s.m_ptr this ≠ nullptr then inc_ref_count s (s.m_ptr this) else s

/-- Move constructor `CsIntrusivePointer(CsIntrusivePointer &&other)`. -/
def move_ctor (s : State) (this other : Loc) : State :=
  let s := s.set_m_ptr this (s.m_ptr other)
  s.set_m_ptr other nullptr

/-- Member `swap`: `std::swap(m_ptr, other.m_ptr)` on the two address cells. -/
def swap (s : State) (this other : Loc) : State :=
  let a := s.m_ptr this
  let b := s.m_ptr other
  let s := s.set_m_ptr this b
  s.set_m_ptr other a

/-- Move assignment `operator=(CsIntrusivePointer &&other)`. -/
def move_assign (del : State → Pointer → Option State) (s : State) (this other : Loc) :
    Option State :=
  if s.m_ptr this = s.m_ptr other then
    some s
  else
    let r :=
      if s.m_ptr this ≠ nullptr then
        match dec_ref_count del s (s.m_ptr this) CsIntrusiveAction.Normal with
        | none => none
        | some s => some (s.set_m_ptr this nullptr)
      else
        some s
    match r with
    | none => none
    | some s => some (swap s this other)

/-- Method `is_null()`. -/
def is_null (s : State) (this : Loc) : Bool :=
  s.m_ptr this == nullptr

/-- Methods `get()` and `data()`. -/
def get (s : State) (this : Loc) : Pointer :=
  s.m_ptr this

/-- Method `use_count()`. -/
def use_count (s : State) (this : Loc) : Nat :=
  if s.m_ptr this = nullptr then 0 else get_ref_count s (s.m_ptr this)

/-- Method `release_if()`: the returned address and the new state. -/
def release_if (del : State → Pointer → Option State) (s : State) (this : Loc) :
    Option (Pointer × State) :=
  if use_count s this = 1 then
    let tmpPtr := s.m_ptr this
    match dec_ref_count del s (s.m_ptr this) CsIntrusiveAction.NoDelete with
    | none => none
    | some s => some (tmpPtr, s.set_m_ptr this nullptr)
  else
    some (nullptr, s)

/-- Raw-address assignment `operator=(T *p)`. -/
def assign_raw (del : State → Pointer → Option State) (s : State) (this : Loc) (p : Pointer) :
    Option State :=
  if s.m_ptr this ≠ p then
    let s := if p ≠ nullptr then inc_ref_count s p else s
    let r :=
      if s.m_ptr this ≠ nullptr then
        dec_ref_count del s (s.m_ptr this) CsIntrusiveAction.Normal
      else
        some s
    match r with
    | none => none
    | some s => some (s.set_m_ptr this p)
  else
    some s

/-- Copy assignment `operator=(const CsIntrusivePointer &other)`, which is
`return *this = other.m_ptr`. -/
def copy_assign (del : State → Pointer → Option State) (s : State) (this other : Loc) :
    Option State :=
  assign_raw del s this (s.m_ptr other)

/-- Method `reset()`. -/
def reset (del : State → Pointer → Option State) (s : State) (this : Loc) : Option State :=
  let r :=
    if s.m_ptr this ≠ nullptr then
      dec_ref_count del s (s.m_ptr this) CsIntrusiveAction.Normal
    else
      some s
  match r with
  | none => none
  | some s => some (s.set_m_ptr this nullptr)

/-- Method `clear()` of a handle, which calls `reset()`. -/
def clear (del : State → Pointer → Option State) (s : State) (this : Loc) : Option State :=
  reset del s this

/-- Method `reset(U *p)`, which is `CsIntrusivePointer<T>(p).swap(*this)`: a temporary handle
is constructed from `p`, swapped with this handle, and destroyed at the end of the
statement. -/
def reset_raw (del : State → Pointer → Option State) (s : State) (this : Loc) (p : Pointer) :
    Option State :=
  let s := ctor_raw s (Loc.tmp 0) p
  let s := swap s (Loc.tmp 0) this
  dtor del s (s.m_ptr (Loc.tmp 0))

end CsIntrusivePointer

/-- The free function `swap(ptr1, ptr2)`, which is `ptr1.swap(ptr2)`. -/
def free_swap (s : State) (ptr1 ptr2 : Loc) : State :=
  CsIntrusivePointer.swap s ptr1 ptr2

/-- The built-in `dynamic_cast<U *>(p)` without address adjustment: `isU` tells whether the
dynamic type of the object at an address is `U` or derived from it. -/
def dynamic_cast (isU : Pointer → Bool) (p : Pointer) : Pointer :=
  if p ≠ nullptr ∧ isU p = true then p else nullptr

/-- Cast helper `dynamic_pointer_cast<U>(ptr)`: the returned handle is constructed, in place
`result`, from the cast address. -/
def dynamic_pointer_cast (isU : Pointer → Bool) (s : State) (result : Loc) (ptr : Loc) : State :=
  CsIntrusivePointer.ctor_raw s result (dynamic_cast isU (s.m_ptr ptr))

/-- Factory `make_intrusive<T>(args...)`: `new T(...)` has produced a fresh object at `a` (count 0, no
children), and the returned handle is constructed from that address in place `result`. -/
def make_intrusive (s : State) (result : Loc) (a : Pointer) : State :=
  let s := { s with heap := fun x => if x = a then { m_count := 0, m_children := [] } else s.heap x }
  CsIntrusivePointer.ctor_raw s result a

/-! ## `CsNodeManager` -/

namespace CsNodeManager

/-- The destructor of a `std::vector` of handles: `~CsIntrusivePointer()` on every element,
first to last. -/
def destroy_elements (del : State → Pointer → Option State) (s : State) :
    List Pointer → Option State
  | [] => some s
  | p :: rest =>
    match CsIntrusivePointer.dtor del s p with
    | none => none
    | some s => destroy_elements del s rest

/-- Method `clear()`: swap `m_children` with the empty local vector `tmp`, which is destroyed when
it goes out of scope. -/
def clear (del : State → Pointer → Option State) (s : State) (this : Pointer) : Option State :=
  let tmp := (s.heap this).m_children
  let s := s.set_children this []
  destroy_elements del s tmp

end CsNodeManager

/-- Statement `delete this`: the virtual destructor runs (the address is recorded), and its
`~CsNodeManager()` part calls `clear()`. Every nested `delete this` uses one unit of fuel;
the result is `none` when the fuel does not suffice. -/
def delete_this : Nat → State → Pointer → Option State
  | 0, _, _ => none
  | fuel + 1, s, this =>
    let s := { s with deleted := s.deleted ++ [this] }
    CsNodeManager.clear (delete_this fuel) s this

namespace CsNodeManager

/-- Library `std::vector::push_back(value_type &&)`: the new last element is move-constructed from
the handle at `src`. -/
def push_back (s : State) (this : Pointer) (src : Loc) : State :=
  let n := (s.heap this).m_children.length
  let s := s.set_children this ((s.heap this).m_children ++ [nullptr])
  CsIntrusivePointer.move_ctor s (Loc.child this n) src

/-- Method `add_child(T *child)`: the temporary handle `CsIntrusivePointer<T, Policy>(child)` is
pushed back and destroyed at the end of the statement. -/
def add_child_raw (del : State → Pointer → Option State) (s : State) (this : Pointer)
    (child : Pointer) : Option State :=
  let s := CsIntrusivePointer.ctor_raw s (Loc.tmp 0) child
  let s := push_back s this (Loc.tmp 0)
  CsIntrusivePointer.dtor del s (s.m_ptr (Loc.tmp 0))

/-- Method `add_child(CsIntrusivePointer<T, Policy> child)` called with the handle at `arg` passed by
copy: the parameter is copy-constructed from `arg`, moved into the vector, and destroyed on
return. -/
def add_child (del : State → Pointer → Option State) (s : State) (this : Pointer)
    (arg : Loc) : Option State :=
  let s := CsIntrusivePointer.copy_ctor s (Loc.tmp 0) arg
  let s := push_back s this (Loc.tmp 0)
  CsIntrusivePointer.dtor del s (s.m_ptr (Loc.tmp 0))

/-- Method `children()`. -/
def children (s : State) (this : Pointer) : List Pointer :=
  (s.heap this).m_children

/-- Library `std::find(first, last, child)` on handles, compared by `ptr.get() == child`: the offset
of the first match from `first`, or the length of the range when there is none. -/
def std_find : List Pointer → Pointer → Nat
  | [], _ => 0
  | p :: rest, child => if p = child then 0 else std_find rest child + 1

/-- The loop `std::move(pos + 1, end(), pos)` of `std::vector::erase`: `count` move
assignments `v[j] = std::move(v[j + 1])`, for `j = pos, pos + 1, ...`. -/
def erase_shift (del : State → Pointer → Option State) (this : Pointer) :
    Nat → Nat → State → Option State
  | 0, _, s => some s
  | count + 1, j, s =>
    match CsIntrusivePointer.move_assign del s (Loc.child this j) (Loc.child this (j + 1)) with
    | none => none
    | some s => erase_shift del this count (j + 1) s

/-- Library `std::vector::erase(pos)` for `pos` before `end()`: the later elements are move-assigned
one position down, the vector shrinks by one and the former last element is destroyed. -/
def vector_erase (del : State → Pointer → Option State) (s : State) (this : Pointer)
    (pos : Nat) : Option State :=
  let n := (s.heap this).m_children.length
  match erase_shift del this (n - 1 - pos) pos s with
  | none => none
  | some s =>
    let last := s.m_ptr (Loc.child this (n - 1))
    let s := s.set_children this ((s.heap this).m_children.take (n - 1))
    CsIntrusivePointer.dtor del s last

/-- Method `remove_child(T *child)`: the returned flag and the new state. -/
def remove_child_raw (del : State → Pointer → Option State) (s : State) (this : Pointer)
    (child : Pointer) : Option (Bool × State) :=
  let iter := std_find (s.heap this).m_children child
  if iter ≠ (s.heap this).m_children.length then
    match vector_erase del s this iter with
    | none => none
    | some s => some (true, s)
  else
    some (false, s)

/-- Method `remove_child(const CsIntrusivePointer<T, Policy> &child)`. -/
def remove_child (del : State → Pointer → Option State) (s : State) (this : Pointer)
    (child : Loc) : Option (Bool × State) :=
  let ptr := CsIntrusivePointer.get s child
  remove_child_raw del s this ptr

/-- Library `std::rotate(first, middle, last)` on positions of a sequence: the element at
`first + i` goes to `first + (i + (last - middle)) % (last - first)`, that is the block
`[middle, last)` is placed before the block `[first, middle)`. -/
def std_rotate (l : List Pointer) (first middle last : Nat) : List Pointer :=
  l.take first ++ ((l.take last).drop middle ++ (l.take middle).drop first) ++ l.drop last

/-- Method `move_child(source, dest)`. In the last branch the positions are reverse iterators:
`rend() - k` is position `size() - k` of the reversed sequence. -/
def move_child (s : State) (this : Pointer) (source dest : Nat) : State :=
  let m_children := (s.heap this).m_children
  let n := m_children.length
  if source = dest then
    s
  else if source < dest then
    s.set_children this (std_rotate m_children source (source + 1) (dest + 1))
  else
    s.set_children this
      (std_rotate m_children.reverse (n - source - 1) (n - source) (n - dest)).reverse

end CsNodeManager

/-- The `enum class VisitChildren`. -/
inductive VisitChildren where
  | Recursive
  | NonRecursive
deriving DecidableEq, Repr

/-- The `enum class VisitStatus`. -/
inductive VisitStatus where
  | VisitMore
  | Finished
deriving DecidableEq, Repr

namespace CsNodeManager

/-- The first half of the loop body of `visit<U>`: the visitor is called on the element
`item` itself when `T` and `U` are the same type (`same`), otherwise on the temporary handle
`child` obtained by `dynamic_pointer_cast<U>(item)`, if that is not empty; `child` is
destroyed at the end of its block. A visitor gets its accumulated captures, the state and
the place of the handle it is called on. -/
def visit_invoke {α : Type} (same : Bool) (isU : Pointer → Bool)
    (lambda : α → State → Loc → Option (VisitStatus × α × State))
    (del : State → Pointer → Option State) (s : State) (item : Loc) (acc : α) :
    Option (VisitStatus × α × State) :=
  if same then
    lambda acc s item
  else
    let s := dynamic_pointer_cast isU s (Loc.tmp 1) item
    if s.m_ptr (Loc.tmp 1) ≠ nullptr then
      match lambda acc s (Loc.tmp 1) with
      | none => none
      | some (retval, acc, s) =>
        match CsIntrusivePointer.dtor del s (s.m_ptr (Loc.tmp 1)) with
        | none => none
        | some s => some (retval, acc, s)
    else
      some (VisitStatus.VisitMore, acc, s)

/-- The loop body of `visit<U>` for the element `item`: the visitor call, and then, when the
option is `Recursive` and the walk is not finished, `item->visit<U>(lambda)`, given as
`recurse`. -/
def visit_body {α : Type} (same : Bool) (isU : Pointer → Bool)
    (lambda : α → State → Loc → Option (VisitStatus × α × State))
    (del : State → Pointer → Option State)
    (recurse : State → Pointer → α → Option (VisitStatus × α × State))
    (option : VisitChildren) (s : State) (item : Loc) (acc : α) :
    Option (VisitStatus × α × State) :=
  match visit_invoke same isU lambda del s item acc with
  | none => none
  | some (VisitStatus.Finished, acc, s) => some (VisitStatus.Finished, acc, s)
  | some (VisitStatus.VisitMore, acc, s) =>
    if option = VisitChildren.Recursive then
      recurse s (s.m_ptr item) acc
    else
      some (VisitStatus.VisitMore, acc, s)

/-- The range-based loop of `visit<U>` over `m_children`: `count` elements from position `i`
on, stopping as soon as a body returns `Finished`. -/
def visit_loop {α : Type} (body : State → Loc → α → Option (VisitStatus × α × State))
    (this : Pointer) : Nat → Nat → State → α → Option (VisitStatus × α × State)
  | 0, _, s, acc => some (VisitStatus.VisitMore, acc, s)
  | count + 1, i, s, acc =>
    match body s (Loc.child this i) acc with
    | none => none
    | some (VisitStatus.Finished, acc, s) => some (VisitStatus.Finished, acc, s)
    | some (VisitStatus.VisitMore, acc, s) => visit_loop body this count (i + 1) s acc

/-- Method `visit<U>(lambda, option)`. The nested call `item->visit<U>(lambda)` uses the
default option `Recursive` and one unit of fuel; the result is `none` when the fuel does not
suffice. -/
def visit {α : Type} (same : Bool) (isU : Pointer → Bool)
    (lambda : α → State → Loc → Option (VisitStatus × α × State))
    (del : State → Pointer → Option State) :
    Nat → VisitChildren → State → Pointer → α → Option (VisitStatus × α × State)
  | 0, _, _, _, _ => none
  | fuel + 1, option, s, this, acc =>
    visit_loop
      (visit_body same isU lambda del
        (fun s item acc => visit same isU lambda del fuel VisitChildren.Recursive s item acc)
        option)
      this (s.heap this).m_children.length 0 s acc

/-- The internal visitor of `find_children<U>()`: its by-value parameter `item` is
copy-constructed from the handle it is called on, `retval.push_back(item)` copy-constructs a
new element of the local result vector (kept as the list of held addresses), and the
parameter is destroyed on return. -/
def find_children_lambda (del : State → Pointer → Option State) (retval : List Pointer)
    (s : State) (arg : Loc) : Option (VisitStatus × List Pointer × State) :=
  let s := CsIntrusivePointer.copy_ctor s (Loc.tmp 2) arg
  let element := s.m_ptr (Loc.tmp 2)
  let s := if element ≠ nullptr then CsIntrusiveDefaultPolicy.inc_ref_count s element else s
  match CsIntrusivePointer.dtor del s (s.m_ptr (Loc.tmp 2)) with
  | none => none
  | some s => some (VisitStatus.VisitMore, retval ++ [element], s)

/-- Method `find_children<U>()`: the addresses held by the returned handles, and the new
state. -/
def find_children (same : Bool) (isU : Pointer → Bool) (del : State → Pointer → Option State)
    (fuel : Nat) (s : State) (this : Pointer) : Option (List Pointer × State) :=
  match visit same isU (find_children_lambda del) del fuel VisitChildren.Recursive s this [] with
  | none => none
  | some (_, retval, s) => some (retval, s)

end CsNodeManager

/-! ## Scenarios and predicates used in the statements -/

open CsIntrusivePointer CsIntrusiveDefaultPolicy CsNodeManager

/-- The set `G` of addresses is closed under child entries: every non-null child of a member
is a member. -/
def Closed (s : State) (G : List Pointer) : Prop :=
  ∀ x ∈ G, ∀ c ∈ (s.heap x).m_children, c ≠ nullptr → c ∈ G

/-- Number of members of `G` that still have children. -/
def busy (s : State) (G : List Pointer) : Nat :=
  G.countP (fun x => !(s.heap x).m_children.isEmpty)

/-- What a cascade of `delete this` inside `G` may change: child vectors are kept or emptied,
objects outside `G` and all handle variables are untouched, and only members of `G` are
deleted. -/
structure Shrinks (G : List Pointer) (s s' : State) : Prop where
  children : ∀ q, (s'.heap q).m_children = (s.heap q).m_children ∨ (s'.heap q).m_children = []
  outside : ∀ q, q ∉ G → s'.heap q = s.heap q
  handles : s'.handles = s.handles
  temps : s'.temps = s.temps
  deleted : ∃ extra, s'.deleted = s.deleted ++ extra ∧ ∀ x ∈ extra, x ∈ G

/-- The state in which the children of `c` start to be released when the last handle to `c`
is dropped: the counter of `c` is 0, `delete this` on `c` is recorded, and its child vector
has been swapped out. -/
def disposing (s : State) (c : Pointer) : State :=
  ({ s.set_count c 0 with deleted := s.deleted ++ [c] } : State).set_children c []

/-- A state given by the listed objects (every other address holds an object with count 0
and no children) and the values of the handle variables `0, 1, ...` (all others empty). -/
def State.of (objects : List (Pointer × Object)) (vars : List Pointer) : State :=
  { heap := fun x => ((objects.lookup x).getD { m_count := 0, m_children := [] }),
    handles := fun i => vars.getD i nullptr,
    temps := fun _ => nullptr,
    deleted := [] }

/-- Two handle variables sharing one object created by `make_intrusive`. -/
def shared_pair : State :=
  copy_ctor (make_intrusive State.init (Loc.var 0) 10) (Loc.var 1) (Loc.var 0)

/-- Variable 0 holds the only handle to a parent at address 10 whose single child is the
object at address 11, which variable 1 holds as well. -/
def parent_and_child : Option State :=
  add_child (delete_this 1)
    (make_intrusive (make_intrusive State.init (Loc.var 0) 10) (Loc.var 1) 11) 10 (Loc.var 1)

/-- Handle variables `1, ..., k` are copy-constructed one after the other, variable `i + 1`
from the earlier variable `src i`. -/
def copy_handles (src : Nat → Nat) (s : State) : Nat → State
  | 0 => s
  | k + 1 => copy_ctor (copy_handles src s k) (Loc.var (k + 1)) (Loc.var (src k))

/-- The handle variables listed are destroyed, in the order of the list. -/
def destroy_handles (del : State → Pointer → Option State) (s : State) :
    List Nat → Option State
  | [] => some s
  | i :: rest =>
    match dtor del s (s.m_ptr (Loc.var i)) with
    | none => none
    | some s => destroy_handles del s rest

/-- State `b` is state `a` except for the child vector of the object at `this`. -/
structure SameBut (this : Pointer) (a b : State) : Prop where
  heap : ∀ q, q ≠ this → b.heap q = a.heap q
  count : (b.heap this).m_count = (a.heap this).m_count
  handles : b.handles = a.handles
  temps : b.temps = a.temps
  deleted : b.deleted = a.deleted

/-- The end of `std::vector::erase` on a vector of `n` entries: the vector shrinks by one and
the former last element is destroyed. -/
def erase_tail (del : State → Pointer → Option State) (this : Pointer) (n : Nat) (s : State) :
    Option State :=
  dtor del (s.set_children this ((s.heap this).m_children.take (n - 1)))
    (s.m_ptr (Loc.child this (n - 1)))

/-- The conditions under which releasing one handle to `target` inside a method of the node
manager `this` is well behaved: if that handle is the last one (the count is 1), the objects
reachable from `target` through child entries (a closed set `F` holding its non-null
children) contain neither `this` nor `target`, `this` is not `target`, and the fuel exceeds
the size of `F` by two. -/
def ReleaseOk (F : List Pointer) (fuel : Nat) (s : State) (this target : Pointer) : Prop :=
  target ≠ nullptr → (s.heap target).m_count = 1 →
    Closed s F ∧ (∀ x ∈ (s.heap target).m_children, x ≠ nullptr → x ∈ F) ∧
    this ∉ F ∧ target ∉ F ∧ this ≠ target ∧ F.length + 1 < fuel

/-- A disposal routine that, before it does anything, reads `children()` of the manager at
`this` and fails (`none`) unless the size is 0. -/
def observing (this : Pointer) (del : State → Pointer → Option State) (s : State)
    (p : Pointer) : Option State :=
  if (s.heap this).m_children.isEmpty = true then del s p else none

/-- The cascade `delete_this` in which every destructor that runs, at any depth, first reads
`children()` of the manager at `this` and fails (`none`) unless the size is 0. -/
def delete_this_observing (this : Pointer) : Nat → State → Pointer → Option State
  | 0, _, _ => none
  | fuel + 1, s, p =>
    if (s.heap this).m_children.isEmpty = true then
      CsNodeManager.clear (delete_this_observing this fuel)
        { s with deleted := s.deleted ++ [p] } p
    else
      none

/-- A disposal routine leaves every child vector as it is or empties it. -/
def OnlyShrinks (del : State → Pointer → Option State) : Prop :=
  ∀ σ p σ', del σ p = some σ' →
    ∀ q, (σ'.heap q).m_children = (σ.heap q).m_children ∨ (σ'.heap q).m_children = []

/-- A disposal routine keeps the child sequence of `this` empty. -/
def KeepsEmpty (this : Pointer) (del : State → Pointer → Option State) : Prop :=
  ∀ σ p σ', (σ.heap this).m_children = [] → del σ p = some σ' → (σ'.heap this).m_children = []

/-- The manager at 10 owns the objects at 11 and 12, and the object at 11 owns the object at
12 as well; built with `add_child(T *)` from fresh objects. -/
def shared_grandchild : Option State :=
  (add_child_raw (delete_this 0) State.init 10 11).bind (fun s =>
    (add_child_raw (delete_this 0) s 11 12).bind (fun s =>
      add_child_raw (delete_this 0) s 10 12))

/-- The depth-first pre-order sequence over the heap: `PreOrder s kids l` says that `l` lists
the nodes of the forest whose roots are the entries `kids`, every node before its own
children, children in stored order; no entry of the forest is empty. -/
inductive PreOrder (s : State) : List Pointer → List Pointer → Prop where
  | nil : PreOrder s [] []
  | cons (c : Pointer) (rest sub tail : List Pointer) : c ≠ nullptr →
      PreOrder s (s.heap c).m_children sub → PreOrder s rest tail →
      PreOrder s (c :: rest) (c :: sub ++ tail)

/-- A node is a candidate of `visit<U>`: always when `T` and `U` are the same type, otherwise
when its dynamic type is `U` or derived from it. -/
def assignable (same : Bool) (isU : Pointer → Bool) (p : Pointer) : Bool :=
  same || isU p

/-- A visitor that takes the handle by reference and touches neither the handle nor the
heap: it sees the address and its own captures only. -/
def by_reference {α : Type} (f : α → Pointer → VisitStatus × α) (acc : α) (s : State)
    (h : Loc) : Option (VisitStatus × α × State) :=
  some ((f acc (s.m_ptr h)).1, (f acc (s.m_ptr h)).2, s)

/-- Calling a visitor on the nodes of a sequence in order, up to and including the first
node for which it returns `Finished`: the final status and captures. -/
def walk {α : Type} (f : α → Pointer → VisitStatus × α) : List Pointer → α → VisitStatus × α
  | [], acc => (VisitStatus.VisitMore, acc)
  | p :: rest, acc =>
    match f acc p with
    | (VisitStatus.Finished, acc) => (VisitStatus.Finished, acc)
    | (VisitStatus.VisitMore, acc) => walk f rest acc

/-- The calls made by `walk`, each with its result: the prefix of the sequence that ends with
the first node for which the visitor returns `Finished`. -/
def invoked {α : Type} (f : α → Pointer → VisitStatus × α) :
    List Pointer → α → List (Pointer × VisitStatus)
  | [], _ => []
  | p :: rest, acc =>
    match f acc p with
    | (VisitStatus.Finished, _) => [(p, VisitStatus.Finished)]
    | (VisitStatus.VisitMore, acc) => (p, VisitStatus.VisitMore) :: invoked f rest acc

/-- A visitor that, besides what `f` does, records every call with its result. -/
def traced {α : Type} (f : α → Pointer → VisitStatus × α)
    (acc : α × List (Pointer × VisitStatus)) (p : Pointer) :
    VisitStatus × (α × List (Pointer × VisitStatus)) :=
  ((f acc.1 p).1, ((f acc.1 p).2, acc.2 ++ [(p, (f acc.1 p).1)]))

/-- The visitor restricted to candidates: other nodes are passed over. -/
def on_candidates {α : Type} (same : Bool) (isU : Pointer → Bool)
    (f : α → Pointer → VisitStatus × α) (acc : α) (p : Pointer) : VisitStatus × α :=
  if assignable same isU p = true then f acc p else (VisitStatus.VisitMore, acc)

/-- The tree of the test `find`: the root at 10 has the children 11 (pb1), 12 (pb2),
13 (groupBox, which has the child 14, cb) and 15 (textEdit); handles outside the tree hold
10, 13 and 14. -/
def find_tree : State :=
  State.of [(10, ⟨1, [11, 12, 13, 15]⟩), (11, ⟨1, []⟩), (12, ⟨1, []⟩), (13, ⟨2, [14]⟩),
    (14, ⟨2, []⟩), (15, ⟨1, []⟩)] [10, 13, 14]

/-! ## Converting copy assignment, cast helpers, comparison operators -/

/-- Converting copy constructor `CsIntrusivePointer(const CsIntrusivePointer<U> &p)`. -/
def CsIntrusivePointer.converting_copy_ctor (s : State) (this p : Loc) : State :=
  let s := s.set_m_ptr this (s.m_ptr p)
  if s.m_ptr this ≠ nullptr then inc_ref_count s (s.m_ptr this) else s

/-- Converting copy assignment `operator=(const CsIntrusivePointer<U> &p)`, which is
`CsIntrusivePointer<T>(p).swap(*this)`: a temporary handle is copy-constructed from `p`,
swapped with this handle, and destroyed at the end of the statement. -/
def CsIntrusivePointer.converting_copy_assign (del : State → Pointer → Option State)
    (s : State) (this p : Loc) : Option State :=
  let s := CsIntrusivePointer.converting_copy_ctor s (Loc.tmp 0) p
  let s := swap s (Loc.tmp 0) this
  dtor del s (s.m_ptr (Loc.tmp 0))

/-- The built-in `const_cast<T *>(p)`: the same address. -/
def const_cast (p : Pointer) : Pointer :=
  p

/-- The built-in `static_cast<T *>(p)` without address adjustment: the same address. -/
def static_cast (p : Pointer) : Pointer :=
  p

/-- Cast helper `const_pointer_cast<T>(ptr)`: the returned handle is constructed, in place
`result`, from the cast address. -/
def const_pointer_cast (s : State) (result : Loc) (ptr : Loc) : State :=
  CsIntrusivePointer.ctor_raw s result (const_cast (CsIntrusivePointer.get s ptr))

/-- Cast helper `static_pointer_cast<T>(ptr)`: the returned handle is constructed, in place
`result`, from the cast address. -/
def static_pointer_cast (s : State) (result : Loc) (ptr : Loc) : State :=
  CsIntrusivePointer.ctor_raw s result (static_cast (CsIntrusivePointer.get s ptr))

/-- Free `operator==` on two handles. -/
def operator_eq (s : State) (ptr1 ptr2 : Loc) : Bool :=
  CsIntrusivePointer.get s ptr1 == CsIntrusivePointer.get s ptr2

/-- Free `operator==` on a handle and a raw address. -/
def operator_eq_raw (s : State) (ptr1 : Loc) (ptr2 : Pointer) : Bool :=
  CsIntrusivePointer.get s ptr1 == ptr2

/-- Free `operator==` on a raw address and a handle. -/
def raw_operator_eq (s : State) (ptr1 : Pointer) (ptr2 : Loc) : Bool :=
  ptr1 == CsIntrusivePointer.get s ptr2

/-- Free `operator==` on a handle and `nullptr`. -/
def operator_eq_null (s : State) (ptr1 : Loc) : Bool :=
  CsIntrusivePointer.get s ptr1 == nullptr

/-- Free `operator==` on `nullptr` and a handle. -/
def null_operator_eq (s : State) (ptr2 : Loc) : Bool :=
  nullptr == CsIntrusivePointer.get s ptr2

/-- Free `operator!=` on two handles. -/
def operator_ne (s : State) (ptr1 ptr2 : Loc) : Bool :=
  CsIntrusivePointer.get s ptr1 != CsIntrusivePointer.get s ptr2

/-- Free `operator!=` on a handle and a raw address. -/
def operator_ne_raw (s : State) (ptr1 : Loc) (ptr2 : Pointer) : Bool :=
  CsIntrusivePointer.get s ptr1 != ptr2

/-- Free `operator!=` on a raw address and a handle. -/
def raw_operator_ne (s : State) (ptr1 : Pointer) (ptr2 : Loc) : Bool :=
  ptr1 != CsIntrusivePointer.get s ptr2

/-- Free `operator!=` on a handle and `nullptr`. -/
def operator_ne_null (s : State) (ptr1 : Loc) : Bool :=
  CsIntrusivePointer.get s ptr1 != nullptr

/-- Free `operator!=` on `nullptr` and a handle. -/
def null_operator_ne (s : State) (ptr2 : Loc) : Bool :=
  nullptr != CsIntrusivePointer.get s ptr2

/-- Free `operator<` on two handles; raw addresses are ordered as numbers. -/
def operator_lt (s : State) (ptr1 ptr2 : Loc) : Bool :=
  decide (CsIntrusivePointer.get s ptr1 < CsIntrusivePointer.get s ptr2)

/-- Free `operator<=` on two handles. -/
def operator_le (s : State) (ptr1 ptr2 : Loc) : Bool :=
  decide (CsIntrusivePointer.get s ptr1 ≤ CsIntrusivePointer.get s ptr2)

/-- Free `operator>` on two handles. -/
def operator_gt (s : State) (ptr1 ptr2 : Loc) : Bool :=
  decide (CsIntrusivePointer.get s ptr1 > CsIntrusivePointer.get s ptr2)

/-- Free `operator>=` on two handles. -/
def operator_ge (s : State) (ptr1 ptr2 : Loc) : Bool :=
  decide (CsIntrusivePointer.get s ptr1 ≥ CsIntrusivePointer.get s ptr2)

/-! ## `CsIntrusiveBase_CM` -/

namespace CsIntrusiveBase_CM

/-- Copy constructor `CsIntrusiveBase_CM(const CsIntrusiveBase_CM &other)` of the object at
`this`: `m_count = 0`. -/
def copy_ctor (s : State) (this _other : Pointer) : State :=
  s.set_count this 0

/-- Copy assignment `operator=(const CsIntrusiveBase_CM &other)`: `return *this`. -/
def copy_assign (s : State) (_this _other : Pointer) : State :=
  s

/-- Move constructor `CsIntrusiveBase_CM(CsIntrusiveBase_CM &&other)` of the object at
`this`: `m_count = 0`. -/
def move_ctor (s : State) (this _other : Pointer) : State :=
  s.set_count this 0

/-- Move assignment `operator=(CsIntrusiveBase_CM &&other)`: `return *this`. -/
def move_assign (s : State) (_this _other : Pointer) : State :=
  s

end CsIntrusiveBase_CM

namespace CsNodeManager

/-- Library copy constructor of `std::vector` on handles: every element is copy-constructed,
first to last; `CsIntrusivePointer(const CsIntrusivePointer &other)` takes the address and
raises the count when the address is not null. -/
def copy_elements (s : State) : List Pointer → State
  | [] => s
  | p :: rest => copy_elements (if p ≠ nullptr then inc_ref_count s p else s) rest

/-- The defaulted copy constructor `CsNodeManager(const CsNodeManager &other) = default` of
the object at `this`: `m_children` is copy-constructed from `other.m_children`. -/
def default_copy_ctor (s : State) (this other : Pointer) : State :=
  let elements := (s.heap other).m_children
  (copy_elements s elements).set_children this elements

/-- The defaulted move constructor `CsNodeManager(CsNodeManager &&other) = default` of the
object at `this`: `m_children` takes over the elements of `other.m_children`, which is left
empty. -/
def default_move_ctor (s : State) (this other : Pointer) : State :=
  let elements := (s.heap other).m_children
  (s.set_children this elements).set_children other []

/-- The loop `std::copy(first, first + count, begin())` inside the copy assignment of
`std::vector`: `count` copy assignments `v[i] = x[i]` of handles, for `i` from the given
position on. -/
def copy_loop (del : State → Pointer → Option State) (this other : Pointer) :
    Nat → Nat → State → Option State
  | 0, _, s => some s
  | count + 1, i, s =>
    match CsIntrusivePointer.copy_assign del s (Loc.child this i) (Loc.child other i) with
    | none => none
    | some s => copy_loop del this other count (i + 1) s

/-- Library `std::vector::operator=(const vector &)` (libstdc++) from the child vector of
`other` to that of `this`, whose capacity is `capacity`. Nothing happens when both are the
same vector. When the source is longer than the capacity, its elements are copy-constructed
into new storage and then the old elements are destroyed. Otherwise the common positions are
copy-assigned, and then either the surplus old elements are destroyed or the missing elements
are copy-constructed behind the old ones. -/
def vector_copy_assign (del : State → Pointer → Option State) (capacity : Nat) (s : State)
    (this other : Pointer) : Option State :=
  if this = other then
    some s
  else
    let xlen := (s.heap other).m_children.length
    if xlen > capacity then
      let elements := (s.heap other).m_children
      let s := copy_elements s elements
      match destroy_elements del s (s.heap this).m_children with
      | none => none
      | some s => some (s.set_children this elements)
    else if (s.heap this).m_children.length ≥ xlen then
      match copy_loop del this other xlen 0 s with
      | none => none
      | some s =>
        match destroy_elements del s ((s.heap this).m_children.drop xlen) with
        | none => none
        | some s => some (s.set_children this ((s.heap this).m_children.take xlen))
    else
      match copy_loop del this other (s.heap this).m_children.length 0 s with
      | none => none
      | some s =>
        let missing := (s.heap other).m_children.drop (s.heap this).m_children.length
        let s := copy_elements s missing
        some (s.set_children this ((s.heap this).m_children ++ missing))

/-- Library `std::vector::operator=(vector &&)` (libstdc++, `_M_move_assign`) from the child
vector of `other` to that of `this`: the data of `this` and `other` are swapped, then the data
of `other` and of an empty local vector `tmp`, and `tmp`, which now holds the old elements of
`this`, is destroyed when it goes out of scope. -/
def vector_move_assign (del : State → Pointer → Option State) (s : State)
    (this other : Pointer) : Option State :=
  let tmp := (s.heap this).m_children
  let s := s.set_children this (s.heap other).m_children
  let s := s.set_children other []
  destroy_elements del s tmp

/-- The defaulted copy assignment `CsNodeManager &operator=(const CsNodeManager &other) =
default`: `m_children = other.m_children`. -/
def default_copy_assign (del : State → Pointer → Option State) (capacity : Nat) (s : State)
    (this other : Pointer) : Option State :=
  vector_copy_assign del capacity s this other

/-- The defaulted move assignment `CsNodeManager &operator=(CsNodeManager &&other) =
default`: `m_children = std::move(other.m_children)`. -/
def default_move_assign (del : State → Pointer → Option State) (s : State)
    (this other : Pointer) : Option State :=
  vector_move_assign del s this other

end CsNodeManager

/-! ## Payloads on the counter base `CsIntrusiveBase_CM` -/

namespace Payload

/-- The implicit copy constructor of a payload class `T` that derives from
`CsIntrusiveBase_CM`, and from `CsNodeManager<T>` if it is a node manager, constructing the
object at `this`: the copy constructors of the bases run, that of the node manager and that
of the counter base. For a payload that is no node manager the first does nothing, since
such an object has no children. -/
def copy_ctor (s : State) (this other : Pointer) : State :=
  CsIntrusiveBase_CM.copy_ctor (CsNodeManager.default_copy_ctor s this other) this other

/-- The implicit move constructor of a payload class `T` that derives from
`CsIntrusiveBase_CM`, and from `CsNodeManager<T>` if it is a node manager, constructing the
object at `this`. -/
def move_ctor (s : State) (this other : Pointer) : State :=
  CsIntrusiveBase_CM.move_ctor (CsNodeManager.default_move_ctor s this other) this other

/-- The implicit copy assignment `*this = other` of a payload class `T` that derives from
`CsIntrusiveBase_CM`, and from `CsNodeManager<T>` if it is a node manager: the copy
assignments of the bases run. `capacity` is the capacity of the child vector of `this`. -/
def copy_assign (del : State → Pointer → Option State) (capacity : Nat) (s : State)
    (this other : Pointer) : Option State :=
  match CsNodeManager.default_copy_assign del capacity s this other with
  | none => none
  | some s => some (CsIntrusiveBase_CM.copy_assign s this other)

/-- The implicit move assignment `*this = std::move(other)` of a payload class `T` that
derives from `CsIntrusiveBase_CM`, and from `CsNodeManager<T>` if it is a node manager: the
move assignments of the bases run. -/
def move_assign (del : State → Pointer → Option State) (s : State) (this other : Pointer) :
    Option State :=
  match CsNodeManager.default_move_assign del s this other with
  | none => none
  | some s => some (CsIntrusiveBase_CM.move_assign s this other)

end Payload

/-- Two handle variables, each holding the only handle to an object of its own, created by
`make_intrusive`: variable 0 holds the object at 10, variable 1 the object at 11. -/
def two_fresh : State :=
  make_intrusive (make_intrusive State.init (Loc.var 0) 10) (Loc.var 1) 11

/-! ## `find_child`, and the finders with a predicate -/

namespace CsNodeManager

/-- The internal visitor of `find_child<U>()`, which captures the local handle `retval` by
reference: its by-value parameter `item` is copy-constructed from the handle it is called
on, `retval = item` is a copy assignment, and the parameter is destroyed on return. -/
def find_child_lambda (del : State → Pointer → Option State) (retval : Loc) (_acc : Unit)
    (s : State) (arg : Loc) : Option (VisitStatus × Unit × State) :=
  let s := CsIntrusivePointer.copy_ctor s (Loc.tmp 2) arg
  match CsIntrusivePointer.copy_assign del s retval (Loc.tmp 2) with
  | none => none
  | some s =>
    match CsIntrusivePointer.dtor del s (s.m_ptr (Loc.tmp 2)) with
    | none => none
    | some s => some (VisitStatus.Finished, (), s)

/-- Method `find_child<U>()`: the local handle `retval`, initialised with `nullptr`, is
constructed in the place that receives the returned handle. -/
def find_child (same : Bool) (isU : Pointer → Bool) (del : State → Pointer → Option State)
    (fuel : Nat) (s : State) (this : Pointer) (retval : Loc) : Option State :=
  let s := CsIntrusivePointer.ctor_null s retval
  match visit same isU (find_child_lambda del retval) del fuel VisitChildren.Recursive s this
      () with
  | none => none
  | some (_, _, s) => some s

/-- The internal visitor of `find_child<U>(lambda)`: the predicate `lambda`, which has its
own captures, is called on the by-value parameter `item`, and `retval = item` happens only
when it returns `true`. -/
def find_child_pred_lambda {β : Type} (lambda : β → State → Loc → Option (Bool × β × State))
    (del : State → Pointer → Option State) (retval : Loc) (acc : β)
    (s : State) (arg : Loc) : Option (VisitStatus × β × State) :=
  let s := CsIntrusivePointer.copy_ctor s (Loc.tmp 2) arg
  match lambda acc s (Loc.tmp 2) with
  | none => none
  | some (true, acc, s) =>
    match CsIntrusivePointer.copy_assign del s retval (Loc.tmp 2) with
    | none => none
    | some s =>
      match CsIntrusivePointer.dtor del s (s.m_ptr (Loc.tmp 2)) with
      | none => none
      | some s => some (VisitStatus.Finished, acc, s)
  | some (false, acc, s) =>
    match CsIntrusivePointer.dtor del s (s.m_ptr (Loc.tmp 2)) with
    | none => none
    | some s => some (VisitStatus.VisitMore, acc, s)

/-- Method `find_child<U>(lambda)`: the final captures of the predicate and the new state;
the returned handle is in the place `retval`. -/
def find_child_pred {β : Type} (same : Bool) (isU : Pointer → Bool)
    (lambda : β → State → Loc → Option (Bool × β × State))
    (del : State → Pointer → Option State) (fuel : Nat) (s : State) (this : Pointer)
    (retval : Loc) (acc : β) : Option (β × State) :=
  let s := CsIntrusivePointer.ctor_null s retval
  match visit same isU (find_child_pred_lambda lambda del retval) del fuel
      VisitChildren.Recursive s this acc with
  | none => none
  | some (_, acc, s) => some (acc, s)

/-- The internal visitor of `find_children<U>(lambda)`: the predicate `lambda` is called on
the by-value parameter `item`, and `retval.push_back(item)` happens only when it returns
`true`. The captures are the addresses held by the local result vector and the captures of
the predicate. -/
def find_children_pred_lambda {β : Type}
    (lambda : β → State → Loc → Option (Bool × β × State))
    (del : State → Pointer → Option State) (acc : List Pointer × β)
    (s : State) (arg : Loc) : Option (VisitStatus × (List Pointer × β) × State) :=
  let s := CsIntrusivePointer.copy_ctor s (Loc.tmp 2) arg
  match lambda acc.2 s (Loc.tmp 2) with
  | none => none
  | some (true, b, s) =>
    let element := s.m_ptr (Loc.tmp 2)
    let s := if element ≠ nullptr then CsIntrusiveDefaultPolicy.inc_ref_count s element else s
    match CsIntrusivePointer.dtor del s (s.m_ptr (Loc.tmp 2)) with
    | none => none
    | some s => some (VisitStatus.VisitMore, (acc.1 ++ [element], b), s)
  | some (false, b, s) =>
    match CsIntrusivePointer.dtor del s (s.m_ptr (Loc.tmp 2)) with
    | none => none
    | some s => some (VisitStatus.VisitMore, (acc.1, b), s)

/-- Method `find_children<U>(lambda)`: the addresses held by the returned handles, the final
captures of the predicate, and the new state. -/
def find_children_pred {β : Type} (same : Bool) (isU : Pointer → Bool)
    (lambda : β → State → Loc → Option (Bool × β × State))
    (del : State → Pointer → Option State) (fuel : Nat) (s : State) (this : Pointer)
    (acc : β) : Option (List Pointer × β × State) :=
  match visit same isU (find_children_pred_lambda lambda del) del fuel
      VisitChildren.Recursive s this ([], acc) with
  | none => none
  | some (_, (retval, acc), s) => some (retval, acc, s)

end CsNodeManager

/-- A predicate that takes the handle by reference and touches neither the handle nor the
heap: it sees the address and its own captures only. -/
def pred_by_reference {β : Type} (f : β → Pointer → Bool × β) (b : β) (s : State) (h : Loc) :
    Option (Bool × β × State) :=
  some ((f b (s.m_ptr h)).1, (f b (s.m_ptr h)).2, s)

/-- A predicate written as `[] (auto item) { ... }`, which takes the handle by value: the
parameter is copy-constructed (in the temporary place 3) from the handle the predicate is
called on, the body sees the address and the captures, and the parameter is destroyed on
return. -/
def pred_by_value {β : Type} (f : β → Pointer → Bool × β)
    (del : State → Pointer → Option State) (b : β) (s : State) (h : Loc) :
    Option (Bool × β × State) :=
  let s := CsIntrusivePointer.copy_ctor s (Loc.tmp 3) h
  match CsIntrusivePointer.dtor del s (s.m_ptr (Loc.tmp 3)) with
  | none => none
  | some s' => some ((f b (s.m_ptr (Loc.tmp 3))).1, (f b (s.m_ptr (Loc.tmp 3))).2, s')

/-- The predicate `lambda` only observes: called on a non-empty handle whose target has a
count between 1 and the largest `std::size_t` minus 1, it returns what `f` computes from its
captures and the address, and leaves the heap, the handle variables, the deletion log and the
temporaries of the enclosing calls (places 0 to 2) as they are. -/
def Observes {β : Type} (lambda : β → State → Loc → Option (Bool × β × State))
    (f : β → Pointer → Bool × β) : Prop :=
  ∀ b t h, t.m_ptr h ≠ nullptr → 0 < (t.heap (t.m_ptr h)).m_count →
    (t.heap (t.m_ptr h)).m_count + 1 < SIZE_MODULUS →
    ∃ t', lambda b t h = some ((f b (t.m_ptr h)).1, (f b (t.m_ptr h)).2, t') ∧
      t'.heap = t.heap ∧ t'.handles = t.handles ∧ t'.deleted = t.deleted ∧
      ∀ j, j ≤ 2 → t'.temps j = t.temps j

/-- A predicate with no captures that tests the address with `k`. -/
def stateless (k : Pointer → Bool) (b : Unit) (p : Pointer) : Bool × Unit :=
  (k p, b)

/-- A predicate that tests the address with `k` and records every call in its captures. -/
def recording (k : Pointer → Bool) (log : List Pointer) (p : Pointer) :
    Bool × List Pointer :=
  (k p, log ++ [p])

/-- The visitor that finishes at the first node for which the predicate `f` holds. -/
def finding {β : Type} (f : β → Pointer → Bool × β) (b : β) (p : Pointer) : VisitStatus × β :=
  (if (f b p).1 = true then VisitStatus.Finished else VisitStatus.VisitMore, (f b p).2)

/-- The visitor that appends to its result every node for which the predicate `f` holds. -/
def collecting {β : Type} (f : β → Pointer → Bool × β) (acc : List Pointer × β)
    (p : Pointer) : List Pointer × β :=
  (if (f acc.2 p).1 = true then acc.1 ++ [p] else acc.1, (f acc.2 p).2)

/-- The node at which a walk finishes, or null when it does not finish. -/
def stop_at {α : Type} (g : α → Pointer → VisitStatus × α) : List Pointer → α → Pointer
  | [], _ => nullptr
  | p :: rest, acc =>
    match g acc p with
    | (VisitStatus.Finished, _) => p
    | (VisitStatus.VisitMore, acc) => stop_at g rest acc

/-- State `b` is state `a` after a finder has stored a handle to `p` in the handle variable
`r`: the count of `p` is one higher, and nothing else has changed. -/
structure Found (r : Nat) (p : Pointer) (a b : State) : Prop where
  result : b.m_ptr (Loc.var r) = p
  handles : ∀ j, j ≠ r → b.handles j = a.handles j
  children : ∀ q, (b.heap q).m_children = (a.heap q).m_children
  count : ∀ q, (b.heap q).m_count =
    if q = p then (a.heap p).m_count + 1 else (a.heap q).m_count
  deleted : b.deleted = a.deleted

/-! ## Further scenarios, converting move assignment, positions of `move_child` -/

/-- Converting move assignment `operator=(CsIntrusivePointer<U> &&p)`. -/
def CsIntrusivePointer.converting_move_assign (del : State → Pointer → Option State)
    (s : State) (this p : Loc) : Option State :=
  if s.m_ptr this = s.m_ptr p then
    some s
  else
    let r :=
      if s.m_ptr this ≠ nullptr then
        dec_ref_count del s (s.m_ptr this) CsIntrusiveAction.Normal
      else
        some s
    match r with
    | none => none
    | some s => some ((s.set_m_ptr this (s.m_ptr p)).set_m_ptr p nullptr)

namespace CsIntrusiveBase_CM

/-- Method `cs_inc_ref_count` of `CsIntrusiveBase_CM`: `m_count.fetch_add(1)`. -/
def cs_inc_ref_count (s : State) (this : Pointer) : State :=
  s.set_count this (((s.heap this).m_count + 1) % SIZE_MODULUS)

/-- Method `cs_dec_ref_count` of `CsIntrusiveBase_CM`: `m_count.fetch_sub(1)`, then
`delete this` when the action is not `NoDelete` and the old count was 1. -/
def cs_dec_ref_count (del : State → Pointer → Option State) (s : State) (this : Pointer)
    (action : CsIntrusiveAction) : Option State :=
  let old_count := (s.heap this).m_count
  let s := s.set_count this ((old_count + (SIZE_MODULUS - 1)) % SIZE_MODULUS)
  if action ≠ CsIntrusiveAction.NoDelete then
    if old_count = 1 then del s this else some s
  else
    some s

/-- Method `cs_get_ref_count` of `CsIntrusiveBase_CM`: `m_count.load()`. -/
def cs_get_ref_count (s : State) (this : Pointer) : Nat :=
  (s.heap this).m_count

end CsIntrusiveBase_CM

/-- The iterator positions that `move_child(source, dest)` computes on a vector of `n`
entries, as offsets from `begin()` in the first branch (`begin() + source`,
`begin() + source + 1`, `begin() + dest + 1`) and as offsets from `rbegin()` in the second
(`rend() - source - 1`, `rend() - source`, `rend() - dest`, where `rend()` is at offset `n`);
none when `source == dest`. Offsets are integers, so a position before the first entry is
negative. -/
def move_child_positions (n source dest : Nat) : List Int :=
  if source = dest then
    []
  else if source < dest then
    [(source : Int), (source : Int) + 1, (dest : Int) + 1]
  else
    [(n : Int) - source - 1, (n : Int) - source, (n : Int) - dest]

/-- The test `duplicate_child`: a handle to a fresh object at 11 is added twice to the
manager at 10. -/
def duplicate_child : Option State :=
  (add_child (delete_this 0) (make_intrusive State.init (Loc.var 0) 11) 10 (Loc.var 0)).bind
    (fun s => add_child (delete_this 0) s 10 (Loc.var 0))

/-! ## Finite trees and paths -/

/-- The object at the second address is reachable from the object at the first one through
one or more child links. -/
inductive Reach (s : State) : Pointer → Pointer → Prop where
  | child (x c : Pointer) : c ∈ (s.heap x).m_children → Reach s x c
  | step (x c d : Pointer) : c ∈ (s.heap x).m_children → Reach s c d → Reach s x d

/-- The objects below the manager `this` form a finite tree: the finite set `F` holds every
child entry of `this` and of its own members, no entry is empty, and no member is reachable
from itself. -/
structure FiniteTree (s : State) (this : Pointer) (F : List Pointer) : Prop where
  root : ∀ c ∈ (s.heap this).m_children, c ∈ F
  closed : ∀ x ∈ F, ∀ c ∈ (s.heap x).m_children, c ∈ F
  nonnull : ∀ x ∈ F, x ≠ nullptr
  acyclic : ∀ x ∈ F, ¬ Reach s x x

/-- The object reached from `x` by following the child entries at the given positions. -/
def node_at (s : State) : Pointer → List Nat → Option Pointer
  | x, [] => some x
  | x, i :: rest =>
    match (s.heap x).m_children[i]? with
    | none => none
    | some c => node_at s c rest

/-- The depth-first pre-order sequence with the path of every node: `PreOrderPaths s pfx i
kids lp` lists the nodes of the forest whose roots `kids` are the entries from position `i`
on of the object reached by the path `pfx`, each with the positions followed from the
manager. -/
inductive PreOrderPaths (s : State) :
    List Nat → Nat → List Pointer → List (List Nat × Pointer) → Prop where
  | nil (pfx : List Nat) (i : Nat) : PreOrderPaths s pfx i [] []
  | cons (pfx : List Nat) (i : Nat) (c : Pointer) (rest : List Pointer)
      (sub tail : List (List Nat × Pointer)) : c ≠ nullptr →
      PreOrderPaths s (pfx ++ [i]) 0 (s.heap c).m_children sub →
      PreOrderPaths s pfx (i + 1) rest tail →
      PreOrderPaths s pfx i (c :: rest) ((pfx ++ [i], c) :: sub ++ tail)

/-- The manager at 10 stores the object at 11 twice, and 11 has the child 12. -/
def twice_stored : State :=
  State.of [(10, ⟨1, [11, 11]⟩), (11, ⟨3, [12]⟩), (12, ⟨1, []⟩)] [10, 11]

/-! ## The shared/weak pair over a control block -/

/-- Modelled from the spec: the Control Block of the shared/weak pair, "{strong_count ≥ 0,
weak_count ≥ 0, disposal_action, target_address}" (the disposal action is left out). The
headers of the shared and the weak handle are not part of the sources at hand, only their
tests are. -/
structure ControlBlock where
  strong_count : Nat
  weak_count : Nat
  target_address : Pointer
deriving DecidableEq, Repr

/-- Modelled from the spec: a Shared Handle, "a value holding an address plus a reference to
its count source"; an empty handle holds the null address and no control block. The class
`CsSharedPointer` is missing from the sources at hand. -/
structure CsSharedPointer where
  m_ptr : Pointer
  block : Option Nat
deriving DecidableEq, Repr

/-- Modelled from the spec: a Weak Handle, a non-owning view over a control block; a handle
that was constructed empty has no control block. The class `CsWeakPointer` is missing from
the sources at hand. -/
structure CsWeakPointer where
  block : Option Nat
deriving DecidableEq, Repr

/-- Modelled from the spec: the control blocks by identity and the addresses whose target has
been disposed, oldest first; stands for the heap behind the missing shared/weak headers. -/
structure Blocks where
  at_id : Nat → ControlBlock
  disposed : List Pointer

namespace CsSharedPointer

/-- Modelled from the spec: the empty Shared Handle of the missing class `CsSharedPointer`. -/
def empty : CsSharedPointer :=
  { m_ptr := nullptr, block := none }

/-- Modelled from the spec: factory `make_shared` of the missing shared-pointer header, "a
factory call that seeds the initial strong count to 1"; `id` is the new control block and
`a` the address of the new target. -/
def make_shared (w : Blocks) (id : Nat) (a : Pointer) : CsSharedPointer × Blocks :=
  ({ m_ptr := a, block := some id },
    { w with at_id := fun j => if j = id then
        { strong_count := 1, weak_count := 0, target_address := a } else w.at_id j })

/-- Modelled from the spec: `reset()` of the missing class `CsSharedPointer`, "destruct
decrements and disposes target at strong_count 0"; the handle is empty afterwards. -/
def reset (w : Blocks) (p : CsSharedPointer) : CsSharedPointer × Blocks :=
  match p.block with
  | none => (empty, w)
  | some id =>
    let n := (w.at_id id).strong_count - 1
    (empty,
      { at_id := fun j => if j = id then { w.at_id id with strong_count := n } else w.at_id j,
        disposed := if n = 0 then w.disposed ++ [(w.at_id id).target_address] else w.disposed })

/-- Modelled from the spec: `is_null()` of the missing class `CsSharedPointer`. -/
def is_null (p : CsSharedPointer) : Bool :=
  p.m_ptr == nullptr

/-- Modelled from the spec: equality of two Shared Handles of the missing class
`CsSharedPointer`, "Equality/ordering compare target addresses, not control-block
identity". -/
def operator_eq (p q : CsSharedPointer) : Bool :=
  p.m_ptr == q.m_ptr

/-- Modelled from the spec: `toWeakRef()` of the missing class `CsSharedPointer`: a Weak
Handle on the control block of the Shared Handle, which counts one more observer. -/
def toWeakRef (w : Blocks) (p : CsSharedPointer) : CsWeakPointer × Blocks :=
  match p.block with
  | none => ({ block := none }, w)
  | some id =>
    ({ block := some id },
      { w with at_id := fun j => if j = id then
          { w.at_id id with weak_count := (w.at_id id).weak_count + 1 } else w.at_id j })

end CsSharedPointer

namespace CsWeakPointer

/-- Modelled from the spec: `lock()` of the missing class `CsWeakPointer`, which "succeeds iff
strong_count > 0 at the moment of the attempt, otherwise yields an empty Shared Handle". -/
def lock (w : Blocks) (p : CsWeakPointer) : CsSharedPointer × Blocks :=
  match p.block with
  | none => (CsSharedPointer.empty, w)
  | some id =>
    if 0 < (w.at_id id).strong_count then
      ({ m_ptr := (w.at_id id).target_address, block := some id },
        { w with at_id := fun j => if j = id then
            { w.at_id id with strong_count := (w.at_id id).strong_count + 1 } else w.at_id j })
    else
      (CsSharedPointer.empty, w)

/-- Modelled from the spec: `toStrongRef()` of the missing class `CsWeakPointer`, the other
name of `lock()`. -/
def toStrongRef (w : Blocks) (p : CsWeakPointer) : CsSharedPointer × Blocks :=
  lock w p

/-- Modelled from the spec: `is_null()` of the missing class `CsWeakPointer`: the handle
observes no live object, because it was constructed empty or because it expired. -/
def is_null (w : Blocks) (p : CsWeakPointer) : Bool :=
  match p.block with
  | none => true
  | some id => (w.at_id id).strong_count == 0

/-- Modelled from the spec: equality between a Weak Handle and a Shared Handle of the missing
shared/weak headers, "do they currently observe the same live object": an expired Weak Handle
is unequal to every Shared Handle, a Weak Handle that was constructed empty equals an empty
Shared Handle. -/
def operator_eq (w : Blocks) (p : CsWeakPointer) (q : CsSharedPointer) : Bool :=
  match p.block with
  | none => q.m_ptr == nullptr
  | some id =>
    if 0 < (w.at_id id).strong_count then (w.at_id id).target_address == q.m_ptr else false

/-- Modelled from the spec: equality between a Shared Handle and a Weak Handle of the missing
shared/weak headers, the same comparison with the operands exchanged. -/
def shared_operator_eq (w : Blocks) (q : CsSharedPointer) (p : CsWeakPointer) : Bool :=
  operator_eq w p q

end CsWeakPointer

/-! ## The ledger of handles -/

/-- Number of child entries, over the objects listed in `U`, that hold the address `q`. -/
def child_entries (s : State) (U : List Pointer) (q : Pointer) : Nat :=
  (U.map (fun x => (s.heap x).m_children.count q)).sum

/-- The counters agree with the handles: the count of every object is the number of child
entries (of the objects in `U`) that hold its address, plus the number of entries of the
pending list `P` (handles that are about to be destroyed), plus `ext`, the number of other
handles to it. Objects outside `U` that nobody else holds have no children, and a deleted
object has count 0 and no children. -/
structure Balanced (U : List Pointer) (ext : Pointer → Nat) (P : List Pointer) (s : State) :
    Prop where
  count : ∀ q, q ≠ nullptr →
    (s.heap q).m_count = child_entries s U q + P.count q + ext q
  small : ∀ q, (s.heap q).m_count < SIZE_MODULUS
  outside : ∀ x, x ∉ U → x ≠ nullptr → (s.heap x).m_children = [] ∨ 0 < ext x
  nodup : U.Nodup
  deleted : ∀ x ∈ s.deleted, x ≠ nullptr ∧ (s.heap x).m_count = 0 ∧ (s.heap x).m_children = []
  deleted_nodup : s.deleted.Nodup

/-- What a cascade of destructors changes: no handle variable and no temporary, child vectors
are kept or, for objects that are deleted, emptied, the log of deletions grows by objects
that had a count above 0, and no count grows. -/
structure Cascade (s s' : State) : Prop where
  handles : s'.handles = s.handles
  temps : s'.temps = s.temps
  children : ∀ x, (s'.heap x).m_children = (s.heap x).m_children ∨
    ((s'.heap x).m_children = [] ∧ x ∈ s'.deleted ∧ x ∉ s.deleted)
  deleted : ∀ x ∈ s.deleted, x ∈ s'.deleted
  count_le : ∀ x, (s'.heap x).m_count ≤ (s.heap x).m_count
  deleted_new : ∀ x ∈ s'.deleted, x ∈ s.deleted ∨ 0 < (s.heap x).m_count

/-- Number of the handle variables listed in `V` that hold the address `q`. -/
def var_handles (s : State) (V : List Nat) (q : Pointer) : Nat :=
  (V.map s.handles).count q

/-- The count invariant for the objects `U` created so far, the live handle variables `V`
and the addresses `E` held by further live handles (temporaries, elements of returned
vectors): the count of every object is the number of child entries, handle variables and
further handles that hold its address. An address that no object was created at holds count
0 and no children, and is not deleted. -/
structure Counted (U : List Pointer) (V : List Nat) (E : List Pointer) (s : State) :
    Prop where
  balanced : Balanced U (fun q => var_handles s V q + E.count q) [] s
  vars : V.Nodup
  fresh : ∀ x, x ∉ U → (s.heap x).m_count = 0 ∧ (s.heap x).m_children = []
  deleted_mem : ∀ x ∈ s.deleted, x ∈ U
  null : nullptr ∉ U

/-- Variable 0 holds the only handle to the parent at address 10, whose child sequence holds
the only handle to the object at address 11. -/
def parent_owns_child : State :=
  State.of [(10, ⟨1, [11]⟩), (11, ⟨1, []⟩)] [10]

/-! ## Configurations, operations and reachable states -/

/-- A configuration of a program: the objects `U` created so far by `make_intrusive`, the
handle variables `V` that are alive, the addresses `E` held by the handles of the vector that
`find_children` returned, and the state. -/
structure Config where
  U : List Pointer
  V : List Nat
  E : List Pointer
  s : State

namespace Config

/-- The raw address `p` may be given to a handle: it is null, or the address of a created
object that is not deleted and whose count is below the largest `std::size_t`. -/
def usable (c : Config) (p : Pointer) : Prop :=
  p = nullptr ∨ (p ∈ c.U ∧ p ∉ c.s.deleted ∧ (c.s.heap p).m_count + 1 < SIZE_MODULUS)

/-- The count of the object at `p` is below the largest `std::size_t`. -/
def room (c : Config) (p : Pointer) : Prop :=
  (c.s.heap p).m_count + 1 < SIZE_MODULUS

/-- The object at `this` has been created and is not deleted. -/
def live (c : Config) (this : Pointer) : Prop :=
  this ∈ c.U ∧ this ∉ c.s.deleted

/-- A live handle variable holds the object at `this`. -/
def held (c : Config) (this : Pointer) : Prop :=
  this ≠ nullptr ∧ ∃ k ∈ c.V, c.s.handles k = this

/-- The descendants of the manager at `this` form a finite tree without empty entries, and
their counts stay 3 below the largest `std::size_t` when raised by the number of their
occurrences. -/
def tree (c : Config) (this : Pointer) : Prop :=
  ∃ l, PreOrder c.s (c.s.heap this).m_children l ∧
    ∀ q ∈ l, (c.s.heap q).m_count + l.count q + 3 < SIZE_MODULUS

end Config

/-- The operations on handles and node managers. Handles are the handle variables `i`, `j`,
`r`; `p` is a raw address and `this` the address of a node manager. -/
inductive Op where
  | make_intrusive (i : Nat) (a : Pointer)
  | ctor_null (i : Nat)
  | ctor_raw (i : Nat) (p : Pointer)
  | copy_ctor (i j : Nat)
  | converting_copy_ctor (i j : Nat)
  | move_ctor (i j : Nat)
  | dtor (i : Nat)
  | assign_raw (i : Nat) (p : Pointer)
  | copy_assign (i j : Nat)
  | move_assign (i j : Nat)
  | converting_copy_assign (i j : Nat)
  | converting_move_assign (i j : Nat)
  | reset (i : Nat)
  | handle_clear (i : Nat)
  | reset_raw (i : Nat) (p : Pointer)
  | swap (i j : Nat)
  | const_pointer_cast (i j : Nat)
  | static_pointer_cast (i j : Nat)
  | dynamic_pointer_cast (isU : Pointer → Bool) (i j : Nat)
  | release_if (i : Nat)
  | add_child_raw (this p : Pointer)
  | add_child (this : Pointer) (j : Nat)
  | remove_child_raw (this p : Pointer)
  | remove_child (this : Pointer) (j : Nat)
  | move_child (this : Pointer) (source dest : Nat)
  | clear (this : Pointer)
  | find_child (same : Bool) (isU : Pointer → Bool) (this : Pointer) (r : Nat)
  | find_children (same : Bool) (isU : Pointer → Bool) (this : Pointer)
  | destroy_found

namespace Op

/-- The configuration after an operation, run with the given fuel for the cascades of
`delete this` and the given depth (fuel) for the traversals. A constructor brings a new
handle variable to life, the destructor ends one, `find_children` adds the returned handles
to those of the configuration, and `destroy_found` is the destructor of the vector that holds
them. -/
def run (fuel depth : Nat) (c : Config) : Op → Option Config
  | make_intrusive i a =>
    some { c with U := a :: c.U, V := i :: c.V, s := CsPointer.make_intrusive c.s (Loc.var i) a }
  | ctor_null i => some { c with V := i :: c.V, s := CsIntrusivePointer.ctor_null c.s (Loc.var i) }
  | ctor_raw i p =>
    some { c with V := i :: c.V, s := CsIntrusivePointer.ctor_raw c.s (Loc.var i) p }
  | copy_ctor i j =>
    some { c with V := i :: c.V, s := CsIntrusivePointer.copy_ctor c.s (Loc.var i) (Loc.var j) }
  | converting_copy_ctor i j =>
    some { c with V := i :: c.V,
                  s := CsIntrusivePointer.converting_copy_ctor c.s (Loc.var i) (Loc.var j) }
  | move_ctor i j =>
    some { c with V := i :: c.V, s := CsIntrusivePointer.move_ctor c.s (Loc.var i) (Loc.var j) }
  | dtor i =>
    (CsIntrusivePointer.dtor (delete_this fuel) c.s (c.s.m_ptr (Loc.var i))).map
      (fun s => { c with V := c.V.erase i, s := s })
  | assign_raw i p =>
    (CsIntrusivePointer.assign_raw (delete_this fuel) c.s (Loc.var i) p).map
      (fun s => { c with s := s })
  | copy_assign i j =>
    (CsIntrusivePointer.copy_assign (delete_this fuel) c.s (Loc.var i) (Loc.var j)).map
      (fun s => { c with s := s })
  | move_assign i j =>
    (CsIntrusivePointer.move_assign (delete_this fuel) c.s (Loc.var i) (Loc.var j)).map
      (fun s => { c with s := s })
  | converting_copy_assign i j =>
    (CsIntrusivePointer.converting_copy_assign (delete_this fuel) c.s (Loc.var i)
      (Loc.var j)).map (fun s => { c with s := s })
  | converting_move_assign i j =>
    (CsIntrusivePointer.converting_move_assign (delete_this fuel) c.s (Loc.var i)
      (Loc.var j)).map (fun s => { c with s := s })
  | reset i =>
    (CsIntrusivePointer.reset (delete_this fuel) c.s (Loc.var i)).map
      (fun s => { c with s := s })
  | handle_clear i =>
    (CsIntrusivePointer.clear (delete_this fuel) c.s (Loc.var i)).map
      (fun s => { c with s := s })
  | reset_raw i p =>
    (CsIntrusivePointer.reset_raw (delete_this fuel) c.s (Loc.var i) p).map
      (fun s => { c with s := s })
  | swap i j => some { c with s := CsIntrusivePointer.swap c.s (Loc.var i) (Loc.var j) }
  | const_pointer_cast i j =>
    some { c with V := i :: c.V, s := CsPointer.const_pointer_cast c.s (Loc.var i) (Loc.var j) }
  | static_pointer_cast i j =>
    some { c with V := i :: c.V, s := CsPointer.static_pointer_cast c.s (Loc.var i) (Loc.var j) }
  | dynamic_pointer_cast isU i j =>
    some { c with V := i :: c.V,
                  s := CsPointer.dynamic_pointer_cast isU c.s (Loc.var i) (Loc.var j) }
  | release_if i =>
    (CsIntrusivePointer.release_if (delete_this fuel) c.s (Loc.var i)).map
      (fun r => { c with s := r.2 })
  | add_child_raw this p =>
    (CsNodeManager.add_child_raw (delete_this fuel) c.s this p).map (fun s => { c with s := s })
  | add_child this j =>
    (CsNodeManager.add_child (delete_this fuel) c.s this (Loc.var j)).map
      (fun s => { c with s := s })
  | remove_child_raw this p =>
    (CsNodeManager.remove_child_raw (delete_this fuel) c.s this p).map
      (fun r => { c with s := r.2 })
  | remove_child this j =>
    (CsNodeManager.remove_child (delete_this fuel) c.s this (Loc.var j)).map
      (fun r => { c with s := r.2 })
  | move_child this source dest =>
    some { c with s := CsNodeManager.move_child c.s this source dest }
  | clear this =>
    (CsNodeManager.clear (delete_this fuel) c.s this).map (fun s => { c with s := s })
  | find_child same isU this r =>
    (CsNodeManager.find_child same isU (delete_this fuel) depth c.s this (Loc.var r)).map
      (fun s => { c with V := r :: c.V, s := s })
  | find_children same isU this =>
    (CsNodeManager.find_children same isU (delete_this fuel) depth c.s this).map
      (fun r => { c with E := c.E ++ r.1, s := r.2 })
  | destroy_found =>
    (CsNodeManager.destroy_elements (delete_this fuel) c.s c.E).map
      (fun s => { c with E := [], s := s })

/-- What the caller of an operation has to see to: constructed variables are new, used ones
are alive, raw addresses are null or point to objects that are not deleted, counts that are
raised have room, a node manager exists while its method runs (for `remove_child` it is held
by a live handle variable), positions of `move_child` are inside the sequence, and the
finders walk a finite tree. -/
def pre (c : Config) : Op → Prop
  | make_intrusive i a => i ∉ c.V ∧ a ∉ c.U ∧ a ≠ nullptr
  | ctor_null i => i ∉ c.V
  | ctor_raw i p => i ∉ c.V ∧ c.usable p
  | copy_ctor i j => i ∉ c.V ∧ j ∈ c.V ∧ c.room (c.s.handles j)
  | converting_copy_ctor i j => i ∉ c.V ∧ j ∈ c.V ∧ c.room (c.s.handles j)
  | move_ctor i j => i ∉ c.V ∧ j ∈ c.V
  | dtor i => i ∈ c.V
  | assign_raw i p => i ∈ c.V ∧ c.usable p
  | copy_assign i j => i ∈ c.V ∧ j ∈ c.V ∧ c.room (c.s.handles j)
  | move_assign i j => i ∈ c.V ∧ j ∈ c.V
  | converting_copy_assign i j => i ∈ c.V ∧ j ∈ c.V ∧ c.room (c.s.handles j)
  | converting_move_assign i j => i ∈ c.V ∧ j ∈ c.V
  | reset i => i ∈ c.V
  | handle_clear i => i ∈ c.V
  | reset_raw i p => i ∈ c.V ∧ c.usable p
  | swap i j => i ∈ c.V ∧ j ∈ c.V
  | const_pointer_cast i j => i ∉ c.V ∧ j ∈ c.V ∧ c.room (c.s.handles j)
  | static_pointer_cast i j => i ∉ c.V ∧ j ∈ c.V ∧ c.room (c.s.handles j)
  | dynamic_pointer_cast _ i j => i ∉ c.V ∧ j ∈ c.V ∧ c.room (c.s.handles j)
  | release_if i => i ∈ c.V
  | add_child_raw this p => c.live this ∧ c.usable p
  | add_child this j => c.live this ∧ j ∈ c.V ∧ c.room (c.s.handles j)
  | remove_child_raw this _ => c.held this
  | remove_child this j => c.held this ∧ j ∈ c.V
  | move_child this source dest =>
    c.live this ∧ source < (c.s.heap this).m_children.length ∧
      dest < (c.s.heap this).m_children.length
  | clear this => c.live this
  | find_child _ _ this r => r ∉ c.V ∧ c.tree this
  | find_children _ _ this => c.tree this
  | destroy_found => True

end Op

/-- The configurations that a program reaches from the empty one: every step is an operation
whose precondition holds and which returns the next configuration, run with more fuel than
there are objects with children and with every depth from some depth on. -/
inductive Reachable : Config → Prop where
  | init : Reachable ⟨[], [], [], State.init⟩
  | step (c c' : Config) (op : Op) (fuel depth : Nat) : Reachable c → op.pre c →
      busy c.s c.U < fuel → (∀ d, depth ≤ d → op.run fuel d c = some c') → Reachable c'

/-- The conditions that the steps of `std::vector::erase` keep: the invariant, the handle
variables, the length of the child vector of the manager, and a bound for the fuel. -/
structure Erasing (U : List Pointer) (V : List Nat) (E : List Pointer) (this : Pointer)
    (k n bound : Nat) (s : State) : Prop where
  counted : Counted U V E s
  held : s.handles k = this
  length : (s.heap this).m_children.length = n
  bounded : busy s U ≤ bound

end CsPointer

/-! ## Basic facts about the state accessors -/

namespace CsPointer

open CsIntrusivePointer CsIntrusiveDefaultPolicy CsNodeManager

theorem dec_wrap (c : Nat) (h1 : 0 < c) (h2 : c < SIZE_MODULUS) :
    (c + (SIZE_MODULUS - 1)) % SIZE_MODULUS = c - 1 := by
  have h : c + (SIZE_MODULUS - 1) = (c - 1) + SIZE_MODULUS := by omega
  rw [h, Nat.add_mod_right, Nat.mod_eq_of_lt (by omega)]

theorem inc_wrap (c : Nat) (h : c + 1 < SIZE_MODULUS) : (c + 1) % SIZE_MODULUS = c + 1 :=
  Nat.mod_eq_of_lt h

@[simp] theorem State.set_count_handles (s : State) (a : Pointer) (n : Nat) :
    (s.set_count a n).handles = s.handles := rfl

@[simp] theorem State.set_count_temps (s : State) (a : Pointer) (n : Nat) :
    (s.set_count a n).temps = s.temps := rfl

@[simp] theorem State.set_count_deleted (s : State) (a : Pointer) (n : Nat) :
    (s.set_count a n).deleted = s.deleted := rfl

@[simp] theorem State.set_count_count (s : State) (a x : Pointer) (n : Nat) :
    ((s.set_count a n).heap x).m_count = if x = a then n else (s.heap x).m_count := by
  unfold State.set_count
  by_cases h : x = a <;> simp [h]

@[simp] theorem State.set_count_children (s : State) (a x : Pointer) (n : Nat) :
    ((s.set_count a n).heap x).m_children = (s.heap x).m_children := by
  unfold State.set_count
  by_cases h : x = a <;> simp [h]

@[simp] theorem State.set_children_handles (s : State) (a : Pointer) (l : List Pointer) :
    (s.set_children a l).handles = s.handles := rfl

@[simp] theorem State.set_children_temps (s : State) (a : Pointer) (l : List Pointer) :
    (s.set_children a l).temps = s.temps := rfl

@[simp] theorem State.set_children_deleted (s : State) (a : Pointer) (l : List Pointer) :
    (s.set_children a l).deleted = s.deleted := rfl

@[simp] theorem State.set_children_count (s : State) (a x : Pointer) (l : List Pointer) :
    ((s.set_children a l).heap x).m_count = (s.heap x).m_count := by
  unfold State.set_children
  by_cases h : x = a <;> simp [h]

@[simp] theorem State.set_children_children (s : State) (a x : Pointer) (l : List Pointer) :
    ((s.set_children a l).heap x).m_children = if x = a then l else (s.heap x).m_children := by
  unfold State.set_children
  by_cases h : x = a <;> simp [h]

@[simp] theorem State.set_m_ptr_count (s : State) (l : Loc) (p x : Pointer) :
    ((s.set_m_ptr l p).heap x).m_count = (s.heap x).m_count := by
  cases l <;> simp [State.set_m_ptr]

@[simp] theorem State.set_m_ptr_deleted (s : State) (l : Loc) (p : Pointer) :
    (s.set_m_ptr l p).deleted = s.deleted := by
  cases l <;> simp [State.set_m_ptr]

@[simp] theorem State.set_m_ptr_var_heap (s : State) (i : Nat) (p : Pointer) :
    (s.set_m_ptr (Loc.var i) p).heap = s.heap := rfl

@[simp] theorem State.set_m_ptr_tmp_heap (s : State) (i : Nat) (p : Pointer) :
    (s.set_m_ptr (Loc.tmp i) p).heap = s.heap := rfl

@[simp] theorem State.m_ptr_set_var_self (s : State) (i : Nat) (p : Pointer) :
    (s.set_m_ptr (Loc.var i) p).m_ptr (Loc.var i) = p := by
  simp [State.set_m_ptr, State.m_ptr]

@[simp] theorem State.m_ptr_set_tmp_self (s : State) (i : Nat) (p : Pointer) :
    (s.set_m_ptr (Loc.tmp i) p).m_ptr (Loc.tmp i) = p := by
  simp [State.set_m_ptr, State.m_ptr]

theorem State.m_ptr_set_var_other (s : State) (i : Nat) (p : Pointer) (l : Loc)
    (h : l ≠ Loc.var i) : (s.set_m_ptr (Loc.var i) p).m_ptr l = s.m_ptr l := by
  cases l with
  | var j =>
    have : j ≠ i := fun e => h (by rw [e])
    simp [State.set_m_ptr, State.m_ptr, this]
  | tmp j => rfl
  | child node idx => rfl

theorem State.m_ptr_set_count (s : State) (a : Pointer) (n : Nat) (l : Loc) :
    (s.set_count a n).m_ptr l = s.m_ptr l := by
  cases l <;> simp [State.m_ptr]

/-- C2: copy-constructing handle variable `q` from a handle `p` leaves `p` unchanged and
gives `q` the address of `p`; when `p` is non-empty with use count `n` (below the largest
`std::size_t`), both use counts become `n + 1`; when `p` is empty, `q` is empty and no count
changes. -/
theorem copy_ctor_shares (s : State) (q : Nat) (p : Loc) (hne : p ≠ Loc.var q) :
    (copy_ctor s (Loc.var q) p).m_ptr p = s.m_ptr p ∧
    (copy_ctor s (Loc.var q) p).m_ptr (Loc.var q) = s.m_ptr p ∧
    (∀ n, s.m_ptr p ≠ nullptr → use_count s p = n → n + 1 < SIZE_MODULUS →
      use_count (copy_ctor s (Loc.var q) p) p = n + 1 ∧
      use_count (copy_ctor s (Loc.var q) p) (Loc.var q) = n + 1) ∧
    (s.m_ptr p = nullptr →
      is_null (copy_ctor s (Loc.var q) p) (Loc.var q) = true ∧
      (copy_ctor s (Loc.var q) p).heap = s.heap) := by
  by_cases hp : s.m_ptr p = nullptr
  · have e : copy_ctor s (Loc.var q) p = s.set_m_ptr (Loc.var q) nullptr := by
      simp [copy_ctor, hp]
    rw [e]
    refine ⟨?_, ?_, ?_, ?_⟩
    · rw [State.m_ptr_set_var_other _ _ _ _ hne]
    · simp [hp]
    · intro n h; exact absurd hp h
    · intro _; simp [is_null]
  · have e : copy_ctor s (Loc.var q) p =
        inc_ref_count (s.set_m_ptr (Loc.var q) (s.m_ptr p)) (s.m_ptr p) := by
      simp [copy_ctor, hp]
    have e1 : (copy_ctor s (Loc.var q) p).m_ptr p = s.m_ptr p := by
      rw [e, inc_ref_count, cs_inc_ref_count, State.m_ptr_set_count,
        State.m_ptr_set_var_other _ _ _ _ hne]
    have e2 : (copy_ctor s (Loc.var q) p).m_ptr (Loc.var q) = s.m_ptr p := by
      rw [e, inc_ref_count, cs_inc_ref_count, State.m_ptr_set_count]; simp
    refine ⟨e1, e2, ?_, fun h => absurd h hp⟩
    intro n _ hn hmax
    have hc : (s.heap (s.m_ptr p)).m_count = n := by
      simpa [use_count, hp, get_ref_count, cs_get_ref_count] using hn
    have hcount : ((copy_ctor s (Loc.var q) p).heap (s.m_ptr p)).m_count = n + 1 := by
      rw [e]; simp [inc_ref_count, cs_inc_ref_count, hc, inc_wrap n hmax]
    constructor
    · simp only [use_count, e1, get_ref_count, cs_get_ref_count, hcount, if_neg hp]
    · simp only [use_count, e2, get_ref_count, cs_get_ref_count, hcount, if_neg hp]

/-- C2 on a handle created by `make_intrusive` (use count 1) and on an empty handle. -/
theorem copy_ctor_shares_witness :
    (use_count (copy_ctor (make_intrusive State.init (Loc.var 0) 10) (Loc.var 1) (Loc.var 0))
        (Loc.var 0) = 2 ∧
      use_count (copy_ctor (make_intrusive State.init (Loc.var 0) 10) (Loc.var 1) (Loc.var 0))
        (Loc.var 1) = 2) ∧
    (is_null (copy_ctor State.init (Loc.var 1) (Loc.var 0)) (Loc.var 1) = true ∧
      (copy_ctor State.init (Loc.var 1) (Loc.var 0)).heap = State.init.heap) :=
  ⟨(copy_ctor_shares (make_intrusive State.init (Loc.var 0) 10) 1 (Loc.var 0)
      (by decide)).2.2.1 1 (by decide) (by decide) (by decide),
    (copy_ctor_shares State.init 1 (Loc.var 0) (by decide)).2.2.2 (by decide)⟩

/-- C3: move-constructing handle variable `q` from another handle variable `p` leaves `p`
empty (`is_null` true, `use_count` 0), gives `q` the address `p` held, and changes no
counter, so the use count seen through `q` is the one seen through `p` before. -/
theorem move_ctor_transfers (s : State) (p q : Nat) (hne : p ≠ q) :
    is_null (move_ctor s (Loc.var q) (Loc.var p)) (Loc.var p) = true ∧
    use_count (move_ctor s (Loc.var q) (Loc.var p)) (Loc.var p) = 0 ∧
    (move_ctor s (Loc.var q) (Loc.var p)).m_ptr (Loc.var q) = s.m_ptr (Loc.var p) ∧
    (move_ctor s (Loc.var q) (Loc.var p)).heap = s.heap ∧
    use_count (move_ctor s (Loc.var q) (Loc.var p)) (Loc.var q) = use_count s (Loc.var p) := by
  have hq : (move_ctor s (Loc.var q) (Loc.var p)).m_ptr (Loc.var q) = s.m_ptr (Loc.var p) := by
    simp [move_ctor, State.set_m_ptr, State.m_ptr, Ne.symm hne]
  have hp : (move_ctor s (Loc.var q) (Loc.var p)).m_ptr (Loc.var p) = nullptr := by
    simp [move_ctor]
  have hh : (move_ctor s (Loc.var q) (Loc.var p)).heap = s.heap := by
    simp [move_ctor]
  refine ⟨?_, ?_, hq, hh, ?_⟩
  · simp [is_null, hp]
  · simp [use_count, hp]
  · simp only [use_count, hq, get_ref_count, cs_get_ref_count, hh]

/-- C3 on the handle of a fresh object: the use count 1 moves from variable 0 to variable 1. -/
theorem move_ctor_transfers_witness :
    is_null (move_ctor (make_intrusive State.init (Loc.var 0) 10) (Loc.var 1) (Loc.var 0))
      (Loc.var 0) = true ∧
    use_count (move_ctor (make_intrusive State.init (Loc.var 0) 10) (Loc.var 1) (Loc.var 0))
      (Loc.var 0) = 0 ∧
    (move_ctor (make_intrusive State.init (Loc.var 0) 10) (Loc.var 1) (Loc.var 0)).m_ptr
      (Loc.var 1) = (make_intrusive State.init (Loc.var 0) 10).m_ptr (Loc.var 0) ∧
    (move_ctor (make_intrusive State.init (Loc.var 0) 10) (Loc.var 1) (Loc.var 0)).heap =
      (make_intrusive State.init (Loc.var 0) 10).heap ∧
    use_count (move_ctor (make_intrusive State.init (Loc.var 0) 10) (Loc.var 1) (Loc.var 0))
      (Loc.var 1) = use_count (make_intrusive State.init (Loc.var 0) 10) (Loc.var 0) :=
  move_ctor_transfers (make_intrusive State.init (Loc.var 0) 10) 0 1 (by decide)

/-- C5: when the use count of handle variable `p` is 1, `release_if()` returns the address
`p` held, leaves `p` empty, runs no `delete this` (whatever `delete this` would do), and
leaves the counter of the target at 0; a second `release_if()` returns null and changes
nothing. -/
theorem release_if_unique (del : State → Pointer → Option State) (s : State) (p : Nat)
    (h : use_count s (Loc.var p) = 1) :
    ∃ s', release_if del s (Loc.var p) = some (s.m_ptr (Loc.var p), s') ∧
      is_null s' (Loc.var p) = true ∧
      s'.deleted = s.deleted ∧
      (s'.heap (s.m_ptr (Loc.var p))).m_count = 0 ∧
      release_if del s' (Loc.var p) = some (nullptr, s') := by
  have hp : s.m_ptr (Loc.var p) ≠ nullptr := by
    intro e; simp [use_count, e] at h
  have hc : (s.heap (s.m_ptr (Loc.var p))).m_count = 1 := by
    simpa [use_count, hp, get_ref_count, cs_get_ref_count] using h
  refine ⟨(s.set_count (s.m_ptr (Loc.var p)) 0).set_m_ptr (Loc.var p) nullptr, ?_, ?_, ?_, ?_, ?_⟩
  · simp only [release_if, h, if_true, dec_ref_count, cs_dec_ref_count, hc]
    have : (1 + (SIZE_MODULUS - 1)) % SIZE_MODULUS = 0 := by decide
    simp [this]
  · simp [is_null]
  · simp
  · simp
  · simp [release_if, use_count]

/-- C5 on the handle of a fresh object, as in the test `release_a`. -/
theorem release_if_unique_witness :
    ∃ s', release_if (delete_this 0) (make_intrusive State.init (Loc.var 0) 10) (Loc.var 0) =
        some ((make_intrusive State.init (Loc.var 0) 10).m_ptr (Loc.var 0), s') ∧
      is_null s' (Loc.var 0) = true ∧
      s'.deleted = (make_intrusive State.init (Loc.var 0) 10).deleted ∧
      (s'.heap ((make_intrusive State.init (Loc.var 0) 10).m_ptr (Loc.var 0))).m_count = 0 ∧
      release_if (delete_this 0) s' (Loc.var 0) = some (nullptr, s') :=
  release_if_unique (delete_this 0) (make_intrusive State.init (Loc.var 0) 10) 0 (by decide)

/-- C6: when the use count of a handle is not 1 (the handle is empty, or its target has
another count), `release_if()` returns null and the whole state (the address held, every
counter, every object) is unchanged. -/
theorem release_if_shared (del : State → Pointer → Option State) (s : State) (p : Loc)
    (h : use_count s p ≠ 1) :
    release_if del s p = some (nullptr, s) := by
  simp [release_if, h]

/-- C6 on a handle whose target is shared by two handles, and on an empty handle. -/
theorem release_if_shared_witness :
    release_if (delete_this 0) shared_pair (Loc.var 0) = some (nullptr, shared_pair) ∧
    release_if (delete_this 0) State.init (Loc.var 0) = some (nullptr, State.init) :=
  ⟨release_if_shared (delete_this 0) shared_pair (Loc.var 0) (by decide),
    release_if_shared (delete_this 0) State.init (Loc.var 0) (by decide)⟩

/-! ## The cascade of `delete this` -/

theorem Shrinks.step_refl (G : List Pointer) (s : State) : Shrinks G s s :=
  ⟨fun _ => Or.inl rfl, fun _ _ => rfl, rfl, rfl, ⟨[], by simp⟩⟩

theorem Shrinks.step_trans {G : List Pointer} {s1 s2 s3 : State} (h1 : Shrinks G s1 s2)
    (h2 : Shrinks G s2 s3) : Shrinks G s1 s3 := by
  refine ⟨?_, ?_, ?_, ?_, ?_⟩
  · intro q
    rcases h2.children q with e | e
    · rw [e]; exact h1.children q
    · exact Or.inr e
  · intro q hq; rw [h2.outside q hq, h1.outside q hq]
  · rw [h2.handles, h1.handles]
  · rw [h2.temps, h1.temps]
  · obtain ⟨e1, he1, hm1⟩ := h1.deleted
    obtain ⟨e2, he2, hm2⟩ := h2.deleted
    refine ⟨e1 ++ e2, by rw [he2, he1, List.append_assoc], ?_⟩
    intro x hx
    rcases List.mem_append.mp hx with h | h
    · exact hm1 x h
    · exact hm2 x h

theorem Shrinks.closed {G : List Pointer} {s s' : State} (h : Shrinks G s s')
    (hc : Closed s G) : Closed s' G := by
  intro x hx c hcm hne
  rcases h.children x with e | e
  · rw [e] at hcm; exact hc x hx c hcm hne
  · rw [e] at hcm; simp at hcm

theorem Shrinks.busy_le {G : List Pointer} {s s' : State} (h : Shrinks G s s') :
    busy s' G ≤ busy s G := by
  unfold busy
  apply List.countP_mono_left
  intro x _ hx
  rcases h.children x with e | e
  · rw [e] at hx; exact hx
  · rw [e] at hx; simp at hx

theorem Shrinks.of_set_count (G : List Pointer) (s : State) (c : Pointer) (n : Nat)
    (hc : c ∈ G) : Shrinks G s (s.set_count c n) := by
  refine ⟨fun q => Or.inl (by simp), ?_, rfl, rfl, ⟨[], by simp⟩⟩
  intro q hq
  have : q ≠ c := fun e => hq (e ▸ hc)
  simp [State.set_count, this]

theorem busy_le_length (s : State) (G : List Pointer) : busy s G ≤ G.length :=
  List.countP_le_length _

theorem countP_lt_of_mem {p q : Pointer → Bool} :
    ∀ (G : List Pointer) (x : Pointer), x ∈ G → (∀ y, p y = true → q y = true) →
      q x = true → p x = false → G.countP p < G.countP q
  | [], _, hx, _, _, _ => by simp at hx
  | y :: G, x, hx, hpq, hqx, hpx => by
    by_cases hyx : y = x
    · subst hyx
      have hle : G.countP p ≤ G.countP q := List.countP_mono_left (fun z _ hz => hpq z hz)
      rw [List.countP_cons, List.countP_cons]
      simp [hqx, hpx]
      omega
    · have hx' : x ∈ G := by
        rcases List.mem_cons.mp hx with h | h
        · exact absurd h.symm hyx
        · exact h
      have ih := countP_lt_of_mem G x hx' hpq hqx hpx
      rw [List.countP_cons, List.countP_cons]
      by_cases hpy : p y = true
      · simp [hpy, hpq y hpy]; exact ih
      · by_cases hqy : q y = true
        · simp [hpy, hqy]; omega
        · simp [hpy, hqy]; exact ih

/-- Releasing the handles of a vector whose non-null entries lie in the closed set `G`
succeeds when every `delete this` on a member of `G` does. -/
theorem destroy_elements_shrinks (G : List Pointer) (del : State → Pointer → Option State)
    (bound : Nat)
    (hdel : ∀ s p, Closed s G → p ∈ G → busy s G < bound →
      ∃ s', del s p = some s' ∧ Shrinks G s s') :
    ∀ (l : List Pointer) (s : State), (∀ c ∈ l, c ≠ nullptr → c ∈ G) → Closed s G →
      busy s G < bound → ∃ s', destroy_elements del s l = some s' ∧ Shrinks G s s'
  | [], s, _, _, _ => ⟨s, rfl, Shrinks.step_refl G s⟩
  | c :: rest, s, hl, hc, hb => by
    have hrest : ∀ x ∈ rest, x ≠ nullptr → x ∈ G :=
      fun x hx => hl x (List.mem_cons_of_mem _ hx)
    have step : ∃ s1, dtor del s c = some s1 ∧ Shrinks G s s1 := by
      by_cases hnull : c = nullptr
      · exact ⟨s, by simp [dtor, hnull], Shrinks.step_refl G s⟩
      · have hcG : c ∈ G := hl c (List.mem_cons_self _ _) hnull
        have hsh := Shrinks.of_set_count G s c
          (((s.heap c).m_count + (SIZE_MODULUS - 1)) % SIZE_MODULUS) hcG
        by_cases h1 : (s.heap c).m_count = 1
        · obtain ⟨s1, e1, sh1⟩ := hdel _ c (hsh.closed hc) hcG
            (Nat.lt_of_le_of_lt hsh.busy_le hb)
          refine ⟨s1, ?_, hsh.step_trans sh1⟩
          simp only [dtor, dec_ref_count, cs_dec_ref_count, h1]
          simp only [h1] at e1
          simpa [hnull] using e1
        · exact ⟨_, by simp [dtor, dec_ref_count, cs_dec_ref_count, h1, hnull], hsh⟩
    obtain ⟨s1, e1, sh1⟩ := step
    obtain ⟨s2, e2, sh2⟩ := destroy_elements_shrinks G del bound hdel rest s1 hrest
      (sh1.closed hc) (Nat.lt_of_le_of_lt sh1.busy_le hb)
    exact ⟨s2, by simp [destroy_elements, e1, e2], sh1.step_trans sh2⟩

/-- Termination: `delete this` on a member of a closed set `G` terminates when the fuel exceeds the number
of members that still have children, and stays inside `G`. -/
theorem delete_this_shrinks (G : List Pointer) :
    ∀ (fuel : Nat) (s : State) (p : Pointer), Closed s G → p ∈ G → busy s G < fuel →
      ∃ s', delete_this fuel s p = some s' ∧ Shrinks G s s'
  | 0, _, _, _, _, hb => absurd hb (Nat.not_lt_zero _)
  | fuel + 1, s, p, hc, hp, hb => by
    let s1 : State := { s with deleted := s.deleted ++ [p] }
    have sh1 : Shrinks G s s1 :=
      ⟨fun _ => Or.inl rfl, fun _ _ => rfl, rfl, rfl, ⟨[p], rfl, by simpa using hp⟩⟩
    let s2 : State := s1.set_children p []
    have sh2 : Shrinks G s1 s2 := by
      refine ⟨?_, ?_, rfl, rfl, ⟨[], by simp [s2]⟩⟩
      · intro q
        by_cases hq : q = p
        · right; simp [s2, hq]
        · left; simp [s2, hq]
      · intro q hq
        have : q ≠ p := fun e => hq (e ▸ hp)
        simp [s2, State.set_children, this]
    have sh12 := sh1.step_trans sh2
    have hl : ∀ c ∈ (s.heap p).m_children, c ≠ nullptr → c ∈ G := hc p hp
    show ∃ s', destroy_elements (delete_this fuel) s2 (s1.heap p).m_children = some s' ∧ _
    by_cases hemp : (s.heap p).m_children = []
    · have : (s1.heap p).m_children = [] := hemp
      rw [this]
      exact ⟨s2, rfl, sh12⟩
    · have hlt : busy s2 G < busy s G := by
        unfold busy
        apply countP_lt_of_mem G p hp
        · intro y hy
          rcases sh12.children y with e | e
          · rw [e] at hy; exact hy
          · rw [e] at hy; simp at hy
        · cases h : (s.heap p).m_children with
          | nil => exact absurd h hemp
          | cons => simp
        · simp [s2]
      obtain ⟨s3, e3, sh3⟩ := destroy_elements_shrinks G (delete_this fuel) fuel
        (delete_this_shrinks G fuel) (s.heap p).m_children s2 hl (sh12.closed hc) (by omega)
      exact ⟨s3, e3, sh12.step_trans sh3⟩

theorem dec_ref_count_keep (del : State → Pointer → Option State) (s : State) (c : Pointer)
    (h : (s.heap c).m_count ≠ 1) :
    dec_ref_count del s c CsIntrusiveAction.Normal =
      some (s.set_count c (((s.heap c).m_count + (SIZE_MODULUS - 1)) % SIZE_MODULUS)) := by
  simp [dec_ref_count, cs_dec_ref_count, h]

/-- Dropping the last handle to `c` disposes `c` and releases its children; when the
non-null children lie in a closed set `F` and the fuel exceeds the size of `F` by two, the
cascade terminates and changes nothing outside `F` any more. -/
theorem dec_ref_count_dispose (F : List Pointer) (fuel : Nat) (s : State) (c : Pointer)
    (h : (s.heap c).m_count = 1) (hc : Closed s F)
    (hl : ∀ x ∈ (s.heap c).m_children, x ≠ nullptr → x ∈ F) (hf : F.length + 1 < fuel) :
    ∃ s', dec_ref_count (delete_this fuel) s c CsIntrusiveAction.Normal = some s' ∧
      Shrinks F (disposing s c) s' := by
  obtain ⟨f, rfl⟩ : ∃ f, fuel = f + 1 := ⟨fuel - 1, by omega⟩
  have hw : (1 + (SIZE_MODULUS - 1)) % SIZE_MODULUS = 0 := by decide
  have hcl : Closed (disposing s c) F := by
    intro x hx y hy hne
    by_cases hxc : x = c
    · simp [disposing, hxc] at hy
    · simp [disposing, hxc] at hy
      exact hc x hx y hy hne
  have hb : busy (disposing s c) F < f :=
    Nat.lt_of_le_of_lt (busy_le_length _ _) (by omega)
  obtain ⟨s', e, sh⟩ := destroy_elements_shrinks F (delete_this f) f
    (delete_this_shrinks F f) (s.heap c).m_children (disposing s c) hl hcl hb
  refine ⟨s', ?_, sh⟩
  simp only [dec_ref_count, cs_dec_ref_count, h, hw, delete_this, CsNodeManager.clear]
  simp only [State.set_count_children]
  simpa [disposing] using e

/-- C4 fails as stated. (1) Two distinct handles that hold the same address: the move
assignment returns at once, the source is not emptied. (2) The destination holds the only
handle to the parent of the source's target: the assignment disposes the parent, whose child
entry is released, so the count of the source's target drops from 2 to 1. -/
theorem move_assign_counterexample :
    ((move_assign (delete_this 1) shared_pair (Loc.var 1) (Loc.var 0)).map
        (fun s => (is_null s (Loc.var 0), use_count s (Loc.var 0))) = some (false, 2)) ∧
    (parent_and_child.bind (fun s =>
        (move_assign (delete_this 2) s (Loc.var 0) (Loc.var 1)).map
          (fun s' => (s.m_ptr (Loc.var 1), (s.heap 11).m_count,
            s'.m_ptr (Loc.var 0), (s'.heap 11).m_count))) = some (11, 2, 11, 1)) := by
  constructor <;> decide

/-- C4 (amended): for distinct handle variables `a` and `b` holding different addresses (`b`
non-empty or not), the move assignment `a = std::move(b)` leaves `b` empty (`is_null` true,
`use_count` 0) and `a` holds the address `b` held; the count of that target is unchanged
provided that, when the assignment disposes the former target of `a`, the target of `b` is
not among the objects reachable from it through child entries. Here `F` is a closed set
holding the non-null children of the former target, and the fuel exceeds its size by two. -/
theorem move_assign_transfers (F : List Pointer) (fuel : Nat) (s : State) (a b : Nat)
    (hab : a ≠ b) (hdiff : s.m_ptr (Loc.var a) ≠ s.m_ptr (Loc.var b))
    (hdisp : s.m_ptr (Loc.var a) ≠ nullptr → (s.heap (s.m_ptr (Loc.var a))).m_count = 1 →
      Closed s F ∧ (∀ x ∈ (s.heap (s.m_ptr (Loc.var a))).m_children, x ≠ nullptr → x ∈ F) ∧
      F.length + 1 < fuel) :
    ∃ s', move_assign (delete_this fuel) s (Loc.var a) (Loc.var b) = some s' ∧
      is_null s' (Loc.var b) = true ∧
      use_count s' (Loc.var b) = 0 ∧
      s'.m_ptr (Loc.var a) = s.m_ptr (Loc.var b) ∧
      ((s.m_ptr (Loc.var a) ≠ nullptr → (s.heap (s.m_ptr (Loc.var a))).m_count = 1 →
          s.m_ptr (Loc.var b) ∉ F) →
        (s'.heap (s.m_ptr (Loc.var b))).m_count = (s.heap (s.m_ptr (Loc.var b))).m_count) := by
  -- the state after the old target of `a` has been released
  have key : ∃ s1, (if s.m_ptr (Loc.var a) ≠ nullptr then
        match dec_ref_count (delete_this fuel) s (s.m_ptr (Loc.var a))
            CsIntrusiveAction.Normal with
        | none => none
        | some s => some (s.set_m_ptr (Loc.var a) nullptr)
      else some s) = some s1 ∧ s1.m_ptr (Loc.var b) = s.m_ptr (Loc.var b) ∧
      ((s.m_ptr (Loc.var a) ≠ nullptr → (s.heap (s.m_ptr (Loc.var a))).m_count = 1 →
          s.m_ptr (Loc.var b) ∉ F) →
        (s1.heap (s.m_ptr (Loc.var b))).m_count = (s.heap (s.m_ptr (Loc.var b))).m_count) := by
    by_cases ha : s.m_ptr (Loc.var a) = nullptr
    · exact ⟨s, by simp [ha], rfl, fun _ => rfl⟩
    · by_cases h1 : (s.heap (s.m_ptr (Loc.var a))).m_count = 1
      · obtain ⟨hc, hl, hf⟩ := hdisp ha h1
        obtain ⟨s1, e1, sh⟩ := dec_ref_count_dispose F fuel s _ h1 hc hl hf
        refine ⟨s1.set_m_ptr (Loc.var a) nullptr, by simp [ha, e1], ?_, ?_⟩
        · have : s1.handles = s.handles := by rw [sh.handles]; rfl
          simp [State.set_m_ptr, State.m_ptr, this, Ne.symm hab]
        · intro hbF
          rw [State.set_m_ptr_count, sh.outside _ (hbF ha h1)]
          simp [disposing, Ne.symm hdiff]
      · refine ⟨(s.set_count (s.m_ptr (Loc.var a))
            (((s.heap (s.m_ptr (Loc.var a))).m_count + (SIZE_MODULUS - 1)) %
              SIZE_MODULUS)).set_m_ptr (Loc.var a) nullptr,
          by simp [ha, dec_ref_count_keep _ _ _ h1], ?_, ?_⟩
        · simp [State.set_m_ptr, State.m_ptr, Ne.symm hab]
        · intro _
          simp [Ne.symm hdiff]
  obtain ⟨s1, e1, hb1, hc1⟩ := key
  have ha' : (swap s1 (Loc.var a) (Loc.var b)).m_ptr (Loc.var a) = s.m_ptr (Loc.var b) := by
    simp [swap, State.set_m_ptr, State.m_ptr, hab] at hb1 ⊢
    exact hb1
  have hb' : (swap s1 (Loc.var a) (Loc.var b)).m_ptr (Loc.var b) = s1.m_ptr (Loc.var a) := by
    simp [swap]
  have hnull : s1.m_ptr (Loc.var a) = nullptr := by
    by_cases ha : s.m_ptr (Loc.var a) = nullptr
    · simp [ha] at e1; rw [← e1]; exact ha
    · simp only [ne_eq, ha, not_false_eq_true, if_true] at e1
      cases hd : dec_ref_count (delete_this fuel) s (s.m_ptr (Loc.var a))
          CsIntrusiveAction.Normal with
      | none => simp [hd] at e1
      | some s2 =>
        simp [hd] at e1
        rw [← e1]; simp
  refine ⟨swap s1 (Loc.var a) (Loc.var b), ?_, ?_, ?_, ha', ?_⟩
  · simp only [move_assign, if_neg hdiff]
    rw [e1]
  · simp [is_null, hb', hnull]
  · simp [use_count, hb', hnull]
  · intro h
    simpa [swap] using hc1 h

/-- The amended C4 on a concrete state: variable 0 holds the only handle to the object at 10,
whose child at 12 is disposed with it; variable 1 holds the object at 11. -/
theorem move_assign_transfers_witness :
    ∃ s', move_assign (delete_this 3)
        (State.of [(10, ⟨1, [12]⟩), (11, ⟨1, []⟩), (12, ⟨1, []⟩)] [10, 11])
        (Loc.var 0) (Loc.var 1) = some s' ∧
      is_null s' (Loc.var 1) = true ∧
      use_count s' (Loc.var 1) = 0 ∧
      s'.m_ptr (Loc.var 0) = 11 ∧
      (s'.heap 11).m_count = 1 := by
  obtain ⟨s', e, h1, h2, h3, h4⟩ := move_assign_transfers [12] 3
    (State.of [(10, ⟨1, [12]⟩), (11, ⟨1, []⟩), (12, ⟨1, []⟩)] [10, 11]) 0 1
    (by decide) (by decide)
    (fun _ _ => ⟨by
      intro x hx c hc _
      simp only [List.mem_singleton] at hx
      subst hx
      have h12 : ((State.of [(10, ⟨1, [12]⟩), (11, ⟨1, []⟩), (12, ⟨1, []⟩)] [10, 11]).heap
          12).m_children = [] := by decide
      rw [h12] at hc
      simp at hc, by decide, by decide⟩)
  exact ⟨s', e, h1, h2, h3, h4 (fun _ _ => by decide)⟩

theorem copy_handles_spec (src : Nat → Nat) (hsrc : ∀ k, src k ≤ k) (s : State) (a : Pointer)
    (ha : a ≠ nullptr) :
    ∀ k, k + 1 < SIZE_MODULUS →
      (∀ i, i ≤ k → (copy_handles src (make_intrusive s (Loc.var 0) a) k).handles i = a) ∧
      (copy_handles src (make_intrusive s (Loc.var 0) a) k).heap a = ⟨k + 1, []⟩ ∧
      (copy_handles src (make_intrusive s (Loc.var 0) a) k).deleted = s.deleted
  | 0, _ => by
    have h1 : (0 + 1) % SIZE_MODULUS = 1 := by decide
    refine ⟨?_, ?_, ?_⟩
    · intro i hi
      have : i = 0 := by omega
      subst this
      simp [copy_handles, make_intrusive, ctor_raw, State.m_ptr, State.set_m_ptr, ha,
        inc_ref_count, cs_inc_ref_count]
    · simp [copy_handles, make_intrusive, ctor_raw, State.m_ptr, State.set_m_ptr, ha,
        inc_ref_count, cs_inc_ref_count, State.set_count, h1]
    · simp [copy_handles, make_intrusive, ctor_raw, State.m_ptr, State.set_m_ptr, ha,
        inc_ref_count, cs_inc_ref_count]
  | k + 1, hk => by
    obtain ⟨ih1, ih2, ih3⟩ := copy_handles_spec src hsrc s a ha k (by omega)
    have hs : (copy_handles src (make_intrusive s (Loc.var 0) a) k).m_ptr (Loc.var (src k)) = a :=
      ih1 _ (hsrc k)
    have e : copy_handles src (make_intrusive s (Loc.var 0) a) (k + 1) =
        ((copy_handles src (make_intrusive s (Loc.var 0) a) k).set_m_ptr
          (Loc.var (k + 1)) a).set_count a (k + 2) := by
      simp only [copy_handles, copy_ctor, hs, State.m_ptr_set_var_self, ne_eq, ha,
        not_false_eq_true, if_true, inc_ref_count, cs_inc_ref_count, State.set_m_ptr_var_heap,
        ih2]
      rw [inc_wrap _ hk]
    rw [e]
    refine ⟨?_, ?_, ?_⟩
    · intro i hi
      by_cases h : i = k + 1
      · simp [State.set_m_ptr, h]
      · simp [State.set_m_ptr, h]
        exact ih1 i (by omega)
    · simp [State.set_count, ih2]
    · simp [ih3]

theorem destroy_handles_append (del : State → Pointer → Option State) :
    ∀ (l1 l2 : List Nat) (s : State),
      destroy_handles del s (l1 ++ l2) =
        (destroy_handles del s l1).bind (fun s1 => destroy_handles del s1 l2)
  | [], _, _ => rfl
  | i :: l1, l2, s => by
    simp only [List.cons_append, destroy_handles]
    cases dtor del s (s.m_ptr (Loc.var i)) with
    | none => rfl
    | some s1 => exact destroy_handles_append del l1 l2 s1

/-- Destroying fewer handles to `a` than its count only lowers the count. -/
theorem destroy_handles_keep (del : State → Pointer → Option State) (a : Pointer)
    (ha : a ≠ nullptr) :
    ∀ (l : List Nat) (s : State) (c : Nat), (∀ i ∈ l, s.handles i = a) →
      (s.heap a).m_count = c → l.length < c → c < SIZE_MODULUS →
      ∃ s', destroy_handles del s l = some s' ∧ s'.handles = s.handles ∧
        (s'.heap a).m_count = c - l.length ∧
        (s'.heap a).m_children = (s.heap a).m_children ∧ s'.deleted = s.deleted
  | [], s, c, _, hc, _, _ => ⟨s, rfl, rfl, by simpa using hc, rfl, rfl⟩
  | i :: l, s, c, hl, hc, hlen, hmax => by
    have hi : s.m_ptr (Loc.var i) = a := hl i (List.mem_cons_self _ _)
    simp only [List.length_cons] at hlen
    have hne : (s.heap a).m_count ≠ 1 := by omega
    have e : dtor del s (s.m_ptr (Loc.var i)) = some (s.set_count a (c - 1)) := by
      rw [hi]
      simp only [dtor, ne_eq, ha, not_false_eq_true, if_true]
      rw [dec_ref_count_keep del s a hne, hc, dec_wrap c (by omega) hmax]
    obtain ⟨s', e', h1, h2, h3, h4⟩ := destroy_handles_keep del a ha l (s.set_count a (c - 1))
      (c - 1) (fun j hj => hl j (List.mem_cons_of_mem _ hj)) (by simp) (by omega) (by omega)
    refine ⟨s', by simp [destroy_handles, e, e'], by simpa using h1, ?_, by simpa using h3,
      by simpa using h4⟩
    rw [h2]; simp only [List.length_cons]; omega

/-- C1: an object is created by `make_intrusive` at address `a` (handle variable 0) and
`N - 1` further handles are copy-constructed (each from an earlier one), `N` at most the
largest `std::size_t`. When the `N` handles are destroyed in any order, then after each of
the first `k < N` destructions nothing has been disposed and every remaining handle reports
`use_count` `N - k`; the `N`-th destruction runs `delete this` on `a`, exactly once. -/
theorem last_handle_disposes_once (s : State) (a : Pointer) (N : Nat) (src : Nat → Nat)
    (order : List Nat) (fuel : Nat) (ha : a ≠ nullptr) (hN : 1 ≤ N) (hmax : N < SIZE_MODULUS)
    (hsrc : ∀ k, src k ≤ k) (hperm : order.Perm (List.range N)) (hfuel : 1 ≤ fuel) :
    (∀ k, k < N → ∃ sk,
      destroy_handles (delete_this fuel)
        (copy_handles src (make_intrusive s (Loc.var 0) a) (N - 1)) (order.take k) = some sk ∧
      sk.deleted = s.deleted ∧
      ∀ i ∈ order.drop k, use_count sk (Loc.var i) = N - k) ∧
    (∃ sN,
      destroy_handles (delete_this fuel)
        (copy_handles src (make_intrusive s (Loc.var 0) a) (N - 1)) order = some sN ∧
      sN.deleted = s.deleted ++ [a]) := by
  obtain ⟨h1, h2, h3⟩ := copy_handles_spec src hsrc s a ha (N - 1) (by omega)
  have hN1 : N - 1 + 1 = N := by omega
  rw [hN1] at h2
  have hlen : order.length = N := by rw [hperm.length_eq, List.length_range]
  have hmem : ∀ i ∈ order, i < N := fun i hi => List.mem_range.mp (hperm.mem_iff.mp hi)
  have hall : ∀ i ∈ order,
      (copy_handles src (make_intrusive s (Loc.var 0) a) (N - 1)).handles i = a :=
    fun i hi => h1 i (by have := hmem i hi; omega)
  have hcount : ((copy_handles src (make_intrusive s (Loc.var 0) a) (N - 1)).heap a).m_count = N := by
    rw [h2]
  have part : ∀ k, k < N → ∃ sk,
      destroy_handles (delete_this fuel)
        (copy_handles src (make_intrusive s (Loc.var 0) a) (N - 1)) (order.take k) = some sk ∧
      sk.handles = (copy_handles src (make_intrusive s (Loc.var 0) a) (N - 1)).handles ∧
      sk.heap a = ⟨N - k, []⟩ ∧ sk.deleted = s.deleted := by
    intro k hk
    have hlk : (order.take k).length = k := by rw [List.length_take, hlen]; omega
    obtain ⟨sk, e, g1, g2, g3, g4⟩ := destroy_handles_keep (delete_this fuel) a ha
      (order.take k) _ N (fun i hi => hall i (List.mem_of_mem_take hi)) hcount
      (by omega) hmax
    refine ⟨sk, e, g1, ?_, by rw [g4, h3]⟩
    rw [hlk] at g2
    rw [h2] at g3
    cases hsk : sk.heap a with
    | mk cnt ch =>
      rw [hsk] at g2 g3
      simp only at g2 g3
      rw [g2, g3]
  constructor
  · intro k hk
    obtain ⟨sk, e, g1, g2, g3⟩ := part k hk
    refine ⟨sk, e, g3, ?_⟩
    intro i hi
    have hi' : sk.m_ptr (Loc.var i) = a := by
      show sk.handles i = a
      rw [g1]; exact hall i (List.mem_of_mem_drop hi)
    simp [use_count, hi', ha, get_ref_count, cs_get_ref_count, g2]
  · obtain ⟨sk, e, g1, g2, g3⟩ := part (N - 1) (by omega)
    obtain ⟨f, rfl⟩ : ∃ f, fuel = f + 1 := ⟨fuel - 1, by omega⟩
    have hdrop : order.drop (N - 1) ≠ [] := by
      intro h
      have := congrArg List.length h
      simp [hlen] at this
      omega
    obtain ⟨last, rest, hlr⟩ := List.exists_cons_of_ne_nil hdrop
    have hrest : rest = [] := by
      have := congrArg List.length hlr
      simp [hlen] at this
      have h0 : rest.length = 0 := by omega
      exact List.length_eq_zero.mp h0
    subst hrest
    have hlast : sk.m_ptr (Loc.var last) = a := by
      show sk.handles last = a
      rw [g1]
      apply hall
      apply List.mem_of_mem_drop (n := N - 1)
      rw [hlr]; exact List.mem_cons_self _ _
    have hsplit : order = order.take (N - 1) ++ [last] := by
      rw [← hlr, List.take_append_drop]
    have hw : (1 + (SIZE_MODULUS - 1)) % SIZE_MODULUS = 0 := by decide
    have hN2 : N - (N - 1) = 1 := by omega
    rw [hN2] at g2
    refine ⟨({ sk.set_count a 0 with deleted := sk.deleted ++ [a] } : State).set_children a [],
      ?_, by simp [g3]⟩
    rw [hsplit, destroy_handles_append, e]
    simp [destroy_handles, hlast, dtor, ha, dec_ref_count, cs_dec_ref_count, g2, hw,
      delete_this, CsNodeManager.clear, destroy_elements]

/-- C1 on three handles (the factory handle and two copies) destroyed in the order 2, 0, 1. -/
theorem last_handle_disposes_once_witness :
    (∀ k, k < 3 → ∃ sk,
      destroy_handles (delete_this 1)
        (copy_handles (fun _ => 0) (make_intrusive State.init (Loc.var 0) 10) (3 - 1))
        ([2, 0, 1].take k) = some sk ∧
      sk.deleted = State.init.deleted ∧
      ∀ i ∈ [2, 0, 1].drop k, use_count sk (Loc.var i) = 3 - k) ∧
    (∃ sN,
      destroy_handles (delete_this 1)
        (copy_handles (fun _ => 0) (make_intrusive State.init (Loc.var 0) 10) (3 - 1))
        [2, 0, 1] = some sN ∧
      sN.deleted = State.init.deleted ++ [10]) :=
  last_handle_disposes_once State.init 10 3 (fun _ => 0) [2, 0, 1] 1 (by decide) (by decide)
    (by decide) (fun k => Nat.zero_le k) (by decide) (by decide)

theorem add_child_eq_raw (del : State → Pointer → Option State) (s : State) (this : Pointer)
    (arg : Loc) : add_child del s this arg = add_child_raw del s this (s.m_ptr arg) := rfl

/-- The effect of `add_child(T *)`: one entry appended, one increment of a non-null child. -/
theorem add_child_raw_spec (del : State → Pointer → Option State) (s : State)
    (this child : Pointer) :
    ∃ s', add_child_raw del s this child = some s' ∧
      (s'.heap this).m_children = (s.heap this).m_children ++ [child] ∧
      (∀ q, q ≠ this → (s'.heap q).m_children = (s.heap q).m_children) ∧
      (∀ q, (s'.heap q).m_count =
        if q = child ∧ child ≠ nullptr then ((s.heap q).m_count + 1) % SIZE_MODULUS
        else (s.heap q).m_count) ∧
      s'.handles = s.handles ∧ s'.deleted = s.deleted := by
  have hset : ((s.heap this).m_children ++ [nullptr]).set (s.heap this).m_children.length child
      = (s.heap this).m_children ++ [child] := by
    rw [List.set_append_right _ _ (Nat.le_refl _)]; simp
  have hnull : (push_back (ctor_raw s (Loc.tmp 0) child) this (Loc.tmp 0)).m_ptr (Loc.tmp 0)
      = nullptr := by
    simp [push_back, move_ctor]
  refine ⟨push_back (ctor_raw s (Loc.tmp 0) child) this (Loc.tmp 0), ?_, ?_, ?_, ?_, ?_, ?_⟩
  · simp only [add_child_raw, hnull, dtor]
    simp
  all_goals by_cases hc : child = nullptr
  · subst hc
    simp [push_back, move_ctor, ctor_raw, State.set_m_ptr, State.m_ptr, hset]
  · simp [push_back, move_ctor, ctor_raw, State.set_m_ptr, State.m_ptr, hset, hc,
      inc_ref_count, cs_inc_ref_count]
  · intro q hq
    simp [push_back, move_ctor, ctor_raw, State.set_m_ptr, State.m_ptr, hc, hq]
  · intro q hq
    simp [push_back, move_ctor, ctor_raw, State.set_m_ptr, State.m_ptr, hc, hq,
      inc_ref_count, cs_inc_ref_count]
  · intro q
    simp [push_back, move_ctor, ctor_raw, State.set_m_ptr, State.m_ptr, hc]
  · intro q
    by_cases hq : q = child
    · simp [push_back, move_ctor, ctor_raw, State.set_m_ptr, State.m_ptr, hc, hq,
        inc_ref_count, cs_inc_ref_count]
    · simp [push_back, move_ctor, ctor_raw, State.set_m_ptr, State.m_ptr, hc, hq,
        inc_ref_count, cs_inc_ref_count]
  · simp [push_back, move_ctor, ctor_raw, State.set_m_ptr, State.m_ptr, hc]
  · simp [push_back, move_ctor, ctor_raw, State.set_m_ptr, State.m_ptr, hc,
      inc_ref_count, cs_inc_ref_count]
  · simp [push_back, move_ctor, ctor_raw, State.set_m_ptr, State.m_ptr, hc]
  · simp [push_back, move_ctor, ctor_raw, State.set_m_ptr, State.m_ptr, hc,
      inc_ref_count, cs_inc_ref_count]

/-! ## `std::vector::erase` on a child vector -/

theorem SameBut.same_refl (this : Pointer) (a : State) : SameBut this a a :=
  ⟨fun _ _ => rfl, rfl, rfl, rfl, rfl⟩

theorem SameBut.same_trans {this : Pointer} {a b c : State} (h1 : SameBut this a b)
    (h2 : SameBut this b c) : SameBut this a c :=
  ⟨fun q hq => by rw [h2.heap q hq, h1.heap q hq], by rw [h2.count, h1.count],
    by rw [h2.handles, h1.handles], by rw [h2.temps, h1.temps],
    by rw [h2.deleted, h1.deleted]⟩

theorem SameBut.of_set_children (this : Pointer) (a : State) (l : List Pointer) :
    SameBut this a (a.set_children this l) :=
  ⟨fun q hq => by simp [State.set_children, hq], by simp, rfl, rfl, rfl⟩

theorem SameBut.count_all {this : Pointer} {a b : State} (h : SameBut this a b) (q : Pointer) :
    (b.heap q).m_count = (a.heap q).m_count := by
  by_cases hq : q = this
  · rw [hq]; exact h.count
  · rw [h.heap q hq]

theorem getD_hole (pre : List Pointer) (h : Pointer) (post : List Pointer) :
    (pre ++ h :: post).getD pre.length nullptr = h := by
  induction pre with
  | nil => rfl
  | cons a pre ih => simpa using ih

theorem getD_after_hole (pre : List Pointer) (h x : Pointer) (post : List Pointer) :
    (pre ++ h :: x :: post).getD (pre.length + 1) nullptr = x := by
  induction pre with
  | nil => rfl
  | cons a pre ih => simpa using ih

theorem set_hole (pre : List Pointer) (h v : Pointer) (post : List Pointer) :
    (pre ++ h :: post).set pre.length v = pre ++ v :: post := by
  induction pre with
  | nil => rfl
  | cons a pre ih => simp

theorem set_after_hole (pre : List Pointer) (h x v : Pointer) (post : List Pointer) :
    (pre ++ h :: x :: post).set (pre.length + 1) v = pre ++ h :: v :: post := by
  induction pre with
  | nil => rfl
  | cons a pre ih => simp

/-- One move assignment `v[j] = std::move(v[j + 1])` when `v[j]` is empty: the two entries
are exchanged and nothing is released. -/
theorem move_assign_from_null (del : State → Pointer → Option State) (this : Pointer)
    (σ : State) (pre post : List Pointer) (x : Pointer)
    (hch : (σ.heap this).m_children = pre ++ nullptr :: x :: post) :
    ∃ σ', move_assign del σ (Loc.child this pre.length) (Loc.child this (pre.length + 1))
        = some σ' ∧
      (σ'.heap this).m_children = (pre ++ [x]) ++ nullptr :: post ∧ SameBut this σ σ' := by
  have hj : σ.m_ptr (Loc.child this pre.length) = nullptr := by
    simp only [State.m_ptr, hch]; exact getD_hole pre nullptr (x :: post)
  have hj1 : σ.m_ptr (Loc.child this (pre.length + 1)) = x := by
    simp only [State.m_ptr, hch]; exact getD_after_hole pre nullptr x post
  by_cases hx : x = nullptr
  · refine ⟨σ, by simp [move_assign, hj, hj1, hx], ?_, SameBut.same_refl this σ⟩
    rw [hch, hx]; simp
  · refine ⟨swap σ (Loc.child this pre.length) (Loc.child this (pre.length + 1)), ?_, ?_, ?_⟩
    · simp only [move_assign, hj, hj1]
      rw [if_neg (Ne.symm hx)]
      simp
    · simp only [swap, hj, hj1, State.set_m_ptr, State.set_children_children, if_true, hch,
        set_hole, set_after_hole]
      simp
    · simp only [swap, State.set_m_ptr]
      exact (SameBut.of_set_children this σ _).same_trans (SameBut.of_set_children this _ _)

/-- The rest of the shifting loop once the entry at `j` is empty: every later entry moves
one position down, the empty entry ends up last, nothing is released. -/
theorem erase_shift_null (del : State → Pointer → Option State) (this : Pointer) :
    ∀ (post pre : List Pointer) (σ : State),
      (σ.heap this).m_children = pre ++ nullptr :: post →
      ∃ σ', erase_shift del this post.length pre.length σ = some σ' ∧
        (σ'.heap this).m_children = pre ++ post ++ [nullptr] ∧ SameBut this σ σ'
  | [], pre, σ, hch => ⟨σ, rfl, by simpa using hch, SameBut.same_refl this σ⟩
  | x :: post, pre, σ, hch => by
    obtain ⟨σ1, e1, c1, sb1⟩ := move_assign_from_null del this σ pre post x hch
    obtain ⟨σ2, e2, c2, sb2⟩ := erase_shift_null del this post (pre ++ [x]) σ1 c1
    refine ⟨σ2, ?_, by simpa using c2, sb1.same_trans sb2⟩
    simp only [List.length_cons, erase_shift, e1]
    simpa using e2

theorem vector_erase_eq (del : State → Pointer → Option State) (s : State) (this : Pointer)
    (pos : Nat) :
    vector_erase del s this pos =
      (erase_shift del this ((s.heap this).m_children.length - 1 - pos) pos s).bind
        (erase_tail del this (s.heap this).m_children.length) := by
  simp only [vector_erase, erase_tail]
  cases erase_shift del this ((s.heap this).m_children.length - 1 - pos) pos s <;> rfl

/-- Erasing the entry at position `pre.length`, which holds `target`, from the child vector
`pre ++ target :: post`: the state changes as by one destruction of a handle to `target`
(in a state `σ1` that differs from the start only in the child vector of `this`), and the
child vector becomes `pre ++ post`. -/
theorem erase_releases_once (del : State → Pointer → Option State) (this target : Pointer)
    (s : State)
    (hrel : ∀ σ, SameBut this s σ → ∃ σ1, dtor del σ target = some σ1 ∧
      (σ1.heap this).m_children = (σ.heap this).m_children) :
    ∀ (post pre : List Pointer), (s.heap this).m_children = pre ++ target :: post →
      ∃ σ σ1 σ', SameBut this s σ ∧ dtor del σ target = some σ1 ∧ SameBut this σ1 σ' ∧
        (σ'.heap this).m_children = pre ++ post ∧
        (erase_shift del this post.length pre.length s).bind
          (erase_tail del this (pre.length + post.length + 1)) = some σ'
  | [], pre, hch => by
    have sb := SameBut.of_set_children this s ((s.heap this).m_children.take pre.length)
    obtain ⟨σ1, e1, c1⟩ := hrel _ sb
    refine ⟨_, σ1, σ1, sb, e1, SameBut.same_refl this σ1, ?_, ?_⟩
    · rw [c1]; simp [hch]
    · have hlast : s.m_ptr (Loc.child this pre.length) = target := by
        simp only [State.m_ptr, hch]; exact getD_hole pre target []
      simp only [List.length_nil, erase_shift, Option.bind, erase_tail, Nat.add_zero,
        Nat.add_sub_cancel, hlast]
      exact e1
  | x :: post, pre, hch => by
    have hj : s.m_ptr (Loc.child this pre.length) = target := by
      simp only [State.m_ptr, hch]; exact getD_hole pre target (x :: post)
    have hj1 : s.m_ptr (Loc.child this (pre.length + 1)) = x := by
      simp only [State.m_ptr, hch]; exact getD_after_hole pre target x post
    have hn : pre.length + (x :: post).length + 1 = (pre ++ [target]).length + post.length + 1 := by
      simp; omega
    by_cases hx : x = target
    · -- equal addresses: the assignment returns at once
      have hch' : (s.heap this).m_children = (pre ++ [target]) ++ target :: post := by
        rw [hch, hx]; simp
      obtain ⟨σ, σ1, σ', h1, h2, h3, h4, h5⟩ :=
        erase_releases_once del this target s hrel post (pre ++ [target]) hch'
      refine ⟨σ, σ1, σ', h1, h2, h3, by rw [h4, hx]; simp, ?_⟩
      rw [hn, ← h5]
      simp only [List.length_cons, erase_shift, move_assign, hj, hj1, hx, if_true]
      simp
    · -- different addresses: the handle to `target` is released here
      obtain ⟨σ1, e1, c1⟩ := hrel s (SameBut.same_refl this s)
      -- the state after the move assignment
      have step : ∃ σ2, move_assign del s (Loc.child this pre.length)
          (Loc.child this (pre.length + 1)) = some σ2 ∧
          (σ2.heap this).m_children = (pre ++ [x]) ++ nullptr :: post ∧
          SameBut this σ1 σ2 := by
        by_cases ht : target = nullptr
        · have e0 : σ1 = s := by
            simp [dtor, ht] at e1; exact e1.symm
          refine ⟨swap s (Loc.child this pre.length) (Loc.child this (pre.length + 1)),
            ?_, ?_, ?_⟩
          · simp only [move_assign, hj, hj1]
            rw [if_neg (Ne.symm hx)]
            simp [ht]
          · simp only [swap, hj, hj1, State.set_m_ptr, State.set_children_children, if_true,
              hch, set_hole, set_after_hole, ht]
            simp
          · rw [e0]
            simp only [swap, State.set_m_ptr]
            exact (SameBut.of_set_children this s _).same_trans (SameBut.of_set_children this _ _)
        · have e1' : dec_ref_count del s target CsIntrusiveAction.Normal = some σ1 := by
            simpa [dtor, ht] using e1
          have g : (σ1.set_m_ptr (Loc.child this pre.length) nullptr).m_ptr
              (Loc.child this pre.length) = nullptr := by
            simp only [State.m_ptr, State.set_m_ptr, State.set_children_children, if_true, c1,
              hch, set_hole]
            exact getD_hole pre nullptr (x :: post)
          have g1 : (σ1.set_m_ptr (Loc.child this pre.length) nullptr).m_ptr
              (Loc.child this (pre.length + 1)) = x := by
            simp only [State.m_ptr, State.set_m_ptr, State.set_children_children, if_true, c1,
              hch, set_hole]
            exact getD_after_hole pre nullptr x post
          refine ⟨swap (σ1.set_m_ptr (Loc.child this pre.length) nullptr)
            (Loc.child this pre.length) (Loc.child this (pre.length + 1)), ?_, ?_, ?_⟩
          · simp only [move_assign, hj, hj1]
            rw [if_neg (Ne.symm hx)]
            simp [ht, e1']
          · simp only [swap, g, g1]
            simp only [State.set_m_ptr, State.set_children_children, if_true, c1, hch,
              set_hole, set_after_hole]
            simp
          · simp only [swap, State.set_m_ptr]
            exact ((SameBut.of_set_children this σ1 _).same_trans
              (SameBut.of_set_children this _ _)).same_trans (SameBut.of_set_children this _ _)
      obtain ⟨σ2, e2, c2, sb2⟩ := step
      obtain ⟨σ3, e3, c3, sb3⟩ := erase_shift_null del this post (pre ++ [x]) σ2 c2
      have hidx : pre.length + (x :: post).length + 1 - 1 = (pre ++ [x] ++ post).length := by
        simp only [List.length_cons, List.length_append, List.length_nil]; omega
      have hlast : σ3.m_ptr (Loc.child this (pre ++ [x] ++ post).length) = nullptr := by
        simp only [State.m_ptr, c3]
        exact getD_hole (pre ++ [x] ++ post) nullptr []
      have htake : (σ3.heap this).m_children.take (pre ++ [x] ++ post).length
          = pre ++ x :: post := by
        rw [c3, List.take_left]; simp
      refine ⟨s, σ1, σ3.set_children this (pre ++ x :: post), SameBut.same_refl this s, e1,
        (sb2.same_trans sb3).same_trans (SameBut.of_set_children this σ3 _), by simp, ?_⟩
      have e3' : erase_shift del this post.length (pre.length + 1) σ2 = some σ3 := by
        simpa using e3
      have e4 : erase_shift del this (x :: post).length pre.length s = some σ3 := by
        simp only [List.length_cons, erase_shift, e2, e3']
      rw [e4]
      simp only [Option.bind, erase_tail]
      rw [hidx, hlast, htake]
      simp [dtor]

theorem std_find_le : ∀ (l : List Pointer) (t : Pointer), std_find l t ≤ l.length
  | [], _ => Nat.le_refl _
  | p :: l, t => by
    by_cases h : p = t
    · simp [std_find, h]
    · simpa [std_find, h] using std_find_le l t

theorem std_find_lt_of_mem : ∀ (l : List Pointer) (t : Pointer), t ∈ l →
    std_find l t < l.length
  | [], _, h => by simp at h
  | p :: l, t, h => by
    by_cases hp : p = t
    · simp [std_find, hp]
    · have : t ∈ l := by
        rcases List.mem_cons.mp h with e | e
        · exact absurd e.symm hp
        · exact e
      simpa [std_find, hp] using std_find_lt_of_mem l t this

theorem std_find_of_not_mem : ∀ (l : List Pointer) (t : Pointer), t ∉ l →
    std_find l t = l.length
  | [], _, _ => rfl
  | p :: l, t, h => by
    have hp : p ≠ t := fun e => h (by simp [e])
    have : t ∉ l := fun e => h (List.mem_cons_of_mem _ e)
    simp [std_find, hp, std_find_of_not_mem l t this]

/-- The position found by `std::find` splits the sequence around the match. -/
theorem std_find_split : ∀ (l : List Pointer) (t : Pointer), t ∈ l →
    l = l.take (std_find l t) ++ t :: l.drop (std_find l t + 1)
  | [], _, h => by simp at h
  | p :: l, t, h => by
    by_cases hp : p = t
    · simp [std_find, hp]
    · have : t ∈ l := by
        rcases List.mem_cons.mp h with e | e
        · exact absurd e.symm hp
        · exact e
      have ih := std_find_split l t this
      simp only [std_find, hp, if_false, List.take_succ_cons, List.drop_succ_cons,
        List.cons_append]
      rw [← ih]

/-- The entry at the position found by `std::find` matches. -/
theorem std_find_getElem : ∀ (l : List Pointer) (t : Pointer), t ∈ l →
    l[std_find l t]? = some t
  | [], _, h => by simp at h
  | p :: l, t, h => by
    by_cases hp : p = t
    · simp [std_find, hp]
    · have : t ∈ l := by
        rcases List.mem_cons.mp h with e | e
        · exact absurd e.symm hp
        · exact e
      simpa [std_find, hp] using std_find_getElem l t this

/-- No entry before the position found by `std::find` matches. -/
theorem std_find_first : ∀ (l : List Pointer) (t : Pointer) (k : Nat), k < std_find l t →
    l[k]? ≠ some t
  | [], _, _, h => by simp [std_find] at h
  | p :: l, t, k, h => by
    by_cases hp : p = t
    · simp [std_find, hp] at h
    · simp only [std_find, hp, if_false] at h
      cases k with
      | zero => simpa using hp
      | succ k => simpa using std_find_first l t k (by omega)

/-- One handle to `target` is destroyed in a state that differs from `s` in the child vector
of `this` only: the child vector of `this` is not touched, the counter of a non-null target
is decremented once. -/
theorem release_target (F : List Pointer) (fuel : Nat) (s : State) (this target : Pointer)
    (hok : ReleaseOk F fuel s this target) (σ : State) (hσ : SameBut this s σ) :
    ∃ σ1, dtor (delete_this fuel) σ target = some σ1 ∧
      (σ1.heap this).m_children = (σ.heap this).m_children ∧
      σ1.handles = σ.handles ∧
      (target ≠ nullptr → (σ1.heap target).m_count =
        ((s.heap target).m_count + (SIZE_MODULUS - 1)) % SIZE_MODULUS) := by
  by_cases ht : target = nullptr
  · exact ⟨σ, by simp [dtor, ht], rfl, rfl, fun h => absurd ht h⟩
  · have hcnt : (σ.heap target).m_count = (s.heap target).m_count := hσ.count_all target
    by_cases h1 : (s.heap target).m_count = 1
    · obtain ⟨hc, hl, hthis, htar, hne, hf⟩ := hok ht h1
      have hcσ : Closed σ F := by
        intro x hx c hcm hcn
        have hxt : x ≠ this := fun e => hthis (e ▸ hx)
        rw [hσ.heap x hxt] at hcm
        exact hc x hx c hcm hcn
      have hlσ : ∀ x ∈ (σ.heap target).m_children, x ≠ nullptr → x ∈ F := by
        rw [hσ.heap target (Ne.symm hne)]; exact hl
      obtain ⟨σ1, e1, sh⟩ := dec_ref_count_dispose F fuel σ target (by rw [hcnt, h1]) hcσ hlσ hf
      refine ⟨σ1, by simpa [dtor, ht] using e1, ?_, ?_, ?_⟩
      · rw [sh.outside this hthis]
        simp [disposing, hne]
      · rw [sh.handles]; rfl
      · intro _
        rw [sh.outside target htar, h1]
        simp [disposing]
        decide
    · have h1σ : (σ.heap target).m_count ≠ 1 := by rw [hcnt]; exact h1
      have e : dtor (delete_this fuel) σ target = some (σ.set_count target
          (((σ.heap target).m_count + (SIZE_MODULUS - 1)) % SIZE_MODULUS)) := by
        simp only [dtor, ne_eq, ht, not_false_eq_true, if_true]
        exact dec_ref_count_keep _ σ target h1σ
      refine ⟨_, e, by simp, rfl, ?_⟩
      intro _
      simp [hcnt]

/-- Core of `remove_child(T *)` when the child sequence holds `target`: the call returns true, the
entry at the position found by `std::find` is erased, a non-null target is released once. -/
theorem remove_child_raw_found (F : List Pointer) (fuel : Nat) (s : State)
    (this target : Pointer) (hmem : target ∈ (s.heap this).m_children)
    (hok : ReleaseOk F fuel s this target) :
    ∃ s', remove_child_raw (delete_this fuel) s this target = some (true, s') ∧
      (s'.heap this).m_children =
        (s.heap this).m_children.eraseIdx (std_find (s.heap this).m_children target) ∧
      s'.handles = s.handles ∧
      (target ≠ nullptr → (s'.heap target).m_count =
        ((s.heap target).m_count + (SIZE_MODULUS - 1)) % SIZE_MODULUS) := by
  have hlt := std_find_lt_of_mem _ _ hmem
  have hsplit := std_find_split _ _ hmem
  have hrel : ∀ σ, SameBut this s σ → ∃ σ1, dtor (delete_this fuel) σ target = some σ1 ∧
      (σ1.heap this).m_children = (σ.heap this).m_children := by
    intro σ hσ
    obtain ⟨σ1, e1, c1, _⟩ := release_target F fuel s this target hok σ hσ
    exact ⟨σ1, e1, c1⟩
  obtain ⟨σ, σ1, σ', sb, e1, sb', hch, he⟩ :=
    erase_releases_once (delete_this fuel) this target s hrel _ _ hsplit
  obtain ⟨σ1', e1', _, hh, hcnt⟩ := release_target F fuel s this target hok σ sb
  have hσ1 : σ1' = σ1 := by rw [e1] at e1'; exact (Option.some.inj e1').symm
  subst hσ1
  have hlenp : ((s.heap this).m_children.take (std_find (s.heap this).m_children target)).length
      = std_find (s.heap this).m_children target := by
    rw [List.length_take]; omega
  have hlend : ((s.heap this).m_children.drop
      (std_find (s.heap this).m_children target + 1)).length
      = (s.heap this).m_children.length - 1 - std_find (s.heap this).m_children target := by
    rw [List.length_drop]; omega
  have hn : ((s.heap this).m_children.take (std_find (s.heap this).m_children target)).length +
      ((s.heap this).m_children.drop (std_find (s.heap this).m_children target + 1)).length + 1
      = (s.heap this).m_children.length := by
    rw [hlenp, hlend]; omega
  rw [hn, hlenp, hlend] at he
  refine ⟨σ', ?_, ?_, ?_, ?_⟩
  · simp only [remove_child_raw, ne_eq, Nat.ne_of_lt hlt, not_false_eq_true, if_true,
      vector_erase_eq, he]
  · rw [hch, List.eraseIdx_eq_take_drop_succ]
  · rw [sb'.handles, hh, sb.handles]
  · intro ht
    rw [sb'.count_all target, hcnt ht]

/-- C7: `add_child`, with a raw address and with a handle passed by copy, appends one entry
holding the given address to the child sequence of the manager, keeps the earlier entries,
and raises the count of a non-null target by one (the count staying below the largest
`std::size_t`); adding the handle variable `i` twice appends two entries for its address and
raises the count by two. -/
theorem add_child_appends (del : State → Pointer → Option State) (s : State)
    (this child : Pointer) (arg : Loc) (i : Nat) :
    (∃ s', add_child_raw del s this child = some s' ∧
      (s'.heap this).m_children = (s.heap this).m_children ++ [child] ∧
      (child ≠ nullptr → (s.heap child).m_count + 1 < SIZE_MODULUS →
        (s'.heap child).m_count = (s.heap child).m_count + 1)) ∧
    (∃ s', add_child del s this arg = some s' ∧
      (s'.heap this).m_children = (s.heap this).m_children ++ [s.m_ptr arg] ∧
      (s.m_ptr arg ≠ nullptr → (s.heap (s.m_ptr arg)).m_count + 1 < SIZE_MODULUS →
        (s'.heap (s.m_ptr arg)).m_count = (s.heap (s.m_ptr arg)).m_count + 1)) ∧
    (∃ s' s'', add_child del s this (Loc.var i) = some s' ∧
      add_child del s' this (Loc.var i) = some s'' ∧
      (s''.heap this).m_children =
        (s.heap this).m_children ++ [s.m_ptr (Loc.var i), s.m_ptr (Loc.var i)] ∧
      (s.m_ptr (Loc.var i) ≠ nullptr →
        (s.heap (s.m_ptr (Loc.var i))).m_count + 2 < SIZE_MODULUS →
        (s''.heap (s.m_ptr (Loc.var i))).m_count =
          (s.heap (s.m_ptr (Loc.var i))).m_count + 2)) := by
  have one : ∀ (s : State) (c : Pointer), ∃ s', add_child_raw del s this c = some s' ∧
      (s'.heap this).m_children = (s.heap this).m_children ++ [c] ∧
      (c ≠ nullptr → (s.heap c).m_count + 1 < SIZE_MODULUS →
        (s'.heap c).m_count = (s.heap c).m_count + 1) ∧ s'.handles = s.handles := by
    intro s c
    obtain ⟨s', e, h1, _, h3, h4, _⟩ := add_child_raw_spec del s this c
    refine ⟨s', e, h1, ?_, h4⟩
    intro hc hmax
    rw [h3 c, if_pos ⟨rfl, hc⟩, inc_wrap _ hmax]
  refine ⟨?_, ?_, ?_⟩
  · obtain ⟨s', e, h1, h2, _⟩ := one s child
    exact ⟨s', e, h1, h2⟩
  · obtain ⟨s', e, h1, h2, _⟩ := one s (s.m_ptr arg)
    exact ⟨s', by rw [add_child_eq_raw]; exact e, h1, h2⟩
  · obtain ⟨s', e, h1, h2, h3⟩ := one s (s.m_ptr (Loc.var i))
    have hv : s'.m_ptr (Loc.var i) = s.m_ptr (Loc.var i) := by
      show s'.handles i = s.handles i
      rw [h3]
    obtain ⟨s'', e', h1', h2', _⟩ := one s' (s.m_ptr (Loc.var i))
    refine ⟨s', s'', by rw [add_child_eq_raw]; exact e,
      by rw [add_child_eq_raw, hv]; exact e', by rw [h1', h1]; simp, ?_⟩
    intro hc hmax
    rw [h2' hc (by rw [h2 hc (by omega)]; omega), h2 hc (by omega)]

/-- C7 on the test `duplicate_child`: the handle of a fresh object (count 1) is added twice
to the manager at address 10. -/
theorem add_child_appends_witness :
    ∃ s' s'', add_child (delete_this 0) (make_intrusive State.init (Loc.var 0) 11) 10
        (Loc.var 0) = some s' ∧
      add_child (delete_this 0) s' 10 (Loc.var 0) = some s'' ∧
      (s''.heap 10).m_children = [11, 11] ∧ (s''.heap 11).m_count = 3 := by
  obtain ⟨s', s'', e1, e2, h1, h2⟩ := (add_child_appends (delete_this 0)
    (make_intrusive State.init (Loc.var 0) 11) 10 11 (Loc.var 0) 0).2.2
  exact ⟨s', s'', e1, e2, h1.trans (by decide),
    (h2 (by decide) (by decide)).trans (by decide)⟩

/-- C8: when the child sequence of `this` contains `target`, `remove_child(target)` (raw
address or handle) returns true and erases the entry at the smallest matching index: the
other entries keep their relative order and later duplicates stay; the count of a non-null
target (between 1 and the largest `std::size_t`) is lowered by one. If that count is 1 the
target is disposed, and the statement needs `ReleaseOk`: no object reachable from the target
is `this` or the target itself. -/
theorem remove_child_erases_first (F : List Pointer) (fuel : Nat) (s : State)
    (this target : Pointer) (hmem : target ∈ (s.heap this).m_children)
    (hok : ReleaseOk F fuel s this target) :
    ∃ s', remove_child_raw (delete_this fuel) s this target = some (true, s') ∧
      (∀ h : Loc, s.m_ptr h = target →
        remove_child (delete_this fuel) s this h = some (true, s')) ∧
      std_find (s.heap this).m_children target < (s.heap this).m_children.length ∧
      (s.heap this).m_children[std_find (s.heap this).m_children target]? = some target ∧
      (∀ k, k < std_find (s.heap this).m_children target →
        (s.heap this).m_children[k]? ≠ some target) ∧
      (s'.heap this).m_children =
        (s.heap this).m_children.eraseIdx (std_find (s.heap this).m_children target) ∧
      (s'.heap this).m_children.count target + 1 = (s.heap this).m_children.count target ∧
      (target ≠ nullptr → 0 < (s.heap target).m_count →
        (s.heap target).m_count < SIZE_MODULUS →
        (s'.heap target).m_count = (s.heap target).m_count - 1) := by
  obtain ⟨s', e, hch, _, hcnt⟩ := remove_child_raw_found F fuel s this target hmem hok
  have hsplit := std_find_split _ _ hmem
  have hlt := std_find_lt_of_mem _ _ hmem
  refine ⟨s', e, ?_, hlt, ?_, std_find_first _ _, hch, ?_, ?_⟩
  · intro h hh
    show remove_child_raw _ s this (s.m_ptr h) = _
    rw [hh]; exact e
  · exact std_find_getElem _ _ hmem
  · rw [hch, List.eraseIdx_eq_take_drop_succ]
    conv_rhs => rw [hsplit]
    simp only [List.count_append, List.count_cons_self]
    omega
  · intro ht h0 hmax
    rw [hcnt ht, dec_wrap _ h0 hmax]

/-- C8 on the child sequence `[11, 12, 11]` of the manager at 10, removing 12: the entry held
the last handle to 12, which is disposed together with its own child at 14. -/
theorem remove_child_erases_first_witness :
    ∃ s', remove_child_raw (delete_this 3)
        (State.of [(10, ⟨1, [11, 12, 11]⟩), (11, ⟨2, []⟩), (12, ⟨1, [14]⟩), (14, ⟨1, []⟩)] [])
        10 12 = some (true, s') ∧
      (s'.heap 10).m_children = [11, 11] ∧ (s'.heap 12).m_count = 0 := by
  obtain ⟨s', e, _, _, _, _, hch, _, hcnt⟩ := remove_child_erases_first [14] 3
    (State.of [(10, ⟨1, [11, 12, 11]⟩), (11, ⟨2, []⟩), (12, ⟨1, [14]⟩), (14, ⟨1, []⟩)] [])
    10 12 (by decide)
    (fun _ _ => ⟨by
      intro x hx c hc _
      simp only [List.mem_singleton] at hx
      subst hx
      have h14 : ((State.of [(10, ⟨1, [11, 12, 11]⟩), (11, ⟨2, []⟩), (12, ⟨1, [14]⟩),
          (14, ⟨1, []⟩)] []).heap 14).m_children = [] := by decide
      rw [h14] at hc
      simp at hc, by decide, by decide, by decide, by decide, by decide⟩)
  exact ⟨s', e, hch.trans (by decide), (hcnt (by decide) (by decide) (by decide)).trans
    (by decide)⟩

/-- C9: when no entry of the child sequence of `this` equals `target`, `remove_child(target)`
(raw address or handle) returns false and the state is unchanged; and after the removal of a
child that occurred exactly once (under `ReleaseOk` in case the removal disposes it), the
same call returns false and changes nothing. -/
theorem remove_child_absent (F : List Pointer) (fuel : Nat) (s : State)
    (this target : Pointer) :
    (∀ del, target ∉ (s.heap this).m_children →
      remove_child_raw del s this target = some (false, s) ∧
      ∀ h : Loc, s.m_ptr h = target → remove_child del s this h = some (false, s)) ∧
    ((s.heap this).m_children.count target = 1 → ReleaseOk F fuel s this target →
      ∃ s', remove_child_raw (delete_this fuel) s this target = some (true, s') ∧
        remove_child_raw (delete_this fuel) s' this target = some (false, s')) := by
  have miss : ∀ (del : State → Pointer → Option State) (σ : State),
      target ∉ (σ.heap this).m_children →
      remove_child_raw del σ this target = some (false, σ) := by
    intro del σ h
    simp [remove_child_raw, std_find_of_not_mem _ _ h]
  constructor
  · intro del h
    refine ⟨miss del s h, ?_⟩
    intro l hl
    show remove_child_raw _ s this (s.m_ptr l) = _
    rw [hl]; exact miss del s h
  · intro h1 hok
    have hmem : target ∈ (s.heap this).m_children :=
      List.count_pos_iff.mp (by omega)
    obtain ⟨s', e, hch, _, _⟩ := remove_child_raw_found F fuel s this target hmem hok
    refine ⟨s', e, miss _ s' ?_⟩
    have hsplit := std_find_split _ _ hmem
    have hc : (s'.heap this).m_children.count target = 0 := by
      have h2 : ((s.heap this).m_children.take (std_find (s.heap this).m_children target) ++
          target :: (s.heap this).m_children.drop
            (std_find (s.heap this).m_children target + 1)).count target = 1 := by
        rw [← hsplit]; exact h1
      rw [hch, List.eraseIdx_eq_take_drop_succ]
      simp only [List.count_append, List.count_cons_self] at h2 ⊢
      omega
    exact List.count_eq_zero.mp hc

/-- C9 on the child sequence `[11, 12, 13]` of the test `remove`: 12, held by this entry only,
is removed and disposed; the repeated call misses. -/
theorem remove_child_absent_witness :
    remove_child_raw (delete_this 0)
        (State.of [(10, ⟨1, [11, 13]⟩), (11, ⟨2, []⟩), (13, ⟨2, []⟩)] [])
        10 12 = some (false, State.of [(10, ⟨1, [11, 13]⟩), (11, ⟨2, []⟩), (13, ⟨2, []⟩)] []) ∧
    ∃ s', remove_child_raw (delete_this 2)
        (State.of [(10, ⟨1, [11, 12, 13]⟩), (11, ⟨2, []⟩), (12, ⟨1, []⟩), (13, ⟨2, []⟩)] [])
        10 12 = some (true, s') ∧
      remove_child_raw (delete_this 2) s' 10 12 = some (false, s') :=
  ⟨((remove_child_absent [] 0
      (State.of [(10, ⟨1, [11, 13]⟩), (11, ⟨2, []⟩), (13, ⟨2, []⟩)] [])
      10 12).1 (delete_this 0) (by decide)).1,
    (remove_child_absent [] 2
      (State.of [(10, ⟨1, [11, 12, 13]⟩), (11, ⟨2, []⟩), (12, ⟨1, []⟩), (13, ⟨2, []⟩)] [])
      10 12).2 (by decide) (fun _ _ => ⟨by intro x hx; simp at hx, by decide, by decide,
        by decide, by decide, by decide⟩)⟩

/-! ## `move_child` -/

theorem eraseIdx_hole (pre : List Pointer) (x : Pointer) (post : List Pointer) :
    (pre ++ x :: post).eraseIdx pre.length = pre ++ post := by
  induction pre with
  | nil => rfl
  | cons a pre ih => simpa using ih

theorem insertIdx_hole (pre : List Pointer) (x : Pointer) (post : List Pointer) :
    (pre ++ post).insertIdx pre.length x = pre ++ x :: post := by
  induction pre with
  | nil => cases post <;> rfl
  | cons a pre ih => simpa using ih

theorem take_succ_drop (l : List Pointer) (i : Nat) (h : i < l.length) :
    (l.take (i + 1)).drop i = [l[i]] := by
  have e : i + 1 - i = 1 := by omega
  rw [List.drop_take, e, List.drop_eq_getElem_cons h]
  rfl

theorem rotate_forward (l : List Pointer) (source dest : Nat) (h1 : source < dest)
    (h2 : dest < l.length) :
    std_rotate l source (source + 1) (dest + 1) =
      l.take source ++ ((l.drop (source + 1)).take (dest - source) ++
        l[source] :: l.drop (dest + 1)) := by
  unfold std_rotate
  rw [take_succ_drop l source (by omega), List.drop_take]
  have : dest + 1 - (source + 1) = dest - source := by omega
  rw [this]
  simp

theorem split_forward (l : List Pointer) (source dest : Nat) (h1 : source < dest)
    (h2 : dest < l.length) :
    l = l.take source ++ l[source] :: ((l.drop (source + 1)).take (dest - source) ++
        l.drop (dest + 1)) := by
  have e : l.drop (dest + 1) = (l.drop (source + 1)).drop (dest - source) := by
    rw [List.drop_drop]; congr 1; omega
  rw [e, List.take_append_drop, ← List.drop_eq_getElem_cons (by omega), List.take_append_drop]

theorem rotate_backward (l : List Pointer) (source dest : Nat) (h1 : dest < source)
    (h2 : source < l.length) :
    (std_rotate l.reverse (l.length - source - 1) (l.length - source)
        (l.length - dest)).reverse =
      l.take dest ++ l[source] :: ((l.drop dest).take (source - dest) ++
        l.drop (source + 1)) := by
  unfold std_rotate
  have a1 : (l.reverse.drop (l.length - dest)).reverse = l.take dest := by
    rw [List.drop_reverse, List.reverse_reverse]; congr 1; omega
  have a2 : (l.reverse.take (l.length - source - 1)).reverse = l.drop (source + 1) := by
    rw [List.take_reverse, List.reverse_reverse]; congr 1; omega
  have a3 : ((l.reverse.take (l.length - source)).drop (l.length - source - 1)).reverse
      = [l[source]] := by
    rw [List.take_reverse, List.drop_reverse]
    simp only [List.reverse_reverse, List.length_drop]
    have e1 : l.length - (l.length - source) = source := by omega
    have e2 : l.length - source - (l.length - source - 1) = 1 := by omega
    rw [e1, e2, List.drop_eq_getElem_cons h2]
    rfl
  have a4 : ((l.reverse.take (l.length - dest)).drop (l.length - source)).reverse
      = (l.drop dest).take (source - dest) := by
    rw [List.take_reverse, List.drop_reverse]
    simp only [List.reverse_reverse, List.length_drop]
    have e1 : l.length - (l.length - dest) = dest := by omega
    have e2 : l.length - dest - (l.length - source) = source - dest := by omega
    rw [e1, e2]
  simp only [List.reverse_append, a1, a2, a3, a4]
  simp

theorem split_backward (l : List Pointer) (source dest : Nat) (h1 : dest < source)
    (h2 : source < l.length) :
    l = (l.take dest ++ (l.drop dest).take (source - dest)) ++ l[source] :: l.drop (source + 1) := by
  have e : l[source] :: l.drop (source + 1) = (l.drop dest).drop (source - dest) := by
    rw [List.drop_drop, ← List.drop_eq_getElem_cons (by omega)]; congr 1; omega
  rw [e, List.append_assoc, List.take_append_drop, List.take_append_drop]

theorem moved_forward_get (l : List Pointer) (source dest : Nat) (h1 : source < dest)
    (h2 : dest < l.length) (k : Nat) :
    (l.take source ++ ((l.drop (source + 1)).take (dest - source) ++
        l[source] :: l.drop (dest + 1)))[k]? =
      if k < source then l[k]? else if k < dest then l[k + 1]? else if k = dest then
        l[source]? else l[k]? := by
  have hlen : (l.take source).length = source := by rw [List.length_take]; omega
  have hlen2 : ((l.drop (source + 1)).take (dest - source)).length = dest - source := by
    rw [List.length_take, List.length_drop]; omega
  by_cases c1 : k < source
  · rw [List.getElem?_append_left (by omega), List.getElem?_take_of_lt c1, if_pos c1]
  · rw [List.getElem?_append_right (by omega), hlen, if_neg c1]
    by_cases c2 : k < dest
    · rw [List.getElem?_append_left (by omega), List.getElem?_take_of_lt (by omega),
        List.getElem?_drop, if_pos c2]
      congr 1; omega
    · rw [List.getElem?_append_right (by omega), hlen2, if_neg c2]
      by_cases c3 : k = dest
      · subst c3
        have : k - source - (k - source) = 0 := by omega
        rw [this, if_pos rfl]
        simp
      · rw [if_neg c3]
        obtain ⟨j, hj⟩ : ∃ j, k - source - (dest - source) = j + 1 := ⟨k - dest - 1, by omega⟩
        rw [hj, List.getElem?_cons_succ, List.getElem?_drop]
        congr 1; omega

theorem moved_backward_get (l : List Pointer) (source dest : Nat) (h1 : dest < source)
    (h2 : source < l.length) (k : Nat) :
    (l.take dest ++ l[source] :: ((l.drop dest).take (source - dest) ++
        l.drop (source + 1)))[k]? =
      if k < dest then l[k]? else if k = dest then l[source]? else if k ≤ source then
        l[k - 1]? else l[k]? := by
  have hlen : (l.take dest).length = dest := by rw [List.length_take]; omega
  have hlen2 : ((l.drop dest).take (source - dest)).length = source - dest := by
    rw [List.length_take, List.length_drop]; omega
  by_cases c1 : k < dest
  · rw [List.getElem?_append_left (by omega), List.getElem?_take_of_lt c1, if_pos c1]
  · rw [List.getElem?_append_right (by omega), hlen, if_neg c1]
    by_cases c2 : k = dest
    · subst c2
      rw [Nat.sub_self, if_pos rfl]
      simp
    · rw [if_neg c2]
      obtain ⟨j, hj⟩ : ∃ j, k - dest = j + 1 := ⟨k - dest - 1, by omega⟩
      rw [hj, List.getElem?_cons_succ]
      by_cases c3 : k ≤ source
      · rw [List.getElem?_append_left (by omega), List.getElem?_take_of_lt (by omega),
          List.getElem?_drop, if_pos c3]
        congr 1; omega
      · rw [List.getElem?_append_right (by omega), hlen2, List.getElem?_drop, if_neg c3]
        congr 1; omega

theorem eraseIdx_hole_at (pre : List Pointer) (x : Pointer) (post : List Pointer) (n : Nat)
    (h : pre.length = n) : (pre ++ x :: post).eraseIdx n = pre ++ post := by
  subst h; exact eraseIdx_hole pre x post

theorem insertIdx_hole_at (pre : List Pointer) (x : Pointer) (post : List Pointer) (n : Nat)
    (h : pre.length = n) : (pre ++ post).insertIdx n x = pre ++ x :: post := by
  subst h; exact insertIdx_hole pre x post

theorem erase_insert_same (l : List Pointer) (i : Nat) (h : i < l.length) :
    (l.eraseIdx i).insertIdx i l[i] = l := by
  have hl : (l.take i).length = i := by rw [List.length_take]; omega
  rw [List.eraseIdx_eq_take_drop_succ, insertIdx_hole_at _ _ _ _ hl,
    ← List.drop_eq_getElem_cons h, List.take_append_drop]

theorem erase_insert_forward (l : List Pointer) (source dest : Nat) (h1 : source < dest)
    (h2 : dest < l.length) :
    (l.eraseIdx source).insertIdx dest l[source] =
      l.take source ++ ((l.drop (source + 1)).take (dest - source) ++
        l[source] :: l.drop (dest + 1)) := by
  have hl : (l.take source).length = source := by rw [List.length_take]; omega
  have hl2 : (l.take source ++ (l.drop (source + 1)).take (dest - source)).length = dest := by
    rw [List.length_append, List.length_take, List.length_take, List.length_drop]; omega
  have e1 : l.eraseIdx source = (l.take source ++
      (l.drop (source + 1)).take (dest - source)) ++ l.drop (dest + 1) := by
    have e := eraseIdx_hole_at (l.take source) l[source]
      ((l.drop (source + 1)).take (dest - source) ++ l.drop (dest + 1)) source hl
    rw [← split_forward l source dest h1 h2] at e
    rw [e, List.append_assoc]
  rw [e1, insertIdx_hole_at _ _ _ _ hl2, List.append_assoc]

theorem erase_insert_backward (l : List Pointer) (source dest : Nat) (h1 : dest < source)
    (h2 : source < l.length) :
    (l.eraseIdx source).insertIdx dest l[source] =
      l.take dest ++ l[source] :: ((l.drop dest).take (source - dest) ++
        l.drop (source + 1)) := by
  have hl : (l.take dest).length = dest := by rw [List.length_take]; omega
  have hl2 : (l.take dest ++ (l.drop dest).take (source - dest)).length = source := by
    rw [List.length_append, List.length_take, List.length_take, List.length_drop]; omega
  have e1 : l.eraseIdx source = l.take dest ++
      ((l.drop dest).take (source - dest) ++ l.drop (source + 1)) := by
    have e := eraseIdx_hole_at (l.take dest ++ (l.drop dest).take (source - dest)) l[source]
      (l.drop (source + 1)) source hl2
    rw [← split_backward l source dest h1 h2] at e
    rw [e, List.append_assoc]
  rw [e1, insertIdx_hole_at _ _ _ _ hl]

/-- The child sequence after `move_child`. -/
theorem move_child_children (s : State) (this : Pointer) (source dest : Nat) :
    ((move_child s this source dest).heap this).m_children =
      if source = dest then (s.heap this).m_children
      else if source < dest then
        std_rotate (s.heap this).m_children source (source + 1) (dest + 1)
      else
        (std_rotate (s.heap this).m_children.reverse
          ((s.heap this).m_children.length - source - 1)
          ((s.heap this).m_children.length - source)
          ((s.heap this).m_children.length - dest)).reverse := by
  unfold move_child
  by_cases h1 : source = dest
  · simp [h1]
  · by_cases h2 : source < dest
    · simp [h1, h2]
    · simp [h1, h2]

/-- C10: for in-range indices, `move_child(source, dest)` turns the child sequence into the
one obtained by removing the entry at `source` and inserting it at `dest`: the moved entry is
at `dest`, the entries between the two positions shift by one toward `source`, every other
entry keeps its index, nothing changes when `source = dest`, and no counter changes. -/
theorem move_child_relocates (s : State) (this : Pointer) (source dest : Nat)
    (hs : source < (s.heap this).m_children.length)
    (hd : dest < (s.heap this).m_children.length) :
    ((move_child s this source dest).heap this).m_children =
      ((s.heap this).m_children.eraseIdx source).insertIdx dest
        (s.heap this).m_children[source] ∧
    (∀ k, ((move_child s this source dest).heap this).m_children[k]? =
      if k = dest then (s.heap this).m_children[source]?
      else if source ≤ k ∧ k < dest then (s.heap this).m_children[k + 1]?
      else if dest < k ∧ k ≤ source then (s.heap this).m_children[k - 1]?
      else (s.heap this).m_children[k]?) ∧
    (source = dest → move_child s this source dest = s) ∧
    (∀ q, ((move_child s this source dest).heap q).m_count = (s.heap q).m_count) := by
  refine ⟨?_, ?_, ?_, ?_⟩
  · rw [move_child_children]
    by_cases h1 : source = dest
    · subst h1
      rw [if_pos rfl]
      exact (erase_insert_same _ _ hs).symm
    · rw [if_neg h1]
      by_cases h2 : source < dest
      · rw [if_pos h2, rotate_forward _ _ _ h2 hd]
        exact (erase_insert_forward _ _ _ h2 hd).symm
      · rw [if_neg h2]
        have h3 : dest < source := by omega
        rw [rotate_backward _ _ _ h3 hs]
        exact (erase_insert_backward _ _ _ h3 hs).symm
  · intro k
    rw [move_child_children]
    by_cases h1 : source = dest
    · subst h1
      rw [if_pos rfl]
      by_cases hk : k = source
      · rw [if_pos hk, hk]
      · rw [if_neg hk, if_neg (by omega), if_neg (by omega)]
    · rw [if_neg h1]
      by_cases h2 : source < dest
      · rw [if_pos h2, rotate_forward _ _ _ h2 hd, moved_forward_get _ _ _ h2 hd]
        split_ifs <;> first | rfl | (exfalso; omega)
      · rw [if_neg h2]
        have h3 : dest < source := by omega
        rw [rotate_backward _ _ _ h3 hs, moved_backward_get _ _ _ h3 hs]
        split_ifs <;> first | rfl | (exfalso; omega)
  · intro h
    simp [move_child, h]
  · intro q
    unfold move_child
    by_cases h1 : source = dest
    · simp [h1]
    · by_cases h2 : source < dest
      · simp [h1, h2]
      · simp [h1, h2]

/-- C10 on the sequence of the test: `[A, B, C]` becomes `[A, C, B]` by `move_child(1, 2)`
and then `[B, A, C]` by `move_child(2, 0)` (A, B, C at the addresses 11, 12, 13). -/
theorem move_child_relocates_witness :
    ((move_child (State.of [(10, ⟨1, [11, 12, 13]⟩)] []) 10 1 2).heap 10).m_children
      = [11, 13, 12] ∧
    ((move_child (move_child (State.of [(10, ⟨1, [11, 12, 13]⟩)] []) 10 1 2) 10 2 0).heap
      10).m_children = [12, 11, 13] :=
  ⟨(move_child_relocates (State.of [(10, ⟨1, [11, 12, 13]⟩)] []) 10 1 2
      (by decide) (by decide)).1.trans (by decide),
    (move_child_relocates (move_child (State.of [(10, ⟨1, [11, 12, 13]⟩)] []) 10 1 2) 10 2 0
      (by decide) (by decide)).1.trans (by decide)⟩

/-- C11: for in-range indices, `move_child(source, dest)` permutes the child sequence: the
sequence after the call is a permutation of the one before, so the length and the
multiplicity of every address are the same. -/
theorem move_child_permutes (s : State) (this : Pointer) (source dest : Nat)
    (hs : source < (s.heap this).m_children.length)
    (hd : dest < (s.heap this).m_children.length) :
    ((move_child s this source dest).heap this).m_children.Perm (s.heap this).m_children ∧
    ((move_child s this source dest).heap this).m_children.length =
      (s.heap this).m_children.length ∧
    (∀ a, ((move_child s this source dest).heap this).m_children.count a =
      (s.heap this).m_children.count a) := by
  have hperm : ((move_child s this source dest).heap this).m_children.Perm
      (s.heap this).m_children := by
    rw [move_child_children]
    by_cases h1 : source = dest
    · rw [if_pos h1]
    · rw [if_neg h1]
      by_cases h2 : source < dest
      · rw [if_pos h2, rotate_forward _ _ _ h2 hd]
        have e := split_forward (s.heap this).m_children source dest h2 hd
        exact (List.Perm.append_left _ List.perm_middle).trans (List.Perm.of_eq e.symm)
      · rw [if_neg h2]
        have h3 : dest < source := by omega
        rw [rotate_backward _ _ _ h3 hs]
        have e := split_backward (s.heap this).m_children source dest h3 hs
        refine List.Perm.trans ?_ (List.Perm.of_eq e.symm)
        rw [List.append_assoc]
        exact List.Perm.append_left _ List.perm_middle.symm
  exact ⟨hperm, hperm.length_eq, fun a => hperm.count_eq a⟩

/-- C11 on the sequence `[11, 12, 13, 12]`, moving the entry at 3 to position 0. -/
theorem move_child_permutes_witness :
    ((move_child (State.of [(10, ⟨1, [11, 12, 13, 12]⟩)] []) 10 3 0).heap 10).m_children.count
      12 = 2 ∧
    ((move_child (State.of [(10, ⟨1, [11, 12, 13, 12]⟩)] []) 10 3 0).heap 10).m_children.length
      = 4 :=
  ⟨((move_child_permutes (State.of [(10, ⟨1, [11, 12, 13, 12]⟩)] []) 10 3 0
      (by decide) (by decide)).2.2 12).trans (by decide),
    (move_child_permutes (State.of [(10, ⟨1, [11, 12, 13, 12]⟩)] []) 10 3 0
      (by decide) (by decide)).2.1.trans (by decide)⟩

/-! ## Assignments, `swap` and `reset` -/

theorem State.eq_of_fields (a b : State) (h1 : a.heap = b.heap) (h2 : a.handles = b.handles)
    (h3 : a.temps = b.temps) (h4 : a.deleted = b.deleted) : a = b := by
  cases a; cases b
  simp only at h1 h2 h3 h4
  subst h1 h2 h3 h4
  rfl

theorem State.set_m_ptr_var_same (s : State) (i : Nat) :
    s.set_m_ptr (Loc.var i) (s.handles i) = s := by
  apply State.eq_of_fields
  · rfl
  · funext j
    by_cases h : j = i
    · simp [State.set_m_ptr, h]
    · simp [State.set_m_ptr, h]
  · rfl
  · rfl

/-- C16: self-move-assignment `p = std::move(p)` returns the state as it is, for every
handle `p` (variable, temporary or vector element, empty or not) and whatever `delete this`
would do: the address held, every counter and the deletion log are unchanged. -/
theorem self_move_assign_identity (del : State → Pointer → Option State) (s : State) (p : Loc) :
    move_assign del s p p = some s := by
  simp [move_assign]

/-- C17: assigning to a handle the address it already holds is a no-op, by raw-address
assignment `p = p.get()`, by copy assignment from any handle holding the same address, and
by `p = p`: the state is returned as it is, whatever `delete this` would do. -/
theorem assign_same_address_noop (del : State → Pointer → Option State) (s : State)
    (p other : Loc) :
    assign_raw del s p (CsIntrusivePointer.get s p) = some s ∧
    (s.m_ptr other = s.m_ptr p → copy_assign del s p other = some s) ∧
    copy_assign del s p p = some s := by
  refine ⟨by simp [assign_raw, CsIntrusivePointer.get], ?_, by simp [copy_assign, assign_raw]⟩
  intro h
  simp [copy_assign, assign_raw, h]

/-- C17 on the test `release_b`/`assign`: a handle of a fresh object is assigned its own
address and itself; a second handle to the same object is assigned to it. -/
theorem assign_same_address_noop_witness :
    assign_raw (delete_this 0) shared_pair (Loc.var 0) 10 = some shared_pair ∧
    copy_assign (delete_this 0) shared_pair (Loc.var 0) (Loc.var 1) = some shared_pair ∧
    copy_assign (delete_this 0) shared_pair (Loc.var 0) (Loc.var 0) = some shared_pair :=
  ⟨(assign_same_address_noop (delete_this 0) shared_pair (Loc.var 0) (Loc.var 1)).1,
    (assign_same_address_noop (delete_this 0) shared_pair (Loc.var 0) (Loc.var 1)).2.1
      (by decide),
    (assign_same_address_noop (delete_this 0) shared_pair (Loc.var 0) (Loc.var 1)).2.2⟩

/-- C18: for handle variables `a` and `b` (equal or not), the member `swap` and the free
function `swap` exchange the two held addresses and leave the heap, hence every counter,
unchanged; swapping twice restores the state, and swapping a handle with itself returns the
state as it is. -/
theorem swap_exchanges (s : State) (a b : Nat) :
    (swap s (Loc.var a) (Loc.var b)).m_ptr (Loc.var a) = s.m_ptr (Loc.var b) ∧
    (swap s (Loc.var a) (Loc.var b)).m_ptr (Loc.var b) = s.m_ptr (Loc.var a) ∧
    (swap s (Loc.var a) (Loc.var b)).heap = s.heap ∧
    (swap s (Loc.var a) (Loc.var b)).deleted = s.deleted ∧
    free_swap s (Loc.var a) (Loc.var b) = swap s (Loc.var a) (Loc.var b) ∧
    swap (swap s (Loc.var a) (Loc.var b)) (Loc.var a) (Loc.var b) = s ∧
    swap s (Loc.var a) (Loc.var a) = s := by
  refine ⟨?_, ?_, rfl, rfl, rfl, ?_, ?_⟩
  · by_cases h : a = b
    · subst h; simp [swap, State.set_m_ptr, State.m_ptr]
    · simp [swap, State.set_m_ptr, State.m_ptr, h]
  · simp [swap]
  · apply State.eq_of_fields
    · rfl
    · funext j
      by_cases h : a = b
      · subst h
        by_cases hj : j = a <;> simp [swap, State.set_m_ptr, State.m_ptr, hj]
      · by_cases hja : j = a
        · subst hja
          simp [swap, State.set_m_ptr, State.m_ptr, h]
        · by_cases hjb : j = b
          · subst hjb
            simp [swap, State.set_m_ptr, State.m_ptr, h, Ne.symm h]
          · simp [swap, State.set_m_ptr, State.m_ptr, hja, hjb]
    · rfl
    · rfl
  · apply State.eq_of_fields
    · rfl
    · funext j
      by_cases hj : j = a <;> simp [swap, State.set_m_ptr, State.m_ptr, hj]
    · rfl
    · rfl

theorem Closed.of_children_eq {s σ : State} {F : List Pointer} (h : Closed s F)
    (hch : ∀ q, (σ.heap q).m_children = (s.heap q).m_children) : Closed σ F := by
  intro x hx c hc hn
  rw [hch x] at hc
  exact h x hx c hc hn

/-- The destruction of one handle to the object at `c`, whose count is between 1 and the
largest `std::size_t`: the count drops by one; when it was 1 the object is disposed, once,
together with what it owns inside the closed set `F`, which does not contain `c`. -/
theorem dtor_effect (F : List Pointer) (fuel : Nat) (σ : State) (c : Pointer)
    (hc : c ≠ nullptr) (h0 : 0 < (σ.heap c).m_count) (hmax : (σ.heap c).m_count < SIZE_MODULUS)
    (hdisp : (σ.heap c).m_count = 1 → Closed σ F ∧
      (∀ x ∈ (σ.heap c).m_children, x ≠ nullptr → x ∈ F) ∧ c ∉ F ∧ F.length + 1 < fuel) :
    ∃ σ', dtor (delete_this fuel) σ c = some σ' ∧ σ'.handles = σ.handles ∧
      σ'.temps = σ.temps ∧
      (σ'.heap c).m_count = (σ.heap c).m_count - 1 ∧
      (∀ x, x ≠ c → ((σ.heap c).m_count ≠ 1 ∨ x ∉ F) → σ'.heap x = σ.heap x) ∧
      ((σ.heap c).m_count ≠ 1 → σ'.deleted = σ.deleted ∧
        (σ'.heap c).m_children = (σ.heap c).m_children) ∧
      ((σ.heap c).m_count = 1 → σ'.deleted.count c = σ.deleted.count c + 1) := by
  by_cases h1 : (σ.heap c).m_count = 1
  · obtain ⟨hcl, hl, hcF, hf⟩ := hdisp h1
    obtain ⟨σ', e, sh⟩ := dec_ref_count_dispose F fuel σ c h1 hcl hl hf
    refine ⟨σ', by simpa [dtor, hc] using e, by rw [sh.handles]; rfl, by rw [sh.temps]; rfl,
      ?_, ?_, fun h => absurd h1 h, ?_⟩
    · rw [sh.outside c hcF, h1]; simp [disposing]
    · intro x hx hor
      rcases hor with h | h
      · exact absurd h1 h
      · rw [sh.outside x h]; simp [disposing, State.set_children, State.set_count, hx]
    · intro _
      obtain ⟨extra, he, hm⟩ := sh.deleted
      have hno : extra.count c = 0 := List.count_eq_zero.mpr (fun hin => hcF (hm c hin))
      rw [he]
      simp [disposing, List.count_append, hno]
  · have e : dtor (delete_this fuel) σ c = some (σ.set_count c ((σ.heap c).m_count - 1)) := by
      simp only [dtor, ne_eq, hc, not_false_eq_true, if_true]
      rw [dec_ref_count_keep _ σ c h1, dec_wrap _ h0 hmax]
    refine ⟨_, e, rfl, rfl, by simp, ?_, fun _ => ⟨rfl, by simp⟩, fun h => absurd h h1⟩
    intro x hx _
    simp [State.set_count, hx]

/-- C19: for a non-empty handle variable `p` whose target has count `n` (between 1 and the
largest `std::size_t`), `reset()` and its alias `clear()` leave `p` empty with `use_count` 0
and the count of the former target at `n - 1`; the target is disposed (once) exactly when
`n = 1`, in which case the objects reachable from it (closed set `F`) must not contain it.
A second `reset()` changes nothing, and `reset()` on any empty handle returns the state as
it is. -/
theorem reset_releases (F : List Pointer) (fuel : Nat) (s : State) (p : Nat)
    (hp : s.m_ptr (Loc.var p) ≠ nullptr)
    (h0 : 0 < (s.heap (s.m_ptr (Loc.var p))).m_count)
    (hmax : (s.heap (s.m_ptr (Loc.var p))).m_count < SIZE_MODULUS)
    (hdisp : (s.heap (s.m_ptr (Loc.var p))).m_count = 1 → Closed s F ∧
      (∀ x ∈ (s.heap (s.m_ptr (Loc.var p))).m_children, x ≠ nullptr → x ∈ F) ∧
      s.m_ptr (Loc.var p) ∉ F ∧ F.length + 1 < fuel) :
    (∃ s', reset (delete_this fuel) s (Loc.var p) = some s' ∧
      CsIntrusivePointer.clear (delete_this fuel) s (Loc.var p) = some s' ∧
      is_null s' (Loc.var p) = true ∧
      use_count s' (Loc.var p) = 0 ∧
      (s'.heap (s.m_ptr (Loc.var p))).m_count = (s.heap (s.m_ptr (Loc.var p))).m_count - 1 ∧
      ((s.heap (s.m_ptr (Loc.var p))).m_count ≠ 1 → s'.deleted = s.deleted) ∧
      ((s.heap (s.m_ptr (Loc.var p))).m_count = 1 →
        s'.deleted.count (s.m_ptr (Loc.var p)) = s.deleted.count (s.m_ptr (Loc.var p)) + 1) ∧
      reset (delete_this fuel) s' (Loc.var p) = some s') ∧
    (∀ (del : State → Pointer → Option State) (s0 : State) (q : Nat),
      s0.m_ptr (Loc.var q) = nullptr → reset del s0 (Loc.var q) = some s0) := by
  have hempty : ∀ (del : State → Pointer → Option State) (s0 : State) (q : Nat),
      s0.m_ptr (Loc.var q) = nullptr → reset del s0 (Loc.var q) = some s0 := by
    intro del s0 q hq
    have hq' : s0.handles q = nullptr := hq
    have e := State.set_m_ptr_var_same s0 q
    rw [hq'] at e
    simp [reset, hq, e]
  refine ⟨?_, hempty⟩
  obtain ⟨σ', e, _, _, hcnt, _, hkeep, hdel⟩ :=
    dtor_effect F fuel s (s.m_ptr (Loc.var p)) hp h0 hmax hdisp
  have e' : dec_ref_count (delete_this fuel) s (s.m_ptr (Loc.var p))
      CsIntrusiveAction.Normal = some σ' := by
    simpa [dtor, hp] using e
  have hr : reset (delete_this fuel) s (Loc.var p) =
      some (σ'.set_m_ptr (Loc.var p) nullptr) := by
    simp [reset, hp, e']
  refine ⟨σ'.set_m_ptr (Loc.var p) nullptr, hr, hr, by simp [is_null], by simp [use_count],
    by simpa using hcnt, ?_, ?_, ?_⟩
  · intro h; simpa using (hkeep h).1
  · intro h; simpa using hdel h
  · exact hempty _ _ p (by simp)

/-- C19 on the test `reset`: the only handle to a fresh object is reset, and reset again. -/
theorem reset_releases_witness :
    ∃ s', reset (delete_this 2) (make_intrusive State.init (Loc.var 0) 10) (Loc.var 0)
        = some s' ∧
      is_null s' (Loc.var 0) = true ∧ use_count s' (Loc.var 0) = 0 ∧
      (s'.heap 10).m_count = 0 ∧ s'.deleted.count 10 = 1 ∧
      reset (delete_this 2) s' (Loc.var 0) = some s' := by
  obtain ⟨s', e, _, h1, h2, h3, _, h5, h6⟩ := (reset_releases [] 2
    (make_intrusive State.init (Loc.var 0) 10) 0 (by decide) (by decide) (by decide)
    (fun _ => ⟨by intro x hx; simp at hx, by decide, by decide, by decide⟩)).1
  exact ⟨s', e, h1, h2, h3, h5 (by decide), h6⟩

theorem State.set_count_restore (s : State) (a : Pointer) (m : Nat) :
    ((s.set_count a m).set_count a (s.heap a).m_count).heap = s.heap := by
  funext x
  by_cases h : x = a
  · subst h; simp [State.set_count]
  · simp [State.set_count, h]

/-- C20 fails as stated: handle variable 0 holds the only handle to the parent at 10 whose
child entry holds the object at 11 (count 2, variable 1 holds it too). `reset(11)` on
variable 0 makes it hold 11, but disposing the parent releases the child entry, so the count
of 11 is 2 before and after, not raised by 1. -/
theorem reset_raw_counterexample :
    parent_and_child.bind (fun s =>
      (reset_raw (delete_this 2) s (Loc.var 0) 11).map
        (fun s' => (s.m_ptr (Loc.var 0), (s.heap 11).m_count,
          s'.m_ptr (Loc.var 0), (s'.heap 11).m_count, s'.deleted))) =
      some (10, 2, 11, 2, [10]) := by
  decide

/-- C20 (amended): after `p.reset(q)` the handle variable `p`, which held `a`, holds `q`. If
`q` differs from `a`: the count of a non-null `q` is raised by one, provided that `q` is not
among the objects reachable from `a` (closed set `F`) in case `a` is disposed; the count of a
non-null `a` is lowered by one and `a` is disposed, once, exactly when its count was 1. If
`q` equals `a`, the heap (every count) and the deletion log are unchanged. Counts are
positive for the address held and stay below the largest `std::size_t`. -/
theorem reset_raw_replaces (F : List Pointer) (fuel : Nat) (s : State) (p : Nat) (q : Pointer)
    (ha : s.m_ptr (Loc.var p) ≠ nullptr → 0 < (s.heap (s.m_ptr (Loc.var p))).m_count ∧
      (s.heap (s.m_ptr (Loc.var p))).m_count < SIZE_MODULUS)
    (hq : q ≠ nullptr → (s.heap q).m_count + 1 < SIZE_MODULUS)
    (hdisp : s.m_ptr (Loc.var p) ≠ nullptr → q ≠ s.m_ptr (Loc.var p) →
      (s.heap (s.m_ptr (Loc.var p))).m_count = 1 → Closed s F ∧
      (∀ x ∈ (s.heap (s.m_ptr (Loc.var p))).m_children, x ≠ nullptr → x ∈ F) ∧
      s.m_ptr (Loc.var p) ∉ F ∧ F.length + 1 < fuel) :
    ∃ s', reset_raw (delete_this fuel) s (Loc.var p) q = some s' ∧
      s'.m_ptr (Loc.var p) = q ∧
      (∀ j, j ≠ p → s'.m_ptr (Loc.var j) = s.m_ptr (Loc.var j)) ∧
      (q ≠ s.m_ptr (Loc.var p) → q ≠ nullptr →
        (s.m_ptr (Loc.var p) ≠ nullptr → (s.heap (s.m_ptr (Loc.var p))).m_count = 1 → q ∉ F) →
        (s'.heap q).m_count = (s.heap q).m_count + 1) ∧
      (q ≠ s.m_ptr (Loc.var p) → s.m_ptr (Loc.var p) ≠ nullptr →
        (s'.heap (s.m_ptr (Loc.var p))).m_count = (s.heap (s.m_ptr (Loc.var p))).m_count - 1 ∧
        ((s.heap (s.m_ptr (Loc.var p))).m_count ≠ 1 → s'.deleted = s.deleted) ∧
        ((s.heap (s.m_ptr (Loc.var p))).m_count = 1 →
          s'.deleted.count (s.m_ptr (Loc.var p)) =
            s.deleted.count (s.m_ptr (Loc.var p)) + 1)) ∧
      (q = s.m_ptr (Loc.var p) → s'.heap = s.heap ∧ s'.deleted = s.deleted) := by
  -- the state before the temporary is destroyed
  have hv : ∀ σ : State, (swap σ (Loc.tmp 0) (Loc.var p)).m_ptr (Loc.tmp 0) =
      σ.m_ptr (Loc.var p) := by
    intro σ; simp [swap, State.set_m_ptr, State.m_ptr]
  have hp2 : ∀ σ : State, (swap σ (Loc.tmp 0) (Loc.var p)).m_ptr (Loc.var p) =
      σ.m_ptr (Loc.tmp 0) := by
    intro σ; simp [swap, State.set_m_ptr, State.m_ptr]
  have hheap : ∀ σ : State, (swap σ (Loc.tmp 0) (Loc.var p)).heap = σ.heap := fun _ => rfl
  have hdel : ∀ σ : State, (swap σ (Loc.tmp 0) (Loc.var p)).deleted = σ.deleted := fun _ => rfl
  have c1 : (ctor_raw s (Loc.tmp 0) q).m_ptr (Loc.var p) = s.m_ptr (Loc.var p) := by
    by_cases hqn : q = nullptr
    · simp [ctor_raw, hqn, State.set_m_ptr, State.m_ptr]
    · simp [ctor_raw, hqn, State.set_m_ptr, State.m_ptr, inc_ref_count, cs_inc_ref_count]
  have c2 : (ctor_raw s (Loc.tmp 0) q).m_ptr (Loc.tmp 0) = q := by
    by_cases hqn : q = nullptr
    · simp [ctor_raw, hqn]
    · simp [ctor_raw, hqn, State.m_ptr, State.set_m_ptr, inc_ref_count, cs_inc_ref_count]
  have c3 : (ctor_raw s (Loc.tmp 0) q).heap =
      if q = nullptr then s.heap else (s.set_count q ((s.heap q).m_count + 1)).heap := by
    by_cases hqn : q = nullptr
    · simp [ctor_raw, hqn]
    · have e : ctor_raw s (Loc.tmp 0) q = inc_ref_count (s.set_m_ptr (Loc.tmp 0) q) q := by
        simp [ctor_raw, hqn]
      rw [e, if_neg hqn]
      simp only [inc_ref_count, cs_inc_ref_count, State.set_count, State.set_m_ptr_tmp_heap,
        inc_wrap _ (hq hqn)]
  have c4 : (ctor_raw s (Loc.tmp 0) q).deleted = s.deleted := by
    by_cases hqn : q = nullptr
    · simp [ctor_raw, hqn]
    · simp [ctor_raw, hqn, inc_ref_count, cs_inc_ref_count]
  have c5 : ∀ j, j ≠ p → (swap (ctor_raw s (Loc.tmp 0) q) (Loc.tmp 0) (Loc.var p)).handles j =
      s.handles j := by
    intro j hj
    by_cases hqn : q = nullptr
    · simp [swap, ctor_raw, hqn, State.set_m_ptr, State.m_ptr, hj]
    · simp [swap, ctor_raw, hqn, State.set_m_ptr, State.m_ptr, hj, inc_ref_count,
        cs_inc_ref_count]
  have hrun : reset_raw (delete_this fuel) s (Loc.var p) q =
      dtor (delete_this fuel) (swap (ctor_raw s (Loc.tmp 0) q) (Loc.tmp 0) (Loc.var p))
        (s.m_ptr (Loc.var p)) := by
    simp only [reset_raw, hv, c1]
  rw [hrun]
  by_cases han : s.m_ptr (Loc.var p) = nullptr
  · -- the handle was empty
    refine ⟨swap (ctor_raw s (Loc.tmp 0) q) (Loc.tmp 0) (Loc.var p), by simp [dtor, han],
      by rw [hp2, c2], c5, ?_, fun _ h => absurd han h, ?_⟩
    · intro _ hqn _
      rw [hheap, c3, if_neg hqn]; simp
    · intro hqa
      have hqn : q = nullptr := hqa.trans han
      exact ⟨by rw [hheap, c3, if_pos hqn], by rw [hdel, c4]⟩
  · obtain ⟨h0, hmax⟩ := ha han
    by_cases hqa : q = s.m_ptr (Loc.var p)
    · -- the same address: one increment, one decrement
      have hqn : q ≠ nullptr := fun h => han (hqa.symm.trans h)
      have hcnt : ((swap (ctor_raw s (Loc.tmp 0) q) (Loc.tmp 0) (Loc.var p)).heap
          (s.m_ptr (Loc.var p))).m_count = (s.heap (s.m_ptr (Loc.var p))).m_count + 1 := by
        rw [hheap, c3, if_neg hqn, ← hqa]; simp
      obtain ⟨σ', e, _, _, hc', _, hkeep, _⟩ := dtor_effect [] fuel
        (swap (ctor_raw s (Loc.tmp 0) q) (Loc.tmp 0) (Loc.var p)) (s.m_ptr (Loc.var p)) han
        (by rw [hcnt]; omega) (by rw [hcnt, ← hqa]; exact hq hqn)
        (fun h => by rw [hcnt] at h; omega)
      have hne1 : ((swap (ctor_raw s (Loc.tmp 0) q) (Loc.tmp 0) (Loc.var p)).heap
          (s.m_ptr (Loc.var p))).m_count ≠ 1 := by rw [hcnt]; omega
      have e2 : dtor (delete_this fuel)
          (swap (ctor_raw s (Loc.tmp 0) q) (Loc.tmp 0) (Loc.var p)) (s.m_ptr (Loc.var p)) =
          some ((swap (ctor_raw s (Loc.tmp 0) q) (Loc.tmp 0) (Loc.var p)).set_count
            (s.m_ptr (Loc.var p)) (s.heap (s.m_ptr (Loc.var p))).m_count) := by
        simp only [dtor, ne_eq, han, not_false_eq_true, if_true]
        rw [dec_ref_count_keep _ _ _ hne1, hcnt, dec_wrap _ (by omega) (by rw [← hqa]; exact hq hqn)]
        simp
      refine ⟨_, e2, ?_, ?_, fun h => absurd hqa h, fun h => absurd hqa h, fun _ => ⟨?_, ?_⟩⟩
      · rw [State.m_ptr_set_count, hp2, c2]
      · intro j hj
        rw [State.m_ptr_set_count]
        exact c5 j hj
      · funext x
        by_cases hx : x = s.m_ptr (Loc.var p)
        · subst hx
          have := congrFun c3 (s.m_ptr (Loc.var p))
          simp only [State.set_count, hheap, if_true]
          rw [this, if_neg hqn, ← hqa]
          simp [State.set_count]
        · have := congrFun c3 x
          simp only [State.set_count, hheap, if_neg hx]
          rw [this, if_neg hqn]
          simp [State.set_count, hqa, hx]
      · simp [hdel, c4]
    · -- different addresses: the old target is released after the new one is counted
      have hcnt : ((swap (ctor_raw s (Loc.tmp 0) q) (Loc.tmp 0) (Loc.var p)).heap
          (s.m_ptr (Loc.var p))) = s.heap (s.m_ptr (Loc.var p)) := by
        rw [hheap, c3]
        by_cases hqn : q = nullptr
        · rw [if_pos hqn]
        · rw [if_neg hqn]; simp [State.set_count, Ne.symm hqa]
      have hch : ∀ x, ((swap (ctor_raw s (Loc.tmp 0) q) (Loc.tmp 0) (Loc.var p)).heap
          x).m_children = (s.heap x).m_children := by
        intro x
        rw [hheap, c3]
        by_cases hqn : q = nullptr
        · rw [if_pos hqn]
        · rw [if_neg hqn]; simp
      obtain ⟨σ', e, hh, _, hc', hout, hkeep, hdisposed⟩ := dtor_effect F fuel
        (swap (ctor_raw s (Loc.tmp 0) q) (Loc.tmp 0) (Loc.var p)) (s.m_ptr (Loc.var p)) han
        (by rw [hcnt]; exact h0) (by rw [hcnt]; exact hmax)
        (fun h => by
          rw [hcnt] at h
          obtain ⟨g1, g2, g3, g4⟩ := hdisp han hqa h
          exact ⟨g1.of_children_eq hch, by rw [hcnt]; exact g2, g3, g4⟩)
      rw [hcnt] at hc' hkeep hdisposed hout
      refine ⟨σ', e, ?_, ?_, ?_, fun _ _ => ⟨hc', ?_, ?_⟩, fun h => absurd h hqa⟩
      · show σ'.handles p = q
        rw [hh]
        exact (hp2 _).trans c2
      · intro j hj
        show σ'.handles j = s.handles j
        rw [hh]
        exact c5 j hj
      · intro _ hqn hqF
        have hor : (s.heap (s.m_ptr (Loc.var p))).m_count ≠ 1 ∨ q ∉ F := by
          by_cases h1 : (s.heap (s.m_ptr (Loc.var p))).m_count = 1
          · exact Or.inr (hqF han h1)
          · exact Or.inl h1
        rw [hout q hqa hor, hheap, c3, if_neg hqn]
        simp
      · intro h1
        rw [(hkeep h1).1, hdel, c4]
      · intro h1
        rw [hdisposed h1, hdel, c4]

/-- C20 (amended) on the test `reset`, section two: variables 0 and 2 hold the object at 10
(count 2), variable 1 holds the object at 11 (count 1); after `reset(11)` on variable 0 the
counts are 1 for the object at 10 and 2 for the object at 11. -/
theorem reset_raw_replaces_witness :
    ∃ s', reset_raw (delete_this 2)
        (State.of [(10, ⟨2, []⟩), (11, ⟨1, []⟩)] [10, 11, 10]) (Loc.var 0) 11 = some s' ∧
      s'.m_ptr (Loc.var 0) = 11 ∧ s'.m_ptr (Loc.var 1) = 11 ∧ s'.m_ptr (Loc.var 2) = 10 ∧
      (s'.heap 11).m_count = 2 ∧ (s'.heap 10).m_count = 1 := by
  obtain ⟨s', e, h1, h2, h3, h4, _⟩ := reset_raw_replaces [] 2
    (State.of [(10, ⟨2, []⟩), (11, ⟨1, []⟩)] [10, 11, 10]) 0 11
    (fun _ => ⟨by decide, by decide⟩) (fun _ => by decide)
    (fun _ _ h => absurd h (by decide))
  exact ⟨s', e, h1, h2 1 (by decide), h2 2 (by decide),
    h3 (by decide) (by decide) (fun _ h => absurd h (by decide)),
    (h4 (by decide) (by decide)).1⟩

/-! ## `clear()` of a node manager -/

theorem dtor_only_shrinks (del : State → Pointer → Option State) (h : OnlyShrinks del)
    (σ : State) (c : Pointer) (σ' : State) (e : dtor del σ c = some σ') :
    ∀ q, (σ'.heap q).m_children = (σ.heap q).m_children ∨ (σ'.heap q).m_children = [] := by
  intro q
  by_cases hc : c = nullptr
  · simp [dtor, hc] at e
    rw [← e]; exact Or.inl rfl
  · simp only [dtor, ne_eq, hc, not_false_eq_true, if_true, dec_ref_count,
      cs_dec_ref_count] at e
    by_cases h1 : (σ.heap c).m_count = 1
    · simp only [h1, if_true] at e
      have := h _ _ _ e q
      simpa using this
    · simp only [h1, if_false] at e
      simp at e
      rw [← e]; simp

theorem destroy_elements_only_shrinks (del : State → Pointer → Option State)
    (h : OnlyShrinks del) :
    ∀ (l : List Pointer) (σ σ' : State), destroy_elements del σ l = some σ' →
      ∀ q, (σ'.heap q).m_children = (σ.heap q).m_children ∨ (σ'.heap q).m_children = []
  | [], σ, σ', e => by
    simp [destroy_elements] at e
    intro q; rw [← e]; exact Or.inl rfl
  | c :: l, σ, σ', e => by
    simp only [destroy_elements] at e
    cases h1 : dtor del σ c with
    | none => simp [h1] at e
    | some σ1 =>
      simp only [h1] at e
      intro q
      have a1 := dtor_only_shrinks del h σ c σ1 h1 q
      have a2 := destroy_elements_only_shrinks del h l σ1 σ' e q
      rcases a2 with a2 | a2
      · rw [a2]; exact a1
      · exact Or.inr a2

theorem delete_this_only_shrinks : ∀ fuel, OnlyShrinks (delete_this fuel)
  | 0 => by intro σ p σ' e; simp [delete_this] at e
  | fuel + 1 => by
    intro σ p σ' e q
    simp only [delete_this, CsNodeManager.clear] at e
    have a := destroy_elements_only_shrinks _ (delete_this_only_shrinks fuel) _ _ _ e q
    rcases a with a | a
    · by_cases hq : q = p
      · right; rw [a]; simp [hq]
      · left; rw [a]; simp [hq]
    · exact Or.inr a

theorem OnlyShrinks.keeps_empty {del : State → Pointer → Option State} (h : OnlyShrinks del)
    (this : Pointer) : KeepsEmpty this del := by
  intro σ p σ' he e
  rcases h σ p σ' e this with a | a
  · rw [a, he]
  · exact a

theorem dtor_keeps_empty (this : Pointer) (del : State → Pointer → Option State)
    (h : KeepsEmpty this del) (σ : State) (c : Pointer) (σ' : State)
    (he : (σ.heap this).m_children = []) (e : dtor del σ c = some σ') :
    (σ'.heap this).m_children = [] := by
  by_cases hc : c = nullptr
  · simp [dtor, hc] at e
    rw [← e]; exact he
  · simp only [dtor, ne_eq, hc, not_false_eq_true, if_true, dec_ref_count,
      cs_dec_ref_count] at e
    by_cases h1 : (σ.heap c).m_count = 1
    · simp only [h1, if_true] at e
      exact h _ _ _ (by simpa using he) e
    · simp only [h1, if_false] at e
      simp at e
      rw [← e]; simpa using he

/-- Two disposal routines that agree on states in which the child sequence of `this` is
empty release a vector of handles alike, from such a state. -/
theorem destroy_elements_agree (this : Pointer) (del1 del2 : State → Pointer → Option State)
    (hk : KeepsEmpty this del2)
    (hag : ∀ σ p, (σ.heap this).m_children = [] → del1 σ p = del2 σ p) :
    ∀ (l : List Pointer) (σ : State), (σ.heap this).m_children = [] →
      destroy_elements del1 σ l = destroy_elements del2 σ l
  | [], _, _ => rfl
  | c :: l, σ, he => by
    have hd : dtor del1 σ c = dtor del2 σ c := by
      by_cases hc : c = nullptr
      · simp [dtor, hc]
      · simp only [dtor, ne_eq, hc, not_false_eq_true, if_true, dec_ref_count,
          cs_dec_ref_count]
        by_cases h1 : (σ.heap c).m_count = 1
        · simp only [h1, if_true]
          exact hag _ _ (by simpa using he)
        · simp [h1]
    simp only [destroy_elements, hd]
    cases h2 : dtor del2 σ c with
    | none => rfl
    | some σ1 =>
      exact destroy_elements_agree this del1 del2 hk hag l σ1
        (dtor_keeps_empty this del2 hk σ c σ1 he h2)

theorem delete_this_observing_agrees (this : Pointer) :
    ∀ (fuel : Nat) (σ : State) (p : Pointer), (σ.heap this).m_children = [] →
      delete_this_observing this fuel σ p = delete_this fuel σ p
  | 0, _, _, _ => rfl
  | fuel + 1, σ, p, he => by
    simp only [delete_this_observing, delete_this, he, List.isEmpty_nil, if_true,
      CsNodeManager.clear]
    apply destroy_elements_agree this _ _ ((delete_this_only_shrinks fuel).keeps_empty this)
      (delete_this_observing_agrees this fuel)
    by_cases hp : this = p
    · simp [hp]
    · simp [hp]; exact he

/-- C15: `clear()` empties the child sequence of the manager before the first detached child
is released. Whatever runs for the disposal of a child and reads `children()` of the manager
sees size 0: a disposal routine that checks this behaves exactly as the unchecked one
(given that it adds no child itself), also when every destructor of the cascade checks it,
at any depth; the same holds in the destructor of the manager, which calls `clear()`; and
the sequence is empty afterwards. -/
theorem clear_detaches_before_release (this : Pointer) :
    (∀ (del : State → Pointer → Option State) (s : State), KeepsEmpty this del →
      CsNodeManager.clear (observing this del) s this = CsNodeManager.clear del s this) ∧
    (∀ (fuel : Nat) (s : State),
      CsNodeManager.clear (delete_this_observing this fuel) s this =
        CsNodeManager.clear (delete_this fuel) s this) ∧
    (∀ (fuel : Nat) (s : State),
      delete_this (fuel + 1) s this =
        CsNodeManager.clear (delete_this_observing this fuel)
          { s with deleted := s.deleted ++ [this] } this) ∧
    (∀ (fuel : Nat) (s s' : State), CsNodeManager.clear (delete_this fuel) s this = some s' →
      (s'.heap this).m_children = []) := by
  refine ⟨?_, ?_, ?_, ?_⟩
  · intro del s hk
    simp only [CsNodeManager.clear]
    apply destroy_elements_agree this _ _ hk
    · intro σ p he
      simp [observing, he]
    · simp
  · intro fuel s
    simp only [CsNodeManager.clear]
    apply destroy_elements_agree this _ _ ((delete_this_only_shrinks fuel).keeps_empty this)
      (delete_this_observing_agrees this fuel)
    simp
  · intro fuel s
    simp only [delete_this, CsNodeManager.clear]
    symm
    apply destroy_elements_agree this _ _ ((delete_this_only_shrinks fuel).keeps_empty this)
      (delete_this_observing_agrees this fuel)
    simp
  · intro fuel s s' e
    simp only [CsNodeManager.clear] at e
    rcases destroy_elements_only_shrinks _ (delete_this_only_shrinks fuel) _ _ _ e this
      with a | a
    · rw [a]; simp
    · exact a

/-- C15 on the manager at 10 of `shared_grandchild`: with every destructor checking that
the manager has no children, `clear()` succeeds and disposes the objects at 11 and 12. -/
theorem clear_detaches_before_release_witness :
    shared_grandchild.bind (fun s =>
      (CsNodeManager.clear (observing 10 (delete_this 3)) s 10).map
        (fun s' => ((s'.heap 10).m_children, s'.deleted))) = some ([], [11, 12]) ∧
    shared_grandchild.bind (fun s =>
      (CsNodeManager.clear (delete_this_observing 10 3) s 10).map
        (fun s' => ((s'.heap 10).m_children, s'.deleted))) = some ([], [11, 12]) := by
  constructor
  · have h : ∀ s, CsNodeManager.clear (observing 10 (delete_this 3)) s 10 =
        CsNodeManager.clear (delete_this 3) s 10 := fun s =>
      (clear_detaches_before_release 10).1 (delete_this 3) s
        ((delete_this_only_shrinks 3).keeps_empty 10)
    simp only [h]
    decide
  · have h : ∀ s, CsNodeManager.clear (delete_this_observing 10 3) s 10 =
        CsNodeManager.clear (delete_this 3) s 10 := fun s =>
      (clear_detaches_before_release 10).2.1 3 s
    simp only [h]
    decide

/-- What else the destruction of one handle to `c` leaves alone: the deletion count of every
other object outside `F`. -/
theorem dtor_frame (F : List Pointer) (fuel : Nat) (σ : State) (c : Pointer)
    (hc : c ≠ nullptr)
    (hdisp : (σ.heap c).m_count = 1 → Closed σ F ∧
      (∀ x ∈ (σ.heap c).m_children, x ≠ nullptr → x ∈ F) ∧ c ∉ F ∧ F.length + 1 < fuel)
    (σ' : State) (e : dtor (delete_this fuel) σ c = some σ') :
    ∀ x, x ≠ c → x ∉ F → σ'.deleted.count x = σ.deleted.count x := by
  intro x hx hxF
  by_cases h1 : (σ.heap c).m_count = 1
  · obtain ⟨hcl, hl, _, hf⟩ := hdisp h1
    obtain ⟨σ1, e1, sh⟩ := dec_ref_count_dispose F fuel σ c h1 hcl hl hf
    have e' : dtor (delete_this fuel) σ c = some σ1 := by simpa [dtor, hc] using e1
    have hs : σ1 = σ' := by rw [e] at e'; exact (Option.some.inj e').symm
    subst hs
    obtain ⟨extra, he, hm⟩ := sh.deleted
    have hno : extra.count x = 0 := List.count_eq_zero.mpr (fun hin => hxF (hm x hin))
    have h2 : List.count x (c :: extra) = 0 := by
      rw [List.count_cons_of_ne hx]; exact hno
    rw [he]
    simp [disposing, List.count_append, h2]
  · simp only [dtor, ne_eq, hc, not_false_eq_true, if_true] at e
    rw [dec_ref_count_keep _ σ c h1] at e
    rw [← Option.some.inj e]
    rfl

/-- The release loop of `clear()`: the handles of `rest` are destroyed in order. Every
non-null entry is outside the closed set `F` that holds the children of the entries, and its
count is at least its multiplicity in `rest`. Then each object outside `F` loses as many
counts as it has entries, and is disposed, once, exactly when that brings its count to 0. -/
theorem release_children (F : List Pointer) (fuel : Nat) (hf : F.length + 1 < fuel) :
    ∀ (rest : List Pointer) (σ : State), Closed σ F →
      (∀ c ∈ rest, c ≠ nullptr →
        (∀ x ∈ (σ.heap c).m_children, x ≠ nullptr → x ∈ F) ∧ c ∉ F ∧
        rest.count c ≤ (σ.heap c).m_count ∧ (σ.heap c).m_count < SIZE_MODULUS) →
      ∃ σ', destroy_elements (delete_this fuel) σ rest = some σ' ∧
        (∀ q, (σ'.heap q).m_children = (σ.heap q).m_children ∨ (σ'.heap q).m_children = []) ∧
        (∀ c, c ≠ nullptr → c ∉ F →
          (σ'.heap c).m_count = (σ.heap c).m_count - rest.count c ∧
          σ'.deleted.count c = σ.deleted.count c +
            (if rest.count c ≠ 0 ∧ (σ.heap c).m_count = rest.count c then 1 else 0))
  | [], σ, _, _ => ⟨σ, rfl, fun _ => Or.inl rfl, fun c _ _ => by simp⟩
  | c :: rest, σ, hcl, hall => by
    by_cases hc : c = nullptr
    · -- an empty entry: nothing is released
      subst hc
      obtain ⟨σ', e, hsh, hcnt⟩ := release_children F fuel hf rest σ hcl (by
        intro x hx hxn
        obtain ⟨g1, g2, g3, g4⟩ := hall x (List.mem_cons_of_mem _ hx) hxn
        refine ⟨g1, g2, ?_, g4⟩
        rw [List.count_cons_of_ne hxn] at g3
        exact g3)
      refine ⟨σ', by simp [destroy_elements, dtor, e], hsh, ?_⟩
      intro x hxn hxF
      rw [List.count_cons_of_ne hxn]
      exact hcnt x hxn hxF
    · obtain ⟨g1, g2, g3, g4⟩ := hall c (List.mem_cons_self _ _) hc
      rw [List.count_cons_self] at g3
      have hdisp : (σ.heap c).m_count = 1 → Closed σ F ∧
          (∀ x ∈ (σ.heap c).m_children, x ≠ nullptr → x ∈ F) ∧ c ∉ F ∧ F.length + 1 < fuel :=
        fun _ => ⟨hcl, g1, g2, hf⟩
      obtain ⟨σ1, e1, _, _, hc1, hout, hkeep, hdisposed⟩ :=
        dtor_effect F fuel σ c hc (by omega) g4 hdisp
      have hshr := dtor_only_shrinks _ (delete_this_only_shrinks fuel) σ c σ1 e1
      have hfr := dtor_frame F fuel σ c hc hdisp σ1 e1
      have hcl1 : Closed σ1 F := by
        intro x hx y hy hyn
        rcases hshr x with a | a
        · rw [a] at hy; exact hcl x hx y hy hyn
        · rw [a] at hy; simp at hy
      have hother : ∀ x, x ≠ c → x ∉ F → σ1.heap x = σ.heap x :=
        fun x hx hxF => hout x hx (Or.inr hxF)
      obtain ⟨σ', e, hsh, hcnt⟩ := release_children F fuel hf rest σ1 hcl1 (by
        intro x hx hxn
        obtain ⟨k1, k2, k3, k4⟩ := hall x (List.mem_cons_of_mem _ hx) hxn
        refine ⟨?_, k2, ?_, ?_⟩
        · intro y hy hyn
          rcases hshr x with a | a
          · rw [a] at hy; exact k1 y hy hyn
          · rw [a] at hy; simp at hy
        · by_cases hxc : x = c
          · subst hxc
            rw [hc1]; omega
          · rw [hother x hxc k2]
            rw [List.count_cons_of_ne hxc] at k3
            exact k3
        · by_cases hxc : x = c
          · subst hxc
            rw [hc1]; omega
          · rw [hother x hxc k2]; exact k4)
      refine ⟨σ', by simp [destroy_elements, e1, e], ?_, ?_⟩
      · intro q
        rcases hsh q with a | a
        · rw [a]; exact hshr q
        · exact Or.inr a
      · intro x hxn hxF
        obtain ⟨r1, r2⟩ := hcnt x hxn hxF
        by_cases hxc : x = c
        · subst hxc
          rw [List.count_cons_self, r1, r2, hc1]
          refine ⟨by omega, ?_⟩
          by_cases h1 : (σ.heap x).m_count = 1
          · rw [hdisposed h1]
            have h0 : rest.count x = 0 := by omega
            simp [h0, h1]
          · rw [(hkeep h1).1]
            by_cases h2 : (σ.heap x).m_count = rest.count x + 1
            · have h3 : rest.count x ≠ 0 := by omega
              have h4 : (σ.heap x).m_count - 1 = rest.count x := by omega
              simp [h2, h3]
            · have h4 : ¬ ((σ.heap x).m_count - 1 = rest.count x) := by omega
              simp [h2, h4]
        · rw [List.count_cons_of_ne hxc, r1, r2, hother x hxc hxF,
            hfr x hxc hxF]
          exact ⟨rfl, rfl⟩

/-- C14 fails as stated: in `shared_grandchild` the manager at 10 has the children 11 and
12, one entry each, and 12 (count 2) is also a child of 11. After `clear()` the count of 12
is lowered by 2, not by its one entry, and 12 is disposed although its count minus its
entries is 1. -/
theorem clear_counterexample :
    shared_grandchild.bind (fun s =>
      (CsNodeManager.clear (delete_this 3) s 10).map
        (fun s' => ((s.heap 10).m_children, (s.heap 12).m_count,
          (s'.heap 10).m_children, (s'.heap 12).m_count, s'.deleted))) =
      some ([11, 12], 2, [], 0, [11, 12]) := by
  decide

/-- C14 (amended): after `clear()` the child sequence of the manager is empty. Let `F` be a
closed set that holds the children of the children, and let no child be in `F` (no child is
owned by another child, or by itself, directly or indirectly); let the count of each
non-null child be at least the number of its entries and below `2 ^ 64`. Then each child has
its count lowered by exactly the number of entries that referred to it, and it is disposed,
once, exactly when that brings its count to 0; it survives when its count exceeds the number
of entries. -/
theorem clear_releases_entries (F : List Pointer) (fuel : Nat) (s : State) (this : Pointer)
    (hcl : Closed s F) (hf : F.length + 1 < fuel)
    (hall : ∀ c ∈ (s.heap this).m_children, c ≠ nullptr →
      (∀ x ∈ (s.heap c).m_children, x ≠ nullptr → x ∈ F) ∧ c ∉ F ∧
      (s.heap this).m_children.count c ≤ (s.heap c).m_count ∧
      (s.heap c).m_count < SIZE_MODULUS) :
    ∃ s', CsNodeManager.clear (delete_this fuel) s this = some s' ∧
      (s'.heap this).m_children = [] ∧
      (∀ c ∈ (s.heap this).m_children, c ≠ nullptr →
        (s'.heap c).m_count = (s.heap c).m_count - (s.heap this).m_children.count c ∧
        ((s.heap c).m_count = (s.heap this).m_children.count c →
          s'.deleted.count c = s.deleted.count c + 1) ∧
        ((s.heap this).m_children.count c < (s.heap c).m_count →
          s'.deleted.count c = s.deleted.count c)) := by
  have hcl' : Closed (s.set_children this []) F := by
    intro x hx y hy hyn
    by_cases hxt : x = this
    · simp [hxt] at hy
    · simp [hxt] at hy
      exact hcl x hx y hy hyn
  obtain ⟨s', e, hsh, hcnt⟩ := release_children F fuel hf (s.heap this).m_children
    (s.set_children this []) hcl' (by
      intro c hc hcn
      obtain ⟨g1, g2, g3, g4⟩ := hall c hc hcn
      refine ⟨?_, g2, by simpa using g3, by simpa using g4⟩
      intro y hy hyn
      by_cases hct : c = this
      · simp [hct] at hy
      · simp [hct] at hy
        exact g1 y hy hyn)
  refine ⟨s', e, ?_, ?_⟩
  · rcases hsh this with a | a
    · rw [a]; simp
    · exact a
  · intro c hc hcn
    obtain ⟨_, g2, _, _⟩ := hall c hc hcn
    obtain ⟨r1, r2⟩ := hcnt c hcn g2
    have hpos : (s.heap this).m_children.count c ≠ 0 :=
      Nat.pos_iff_ne_zero.mp (List.count_pos_iff.mpr hc)
    simp only [State.set_children_count, State.set_children_deleted] at r1 r2
    refine ⟨r1, ?_, ?_⟩
    · intro h
      rw [r2]; simp [hpos, h]
    · intro h
      rw [r2]
      have : ¬ ((s.heap c).m_count = (s.heap this).m_children.count c) := by omega
      simp [this]

/-- C14 (amended) on the test `clear`: the manager at 10 has the children 11, held by a
handle outside as well (count 2), and 12 (count 1, owning 13): 11 survives with count 1, and
12 is disposed. -/
theorem clear_releases_entries_witness :
    ∃ s', CsNodeManager.clear (delete_this 3)
        (State.of [(10, ⟨0, [11, 12]⟩), (11, ⟨2, []⟩), (12, ⟨1, [13]⟩), (13, ⟨1, []⟩)] [11])
        10 = some s' ∧
      (s'.heap 10).m_children = [] ∧ (s'.heap 11).m_count = 1 ∧ s'.deleted.count 11 = 0 ∧
      (s'.heap 12).m_count = 0 ∧ s'.deleted.count 12 = 1 := by
  obtain ⟨s', e, h1, h2⟩ := clear_releases_entries [13] 3
    (State.of [(10, ⟨0, [11, 12]⟩), (11, ⟨2, []⟩), (12, ⟨1, [13]⟩), (13, ⟨1, []⟩)] [11]) 10
    (by
      intro x hx c hc _
      simp only [List.mem_singleton] at hx
      subst hx
      have h13 : ((State.of [(10, ⟨0, [11, 12]⟩), (11, ⟨2, []⟩), (12, ⟨1, [13]⟩),
          (13, ⟨1, []⟩)] [11]).heap 13).m_children = [] := by decide
      rw [h13] at hc
      simp at hc)
    (by decide)
    (by
      intro c hc hcn
      have hc' : c = 11 ∨ c = 12 := by
        have : c ∈ [11, 12] := hc
        simpa using this
      rcases hc' with h | h <;> subst h <;> decide)
  obtain ⟨a1, _, a3⟩ := h2 11 (by decide) (by decide)
  obtain ⟨b1, b2, _⟩ := h2 12 (by decide) (by decide)
  exact ⟨s', e, h1, a1.trans (by decide), (a3 (by decide)).trans (by decide),
    b1.trans (by decide), (b2 (by decide)).trans (by decide)⟩

/-! ## `visit`, `find_children` -/

theorem walk_append {α : Type} (f : α → Pointer → VisitStatus × α) :
    ∀ (l1 l2 : List Pointer) (acc : α),
      walk f (l1 ++ l2) acc =
        if (walk f l1 acc).1 = VisitStatus.Finished then walk f l1 acc
        else walk f l2 (walk f l1 acc).2
  | [], l2, acc => by simp [walk]
  | p :: l1, l2, acc => by
    rcases hf : f acc p with ⟨r, acc1⟩
    cases r with
    | VisitMore =>
      simp only [List.cons_append, walk, hf]
      exact walk_append f l1 l2 acc1
    | Finished => simp [walk, hf]

theorem getD_of_drop (l : List Pointer) (i : Nat) (c : Pointer) (rest : List Pointer)
    (h : l.drop i = c :: rest) : l.getD i nullptr = c ∧ l.drop (i + 1) = rest := by
  have hlt : i < l.length := by
    by_contra hge
    rw [List.drop_eq_nil_of_le (by omega)] at h
    cases h
  rw [List.drop_eq_getElem_cons hlt] at h
  injection h with h1 h2
  exact ⟨by rw [List.getD_eq_getElem _ _ hlt, h1], h2⟩

/-- The loop of a recursive `visit<U>` walks the pre-order sequence of the forest below the
entries it iterates over. The visitor call on each node is described by `g` (status and
captures) and keeps the invariant `Inv`, which is indexed by the nodes still to come and
implies that the child vectors are those of `s0`; `Fin` holds when the walk finishes. -/
theorem visit_loop_walks {α : Type} (same : Bool) (isU : Pointer → Bool)
    (lambda : α → State → Loc → Option (VisitStatus × α × State))
    (del : State → Pointer → Option State) (s0 : State)
    (g : α → Pointer → VisitStatus × α)
    (Inv : List Pointer → α → State → Prop) (Fin : α → State → Prop)
    (hch : ∀ rem acc σ, Inv rem acc σ → ∀ q, (σ.heap q).m_children = (s0.heap q).m_children)
    (hstep : ∀ rem acc σ p this i, p ≠ nullptr → Inv (p :: rem) acc σ →
      σ.m_ptr (Loc.child this i) = p →
      ∃ σ', visit_invoke same isU lambda del σ (Loc.child this i) acc =
          some ((g acc p).1, (g acc p).2, σ') ∧
        ((g acc p).1 = VisitStatus.VisitMore → Inv rem (g acc p).2 σ') ∧
        ((g acc p).1 = VisitStatus.Finished → Fin (g acc p).2 σ'))
    (kids l : List Pointer) (h : PreOrder s0 kids l) :
    ∃ N, ∀ fuel, N ≤ fuel → ∀ this i rem acc σ,
      (s0.heap this).m_children.drop i = kids → Inv (l ++ rem) acc σ →
      ∃ σ', visit_loop (visit_body same isU lambda del
            (fun s item acc =>
              visit same isU lambda del fuel VisitChildren.Recursive s item acc)
            VisitChildren.Recursive) this kids.length i σ acc =
          some ((walk g l acc).1, (walk g l acc).2, σ') ∧
        ((walk g l acc).1 = VisitStatus.VisitMore → Inv rem (walk g l acc).2 σ') ∧
        ((walk g l acc).1 = VisitStatus.Finished → Fin (walk g l acc).2 σ') := by
  induction h with
  | nil =>
    refine ⟨0, ?_⟩
    intro fuel _ this i rem acc σ _ hinv
    exact ⟨σ, rfl, fun _ => by simpa using hinv, fun h => by simp [walk] at h⟩
  | cons c rest sub tail hc _ _ ihsub ihtail =>
    obtain ⟨N1, ih1⟩ := ihsub
    obtain ⟨N2, ih2⟩ := ihtail
    refine ⟨max (N1 + 1) N2, ?_⟩
    intro fuel hfuel this i rem acc σ hdrop hinv
    obtain ⟨f, rfl⟩ : ∃ f, fuel = f + 1 := ⟨fuel - 1, by omega⟩
    have hN1 : N1 ≤ f := by omega
    have hN2 : N2 ≤ f + 1 := by omega
    obtain ⟨hget, hdrop'⟩ := getD_of_drop _ i c rest hdrop
    have hitem : σ.m_ptr (Loc.child this i) = c := by
      simp only [State.m_ptr]
      rw [hch _ _ _ hinv this]; exact hget
    have hinv' : Inv (c :: (sub ++ tail ++ rem)) acc σ := by
      simpa [List.append_assoc] using hinv
    obtain ⟨σ1, e1, hmore, hfin⟩ := hstep _ acc σ c this i hc hinv' hitem
    rcases hg : g acc c with ⟨r, acc1⟩
    rw [hg] at e1 hmore hfin
    simp only at e1 hmore hfin
    cases r with
    | Finished =>
      refine ⟨σ1, ?_, ?_, ?_⟩
      · simp only [List.length_cons, visit_loop, visit_body, e1, walk, hg]
      · intro h; simp [walk, hg] at h
      · intro _; simpa [walk, hg] using hfin rfl
    | VisitMore =>
      have hinv1 : Inv (sub ++ (tail ++ rem)) acc1 σ1 := by
        simpa [List.append_assoc] using hmore rfl
      have hitem1 : σ1.m_ptr (Loc.child this i) = c := by
        simp only [State.m_ptr]
        rw [hch _ _ _ hinv1 this]; exact hget
      have hlen : (σ1.heap c).m_children.length = (s0.heap c).m_children.length := by
        rw [hch _ _ _ hinv1 c]
      obtain ⟨σ2, e2, hmore2, hfin2⟩ := ih1 f hN1 c 0 (tail ++ rem) acc1 σ1 (by simp) hinv1
      have hbody : visit_body same isU lambda del
          (fun s item acc =>
            visit same isU lambda del (f + 1) VisitChildren.Recursive s item acc)
          VisitChildren.Recursive σ (Loc.child this i) acc =
          some ((walk g sub acc1).1, (walk g sub acc1).2, σ2) := by
        simp only [visit_body, e1, if_true, hitem1, visit, hlen]
        exact e2
      have hwalk : walk g (c :: sub ++ tail) acc =
          if (walk g sub acc1).1 = VisitStatus.Finished then walk g sub acc1
          else walk g tail (walk g sub acc1).2 := by
        simp only [List.cons_append, walk, hg]
        exact walk_append g sub tail acc1
      rcases hw : walk g sub acc1 with ⟨r2, acc2⟩
      rw [hw] at hbody hmore2 hfin2 hwalk
      simp only at hbody hmore2 hfin2 hwalk
      cases r2 with
      | Finished =>
        rw [if_pos rfl] at hwalk
        refine ⟨σ2, ?_, ?_, ?_⟩
        · simp only [List.length_cons, visit_loop, hbody, hwalk]
        · intro h; rw [hwalk] at h; cases h
        · intro _; rw [hwalk]; exact hfin2 rfl
      | VisitMore =>
        rw [if_neg (by simp)] at hwalk
        obtain ⟨σ3, e3, hmore3, hfin3⟩ :=
          ih2 (f + 1) hN2 this (i + 1) rem acc2 σ2 hdrop' (hmore2 rfl)
        refine ⟨σ3, ?_, ?_, ?_⟩
        · simp only [List.length_cons, visit_loop, hbody, hwalk]
          exact e3
        · rw [hwalk]; exact hmore3
        · rw [hwalk]; exact hfin3

/-- A recursive `visit<U>` on the manager `this` walks the pre-order sequence of its
descendants, for every amount of fuel from some bound on. -/
theorem visit_walks {α : Type} (same : Bool) (isU : Pointer → Bool)
    (lambda : α → State → Loc → Option (VisitStatus × α × State))
    (del : State → Pointer → Option State) (s0 : State)
    (g : α → Pointer → VisitStatus × α)
    (Inv : List Pointer → α → State → Prop) (Fin : α → State → Prop)
    (hch : ∀ rem acc σ, Inv rem acc σ → ∀ q, (σ.heap q).m_children = (s0.heap q).m_children)
    (hstep : ∀ rem acc σ p this i, p ≠ nullptr → Inv (p :: rem) acc σ →
      σ.m_ptr (Loc.child this i) = p →
      ∃ σ', visit_invoke same isU lambda del σ (Loc.child this i) acc =
          some ((g acc p).1, (g acc p).2, σ') ∧
        ((g acc p).1 = VisitStatus.VisitMore → Inv rem (g acc p).2 σ') ∧
        ((g acc p).1 = VisitStatus.Finished → Fin (g acc p).2 σ'))
    (this : Pointer) (l : List Pointer) (h : PreOrder s0 (s0.heap this).m_children l) :
    ∃ N, ∀ fuel, N ≤ fuel → ∀ acc σ, Inv l acc σ →
      ∃ σ', visit same isU lambda del fuel VisitChildren.Recursive σ this acc =
          some ((walk g l acc).1, (walk g l acc).2, σ') ∧
        ((walk g l acc).1 = VisitStatus.VisitMore → Inv [] (walk g l acc).2 σ') ∧
        ((walk g l acc).1 = VisitStatus.Finished → Fin (walk g l acc).2 σ') := by
  obtain ⟨N, hN⟩ := visit_loop_walks same isU lambda del s0 g Inv Fin hch hstep _ l h
  refine ⟨N + 1, ?_⟩
  intro fuel hfuel acc σ hinv
  obtain ⟨f, rfl⟩ : ∃ f, fuel = f + 1 := ⟨fuel - 1, by omega⟩
  have hlen : (σ.heap this).m_children.length = (s0.heap this).m_children.length := by
    rw [hch _ _ _ hinv this]
  obtain ⟨σ', e, h1, h2⟩ := hN f (by omega) this 0 [] acc σ (by simp) (by simpa using hinv)
  exact ⟨σ', by simp only [visit, hlen]; exact e, h1, h2⟩

theorem walk_on_candidates {α : Type} (same : Bool) (isU : Pointer → Bool)
    (f : α → Pointer → VisitStatus × α) :
    ∀ (l : List Pointer) (acc : α),
      walk (on_candidates same isU f) l acc = walk f (l.filter (assignable same isU)) acc
  | [], _ => rfl
  | p :: l, acc => by
    by_cases hp : assignable same isU p = true
    · rcases hf : f acc p with ⟨r, acc1⟩
      cases r with
      | VisitMore =>
        simp only [walk, on_candidates, hp, if_true, hf, List.filter_cons_of_pos]
        exact walk_on_candidates same isU f l acc1
      | Finished =>
        simp only [walk, on_candidates, hp, if_true, hf, List.filter_cons_of_pos]
    · simp only [walk, on_candidates, hp, if_false, List.filter_cons_of_neg hp]
      exact walk_on_candidates same isU f l acc

theorem walk_traced {α : Type} (f : α → Pointer → VisitStatus × α) :
    ∀ (l : List Pointer) (acc : α) (tr : List (Pointer × VisitStatus)),
      walk (traced f) l (acc, tr) =
        ((walk f l acc).1, ((walk f l acc).2, tr ++ invoked f l acc))
  | [], _, _ => by simp [walk, invoked]
  | p :: l, acc, tr => by
    rcases hf : f acc p with ⟨r, acc1⟩
    cases r with
    | VisitMore =>
      simp only [walk, traced, hf, invoked]
      rw [walk_traced f l acc1]
      simp
    | Finished => simp [walk, traced, hf, invoked]

/-- The calls made by a walk are made on a prefix of the sequence. -/
theorem invoked_initial {α : Type} (f : α → Pointer → VisitStatus × α) :
    ∀ (l : List Pointer) (acc : α), (invoked f l acc).map Prod.fst <+: l
  | [], _ => by simp [invoked]
  | p :: l, acc => by
    rcases hf : f acc p with ⟨r, acc1⟩
    cases r with
    | VisitMore =>
      simp only [invoked, hf, List.map_cons]
      exact (List.prefix_cons_inj p).mpr (invoked_initial f l acc1)
    | Finished =>
      simp only [invoked, hf, List.map_cons, List.map_nil]
      exact (List.prefix_cons_inj p).mpr (List.nil_prefix)

/-- A walk returns `Finished` exactly when one of its calls did. -/
theorem walk_finished_iff {α : Type} (f : α → Pointer → VisitStatus × α) :
    ∀ (l : List Pointer) (acc : α),
      (walk f l acc).1 = VisitStatus.Finished ↔
        ∃ x ∈ invoked f l acc, x.2 = VisitStatus.Finished
  | [], _ => by simp [walk, invoked]
  | p :: l, acc => by
    rcases hf : f acc p with ⟨r, acc1⟩
    cases r with
    | VisitMore =>
      simp only [walk, invoked, hf, List.mem_cons]
      rw [walk_finished_iff f l acc1]
      constructor
      · rintro ⟨x, hx, h⟩
        exact ⟨x, Or.inr hx, h⟩
      · rintro ⟨x, hx | hx, h⟩
        · rw [hx] at h; cases h
        · exact ⟨x, hx, h⟩
    | Finished => simp [walk, invoked, hf]

/-- A call that returns `Finished` is the last call of the walk, and when no call returns
`Finished` the whole sequence is walked. -/
theorem invoked_finished_last {α : Type} (f : α → Pointer → VisitStatus × α) :
    ∀ (l : List Pointer) (acc : α),
      (∀ k p, (invoked f l acc)[k]? = some (p, VisitStatus.Finished) →
        k + 1 = (invoked f l acc).length) ∧
      ((walk f l acc).1 = VisitStatus.VisitMore → (invoked f l acc).map Prod.fst = l)
  | [], _ => by simp [invoked]
  | p :: l, acc => by
    rcases hf : f acc p with ⟨r, acc1⟩
    cases r with
    | VisitMore =>
      obtain ⟨ih1, ih2⟩ := invoked_finished_last f l acc1
      simp only [walk, invoked, hf]
      constructor
      · intro k q hk
        cases k with
        | zero => simp at hk
        | succ k =>
          simp only [List.getElem?_cons_succ] at hk
          simp only [List.length_cons]
          rw [ih1 k q hk]
      · intro h
        simp only [List.map_cons]
        rw [ih2 h]
    | Finished =>
      simp only [walk, invoked, hf]
      constructor
      · intro k q hk
        cases k with
        | zero => rfl
        | succ k => simp at hk
      · intro h; cases h

theorem inc_dec_wrap (c : Nat) (h0 : 0 < c) (hmax : c < SIZE_MODULUS) :
    (c + 1) % SIZE_MODULUS ≠ 1 ∧
    ((c + 1) % SIZE_MODULUS + (SIZE_MODULUS - 1)) % SIZE_MODULUS = c := by
  have hM : SIZE_MODULUS = 18446744073709551616 := by decide
  rw [hM] at hmax ⊢
  omega

/-- A recursive `visit<U>` with a visitor that takes the handle by reference: the status and
the captures are those of walking the candidates of the pre-order sequence, and the heap,
the deletion log and the handle variables are as before. When `T` and `U` differ, every
candidate has a count between 1 and the largest `std::size_t`. -/
theorem visit_by_reference {α : Type} (same : Bool) (isU : Pointer → Bool)
    (f : α → Pointer → VisitStatus × α) (del : State → Pointer → Option State) (s : State)
    (this : Pointer) (l : List Pointer) (htree : PreOrder s (s.heap this).m_children l)
    (hcount : same = false → ∀ p ∈ l, isU p = true →
      0 < (s.heap p).m_count ∧ (s.heap p).m_count < SIZE_MODULUS) :
    ∃ N, ∀ fuel, N ≤ fuel → ∀ acc,
      ∃ s', visit same isU (by_reference f) del fuel VisitChildren.Recursive s this acc =
          some ((walk f (l.filter (assignable same isU)) acc).1,
            (walk f (l.filter (assignable same isU)) acc).2, s') ∧
        s'.heap = s.heap ∧ s'.deleted = s.deleted ∧ s'.handles = s.handles := by
  obtain ⟨N, hN⟩ := visit_walks same isU (by_reference f) del s (on_candidates same isU f)
    (fun rem _ σ => σ.heap = s.heap ∧ σ.deleted = s.deleted ∧ σ.handles = s.handles ∧
      (same = false → ∀ p ∈ rem, isU p = true →
        0 < (s.heap p).m_count ∧ (s.heap p).m_count < SIZE_MODULUS))
    (fun _ σ => σ.heap = s.heap ∧ σ.deleted = s.deleted ∧ σ.handles = s.handles)
    (fun rem acc σ hinv q => by rw [hinv.1])
    (by
      intro rem acc σ p this i hp hinv hitem
      obtain ⟨h1, h2, h3, h4⟩ := hinv
      have hrest : same = false → ∀ q ∈ rem, isU q = true →
          0 < (s.heap q).m_count ∧ (s.heap q).m_count < SIZE_MODULUS :=
        fun hs q hq => h4 hs q (List.mem_cons_of_mem _ hq)
      cases same with
      | true =>
        refine ⟨σ, ?_, fun _ => ⟨h1, h2, h3, hrest⟩, fun _ => ⟨h1, h2, h3⟩⟩
        simp [visit_invoke, by_reference, hitem, on_candidates, assignable]
      | false =>
        by_cases hu : isU p = true
        · obtain ⟨c0, cmax⟩ := h4 rfl p (List.mem_cons_self _ _) hu
          have hc : (σ.heap p).m_count = (s.heap p).m_count := by rw [h1]
          obtain ⟨w1, w2⟩ := inc_dec_wrap _ c0 cmax
          have hcast : dynamic_cast isU p = p := by simp [dynamic_cast, hp, hu]
          have e1 : dynamic_pointer_cast isU σ (Loc.tmp 1) (Loc.child this i) =
              (σ.set_m_ptr (Loc.tmp 1) p).set_count p
                (((s.heap p).m_count + 1) % SIZE_MODULUS) := by
            simp [dynamic_pointer_cast, hitem, hcast, ctor_raw, hp, inc_ref_count,
              cs_inc_ref_count, hc]
          have e2 : dtor del ((σ.set_m_ptr (Loc.tmp 1) p).set_count p
                (((s.heap p).m_count + 1) % SIZE_MODULUS)) p =
              some (((σ.set_m_ptr (Loc.tmp 1) p).set_count p
                (((s.heap p).m_count + 1) % SIZE_MODULUS)).set_count p (s.heap p).m_count) := by
            simp only [dtor, ne_eq, hp, not_false_eq_true, if_true]
            rw [dec_ref_count_keep _ _ _ (by simpa using w1)]
            simp [w2]
          have hheap : (((σ.set_m_ptr (Loc.tmp 1) p).set_count p
                (((s.heap p).m_count + 1) % SIZE_MODULUS)).set_count p
                  (s.heap p).m_count).heap = s.heap := by
            have := State.set_count_restore (σ.set_m_ptr (Loc.tmp 1) p) p
              (((s.heap p).m_count + 1) % SIZE_MODULUS)
            simp only [State.set_m_ptr_tmp_heap, hc] at this
            rw [this, h1]
          refine ⟨_, ?_, fun _ => ⟨hheap, by simpa using h2, by simpa [State.set_m_ptr] using h3,
            hrest⟩, fun _ => ⟨hheap, by simpa using h2, by simpa [State.set_m_ptr] using h3⟩⟩
          simp only [visit_invoke, Bool.false_eq_true, if_false, e1]
          simp only [State.m_ptr_set_count, State.m_ptr_set_tmp_self, ne_eq, hp,
            not_false_eq_true, if_true, by_reference, e2, on_candidates, assignable,
            Bool.false_or, hu]
        · have hcast : dynamic_cast isU p = nullptr := by simp [dynamic_cast, hu]
          refine ⟨σ.set_m_ptr (Loc.tmp 1) nullptr, ?_,
            fun _ => ⟨by simpa using h1, by simpa using h2, by simpa [State.set_m_ptr] using h3,
              hrest⟩,
            fun _ => ⟨by simpa using h1, by simpa using h2,
              by simpa [State.set_m_ptr] using h3⟩⟩
          simp [visit_invoke, dynamic_pointer_cast, hitem, hcast, ctor_raw, on_candidates,
            assignable, hu])
    this l htree
  refine ⟨N, ?_⟩
  intro fuel hfuel acc
  obtain ⟨s', e, hmore, hfin⟩ := hN fuel hfuel acc s ⟨rfl, rfl, rfl, hcount⟩
  rw [walk_on_candidates] at e hmore hfin
  refine ⟨s', e, ?_⟩
  rcases hw : (walk f (l.filter (assignable same isU)) acc).1 with _ | _
  · obtain ⟨a, b, c, _⟩ := hmore hw
    exact ⟨a, b, c⟩
  · exact hfin hw

theorem find_tree_preorder :
    PreOrder find_tree (find_tree.heap 10).m_children [11, 12, 13, 14, 15] :=
  PreOrder.cons 11 [12, 13, 15] [] [12, 13, 14, 15] (by decide) PreOrder.nil
    (PreOrder.cons 12 [13, 15] [] [13, 14, 15] (by decide) PreOrder.nil
      (PreOrder.cons 13 [15] [14] [15] (by decide)
        (PreOrder.cons 14 [] [] [] (by decide) PreOrder.nil PreOrder.nil)
        (PreOrder.cons 15 [] [] [] (by decide) PreOrder.nil PreOrder.nil)))

/-- C13: on a tree below the manager `this` (pre-order sequence `l`, no empty entry), a
recursive `visit<U>` with a visitor `f` that takes the handle by reference and leaves the
heap alone returns, for enough fuel, and leaves the heap, the deletion log and the handle
variables as they were; its status and captures are those of calling `f` along the
candidates of `l` in order up to the first `Finished`. The calls recorded by the traced
visitor are exactly `invoked`: their nodes form a prefix of the candidate sequence, a call
that returns `Finished` is the last call, the prefix is the whole sequence when the status is
`VisitMore`, and the status is `Finished` if and only if some call returned `Finished`. When
`T` and `U` differ, every candidate has a count between 1 and the largest `std::size_t`. -/
theorem visit_stops_at_finished {α : Type} (same : Bool) (isU : Pointer → Bool)
    (f : α → Pointer → VisitStatus × α) (del : State → Pointer → Option State) (s : State)
    (this : Pointer) (l : List Pointer) (htree : PreOrder s (s.heap this).m_children l)
    (hcount : same = false → ∀ p ∈ l, isU p = true →
      0 < (s.heap p).m_count ∧ (s.heap p).m_count < SIZE_MODULUS) :
    ∃ N, ∀ fuel, N ≤ fuel → ∀ acc,
      (∃ s', visit same isU (by_reference f) del fuel VisitChildren.Recursive s this acc =
          some ((walk f (l.filter (assignable same isU)) acc).1,
            (walk f (l.filter (assignable same isU)) acc).2, s') ∧
        s'.heap = s.heap ∧ s'.deleted = s.deleted ∧ s'.handles = s.handles) ∧
      (∃ s', visit same isU (by_reference (traced f)) del fuel VisitChildren.Recursive s this
            (acc, []) =
          some ((walk f (l.filter (assignable same isU)) acc).1,
            ((walk f (l.filter (assignable same isU)) acc).2,
              invoked f (l.filter (assignable same isU)) acc), s')) ∧
      (invoked f (l.filter (assignable same isU)) acc).map Prod.fst <+:
        l.filter (assignable same isU) ∧
      (∀ k p, (invoked f (l.filter (assignable same isU)) acc)[k]? =
          some (p, VisitStatus.Finished) →
        k + 1 = (invoked f (l.filter (assignable same isU)) acc).length) ∧
      ((walk f (l.filter (assignable same isU)) acc).1 = VisitStatus.VisitMore →
        (invoked f (l.filter (assignable same isU)) acc).map Prod.fst =
          l.filter (assignable same isU)) ∧
      ((walk f (l.filter (assignable same isU)) acc).1 = VisitStatus.Finished ↔
        ∃ x ∈ invoked f (l.filter (assignable same isU)) acc, x.2 = VisitStatus.Finished) := by
  obtain ⟨N1, h1⟩ := visit_by_reference same isU f del s this l htree hcount
  obtain ⟨N2, h2⟩ := visit_by_reference same isU (traced f) del s this l htree hcount
  refine ⟨max N1 N2, ?_⟩
  intro fuel hfuel acc
  refine ⟨h1 fuel (le_trans (le_max_left _ _) hfuel) acc, ?_, invoked_initial f _ acc,
    (invoked_finished_last f _ acc).1, (invoked_finished_last f _ acc).2,
    walk_finished_iff f _ acc⟩
  obtain ⟨s', e, _⟩ := h2 fuel (le_trans (le_max_right _ _) hfuel) (acc, [])
  rw [walk_traced] at e
  exact ⟨s', by simpa using e⟩

/-- C13 on the tree of the test `find` with `U` a type that all nodes but 11 have and a
visitor that returns `Finished` on 13: the calls are on 12 and 13 only, and the walk returns
`Finished`. -/
theorem visit_stops_at_finished_witness :
    ∃ N, ∀ fuel, N ≤ fuel →
      ∃ s', visit false (fun p => decide (p ≠ 11))
          (by_reference (traced (fun (_ : Unit) p =>
            (if p = 13 then VisitStatus.Finished else VisitStatus.VisitMore, ()))))
          (delete_this 0) fuel VisitChildren.Recursive find_tree 10 ((), []) =
        some (VisitStatus.Finished,
          ((), [(12, VisitStatus.VisitMore), (13, VisitStatus.Finished)]), s') := by
  obtain ⟨N, h⟩ := visit_stops_at_finished false (fun p => decide (p ≠ 11))
    (fun (_ : Unit) p => (if p = 13 then VisitStatus.Finished else VisitStatus.VisitMore, ()))
    (delete_this 0) find_tree 10 [11, 12, 13, 14, 15] find_tree_preorder
    (fun _ => by decide)
  exact ⟨N, fun fuel hfuel => (h fuel hfuel ()).2.1⟩

theorem walk_push : ∀ (l acc : List Pointer),
    walk (fun (acc : List Pointer) p => (VisitStatus.VisitMore, acc ++ [p])) l acc =
      (VisitStatus.VisitMore, acc ++ l)
  | [], acc => by simp [walk]
  | p :: l, acc => by
    simp only [walk]
    rw [walk_push l (acc ++ [p])]
    simp

/-- The internal visitor of `find_children<U>()` called on a handle to `p`: it appends `p` to
the result and leaves the count of `p` one higher, for the new element of the result. -/
theorem find_children_lambda_effect (del : State → Pointer → Option State)
    (acc : List Pointer) (t : State) (arg : Loc) (p : Pointer) (hitem : t.m_ptr arg = p)
    (hp : p ≠ nullptr) (hmax : (t.heap p).m_count + 2 < SIZE_MODULUS) :
    ∃ t', find_children_lambda del acc t arg = some (VisitStatus.VisitMore, acc ++ [p], t') ∧
      (∀ q, (t'.heap q).m_children = (t.heap q).m_children) ∧
      (∀ q, (t'.heap q).m_count =
        if q = p then (t.heap p).m_count + 1 else (t.heap q).m_count) ∧
      t'.deleted = t.deleted ∧ t'.handles = t.handles ∧
      t'.m_ptr (Loc.tmp 1) = t.m_ptr (Loc.tmp 1) := by
  have w1 : ((t.heap p).m_count + 1) % SIZE_MODULUS = (t.heap p).m_count + 1 :=
    inc_wrap _ (by omega)
  have w2 : ((t.heap p).m_count + 1 + 1) % SIZE_MODULUS = (t.heap p).m_count + 1 + 1 :=
    inc_wrap _ (by omega)
  have w3 : ((t.heap p).m_count + 1 + 1 + (SIZE_MODULUS - 1)) % SIZE_MODULUS =
      (t.heap p).m_count + 1 := by
    rw [dec_wrap _ (by omega) (by omega)]; rfl
  have e1 : copy_ctor t (Loc.tmp 2) arg =
      (t.set_m_ptr (Loc.tmp 2) p).set_count p ((t.heap p).m_count + 1) := by
    simp [copy_ctor, hitem, hp, inc_ref_count, cs_inc_ref_count, w1]
  have e2 : inc_ref_count ((t.set_m_ptr (Loc.tmp 2) p).set_count p ((t.heap p).m_count + 1)) p =
      ((t.set_m_ptr (Loc.tmp 2) p).set_count p ((t.heap p).m_count + 1)).set_count p
        ((t.heap p).m_count + 1 + 1) := by
    simp only [inc_ref_count, cs_inc_ref_count, State.set_count_count, if_true, w2]
  have e3 : dtor del (((t.set_m_ptr (Loc.tmp 2) p).set_count p ((t.heap p).m_count + 1)).set_count
        p ((t.heap p).m_count + 1 + 1)) p =
      some ((((t.set_m_ptr (Loc.tmp 2) p).set_count p ((t.heap p).m_count + 1)).set_count
        p ((t.heap p).m_count + 1 + 1)).set_count p ((t.heap p).m_count + 1)) := by
    simp only [dtor, ne_eq, hp, not_false_eq_true, if_true]
    rw [dec_ref_count_keep _ _ _ (by simp)]
    simp only [State.set_count_count, if_true, w3]
  have hm : ((t.set_m_ptr (Loc.tmp 2) p).set_count p ((t.heap p).m_count + 1)).m_ptr
      (Loc.tmp 2) = p := by
    rw [State.m_ptr_set_count, State.m_ptr_set_tmp_self]
  refine ⟨(((t.set_m_ptr (Loc.tmp 2) p).set_count p ((t.heap p).m_count + 1)).set_count
    p ((t.heap p).m_count + 1 + 1)).set_count p ((t.heap p).m_count + 1),
    ?_, ?_, ?_, ?_, ?_, ?_⟩
  · simp only [find_children_lambda, e1, hm, ne_eq, hp, not_false_eq_true, if_true, e2,
      State.m_ptr_set_count, State.m_ptr_set_tmp_self, e3]
  · intro q; simp
  · intro q
    by_cases hq : q = p <;> simp [hq]
  · simp
  · simp [State.set_m_ptr]
  · rw [State.m_ptr_set_count, State.m_ptr_set_count, State.m_ptr_set_count]
    simp [State.m_ptr, State.set_m_ptr]

/-- One round of the loop of `visit<U>` inside `find_children<U>()`: a candidate is appended
to the result and its count ends one higher; any other node is passed over. -/
theorem find_children_invoke (same : Bool) (isU : Pointer → Bool)
    (del : State → Pointer → Option State) (acc : List Pointer) (σ : State) (item : Loc)
    (p : Pointer) (hitem : σ.m_ptr item = p) (hp : p ≠ nullptr)
    (hmax : assignable same isU p = true → (σ.heap p).m_count + 3 < SIZE_MODULUS) :
    ∃ σ', visit_invoke same isU (find_children_lambda del) del σ item acc =
        some (VisitStatus.VisitMore,
          (if assignable same isU p = true then acc ++ [p] else acc), σ') ∧
      (∀ q, (σ'.heap q).m_children = (σ.heap q).m_children) ∧
      (∀ q, (σ'.heap q).m_count =
        if q = p ∧ assignable same isU p = true then (σ.heap p).m_count + 1
        else (σ.heap q).m_count) ∧
      σ'.deleted = σ.deleted ∧ σ'.handles = σ.handles := by
  cases same with
  | true =>
    obtain ⟨t', e, h1, h2, h3, h4, _⟩ :=
      find_children_lambda_effect del acc σ item p hitem hp (by have := hmax rfl; omega)
    refine ⟨t', ?_, h1, ?_, h3, h4⟩
    · simp [visit_invoke, e, assignable]
    · intro q; rw [h2 q]; simp [assignable]
  | false =>
    by_cases hu : isU p = true
    · have ha : assignable false isU p = true := by simp [assignable, hu]
      have hlt := hmax ha
      have w1 : ((σ.heap p).m_count + 1) % SIZE_MODULUS = (σ.heap p).m_count + 1 :=
        inc_wrap _ (by omega)
      have hcast : dynamic_cast isU p = p := by simp [dynamic_cast, hp, hu]
      have e1 : dynamic_pointer_cast isU σ (Loc.tmp 1) item =
          (σ.set_m_ptr (Loc.tmp 1) p).set_count p ((σ.heap p).m_count + 1) := by
        simp [dynamic_pointer_cast, hitem, hcast, ctor_raw, hp, inc_ref_count,
          cs_inc_ref_count, w1]
      have hm : ((σ.set_m_ptr (Loc.tmp 1) p).set_count p ((σ.heap p).m_count + 1)).m_ptr
          (Loc.tmp 1) = p := by
        rw [State.m_ptr_set_count, State.m_ptr_set_tmp_self]
      have hc : (((σ.set_m_ptr (Loc.tmp 1) p).set_count p ((σ.heap p).m_count + 1)).heap
          p).m_count = (σ.heap p).m_count + 1 := by simp
      obtain ⟨t', e, h1, h2, h3, h4, h5⟩ :=
        find_children_lambda_effect del acc _ (Loc.tmp 1) p hm hp (by rw [hc]; omega)
      rw [hc] at h2
      have hc' : (t'.heap p).m_count = (σ.heap p).m_count + 1 + 1 := by rw [h2 p]; simp
      have w3 : ((σ.heap p).m_count + 1 + 1 + (SIZE_MODULUS - 1)) % SIZE_MODULUS =
          (σ.heap p).m_count + 1 := by
        rw [dec_wrap _ (by omega) (by omega)]; rfl
      have e3 : dtor del t' p = some (t'.set_count p ((σ.heap p).m_count + 1)) := by
        simp only [dtor, ne_eq, hp, not_false_eq_true, if_true]
        rw [dec_ref_count_keep _ _ _ (by rw [hc']; omega), hc', w3]
      refine ⟨t'.set_count p ((σ.heap p).m_count + 1), ?_, ?_, ?_, ?_, ?_⟩
      · simp only [visit_invoke, Bool.false_eq_true, if_false, e1, hm, ne_eq, hp,
          not_false_eq_true, if_true, e, h5, e3, ha]
      · intro q; simp [h1 q]
      · intro q
        by_cases hq : q = p
        · simp [hq, ha]
        · simp [hq, h2 q]
      · simp [h3]
      · simp [h4, State.set_m_ptr]
    · have ha : ¬ assignable false isU p = true := by simp [assignable, hu]
      have hcast : dynamic_cast isU p = nullptr := by simp [dynamic_cast, hu]
      refine ⟨σ.set_m_ptr (Loc.tmp 1) nullptr, ?_, ?_, ?_, ?_, ?_⟩
      · simp [visit_invoke, dynamic_pointer_cast, hitem, hcast, ctor_raw, ha]
      · intro q; simp
      · intro q; simp [ha]
      · simp
      · simp [State.set_m_ptr]

/-- C12: on a tree below the manager `this` (pre-order sequence `l`: every node before its
own children, children in stored order, `this` itself not included, no empty entry),
`find_children<U>()` returns, for enough fuel, handles to exactly the candidates of `l`, in
the order of `l`; a candidate below a node that is no candidate is included. Every count
rises by the number of returned handles to that object, and child vectors, the deletion log
and the handle variables are as before. The counts of the candidates are at least 2 below
the largest `std::size_t` after that rise. -/
theorem find_children_preorder (same : Bool) (isU : Pointer → Bool)
    (del : State → Pointer → Option State) (s : State) (this : Pointer) (l : List Pointer)
    (htree : PreOrder s (s.heap this).m_children l)
    (hmax : ∀ q ∈ l.filter (assignable same isU),
      (s.heap q).m_count + (l.filter (assignable same isU)).count q + 2 < SIZE_MODULUS) :
    ∃ N, ∀ fuel, N ≤ fuel →
      ∃ s', find_children same isU del fuel s this =
          some (l.filter (assignable same isU), s') ∧
        (∀ q, (s'.heap q).m_children = (s.heap q).m_children) ∧
        (∀ q, (s'.heap q).m_count =
          (s.heap q).m_count + (l.filter (assignable same isU)).count q) ∧
        s'.deleted = s.deleted ∧ s'.handles = s.handles := by
  obtain ⟨N, hN⟩ := visit_walks same isU (find_children_lambda del) del s
    (on_candidates same isU (fun (acc : List Pointer) p => (VisitStatus.VisitMore, acc ++ [p])))
    (fun rem acc σ => (∀ q, (σ.heap q).m_children = (s.heap q).m_children) ∧
      (∀ q, (σ.heap q).m_count = (s.heap q).m_count + acc.count q) ∧
      σ.deleted = s.deleted ∧ σ.handles = s.handles ∧
      (∀ q, acc.count q + (rem.filter (assignable same isU)).count q ≤
        (l.filter (assignable same isU)).count q))
    (fun _ _ => False)
    (fun rem acc σ hinv => hinv.1)
    (by
      intro rem acc σ p this i hp hinv hitem
      obtain ⟨h1, h2, h3, h4, h5⟩ := hinv
      by_cases ha : assignable same isU p = true
      · have hle := h5 p
        rw [List.filter_cons_of_pos ha, List.count_cons_self] at hle
        have hmem : p ∈ l.filter (assignable same isU) :=
          List.count_pos_iff.mp (by omega)
        have hlt := hmax p hmem
        obtain ⟨σ', e, k1, k2, k3, k4⟩ := find_children_invoke same isU del acc σ
          (Loc.child this i) p hitem hp (fun _ => by rw [h2 p]; omega)
        refine ⟨σ', ?_, ?_, ?_⟩
        · rw [e]; simp [on_candidates, ha]
        · intro _
          simp only [on_candidates, ha, if_true]
          refine ⟨fun q => by rw [k1 q, h1 q], ?_, by rw [k3, h3], by rw [k4, h4], ?_⟩
          · intro q
            rw [k2 q, List.count_append]
            by_cases hq : q = p
            · subst hq
              simp [ha, h2 q]
              omega
            · have : List.count q [p] = 0 := by
                rw [List.count_cons_of_ne hq]; rfl
              simp [hq, h2 q, this]
          · intro q
            have hle := h5 q
            rw [List.filter_cons_of_pos ha] at hle
            rw [List.count_append]
            by_cases hq : q = p
            · subst hq
              rw [List.count_cons_self] at hle
              simp only [List.count_cons_self, List.count_nil]
              omega
            · rw [List.count_cons_of_ne hq] at hle
              have : List.count q [p] = 0 := by
                rw [List.count_cons_of_ne hq]; rfl
              omega
        · intro h
          simp [on_candidates, ha] at h
      · obtain ⟨σ', e, k1, k2, k3, k4⟩ := find_children_invoke same isU del acc σ
          (Loc.child this i) p hitem hp (fun h => absurd h ha)
        refine ⟨σ', ?_, ?_, ?_⟩
        · rw [e]; simp [on_candidates, ha]
        · intro _
          simp only [on_candidates, ha]
          refine ⟨fun q => by rw [k1 q, h1 q], ?_, by rw [k3, h3], by rw [k4, h4], ?_⟩
          · intro q
            rw [k2 q]
            simp [ha, h2 q]
          · intro q
            have hle := h5 q
            rw [List.filter_cons_of_neg ha] at hle
            exact hle
        · intro h
          simp [on_candidates, ha] at h)
    this l htree
  refine ⟨N, ?_⟩
  intro fuel hfuel
  obtain ⟨s', e, hmore, _⟩ := hN fuel hfuel [] s
    ⟨fun _ => rfl, fun q => by simp, rfl, rfl, fun q => by simp⟩
  rw [walk_on_candidates, walk_push] at e hmore
  obtain ⟨k1, k2, k3, k4, _⟩ := hmore rfl
  refine ⟨s', ?_, k1, ?_, k3, k4⟩
  · simp only [find_children, e]
    simp
  · intro q
    simpa using k2 q

/-- C12 on the tree of the test `find`, root[pb1, pb2, groupBox[cb], textEdit]: with `U` the
node type itself the result is [pb1, pb2, groupBox, cb, textEdit], and with `U` a type that
all nodes but groupBox have, the result still holds cb, which lies below groupBox. -/
theorem find_children_preorder_witness :
    (∃ N, ∀ fuel, N ≤ fuel →
      ∃ s', find_children true (fun _ => true) (delete_this 0) fuel find_tree 10 =
        some ([11, 12, 13, 14, 15], s')) ∧
    (∃ N, ∀ fuel, N ≤ fuel →
      ∃ s', find_children false (fun p => decide (p ≠ 13)) (delete_this 0) fuel find_tree 10 =
        some ([11, 12, 14, 15], s')) := by
  obtain ⟨N1, h1⟩ := find_children_preorder true (fun _ => true) (delete_this 0) find_tree 10
    [11, 12, 13, 14, 15] find_tree_preorder (by decide)
  obtain ⟨N2, h2⟩ := find_children_preorder false (fun p => decide (p ≠ 13)) (delete_this 0)
    find_tree 10 [11, 12, 13, 14, 15] find_tree_preorder (by decide)
  exact ⟨⟨N1, fun fuel hfuel => ⟨(h1 fuel hfuel).choose, (h1 fuel hfuel).choose_spec.1⟩⟩,
    ⟨N2, fun fuel hfuel => ⟨(h2 fuel hfuel).choose, (h2 fuel hfuel).choose_spec.1⟩⟩⟩

/-! ## Cast helpers -/

/-- A handle variable `r` constructed from the address held by another non-empty handle `p`
with use count `n`: both hold that address, `p` is as before, and both use counts are
`n + 1`. -/
theorem ctor_raw_shares (s : State) (p : Loc) (r : Nat) (n : Nat) (hne : p ≠ Loc.var r)
    (hp : s.m_ptr p ≠ nullptr) (hn : use_count s p = n) (hmax : n + 1 < SIZE_MODULUS) :
    (ctor_raw s (Loc.var r) (s.m_ptr p)).m_ptr (Loc.var r) = s.m_ptr p ∧
    (ctor_raw s (Loc.var r) (s.m_ptr p)).m_ptr p = s.m_ptr p ∧
    use_count (ctor_raw s (Loc.var r) (s.m_ptr p)) p = n + 1 ∧
    use_count (ctor_raw s (Loc.var r) (s.m_ptr p)) (Loc.var r) = n + 1 ∧
    (ctor_raw s (Loc.var r) (s.m_ptr p)).deleted = s.deleted := by
  have e : ctor_raw s (Loc.var r) (s.m_ptr p) =
      inc_ref_count (s.set_m_ptr (Loc.var r) (s.m_ptr p)) (s.m_ptr p) := by
    simp [ctor_raw, hp]
  have e1 : (ctor_raw s (Loc.var r) (s.m_ptr p)).m_ptr (Loc.var r) = s.m_ptr p := by
    rw [e, inc_ref_count, cs_inc_ref_count, State.m_ptr_set_count]; simp
  have e2 : (ctor_raw s (Loc.var r) (s.m_ptr p)).m_ptr p = s.m_ptr p := by
    rw [e, inc_ref_count, cs_inc_ref_count, State.m_ptr_set_count,
      State.m_ptr_set_var_other _ _ _ _ hne]
  have hc : (s.heap (s.m_ptr p)).m_count = n := by
    simpa [use_count, hp, get_ref_count, cs_get_ref_count] using hn
  have hcount : ((ctor_raw s (Loc.var r) (s.m_ptr p)).heap (s.m_ptr p)).m_count = n + 1 := by
    rw [e]; simp [inc_ref_count, cs_inc_ref_count, hc, inc_wrap n hmax]
  refine ⟨e1, e2, ?_, ?_, ?_⟩
  · simp only [use_count, e2, get_ref_count, cs_get_ref_count, hcount, if_neg hp]
  · simp only [use_count, e1, get_ref_count, cs_get_ref_count, hcount, if_neg hp]
  · rw [e]; simp [inc_ref_count, cs_inc_ref_count]

/-- C22: for a non-empty handle `p` with use count `n` (below the largest `std::size_t`),
`const_pointer_cast`, `static_pointer_cast` and a `dynamic_pointer_cast` whose target is of
the requested type each return, in handle variable `r`, a handle that compares equal to `p`
and holds the same address; `p` holds what it held, both use counts are `n + 1`, and nothing
is disposed. -/
theorem casts_share_count (isU : Pointer → Bool) (s : State) (p : Loc) (r : Nat) (n : Nat)
    (hne : p ≠ Loc.var r) (hp : s.m_ptr p ≠ nullptr) (hn : use_count s p = n)
    (hmax : n + 1 < SIZE_MODULUS) :
    (operator_eq (const_pointer_cast s (Loc.var r) p) p (Loc.var r) = true ∧
      (const_pointer_cast s (Loc.var r) p).m_ptr (Loc.var r) = s.m_ptr p ∧
      (const_pointer_cast s (Loc.var r) p).m_ptr p = s.m_ptr p ∧
      use_count (const_pointer_cast s (Loc.var r) p) p = n + 1 ∧
      use_count (const_pointer_cast s (Loc.var r) p) (Loc.var r) = n + 1 ∧
      (const_pointer_cast s (Loc.var r) p).deleted = s.deleted) ∧
    (operator_eq (static_pointer_cast s (Loc.var r) p) p (Loc.var r) = true ∧
      (static_pointer_cast s (Loc.var r) p).m_ptr (Loc.var r) = s.m_ptr p ∧
      (static_pointer_cast s (Loc.var r) p).m_ptr p = s.m_ptr p ∧
      use_count (static_pointer_cast s (Loc.var r) p) p = n + 1 ∧
      use_count (static_pointer_cast s (Loc.var r) p) (Loc.var r) = n + 1 ∧
      (static_pointer_cast s (Loc.var r) p).deleted = s.deleted) ∧
    (isU (s.m_ptr p) = true →
      operator_eq (dynamic_pointer_cast isU s (Loc.var r) p) p (Loc.var r) = true ∧
      (dynamic_pointer_cast isU s (Loc.var r) p).m_ptr (Loc.var r) = s.m_ptr p ∧
      (dynamic_pointer_cast isU s (Loc.var r) p).m_ptr p = s.m_ptr p ∧
      use_count (dynamic_pointer_cast isU s (Loc.var r) p) p = n + 1 ∧
      use_count (dynamic_pointer_cast isU s (Loc.var r) p) (Loc.var r) = n + 1 ∧
      (dynamic_pointer_cast isU s (Loc.var r) p).deleted = s.deleted) := by
  obtain ⟨h1, h2, h3, h4, h5⟩ := ctor_raw_shares s p r n hne hp hn hmax
  have hc : const_pointer_cast s (Loc.var r) p = ctor_raw s (Loc.var r) (s.m_ptr p) := rfl
  have hs : static_pointer_cast s (Loc.var r) p = ctor_raw s (Loc.var r) (s.m_ptr p) := rfl
  refine ⟨?_, ?_, ?_⟩
  · rw [hc]
    exact ⟨by simp [operator_eq, CsIntrusivePointer.get, h1, h2], h1, h2, h3, h4, h5⟩
  · rw [hs]
    exact ⟨by simp [operator_eq, CsIntrusivePointer.get, h1, h2], h1, h2, h3, h4, h5⟩
  · intro hu
    have hd : dynamic_pointer_cast isU s (Loc.var r) p = ctor_raw s (Loc.var r) (s.m_ptr p) := by
      simp [dynamic_pointer_cast, dynamic_cast, hp, hu]
    rw [hd]
    exact ⟨by simp [operator_eq, CsIntrusivePointer.get, h1, h2], h1, h2, h3, h4, h5⟩

/-- C22 on the test `cast`: the handle of a fresh object (use count 1) is cast three times
into variable 1; every result compares equal to the source and both use counts are 2. -/
theorem casts_share_count_witness :
    (operator_eq (const_pointer_cast (make_intrusive State.init (Loc.var 0) 10) (Loc.var 1)
        (Loc.var 0)) (Loc.var 0) (Loc.var 1) = true ∧
      use_count (const_pointer_cast (make_intrusive State.init (Loc.var 0) 10) (Loc.var 1)
        (Loc.var 0)) (Loc.var 0) = 2) ∧
    (operator_eq (static_pointer_cast (make_intrusive State.init (Loc.var 0) 10) (Loc.var 1)
        (Loc.var 0)) (Loc.var 0) (Loc.var 1) = true ∧
      use_count (static_pointer_cast (make_intrusive State.init (Loc.var 0) 10) (Loc.var 1)
        (Loc.var 0)) (Loc.var 1) = 2) ∧
    (operator_eq (dynamic_pointer_cast (fun _ => true) (make_intrusive State.init (Loc.var 0) 10)
        (Loc.var 1) (Loc.var 0)) (Loc.var 0) (Loc.var 1) = true ∧
      use_count (dynamic_pointer_cast (fun _ => true) (make_intrusive State.init (Loc.var 0) 10)
        (Loc.var 1) (Loc.var 0)) (Loc.var 1) = 2) :=
  ⟨⟨(casts_share_count (fun _ => true) (make_intrusive State.init (Loc.var 0) 10) (Loc.var 0) 1
        1 (by decide) (by decide) (by decide) (by decide)).1.1,
      (casts_share_count (fun _ => true) (make_intrusive State.init (Loc.var 0) 10) (Loc.var 0) 1
        1 (by decide) (by decide) (by decide) (by decide)).1.2.2.2.1⟩,
    ⟨(casts_share_count (fun _ => true) (make_intrusive State.init (Loc.var 0) 10) (Loc.var 0) 1
        1 (by decide) (by decide) (by decide) (by decide)).2.1.1,
      (casts_share_count (fun _ => true) (make_intrusive State.init (Loc.var 0) 10) (Loc.var 0) 1
        1 (by decide) (by decide) (by decide) (by decide)).2.1.2.2.2.2.1⟩,
    ⟨((casts_share_count (fun _ => true) (make_intrusive State.init (Loc.var 0) 10) (Loc.var 0) 1
        1 (by decide) (by decide) (by decide) (by decide)).2.2 rfl).1,
      ((casts_share_count (fun _ => true) (make_intrusive State.init (Loc.var 0) 10) (Loc.var 0) 1
        1 (by decide) (by decide) (by decide) (by decide)).2.2 rfl).2.2.2.2.1⟩⟩

/-- C23: when the handle `p` is empty or its target is not of the requested type,
`dynamic_pointer_cast` returns (it is a total function) an empty handle in variable `r`; `p`
holds what it held, and the heap (every count) and the deletion log are unchanged, so the
use count of `p` is as before. -/
theorem dynamic_cast_miss_empty (isU : Pointer → Bool) (s : State) (p : Loc) (r : Nat)
    (hne : p ≠ Loc.var r) (h : s.m_ptr p = nullptr ∨ isU (s.m_ptr p) = false) :
    is_null (dynamic_pointer_cast isU s (Loc.var r) p) (Loc.var r) = true ∧
    (dynamic_pointer_cast isU s (Loc.var r) p).m_ptr p = s.m_ptr p ∧
    (dynamic_pointer_cast isU s (Loc.var r) p).heap = s.heap ∧
    (dynamic_pointer_cast isU s (Loc.var r) p).deleted = s.deleted ∧
    use_count (dynamic_pointer_cast isU s (Loc.var r) p) p = use_count s p := by
  have hcast : dynamic_cast isU (s.m_ptr p) = nullptr := by
    rcases h with h | h
    · simp [dynamic_cast, h]
    · simp [dynamic_cast, h]
  have e : dynamic_pointer_cast isU s (Loc.var r) p = s.set_m_ptr (Loc.var r) nullptr := by
    simp [dynamic_pointer_cast, hcast, ctor_raw]
  have hm : (s.set_m_ptr (Loc.var r) nullptr).m_ptr p = s.m_ptr p :=
    State.m_ptr_set_var_other _ _ _ _ hne
  rw [e]
  refine ⟨by simp [is_null], hm, rfl, by simp, ?_⟩
  simp only [use_count, hm, get_ref_count, cs_get_ref_count, State.set_m_ptr_var_heap]

/-- C23 on a handle whose target (at 10) is not of the requested type, and on an empty
handle. -/
theorem dynamic_cast_miss_empty_witness :
    (is_null (dynamic_pointer_cast (fun _ => false) (make_intrusive State.init (Loc.var 0) 10)
        (Loc.var 1) (Loc.var 0)) (Loc.var 1) = true ∧
      use_count (dynamic_pointer_cast (fun _ => false) (make_intrusive State.init (Loc.var 0) 10)
        (Loc.var 1) (Loc.var 0)) (Loc.var 0) = 1) ∧
    is_null (dynamic_pointer_cast (fun _ => true) State.init (Loc.var 1) (Loc.var 0))
      (Loc.var 1) = true :=
  ⟨⟨(dynamic_cast_miss_empty (fun _ => false) (make_intrusive State.init (Loc.var 0) 10)
        (Loc.var 0) 1 (by decide) (Or.inr rfl)).1,
      (dynamic_cast_miss_empty (fun _ => false) (make_intrusive State.init (Loc.var 0) 10)
        (Loc.var 0) 1 (by decide) (Or.inr rfl)).2.2.2.2⟩,
    (dynamic_cast_miss_empty (fun _ => true) State.init (Loc.var 0) 1 (by decide)
      (Or.inl rfl)).1⟩

/-! ## Comparison operators -/

/-- C24: every comparison operator on handles returns the result of the same comparison on
the held addresses (addresses being ordered as numbers): `==` in its five forms, each `!=` as
the negation of the corresponding `==`, and `<`, `<=`, `>`, `>=`; exactly one of `a < b`,
`a == b`, `a > b` holds. -/
theorem comparisons_on_addresses (s : State) (a b : Loc) (r : Pointer) :
    (operator_eq s a b = true ↔ CsIntrusivePointer.get s a = CsIntrusivePointer.get s b) ∧
    (operator_eq_raw s a r = true ↔ CsIntrusivePointer.get s a = r) ∧
    (raw_operator_eq s r a = true ↔ CsIntrusivePointer.get s a = r) ∧
    (operator_eq_null s a = true ↔ is_null s a = true) ∧
    (null_operator_eq s a = true ↔ is_null s a = true) ∧
    operator_ne s a b = !operator_eq s a b ∧
    operator_ne_raw s a r = !operator_eq_raw s a r ∧
    raw_operator_ne s r a = !raw_operator_eq s r a ∧
    operator_ne_null s a = !operator_eq_null s a ∧
    null_operator_ne s a = !null_operator_eq s a ∧
    (operator_lt s a b = true ↔ CsIntrusivePointer.get s a < CsIntrusivePointer.get s b) ∧
    (operator_le s a b = true ↔ CsIntrusivePointer.get s a ≤ CsIntrusivePointer.get s b) ∧
    (operator_gt s a b = true ↔ CsIntrusivePointer.get s a > CsIntrusivePointer.get s b) ∧
    (operator_ge s a b = true ↔ CsIntrusivePointer.get s a ≥ CsIntrusivePointer.get s b) ∧
    ((operator_lt s a b = true ∧ operator_eq s a b = false ∧ operator_gt s a b = false) ∨
      (operator_lt s a b = false ∧ operator_eq s a b = true ∧ operator_gt s a b = false) ∨
      (operator_lt s a b = false ∧ operator_eq s a b = false ∧ operator_gt s a b = true)) := by
  refine ⟨by simp [operator_eq], by simp [operator_eq_raw],
    by simp only [raw_operator_eq, beq_iff_eq]; exact eq_comm,
    by simp [operator_eq_null, is_null, CsIntrusivePointer.get],
    by simp only [null_operator_eq, is_null, CsIntrusivePointer.get, beq_iff_eq]; exact eq_comm,
    rfl, rfl, rfl, rfl, rfl,
    by simp [operator_lt], by simp [operator_le], by simp [operator_gt], by simp [operator_ge],
    ?_⟩
  rcases Nat.lt_trichotomy (CsIntrusivePointer.get s a) (CsIntrusivePointer.get s b) with
    h | h | h
  · refine Or.inl ⟨by simp [operator_lt, h], ?_, ?_⟩
    · simp only [operator_eq, beq_eq_false_iff_ne]; exact Nat.ne_of_lt h
    · simp only [operator_gt, decide_eq_false_iff_not]; exact Nat.lt_asymm h
  · refine Or.inr (Or.inl ⟨?_, by simp [operator_eq, h], ?_⟩)
    · simp only [operator_lt, decide_eq_false_iff_not, h]; exact Nat.lt_irrefl _
    · simp only [operator_gt, decide_eq_false_iff_not, h]; exact Nat.lt_irrefl _
  · refine Or.inr (Or.inr ⟨?_, ?_, by simp [operator_gt, h]⟩)
    · simp only [operator_lt, decide_eq_false_iff_not]; exact Nat.lt_asymm h
    · simp only [operator_eq, beq_eq_false_iff_ne]; exact Nat.ne_of_gt h

/-! ## `CsIntrusiveBase_CM` -/

/-- C26: when the use count of handle variable `p` is 1, `release_if()` returns the address
`p` held without any `delete this` (whatever `delete this` would do), and assigning the
returned address back to `p` gives exactly the state before `release_if()`: `p` holds the
address again and its use count is 1; assigning the same address once more returns that
state as it is. -/
theorem release_then_assign_restores (del : State → Pointer → Option State) (s : State)
    (p : Nat) (h : use_count s (Loc.var p) = 1) :
    ∃ s1, release_if del s (Loc.var p) = some (s.m_ptr (Loc.var p), s1) ∧
      s1.deleted = s.deleted ∧
      assign_raw del s1 (Loc.var p) (s.m_ptr (Loc.var p)) = some s ∧
      assign_raw del s (Loc.var p) (s.m_ptr (Loc.var p)) = some s := by
  have hp : s.m_ptr (Loc.var p) ≠ nullptr := by
    intro e; simp [use_count, e] at h
  have hc : (s.heap (s.m_ptr (Loc.var p))).m_count = 1 := by
    simpa [use_count, hp, get_ref_count, cs_get_ref_count] using h
  have w0 : (1 + (SIZE_MODULUS - 1)) % SIZE_MODULUS = 0 := by decide
  have w1 : (0 + 1) % SIZE_MODULUS = 1 := by decide
  refine ⟨(s.set_count (s.m_ptr (Loc.var p)) 0).set_m_ptr (Loc.var p) nullptr, ?_, by simp,
    ?_, by simp [assign_raw]⟩
  · simp only [release_if, h, if_true, dec_ref_count, cs_dec_ref_count, hc]
    simp [w0]
  · have hm : ((s.set_count (s.m_ptr (Loc.var p)) 0).set_m_ptr (Loc.var p) nullptr).m_ptr
        (Loc.var p) = nullptr := by simp
    have hne : nullptr ≠ s.m_ptr (Loc.var p) := Ne.symm hp
    simp only [assign_raw, hm, ne_eq, hne, not_false_eq_true, if_true, hp, inc_ref_count,
      cs_inc_ref_count, State.m_ptr_set_count, not_true_eq_false, if_false,
      State.set_m_ptr_var_heap, State.set_count_count, w1]
    congr 1
    apply State.eq_of_fields
    · have := State.set_count_restore s (s.m_ptr (Loc.var p)) 0
      rw [hc] at this
      funext x
      have hx := congrFun this x
      by_cases hxa : x = s.m_ptr (Loc.var p)
      · simp only [State.set_count, State.set_m_ptr] at hx ⊢
        simpa [hxa] using hx
      · simp [State.set_count, State.set_m_ptr, hxa]
    · funext j
      by_cases hj : j = p
      · simp [State.set_m_ptr, State.set_count, State.m_ptr, hj]
      · simp [State.set_m_ptr, State.set_count, hj]
    · rfl
    · rfl

/-- C26 on the test `release_b`: the handle of a fresh object releases its target and is
assigned the returned address, twice. -/
theorem release_then_assign_restores_witness :
    ∃ s1, release_if (delete_this 0) (make_intrusive State.init (Loc.var 0) 10) (Loc.var 0) =
        some (10, s1) ∧
      s1.deleted = [] ∧
      assign_raw (delete_this 0) s1 (Loc.var 0) 10 =
        some (make_intrusive State.init (Loc.var 0) 10) ∧
      assign_raw (delete_this 0) (make_intrusive State.init (Loc.var 0) 10) (Loc.var 0) 10 =
        some (make_intrusive State.init (Loc.var 0) 10) :=
  release_then_assign_restores (delete_this 0) (make_intrusive State.init (Loc.var 0) 10) 0
    (by decide)

/-! ## Copy assignment -/

/-- The release of the old target `A` of a handle after a different new target `B` has been
counted: `X` is the state `s` with the count of a non-null `B` raised by one. -/
theorem release_old_target (F : List Pointer) (fuel : Nat) (s X : State) (A B : Pointer)
    (hAB : A ≠ B) (hA : A ≠ nullptr)
    (hheap : X.heap =
      if B = nullptr then s.heap else (s.set_count B ((s.heap B).m_count + 1)).heap)
    (hdel : X.deleted = s.deleted)
    (h0 : 0 < (s.heap A).m_count) (hmax : (s.heap A).m_count < SIZE_MODULUS)
    (hdisp : (s.heap A).m_count = 1 → Closed s F ∧
      (∀ x ∈ (s.heap A).m_children, x ≠ nullptr → x ∈ F) ∧ A ∉ F ∧ F.length + 1 < fuel) :
    ∃ X', dtor (delete_this fuel) X A = some X' ∧ X'.handles = X.handles ∧
      X'.temps = X.temps ∧
      (B ≠ nullptr → ((s.heap A).m_count = 1 → B ∉ F) →
        (X'.heap B).m_count = (s.heap B).m_count + 1) ∧
      (X'.heap A).m_count = (s.heap A).m_count - 1 ∧
      ((s.heap A).m_count ≠ 1 → X'.deleted = s.deleted) ∧
      ((s.heap A).m_count = 1 → X'.deleted.count A = s.deleted.count A + 1) := by
  have hcnt : X.heap A = s.heap A := by
    rw [hheap]
    by_cases hqn : B = nullptr
    · rw [if_pos hqn]
    · rw [if_neg hqn]; simp [State.set_count, hAB]
  have hch : ∀ x, (X.heap x).m_children = (s.heap x).m_children := by
    intro x
    rw [hheap]
    by_cases hqn : B = nullptr
    · rw [if_pos hqn]
    · rw [if_neg hqn]; simp
  obtain ⟨σ', e, hh, ht, hc', hout, hkeep, hdisposed⟩ := dtor_effect F fuel X A hA
    (by rw [hcnt]; exact h0) (by rw [hcnt]; exact hmax)
    (fun h => by
      rw [hcnt] at h
      obtain ⟨g1, g2, g3, g4⟩ := hdisp h
      exact ⟨g1.of_children_eq hch, by rw [hcnt]; exact g2, g3, g4⟩)
  rw [hcnt] at hc' hkeep hdisposed hout
  refine ⟨σ', e, hh, ht, ?_, hc', ?_, ?_⟩
  · intro hqn hqF
    have hor : (s.heap A).m_count ≠ 1 ∨ B ∉ F := by
      by_cases h1 : (s.heap A).m_count = 1
      · exact Or.inr (hqF h1)
      · exact Or.inl h1
    rw [hout B (Ne.symm hAB) hor, hheap, if_neg hqn]
    simp
  · intro h1
    rw [(hkeep h1).1, hdel]
  · intro h1
    rw [hdisposed h1, hdel]

/-- C21 fails as stated: handle variable 0 holds the only handle to the parent at 10 whose
child entry holds the object at 11 (count 2, variable 1 holds it too). After the copy
assignment of variable 1 to variable 0 both hold 11, but disposing the parent releases the
child entry, so the count of 11 is 2 before and after, not raised by 1. -/
theorem copy_assign_counterexample :
    parent_and_child.bind (fun s =>
      (copy_assign (delete_this 2) s (Loc.var 0) (Loc.var 1)).map
        (fun s' => (s.m_ptr (Loc.var 1), (s.heap 11).m_count,
          s'.m_ptr (Loc.var 0), (s'.heap 11).m_count, s'.deleted))) =
      some (11, 2, 11, 2, [10]) := by
  decide

/-- C21 (amended): for handle variables `a` and `b` holding different addresses, after the
copy assignment `a = b` (the plain form, and the converting form for a source of a related
target type) both hold the address of `b`. The count of the target of a non-empty `b` is
raised by one, provided that this target is not among the objects reachable from the former
target of `a` (closed set `F`) in case that one is disposed; the count of the former target
of a non-empty `a` is lowered by one, and it is disposed, once, exactly when its count was 1.
Counts are positive for the address held and stay below the largest `std::size_t`. -/
theorem copy_assign_shares (F : List Pointer) (fuel : Nat) (s : State) (p q : Nat)
    (hAB : s.m_ptr (Loc.var p) ≠ s.m_ptr (Loc.var q))
    (hA : s.m_ptr (Loc.var p) ≠ nullptr → 0 < (s.heap (s.m_ptr (Loc.var p))).m_count ∧
      (s.heap (s.m_ptr (Loc.var p))).m_count < SIZE_MODULUS)
    (hB : s.m_ptr (Loc.var q) ≠ nullptr →
      (s.heap (s.m_ptr (Loc.var q))).m_count + 1 < SIZE_MODULUS)
    (hdisp : s.m_ptr (Loc.var p) ≠ nullptr →
      (s.heap (s.m_ptr (Loc.var p))).m_count = 1 → Closed s F ∧
      (∀ x ∈ (s.heap (s.m_ptr (Loc.var p))).m_children, x ≠ nullptr → x ∈ F) ∧
      s.m_ptr (Loc.var p) ∉ F ∧ F.length + 1 < fuel) :
    (∃ s', copy_assign (delete_this fuel) s (Loc.var p) (Loc.var q) = some s' ∧
      s'.m_ptr (Loc.var p) = s.m_ptr (Loc.var q) ∧
      s'.m_ptr (Loc.var q) = s.m_ptr (Loc.var q) ∧
      (s.m_ptr (Loc.var q) ≠ nullptr →
        (s.m_ptr (Loc.var p) ≠ nullptr → (s.heap (s.m_ptr (Loc.var p))).m_count = 1 →
          s.m_ptr (Loc.var q) ∉ F) →
        (s'.heap (s.m_ptr (Loc.var q))).m_count =
          (s.heap (s.m_ptr (Loc.var q))).m_count + 1) ∧
      (s.m_ptr (Loc.var p) ≠ nullptr →
        (s'.heap (s.m_ptr (Loc.var p))).m_count = (s.heap (s.m_ptr (Loc.var p))).m_count - 1 ∧
        ((s.heap (s.m_ptr (Loc.var p))).m_count ≠ 1 → s'.deleted = s.deleted) ∧
        ((s.heap (s.m_ptr (Loc.var p))).m_count = 1 →
          s'.deleted.count (s.m_ptr (Loc.var p)) =
            s.deleted.count (s.m_ptr (Loc.var p)) + 1))) ∧
    (∃ s', converting_copy_assign (delete_this fuel) s (Loc.var p) (Loc.var q) = some s' ∧
      s'.m_ptr (Loc.var p) = s.m_ptr (Loc.var q) ∧
      s'.m_ptr (Loc.var q) = s.m_ptr (Loc.var q) ∧
      (s.m_ptr (Loc.var q) ≠ nullptr →
        (s.m_ptr (Loc.var p) ≠ nullptr → (s.heap (s.m_ptr (Loc.var p))).m_count = 1 →
          s.m_ptr (Loc.var q) ∉ F) →
        (s'.heap (s.m_ptr (Loc.var q))).m_count =
          (s.heap (s.m_ptr (Loc.var q))).m_count + 1) ∧
      (s.m_ptr (Loc.var p) ≠ nullptr →
        (s'.heap (s.m_ptr (Loc.var p))).m_count = (s.heap (s.m_ptr (Loc.var p))).m_count - 1 ∧
        ((s.heap (s.m_ptr (Loc.var p))).m_count ≠ 1 → s'.deleted = s.deleted) ∧
        ((s.heap (s.m_ptr (Loc.var p))).m_count = 1 →
          s'.deleted.count (s.m_ptr (Loc.var p)) =
            s.deleted.count (s.m_ptr (Loc.var p)) + 1))) := by
  have hpq : p ≠ q := fun h => hAB (by rw [h])
  -- the state in which the new target has been counted
  have hX : ∀ X : State, X.heap = s.heap → X.handles p = s.handles p →
      ((if s.m_ptr (Loc.var q) ≠ nullptr then inc_ref_count X (s.m_ptr (Loc.var q)) else X).heap =
        if s.m_ptr (Loc.var q) = nullptr then s.heap
        else (s.set_count (s.m_ptr (Loc.var q))
          ((s.heap (s.m_ptr (Loc.var q))).m_count + 1)).heap) := by
    intro X hh _
    by_cases hqn : s.m_ptr (Loc.var q) = nullptr
    · simp [hqn, hh]
    · simp only [ne_eq, hqn, not_false_eq_true, if_true, if_false, inc_ref_count,
        cs_inc_ref_count, State.set_count, hh, inc_wrap _ (hB hqn)]
  have hXd : ∀ X : State,
      (if s.m_ptr (Loc.var q) ≠ nullptr then inc_ref_count X (s.m_ptr (Loc.var q)) else X).deleted =
        X.deleted := by
    intro X
    by_cases hqn : s.m_ptr (Loc.var q) = nullptr
    · simp [hqn]
    · simp [hqn, inc_ref_count, cs_inc_ref_count]
  have hXh : ∀ X : State,
      (if s.m_ptr (Loc.var q) ≠ nullptr then inc_ref_count X (s.m_ptr (Loc.var q)) else X).handles =
        X.handles := by
    intro X
    by_cases hqn : s.m_ptr (Loc.var q) = nullptr
    · simp [hqn]
    · simp [hqn, inc_ref_count, cs_inc_ref_count]
  have hXt : ∀ X : State,
      (if s.m_ptr (Loc.var q) ≠ nullptr then inc_ref_count X (s.m_ptr (Loc.var q)) else X).temps =
        X.temps := by
    intro X
    by_cases hqn : s.m_ptr (Loc.var q) = nullptr
    · simp [hqn]
    · simp [hqn, inc_ref_count, cs_inc_ref_count]
  constructor
  · -- copy assignment
    have hrun : copy_assign (delete_this fuel) s (Loc.var p) (Loc.var q) =
        (dtor (delete_this fuel)
          (if s.m_ptr (Loc.var q) ≠ nullptr then inc_ref_count s (s.m_ptr (Loc.var q)) else s)
          (s.m_ptr (Loc.var p))).map (fun σ => σ.set_m_ptr (Loc.var p) (s.m_ptr (Loc.var q))) := by
      have hm : (if s.m_ptr (Loc.var q) ≠ nullptr then inc_ref_count s (s.m_ptr (Loc.var q))
          else s).m_ptr (Loc.var p) = s.m_ptr (Loc.var p) := by
        exact congrFun (hXh s) p
      simp only [copy_assign, assign_raw, hAB, ne_eq, not_false_eq_true, if_true, hm, dtor]
      by_cases han : s.m_ptr (Loc.var p) = nullptr
      · simp [han]
      · simp only [han, not_false_eq_true, if_true]
        cases dec_ref_count (delete_this fuel)
          (if ¬s.m_ptr (Loc.var q) = nullptr then inc_ref_count s (s.m_ptr (Loc.var q)) else s)
          (s.m_ptr (Loc.var p)) CsIntrusiveAction.Normal <;> rfl
    rw [hrun]
    by_cases han : s.m_ptr (Loc.var p) = nullptr
    · have hqn : s.m_ptr (Loc.var q) ≠ nullptr := fun h => hAB (han.trans h.symm)
      refine ⟨(if s.m_ptr (Loc.var q) ≠ nullptr then inc_ref_count s (s.m_ptr (Loc.var q))
          else s).set_m_ptr (Loc.var p) (s.m_ptr (Loc.var q)),
        by simp only [dtor, han, ne_eq, not_true_eq_false, if_false, Option.map_some'],
        State.m_ptr_set_var_self _ _ _, ?_, ?_, fun h => absurd han h⟩
      · rw [State.m_ptr_set_var_other _ _ _ _ (by simp [Ne.symm hpq])]
        exact congrFun (hXh s) q
      · intro _ _
        rw [State.set_m_ptr_var_heap, hX s rfl rfl, if_neg hqn]
        simp
    · obtain ⟨h0, hmax⟩ := hA han
      obtain ⟨X', e, hh, _, hcB, hcA, hk, hd⟩ := release_old_target F fuel s _
        (s.m_ptr (Loc.var p)) (s.m_ptr (Loc.var q)) hAB han (hX s rfl rfl) (hXd s) h0 hmax
        (hdisp han)
      refine ⟨X'.set_m_ptr (Loc.var p) (s.m_ptr (Loc.var q)), by rw [e]; rfl,
        State.m_ptr_set_var_self _ _ _, ?_, ?_,
        fun _ => ⟨by simpa using hcA, by simpa using hk, by simpa using hd⟩⟩
      · rw [State.m_ptr_set_var_other _ _ _ _ (by simp [Ne.symm hpq])]
        show X'.handles q = s.handles q
        rw [hh, hXh]
      · intro hqn hF
        rw [State.set_m_ptr_var_heap]
        exact hcB hqn (hF han)
  · -- converting copy assignment
    have e1 : converting_copy_ctor s (Loc.tmp 0) (Loc.var q) =
        (if s.m_ptr (Loc.var q) ≠ nullptr then
          inc_ref_count (s.set_m_ptr (Loc.tmp 0) (s.m_ptr (Loc.var q))) (s.m_ptr (Loc.var q))
        else s.set_m_ptr (Loc.tmp 0) (s.m_ptr (Loc.var q))) := by
      simp [converting_copy_ctor]
    have ht0 : (converting_copy_ctor s (Loc.tmp 0) (Loc.var q)).temps 0 = s.m_ptr (Loc.var q) := by
      rw [e1, hXt]; simp [State.set_m_ptr]
    have hhp : (converting_copy_ctor s (Loc.tmp 0) (Loc.var q)).handles = s.handles := by
      rw [e1, hXh]; rfl
    have hrun : converting_copy_assign (delete_this fuel) s (Loc.var p) (Loc.var q) =
        dtor (delete_this fuel)
          (swap (converting_copy_ctor s (Loc.tmp 0) (Loc.var q)) (Loc.tmp 0) (Loc.var p))
          (s.m_ptr (Loc.var p)) := by
      have : (swap (converting_copy_ctor s (Loc.tmp 0) (Loc.var q)) (Loc.tmp 0)
          (Loc.var p)).m_ptr (Loc.tmp 0) = s.m_ptr (Loc.var p) := by
        simp [swap, State.set_m_ptr, State.m_ptr, hhp]
      simp only [converting_copy_assign, this]
    have hsp : (swap (converting_copy_ctor s (Loc.tmp 0) (Loc.var q)) (Loc.tmp 0)
        (Loc.var p)).handles p = s.m_ptr (Loc.var q) := by
      simp [swap, State.set_m_ptr, State.m_ptr, ht0]
    have hsq : (swap (converting_copy_ctor s (Loc.tmp 0) (Loc.var q)) (Loc.tmp 0)
        (Loc.var p)).handles q = s.m_ptr (Loc.var q) := by
      simp [swap, State.set_m_ptr, State.m_ptr, hhp, Ne.symm hpq]
    have hsh : (swap (converting_copy_ctor s (Loc.tmp 0) (Loc.var q)) (Loc.tmp 0)
        (Loc.var p)).heap =
        if s.m_ptr (Loc.var q) = nullptr then s.heap
        else (s.set_count (s.m_ptr (Loc.var q))
          ((s.heap (s.m_ptr (Loc.var q))).m_count + 1)).heap := by
      show (converting_copy_ctor s (Loc.tmp 0) (Loc.var q)).heap = _
      rw [e1]
      exact hX (s.set_m_ptr (Loc.tmp 0) (s.m_ptr (Loc.var q))) rfl rfl
    have hsd : (swap (converting_copy_ctor s (Loc.tmp 0) (Loc.var q)) (Loc.tmp 0)
        (Loc.var p)).deleted = s.deleted := by
      show (converting_copy_ctor s (Loc.tmp 0) (Loc.var q)).deleted = _
      rw [e1, hXd]; rfl
    rw [hrun]
    by_cases han : s.m_ptr (Loc.var p) = nullptr
    · have hqn : s.m_ptr (Loc.var q) ≠ nullptr := fun h => hAB (han.trans h.symm)
      refine ⟨swap (converting_copy_ctor s (Loc.tmp 0) (Loc.var q)) (Loc.tmp 0) (Loc.var p),
        by simp only [dtor, han, ne_eq, not_true_eq_false, if_false],
        hsp, hsq, ?_, fun h => absurd han h⟩
      intro _ _
      rw [hsh, if_neg hqn]
      simp
    · obtain ⟨h0, hmax⟩ := hA han
      obtain ⟨X', e, hh, _, hcB, hcA, hk, hd⟩ := release_old_target F fuel s _
        (s.m_ptr (Loc.var p)) (s.m_ptr (Loc.var q)) hAB han hsh hsd h0 hmax (hdisp han)
      refine ⟨X', e, ?_, ?_, fun hqn hF => hcB hqn (hF han), fun _ => ⟨hcA, hk, hd⟩⟩
      · show X'.handles p = _
        rw [hh]; exact hsp
      · show X'.handles q = _
        rw [hh]; exact hsq

/-- C21 (amended) on the test `copy_use_count`: two fresh handles with use count 1 each;
after `ptr1 = ptr2` both report use count 2 and the former target of `ptr1` is disposed. -/
theorem copy_assign_shares_witness :
    (∃ s', copy_assign (delete_this 2) two_fresh (Loc.var 0) (Loc.var 1) = some s' ∧
      use_count s' (Loc.var 0) = 2 ∧ use_count s' (Loc.var 1) = 2 ∧
      (s'.heap 10).m_count = 0 ∧ s'.deleted.count 10 = 1) ∧
    (∃ s', converting_copy_assign (delete_this 2) two_fresh (Loc.var 0) (Loc.var 1) = some s' ∧
      use_count s' (Loc.var 0) = 2 ∧ use_count s' (Loc.var 1) = 2 ∧
      (s'.heap 10).m_count = 0 ∧ s'.deleted.count 10 = 1) := by
  have h := copy_assign_shares [] 2 two_fresh 0 1 (by decide)
    (fun _ => ⟨by decide, by decide⟩) (fun _ => by decide)
    (fun _ _ => ⟨fun x hx => absurd hx (List.not_mem_nil x), by decide, by decide, by decide⟩)
  obtain ⟨⟨s1, e1, a1, b1, c1, d1⟩, ⟨s2, e2, a2, b2, c2, d2⟩⟩ := h
  have k1 := c1 (by decide) (fun _ _ => by decide)
  have k2 := c2 (by decide) (fun _ _ => by decide)
  have m1 := d1 (by decide)
  have m2 := d2 (by decide)
  refine ⟨⟨s1, e1, ?_, ?_, m1.1, m1.2.2 (by decide)⟩, ⟨s2, e2, ?_, ?_, m2.1, m2.2.2 (by decide)⟩⟩
  · simp only [use_count, a1, get_ref_count, cs_get_ref_count]
    rw [if_neg (by decide), k1]; decide
  · simp only [use_count, b1, get_ref_count, cs_get_ref_count]
    rw [if_neg (by decide), k1]; decide
  · simp only [use_count, a2, get_ref_count, cs_get_ref_count]
    rw [if_neg (by decide), k2]; decide
  · simp only [use_count, b2, get_ref_count, cs_get_ref_count]
    rw [if_neg (by decide), k2]; decide

/-! ## Finders and collectors with a predicate -/

/-- One round of the loop of `visit<U>` for a visitor that takes the handle by value: when
the visitor, called on a handle to `p`, leaves the count of `p` raised by `k` (0 or 1) and
the rest of the heap as it is, so does the round, including the temporary handle made by
`dynamic_pointer_cast` when `T` and `U` differ. `Rel` relates the handle variables before and
after a call, `I` is what the visitor requires of them. -/
theorem visit_invoke_effect {α : Type} (same : Bool) (isU : Pointer → Bool)
    (lambda : α → State → Loc → Option (VisitStatus × α × State))
    (del : State → Pointer → Option State) (g : α → Pointer → VisitStatus × α)
    (k : α → Pointer → Nat) (I : (Nat → Pointer) → Prop)
    (Rel : α → Pointer → (Nat → Pointer) → (Nat → Pointer) → Prop)
    (hk : ∀ acc p, k acc p ≤ 1)
    (hlam : ∀ acc t arg p, t.m_ptr arg = p → p ≠ nullptr → I t.handles →
      0 < (t.heap p).m_count → (t.heap p).m_count + 2 < SIZE_MODULUS →
      ∃ t', lambda acc t arg = some ((g acc p).1, (g acc p).2, t') ∧
        (∀ q, (t'.heap q).m_children = (t.heap q).m_children) ∧
        (∀ q, (t'.heap q).m_count =
          if q = p then (t.heap p).m_count + k acc p else (t.heap q).m_count) ∧
        t'.deleted = t.deleted ∧ t'.temps 1 = t.temps 1 ∧ Rel acc p t.handles t'.handles)
    (acc : α) (σ : State) (item : Loc) (p : Pointer) (hitem : σ.m_ptr item = p)
    (hp : p ≠ nullptr) (hI : I σ.handles)
    (hb : assignable same isU p = true →
      0 < (σ.heap p).m_count ∧ (σ.heap p).m_count + 3 < SIZE_MODULUS) :
    ∃ σ', visit_invoke same isU lambda del σ item acc =
        some ((on_candidates same isU g acc p).1, (on_candidates same isU g acc p).2, σ') ∧
      (∀ q, (σ'.heap q).m_children = (σ.heap q).m_children) ∧
      (∀ q, (σ'.heap q).m_count =
        if q = p ∧ assignable same isU p = true then (σ.heap p).m_count + k acc p
        else (σ.heap q).m_count) ∧
      σ'.deleted = σ.deleted ∧
      (assignable same isU p = true → Rel acc p σ.handles σ'.handles) ∧
      (assignable same isU p = false → σ'.handles = σ.handles) := by
  cases same with
  | true =>
    have ha : assignable true isU p = true := by simp [assignable]
    obtain ⟨h0, hmax⟩ := hb ha
    obtain ⟨t', e, h1, h2, h3, _, h5⟩ := hlam acc σ item p hitem hp hI h0 (by omega)
    refine ⟨t', ?_, h1, ?_, h3, fun _ => h5, fun h => ?_⟩
    · simp [visit_invoke, e, on_candidates, ha]
    · intro q; rw [h2 q]; simp [ha]
    · rw [ha] at h; cases h
  | false =>
    by_cases hu : isU p = true
    · have ha : assignable false isU p = true := by simp [assignable, hu]
      obtain ⟨h0, hmax⟩ := hb ha
      have w1 : ((σ.heap p).m_count + 1) % SIZE_MODULUS = (σ.heap p).m_count + 1 :=
        inc_wrap _ (by omega)
      have hcast : dynamic_cast isU p = p := by simp [dynamic_cast, hp, hu]
      have e1 : dynamic_pointer_cast isU σ (Loc.tmp 1) item =
          (σ.set_m_ptr (Loc.tmp 1) p).set_count p ((σ.heap p).m_count + 1) := by
        simp [dynamic_pointer_cast, hitem, hcast, ctor_raw, hp, inc_ref_count,
          cs_inc_ref_count, w1]
      have hm : ((σ.set_m_ptr (Loc.tmp 1) p).set_count p ((σ.heap p).m_count + 1)).m_ptr
          (Loc.tmp 1) = p := by
        rw [State.m_ptr_set_count, State.m_ptr_set_tmp_self]
      have hc : (((σ.set_m_ptr (Loc.tmp 1) p).set_count p ((σ.heap p).m_count + 1)).heap
          p).m_count = (σ.heap p).m_count + 1 := by simp
      obtain ⟨t', e, h1, h2, h3, h4, h5⟩ :=
        hlam acc _ (Loc.tmp 1) p hm hp hI (by rw [hc]; omega) (by rw [hc]; omega)
      rw [hc] at h2
      have hc' : (t'.heap p).m_count = (σ.heap p).m_count + 1 + k acc p := by
        rw [h2 p]; simp
      have hm' : t'.m_ptr (Loc.tmp 1) = p := by
        show t'.temps 1 = p
        rw [h4]
        exact hm
      have hbig : (t'.heap p).m_count < SIZE_MODULUS := by
        have := hk acc p
        rw [hc']; omega
      have w3 : ((t'.heap p).m_count + (SIZE_MODULUS - 1)) % SIZE_MODULUS =
          (σ.heap p).m_count + k acc p := by
        rw [dec_wrap _ (by omega) hbig]; omega
      have e3 : dtor del t' p = some (t'.set_count p ((σ.heap p).m_count + k acc p)) := by
        simp only [dtor, ne_eq, hp, not_false_eq_true, if_true]
        rw [dec_ref_count_keep _ _ _ (by rw [hc']; omega), w3]
      refine ⟨t'.set_count p ((σ.heap p).m_count + k acc p), ?_, ?_, ?_, ?_, ?_, ?_⟩
      · simp only [visit_invoke, Bool.false_eq_true, if_false, e1, hm, ne_eq, hp,
          not_false_eq_true, if_true, e, hm', e3, on_candidates, ha]
      · intro q; simp [h1 q]
      · intro q
        by_cases hq : q = p
        · simp [hq, ha]
        · simp [hq, h2 q]
      · simp [h3]
      · intro _
        simpa using h5
      · intro h; rw [ha] at h; cases h
    · have ha : ¬ assignable false isU p = true := by simp [assignable, hu]
      have hcast : dynamic_cast isU p = nullptr := by simp [dynamic_cast, hu]
      refine ⟨σ.set_m_ptr (Loc.tmp 1) nullptr, ?_, ?_, ?_, ?_, ?_, ?_⟩
      · simp [visit_invoke, dynamic_pointer_cast, hitem, hcast, ctor_raw, on_candidates, ha]
      · intro q; simp
      · intro q; simp [ha]
      · simp
      · intro h; exact absurd h ha
      · intro _; simp [State.set_m_ptr]

/-- What a call of the predicate does inside the internal visitors: the by-value parameter
`item` of the visitor has been copy-constructed in place 2 from a handle to `p`. -/
theorem observes_on_item {β : Type} (lambda : β → State → Loc → Option (Bool × β × State))
    (f : β → Pointer → Bool × β) (hobs : Observes lambda f) (b : β) (t : State) (arg : Loc)
    (p : Pointer) (hitem : t.m_ptr arg = p) (hp : p ≠ nullptr)
    (hmax : (t.heap p).m_count + 2 < SIZE_MODULUS) :
    ∃ t2, copy_ctor t (Loc.tmp 2) arg =
        (t.set_m_ptr (Loc.tmp 2) p).set_count p ((t.heap p).m_count + 1) ∧
      lambda b ((t.set_m_ptr (Loc.tmp 2) p).set_count p ((t.heap p).m_count + 1)) (Loc.tmp 2) =
        some ((f b p).1, (f b p).2, t2) ∧
      (∀ q, (t2.heap q).m_children = (t.heap q).m_children) ∧
      (∀ q, (t2.heap q).m_count =
        if q = p then (t.heap p).m_count + 1 else (t.heap q).m_count) ∧
      t2.handles = t.handles ∧ t2.deleted = t.deleted ∧ t2.temps 1 = t.temps 1 ∧
      t2.m_ptr (Loc.tmp 2) = p := by
  have w1 : ((t.heap p).m_count + 1) % SIZE_MODULUS = (t.heap p).m_count + 1 :=
    inc_wrap _ (by omega)
  have e1 : copy_ctor t (Loc.tmp 2) arg =
      (t.set_m_ptr (Loc.tmp 2) p).set_count p ((t.heap p).m_count + 1) := by
    simp [copy_ctor, hitem, hp, inc_ref_count, cs_inc_ref_count, w1]
  have hm : ((t.set_m_ptr (Loc.tmp 2) p).set_count p ((t.heap p).m_count + 1)).m_ptr
      (Loc.tmp 2) = p := by
    rw [State.m_ptr_set_count, State.m_ptr_set_tmp_self]
  have hc : (((t.set_m_ptr (Loc.tmp 2) p).set_count p ((t.heap p).m_count + 1)).heap
      p).m_count = (t.heap p).m_count + 1 := by simp
  obtain ⟨t2, e2, hh, hhd, hdel, htmp⟩ := hobs b
    ((t.set_m_ptr (Loc.tmp 2) p).set_count p ((t.heap p).m_count + 1)) (Loc.tmp 2)
    (by rw [hm]; exact hp) (by rw [hm, hc]; omega) (by rw [hm, hc]; omega)
  rw [hm] at e2
  refine ⟨t2, e1, e2, ?_, ?_, ?_, ?_, ?_, ?_⟩
  · intro q; rw [hh]; simp
  · intro q; rw [hh]; simp
  · rw [hhd]; simp [State.set_m_ptr]
  · rw [hdel]; simp
  · rw [htmp 1 (by omega)]; simp [State.set_m_ptr]
  · show t2.temps 2 = p
    rw [htmp 2 (by omega)]
    exact hm

/-- The internal visitor of `find_child<U>(lambda)` called on a handle to `p` while the
result variable `r` is empty: when the predicate holds, `r` holds `p`, the count of `p` is
one higher and the visitor returns `Finished`; otherwise nothing has changed. -/
theorem find_child_pred_lambda_effect {β : Type}
    (lambda : β → State → Loc → Option (Bool × β × State))
    (f : β → Pointer → Bool × β) (hobs : Observes lambda f)
    (del : State → Pointer → Option State) (r : Nat) (b : β) (t : State) (arg : Loc)
    (p : Pointer) (hitem : t.m_ptr arg = p) (hp : p ≠ nullptr) (hr : t.handles r = nullptr)
    (h0 : 0 < (t.heap p).m_count) (hmax : (t.heap p).m_count + 2 < SIZE_MODULUS) :
    ∃ t', find_child_pred_lambda lambda del (Loc.var r) b t arg =
        some ((finding f b p).1, (finding f b p).2, t') ∧
      (∀ q, (t'.heap q).m_children = (t.heap q).m_children) ∧
      (∀ q, (t'.heap q).m_count =
        if q = p then (t.heap p).m_count + (if (f b p).1 = true then 1 else 0)
        else (t.heap q).m_count) ∧
      t'.deleted = t.deleted ∧ t'.temps 1 = t.temps 1 ∧
      ((∀ j, j ≠ r → t'.handles j = t.handles j) ∧
        t'.handles r = if (f b p).1 = true then p else t.handles r) := by
  obtain ⟨t2, e1, e2, k1, k2, k3, k4, k5, k6⟩ :=
    observes_on_item lambda f hobs b t arg p hitem hp hmax
  have hc2 : (t2.heap p).m_count = (t.heap p).m_count + 1 := by rw [k2 p]; simp
  cases hf : (f b p).1 with
  | true =>
    rw [hf] at e2
    have w2 : ((t.heap p).m_count + 1 + 1) % SIZE_MODULUS = (t.heap p).m_count + 1 + 1 :=
      inc_wrap _ (by omega)
    have w3 : ((t.heap p).m_count + 1 + 1 + (SIZE_MODULUS - 1)) % SIZE_MODULUS =
        (t.heap p).m_count + 1 := by
      rw [dec_wrap _ (by omega) (by omega)]; rfl
    have hr2 : t2.m_ptr (Loc.var r) = nullptr := by
      show t2.handles r = nullptr
      rw [k3]; exact hr
    have ea : copy_assign del t2 (Loc.var r) (Loc.tmp 2) =
        some ((t2.set_count p ((t.heap p).m_count + 1 + 1)).set_m_ptr (Loc.var r) p) := by
      simp only [copy_assign, assign_raw, k6, hr2, ne_eq, Ne.symm hp, hp, not_false_eq_true,
        if_true, inc_ref_count, cs_inc_ref_count, hc2, w2, State.m_ptr_set_count,
        not_true_eq_false, if_false]
    have hm3 : ((t2.set_count p ((t.heap p).m_count + 1 + 1)).set_m_ptr (Loc.var r) p).m_ptr
        (Loc.tmp 2) = p := by
      show t2.temps 2 = p
      exact k6
    have ed : dtor del ((t2.set_count p ((t.heap p).m_count + 1 + 1)).set_m_ptr (Loc.var r) p)
        p = some (((t2.set_count p ((t.heap p).m_count + 1 + 1)).set_m_ptr
          (Loc.var r) p).set_count p ((t.heap p).m_count + 1)) := by
      simp only [dtor, ne_eq, hp, not_false_eq_true, if_true]
      rw [dec_ref_count_keep _ _ _ (by simp)]
      simp only [State.set_m_ptr_var_heap, State.set_count_count, if_true, w3]
    refine ⟨((t2.set_count p ((t.heap p).m_count + 1 + 1)).set_m_ptr
        (Loc.var r) p).set_count p ((t.heap p).m_count + 1), ?_, ?_, ?_, ?_, ?_, ?_, ?_⟩
    · simp only [find_child_pred_lambda, e1, e2, ea, hm3, ed, finding, hf, if_true]
    · intro q; simp [k1 q]
    · intro q
      by_cases hq : q = p
      · simp [hq]
      · simp [hq, k2 q]
    · simp [k4]
    · show t2.temps 1 = t.temps 1
      exact k5
    · intro j hj
      simp [State.set_m_ptr, hj, k3]
    · simp [State.set_m_ptr]
  | false =>
    rw [hf] at e2
    have w3 : ((t.heap p).m_count + 1 + (SIZE_MODULUS - 1)) % SIZE_MODULUS =
        (t.heap p).m_count := by
      rw [dec_wrap _ (by omega) (by omega)]; rfl
    have ed : dtor del t2 p = some (t2.set_count p (t.heap p).m_count) := by
      simp only [dtor, ne_eq, hp, not_false_eq_true, if_true]
      rw [dec_ref_count_keep _ _ _ (by rw [hc2]; omega), hc2, w3]
    refine ⟨t2.set_count p (t.heap p).m_count, ?_, ?_, ?_, ?_, ?_, ?_, ?_⟩
    · simp only [find_child_pred_lambda, e1, e2, k6, ed, finding, hf, Bool.false_eq_true,
        if_false]
    · intro q; simp [k1 q]
    · intro q
      by_cases hq : q = p
      · simp [hq]
      · simp [hq, k2 q]
    · simp [k4]
    · show t2.temps 1 = t.temps 1
      exact k5
    · intro j _
      simp [k3]
    · simp [k3]

theorem walk_steps {α : Type} (step : α → Pointer → α) :
    ∀ (l : List Pointer) (acc : α),
      walk (fun acc p => (VisitStatus.VisitMore, step acc p)) l acc =
        (VisitStatus.VisitMore, l.foldl step acc)
  | [], _ => rfl
  | p :: l, acc => by
    simp only [walk, List.foldl_cons]
    exact walk_steps step l (step acc p)

/-- A recursive `visit<U>` with a visitor that takes the handle by value, never finishes and
appends (when `keep` holds) the node to the result `ret` of its captures, raising its count by
one: the captures after the walk are those of folding `step` over the candidates in
pre-order, and every count has risen by the number of occurrences in the result. -/
theorem collector_walks {α : Type} (same : Bool) (isU : Pointer → Bool)
    (lambda : α → State → Loc → Option (VisitStatus × α × State))
    (del : State → Pointer → Option State) (s : State) (this : Pointer) (l : List Pointer)
    (htree : PreOrder s (s.heap this).m_children l)
    (step : α → Pointer → α) (ret : α → List Pointer) (keep : α → Pointer → Bool)
    (hret : ∀ acc p, ret (step acc p) = if keep acc p = true then ret acc ++ [p] else ret acc)
    (hlam : ∀ acc t arg p, t.m_ptr arg = p → p ≠ nullptr →
      0 < (t.heap p).m_count → (t.heap p).m_count + 2 < SIZE_MODULUS →
      ∃ t', lambda acc t arg = some (VisitStatus.VisitMore, step acc p, t') ∧
        (∀ q, (t'.heap q).m_children = (t.heap q).m_children) ∧
        (∀ q, (t'.heap q).m_count =
          if q = p then (t.heap p).m_count + (if keep acc p = true then 1 else 0)
          else (t.heap q).m_count) ∧
        t'.deleted = t.deleted ∧ t'.temps 1 = t.temps 1 ∧ t'.handles = t.handles)
    (hmax : ∀ q ∈ l.filter (assignable same isU), 0 < (s.heap q).m_count ∧
      (s.heap q).m_count + (l.filter (assignable same isU)).count q + 3 < SIZE_MODULUS) :
    ∃ N, ∀ fuel, N ≤ fuel → ∀ acc0, ret acc0 = [] →
      ∃ s', visit same isU lambda del fuel VisitChildren.Recursive s this acc0 =
          some (VisitStatus.VisitMore, (l.filter (assignable same isU)).foldl step acc0, s') ∧
        (∀ q, (s'.heap q).m_children = (s.heap q).m_children) ∧
        (∀ q, (s'.heap q).m_count = (s.heap q).m_count +
          (ret ((l.filter (assignable same isU)).foldl step acc0)).count q) ∧
        s'.deleted = s.deleted ∧ s'.handles = s.handles := by
  obtain ⟨N, hN⟩ := visit_walks same isU lambda del s
    (on_candidates same isU (fun acc p => (VisitStatus.VisitMore, step acc p)))
    (fun rem acc σ => (∀ q, (σ.heap q).m_children = (s.heap q).m_children) ∧
      (∀ q, (σ.heap q).m_count = (s.heap q).m_count + (ret acc).count q) ∧
      σ.deleted = s.deleted ∧ σ.handles = s.handles ∧
      (∀ q, (ret acc).count q + (rem.filter (assignable same isU)).count q ≤
        (l.filter (assignable same isU)).count q))
    (fun _ _ => False)
    (fun rem acc σ hinv => hinv.1)
    (by
      intro rem acc σ p this i hp hinv hitem
      obtain ⟨h1, h2, h3, h4, h5⟩ := hinv
      obtain ⟨σ', e, k1, k2, k3, k4, k5⟩ := visit_invoke_effect same isU lambda del
        (fun acc p => (VisitStatus.VisitMore, step acc p))
        (fun acc p => if keep acc p = true then 1 else 0) (fun _ => True)
        (fun _ _ h h' => h' = h)
        (fun acc p => by show (if keep acc p = true then 1 else 0) ≤ 1; split <;> omega)
        (fun acc t arg p a1 a2 _ a3 a4 => by
          obtain ⟨t', b1, b2, b3, b4, b5, b6⟩ := hlam acc t arg p a1 a2 a3 a4
          exact ⟨t', b1, b2, b3, b4, b5, b6⟩)
        acc σ (Loc.child this i) p hitem hp trivial
        (fun ha => by
          have hle := h5 p
          rw [List.filter_cons_of_pos ha, List.count_cons_self] at hle
          have hmem : p ∈ l.filter (assignable same isU) :=
            List.count_pos_iff.mp (by omega)
          have := hmax p hmem
          rw [h2 p]
          omega)
      by_cases ha : assignable same isU p = true
      · refine ⟨σ', ?_, ?_, ?_⟩
        · rw [e]
        · intro _
          simp only [on_candidates, ha, if_true]
          refine ⟨fun q => by rw [k1 q, h1 q], ?_, by rw [k3, h3], by rw [k4 ha, h4], ?_⟩
          · intro q
            rw [k2 q, hret acc p]
            by_cases hq : q = p
            · subst hq
              by_cases hk : keep acc q = true
              · simp [ha, hk, h2 q, List.count_append]
                omega
              · simp [ha, hk, h2 q]
            · have : List.count q [p] = 0 := by
                rw [List.count_cons_of_ne hq]; rfl
              by_cases hk : keep acc p = true
              · simp [hq, hk, h2 q, List.count_append, this]
              · simp [hq, hk, h2 q]
          · intro q
            have hle := h5 q
            rw [List.filter_cons_of_pos ha] at hle
            rw [hret acc p]
            by_cases hq : q = p
            · subst hq
              rw [List.count_cons_self] at hle
              by_cases hk : keep acc q = true
              · simp only [hk, if_true, List.count_append, List.count_cons_self, List.count_nil]
                omega
              · simp only [hk]
                simp only [Bool.false_eq_true, if_false]
                omega
            · rw [List.count_cons_of_ne hq] at hle
              have : List.count q [p] = 0 := by
                rw [List.count_cons_of_ne hq]; rfl
              by_cases hk : keep acc p = true
              · simp only [hk, if_true, List.count_append, this]
                omega
              · simp only [hk]
                simp only [Bool.false_eq_true, if_false]
                omega
        · intro h
          simp [on_candidates, ha] at h
      · have ha' : assignable same isU p = false := by simpa using ha
        refine ⟨σ', ?_, ?_, ?_⟩
        · rw [e]
        · intro _
          simp only [on_candidates, ha]
          refine ⟨fun q => by rw [k1 q, h1 q], ?_, by rw [k3, h3], by rw [k5 ha', h4], ?_⟩
          · intro q
            rw [k2 q]
            simp [ha, h2 q]
          · intro q
            have hle := h5 q
            rw [List.filter_cons_of_neg ha] at hle
            exact hle
        · intro h
          simp [on_candidates, ha] at h)
    this l htree
  refine ⟨N, ?_⟩
  intro fuel hfuel acc0 hacc0
  obtain ⟨s', e, hmore, _⟩ := hN fuel hfuel acc0 s
    ⟨fun _ => rfl, fun q => by simp [hacc0], rfl, rfl, fun q => by simp [hacc0]⟩
  rw [walk_on_candidates, walk_steps] at e hmore
  obtain ⟨k1, k2, k3, k4, _⟩ := hmore rfl
  exact ⟨s', e, k1, k2, k3, k4⟩

/-- The result of `find_children<U>()`: handles to the candidates of the pre-order sequence,
each count raised by the number of returned handles to the object. -/
theorem find_children_walks (same : Bool) (isU : Pointer → Bool)
    (del : State → Pointer → Option State) (s : State) (this : Pointer) (l : List Pointer)
    (htree : PreOrder s (s.heap this).m_children l)
    (hmax : ∀ q ∈ l.filter (assignable same isU), 0 < (s.heap q).m_count ∧
      (s.heap q).m_count + (l.filter (assignable same isU)).count q + 3 < SIZE_MODULUS) :
    ∃ N, ∀ fuel, N ≤ fuel →
      ∃ s', find_children same isU del fuel s this =
          some (l.filter (assignable same isU), s') ∧
        (∀ q, (s'.heap q).m_children = (s.heap q).m_children) ∧
        (∀ q, (s'.heap q).m_count =
          (s.heap q).m_count + (l.filter (assignable same isU)).count q) ∧
        s'.deleted = s.deleted ∧ s'.handles = s.handles := by
  have hfold : ∀ (L acc : List Pointer),
      L.foldl (fun (acc : List Pointer) p => acc ++ [p]) acc = acc ++ L := by
    intro L
    induction L with
    | nil => intro acc; simp
    | cons p L ih => intro acc; simp [ih]
  obtain ⟨N, hN⟩ := collector_walks same isU (find_children_lambda del) del s this l htree
    (fun (acc : List Pointer) p => acc ++ [p]) (fun acc => acc) (fun _ _ => true)
    (fun acc p => by simp)
    (fun acc t arg p a1 a2 _ a4 => by
      obtain ⟨t', b1, b2, b3, b4, b5, b6⟩ :=
        find_children_lambda_effect del acc t arg p a1 a2 a4
      exact ⟨t', b1, b2, by simpa using b3, b4, b6, b5⟩)
    hmax
  refine ⟨N, fun fuel hfuel => ?_⟩
  obtain ⟨s', e, k1, k2, k3, k4⟩ := hN fuel hfuel [] rfl
  rw [hfold] at e k2
  refine ⟨s', ?_, k1, by simpa using k2, k3, k4⟩
  simp only [find_children, e]
  simp

/-- The internal visitor of `find_children<U>(lambda)` called on a handle to `p`: when the
predicate holds, `p` is appended to the result and its count ends one higher; otherwise
nothing has changed. -/
theorem find_children_pred_lambda_effect {β : Type}
    (lambda : β → State → Loc → Option (Bool × β × State))
    (f : β → Pointer → Bool × β) (hobs : Observes lambda f)
    (del : State → Pointer → Option State) (acc : List Pointer × β) (t : State) (arg : Loc)
    (p : Pointer) (hitem : t.m_ptr arg = p) (hp : p ≠ nullptr)
    (h0 : 0 < (t.heap p).m_count) (hmax : (t.heap p).m_count + 2 < SIZE_MODULUS) :
    ∃ t', find_children_pred_lambda lambda del acc t arg =
        some (VisitStatus.VisitMore, collecting f acc p, t') ∧
      (∀ q, (t'.heap q).m_children = (t.heap q).m_children) ∧
      (∀ q, (t'.heap q).m_count =
        if q = p then (t.heap p).m_count + (if (f acc.2 p).1 = true then 1 else 0)
        else (t.heap q).m_count) ∧
      t'.deleted = t.deleted ∧ t'.temps 1 = t.temps 1 ∧ t'.handles = t.handles := by
  obtain ⟨t2, e1, e2, k1, k2, k3, k4, k5, k6⟩ :=
    observes_on_item lambda f hobs acc.2 t arg p hitem hp hmax
  have hc2 : (t2.heap p).m_count = (t.heap p).m_count + 1 := by rw [k2 p]; simp
  cases hf : (f acc.2 p).1 with
  | true =>
    rw [hf] at e2
    have w2 : ((t.heap p).m_count + 1 + 1) % SIZE_MODULUS = (t.heap p).m_count + 1 + 1 :=
      inc_wrap _ (by omega)
    have w3 : ((t.heap p).m_count + 1 + 1 + (SIZE_MODULUS - 1)) % SIZE_MODULUS =
        (t.heap p).m_count + 1 := by
      rw [dec_wrap _ (by omega) (by omega)]; rfl
    have ei : inc_ref_count t2 p = t2.set_count p ((t.heap p).m_count + 1 + 1) := by
      simp only [inc_ref_count, cs_inc_ref_count, hc2, w2]
    have ed : dtor del (t2.set_count p ((t.heap p).m_count + 1 + 1)) p =
        some ((t2.set_count p ((t.heap p).m_count + 1 + 1)).set_count p
          ((t.heap p).m_count + 1)) := by
      simp only [dtor, ne_eq, hp, not_false_eq_true, if_true]
      rw [dec_ref_count_keep _ _ _ (by simp)]
      simp only [State.set_count_count, if_true, w3]
    refine ⟨(t2.set_count p ((t.heap p).m_count + 1 + 1)).set_count p
        ((t.heap p).m_count + 1), ?_, ?_, ?_, ?_, ?_, ?_⟩
    · simp only [find_children_pred_lambda, e1, e2, k6, ne_eq, hp, not_false_eq_true, if_true,
        ei, State.m_ptr_set_count, ed, collecting, hf]
    · intro q; simp [k1 q]
    · intro q
      by_cases hq : q = p
      · simp [hq]
      · simp [hq, k2 q]
    · simp [k4]
    · show t2.temps 1 = t.temps 1
      exact k5
    · simp [k3]
  | false =>
    rw [hf] at e2
    have w3 : ((t.heap p).m_count + 1 + (SIZE_MODULUS - 1)) % SIZE_MODULUS =
        (t.heap p).m_count := by
      rw [dec_wrap _ (by omega) (by omega)]; rfl
    have ed : dtor del t2 p = some (t2.set_count p (t.heap p).m_count) := by
      simp only [dtor, ne_eq, hp, not_false_eq_true, if_true]
      rw [dec_ref_count_keep _ _ _ (by rw [hc2]; omega), hc2, w3]
    refine ⟨t2.set_count p (t.heap p).m_count, ?_, ?_, ?_, ?_, ?_, ?_⟩
    · simp only [find_children_pred_lambda, e1, e2, k6, ed, collecting, hf,
        Bool.false_eq_true, if_false]
    · intro q; simp [k1 q]
    · intro q
      by_cases hq : q = p
      · simp [hq]
      · simp [hq, k2 q]
    · simp [k4]
    · show t2.temps 1 = t.temps 1
      exact k5
    · simp [k3]

/-- The result of `find_children<U>(lambda)` for a predicate that only observes: the
captures after the walk are those of folding `collecting f` over the candidates. -/
theorem find_children_pred_walks {β : Type} (same : Bool) (isU : Pointer → Bool)
    (lambda : β → State → Loc → Option (Bool × β × State))
    (f : β → Pointer → Bool × β) (hobs : Observes lambda f)
    (del : State → Pointer → Option State) (s : State) (this : Pointer) (l : List Pointer)
    (htree : PreOrder s (s.heap this).m_children l)
    (hmax : ∀ q ∈ l.filter (assignable same isU), 0 < (s.heap q).m_count ∧
      (s.heap q).m_count + (l.filter (assignable same isU)).count q + 3 < SIZE_MODULUS) :
    ∃ N, ∀ fuel, N ≤ fuel → ∀ b0,
      ∃ s', find_children_pred same isU lambda del fuel s this b0 =
          some (((l.filter (assignable same isU)).foldl (collecting f) ([], b0)).1,
            ((l.filter (assignable same isU)).foldl (collecting f) ([], b0)).2, s') ∧
        (∀ q, (s'.heap q).m_children = (s.heap q).m_children) ∧
        (∀ q, (s'.heap q).m_count = (s.heap q).m_count +
          (((l.filter (assignable same isU)).foldl (collecting f) ([], b0)).1).count q) ∧
        s'.deleted = s.deleted ∧ s'.handles = s.handles := by
  obtain ⟨N, hN⟩ := collector_walks same isU (find_children_pred_lambda lambda del) del s
    this l htree (collecting f) Prod.fst (fun acc p => (f acc.2 p).1)
    (fun acc p => by
      by_cases h : (f acc.2 p).1 = true
      · simp [collecting, h]
      · simp [collecting, h])
    (fun acc t arg p a1 a2 a3 a4 =>
      find_children_pred_lambda_effect lambda f hobs del acc t arg p a1 a2 a3 a4)
    hmax
  refine ⟨N, fun fuel hfuel b0 => ?_⟩
  obtain ⟨s', e, k1, k2, k3, k4⟩ := hN fuel hfuel ([], b0) rfl
  refine ⟨s', ?_, k1, k2, k3, k4⟩
  simp only [find_children_pred, e]

theorem PreOrder.transport {s σ : State}
    (h : ∀ q, (σ.heap q).m_children = (s.heap q).m_children) {kids l : List Pointer}
    (ht : PreOrder s kids l) : PreOrder σ kids l := by
  induction ht with
  | nil => exact PreOrder.nil
  | cons c rest sub tail hc _ _ ih1 ih2 =>
    exact PreOrder.cons c rest sub tail hc (by rw [h c]; exact ih1) ih2

theorem heap_ext (s σ : State) (h1 : ∀ q, (σ.heap q).m_children = (s.heap q).m_children)
    (h2 : ∀ q, (σ.heap q).m_count = (s.heap q).m_count) : σ.heap = s.heap := by
  funext q
  have a := h1 q
  have b := h2 q
  cases hσ : σ.heap q
  cases hs : s.heap q
  rw [hσ, hs] at a b
  simp only at a b
  rw [a, b]

theorem stop_at_on_candidates {α : Type} (same : Bool) (isU : Pointer → Bool)
    (f : α → Pointer → VisitStatus × α) :
    ∀ (l : List Pointer) (acc : α),
      stop_at (on_candidates same isU f) l acc =
        stop_at f (l.filter (assignable same isU)) acc
  | [], _ => rfl
  | p :: l, acc => by
    by_cases hp : assignable same isU p = true
    · rcases hf : f acc p with ⟨r, acc1⟩
      cases r with
      | VisitMore =>
        simp only [stop_at, on_candidates, hp, if_true, hf, List.filter_cons_of_pos]
        exact stop_at_on_candidates same isU f l acc1
      | Finished =>
        simp only [stop_at, on_candidates, hp, if_true, hf, List.filter_cons_of_pos]
    · simp only [stop_at, on_candidates, hp, if_false, List.filter_cons_of_neg hp]
      exact stop_at_on_candidates same isU f l acc

/-- The result of `find_child<U>(lambda)` for a predicate that only observes: the walk runs
`finding f` over the candidates of the pre-order sequence. When it does not finish, the
returned handle (variable `r`) is empty and nothing else has changed; when it finishes, the
handle holds the node at which it finished, whose count is one higher. -/
theorem find_child_pred_walks {β : Type} (same : Bool) (isU : Pointer → Bool)
    (lambda : β → State → Loc → Option (Bool × β × State))
    (f : β → Pointer → Bool × β) (hobs : Observes lambda f)
    (del : State → Pointer → Option State) (s : State) (r : Nat) (this : Pointer)
    (l : List Pointer) (htree : PreOrder s (s.heap this).m_children l)
    (hmax : ∀ q ∈ l.filter (assignable same isU), 0 < (s.heap q).m_count ∧
      (s.heap q).m_count + 3 < SIZE_MODULUS) (b0 : β) :
    ∃ N, ∀ fuel, N ≤ fuel →
      ∃ s', find_child_pred same isU lambda del fuel s this (Loc.var r) b0 =
          some ((walk (finding f) (l.filter (assignable same isU)) b0).2, s') ∧
        ((walk (finding f) (l.filter (assignable same isU)) b0).1 = VisitStatus.VisitMore →
          s'.m_ptr (Loc.var r) = nullptr ∧ (∀ j, j ≠ r → s'.handles j = s.handles j) ∧
          s'.heap = s.heap ∧ s'.deleted = s.deleted) ∧
        ((walk (finding f) (l.filter (assignable same isU)) b0).1 = VisitStatus.Finished →
          Found r (stop_at (finding f) (l.filter (assignable same isU)) b0) s s') := by
  have hs0 : ∀ q, ((ctor_null s (Loc.var r)).heap q).m_children = (s.heap q).m_children :=
    fun _ => rfl
  have ht0 : PreOrder (ctor_null s (Loc.var r))
      ((ctor_null s (Loc.var r)).heap this).m_children l :=
    PreOrder.transport hs0 htree
  refine Exists.imp (fun N hN fuel hfuel => ?_)
    (visit_walks same isU (find_child_pred_lambda lambda del (Loc.var r)) del
      (ctor_null s (Loc.var r)) (on_candidates same isU (finding f))
      (fun rem b σ => (∀ q, (σ.heap q).m_children = (s.heap q).m_children) ∧
        (∀ q, (σ.heap q).m_count = (s.heap q).m_count) ∧
        σ.deleted = s.deleted ∧ (∀ j, j ≠ r → σ.handles j = s.handles j) ∧
        σ.handles r = nullptr ∧
        (∀ q ∈ rem, assignable same isU q = true →
          0 < (s.heap q).m_count ∧ (s.heap q).m_count + 3 < SIZE_MODULUS) ∧
        stop_at (on_candidates same isU (finding f)) rem b =
          stop_at (on_candidates same isU (finding f)) l b0)
      (fun _ σ => Found r (stop_at (on_candidates same isU (finding f)) l b0) s σ)
      (fun rem acc σ hinv => hinv.1)
      (by
        intro rem b σ p this i hp hinv hitem
        obtain ⟨h1, h2, h3, h4, h5, h6, h7⟩ := hinv
        obtain ⟨σ', e, k1, k2, k3, k4, k5⟩ := visit_invoke_effect same isU
          (find_child_pred_lambda lambda del (Loc.var r)) del (finding f)
          (fun b p => if (f b p).1 = true then 1 else 0) (fun h => h r = nullptr)
          (fun b p h h' => (∀ j, j ≠ r → h' j = h j) ∧
            h' r = if (f b p).1 = true then p else h r)
          (fun b p => by show (if (f b p).1 = true then 1 else 0) ≤ 1; split <;> omega)
          (fun b t arg p a1 a2 a3 a4 a5 =>
            find_child_pred_lambda_effect lambda f hobs del r b t arg p a1 a2 a3 a4 a5)
          b σ (Loc.child this i) p hitem hp h5
          (fun ha => by
            rw [h2 p]
            exact h6 p (List.mem_cons_self _ _) ha)
        have hrest : ∀ q ∈ rem, assignable same isU q = true →
            0 < (s.heap q).m_count ∧ (s.heap q).m_count + 3 < SIZE_MODULUS :=
          fun q hq => h6 q (List.mem_cons_of_mem _ hq)
        refine ⟨σ', e, ?_, ?_⟩
        · intro hmore
          have hstop : stop_at (on_candidates same isU (finding f)) (p :: rem) b =
              stop_at (on_candidates same isU (finding f)) rem
                (on_candidates same isU (finding f) b p).2 := by
            rcases hg : on_candidates same isU (finding f) b p with ⟨st, b1⟩
            rw [hg] at hmore
            simp only at hmore
            subst hmore
            simp only [stop_at, hg]
          by_cases ha : assignable same isU p = true
          · have hf : (f b p).1 = false := by
              simp only [on_candidates, ha, if_true, finding] at hmore
              by_cases hfb : (f b p).1 = true
              · simp [hfb] at hmore
              · simpa using hfb
            obtain ⟨r1, r2⟩ := k4 ha
            refine ⟨fun q => by rw [k1 q, h1 q], ?_, by rw [k3, h3],
              fun j hj => by rw [r1 j hj, h4 j hj], ?_, hrest, ?_⟩
            · intro q
              rw [k2 q]
              by_cases hq : q = p
              · simp [hq, ha, hf, h2 p]
              · simp [hq, h2 q]
            · rw [r2]; simp [hf, h5]
            · rw [← hstop]; exact h7
          · have ha' : assignable same isU p = false := by simpa using ha
            refine ⟨fun q => by rw [k1 q, h1 q], ?_, by rw [k3, h3],
              fun j hj => by rw [k5 ha', h4 j hj], by rw [k5 ha', h5], hrest, ?_⟩
            · intro q
              rw [k2 q]
              simp [ha, h2 q]
            · rw [← hstop]; exact h7
        · intro hfin
          have ha : assignable same isU p = true := by
            by_cases ha : assignable same isU p = true
            · exact ha
            · simp [on_candidates, ha] at hfin
          have hf : (f b p).1 = true := by
            simp only [on_candidates, ha, if_true, finding] at hfin
            by_cases hfb : (f b p).1 = true
            · exact hfb
            · simp [hfb] at hfin
          have hstop : stop_at (on_candidates same isU (finding f)) (p :: rem) b = p := by
            rcases hg : on_candidates same isU (finding f) b p with ⟨st, b1⟩
            rw [hg] at hfin
            simp only at hfin
            subst hfin
            simp only [stop_at, hg]
          rw [← h7, hstop]
          obtain ⟨r1, r2⟩ := k4 ha
          refine ⟨?_, fun j hj => by rw [r1 j hj, h4 j hj], fun q => by rw [k1 q, h1 q], ?_,
            by rw [k3, h3]⟩
          · show σ'.handles r = p
            rw [r2]; simp [hf]
          · intro q
            rw [k2 q]
            by_cases hq : q = p
            · simp [hq, ha, hf, h2 p]
            · simp [hq, h2 q])
      this l ht0)
  obtain ⟨s', e, hmore, hfin⟩ := hN fuel hfuel b0 (ctor_null s (Loc.var r))
    ⟨fun _ => rfl, fun _ => rfl, rfl,
      fun j hj => by simp [ctor_null, State.set_m_ptr, hj],
      by simp [ctor_null, State.set_m_ptr],
      fun q hq ha => hmax q (List.mem_filter.mpr ⟨hq, ha⟩), rfl⟩
  rw [walk_on_candidates] at e hmore hfin
  rw [stop_at_on_candidates] at hfin
  refine ⟨s', ?_, ?_, hfin⟩
  · simp only [find_child_pred, e]
  · intro h
    obtain ⟨a1, a2, a3, a4, a5, _, _⟩ := hmore h
    exact ⟨a5, a4, heap_ext s s' a1 a2, a3⟩

/-- A predicate that takes the handle by value only observes. -/
theorem pred_by_value_observes {β : Type} (f : β → Pointer → Bool × β)
    (del : State → Pointer → Option State) : Observes (pred_by_value f del) f := by
  intro b t h hp h0 hmax
  have w1 : ((t.heap (t.m_ptr h)).m_count + 1) % SIZE_MODULUS = (t.heap (t.m_ptr h)).m_count + 1 :=
    inc_wrap _ hmax
  have w3 : ((t.heap (t.m_ptr h)).m_count + 1 + (SIZE_MODULUS - 1)) % SIZE_MODULUS =
      (t.heap (t.m_ptr h)).m_count := by
    rw [dec_wrap _ (by omega) (by omega)]; rfl
  have e1 : copy_ctor t (Loc.tmp 3) h =
      (t.set_m_ptr (Loc.tmp 3) (t.m_ptr h)).set_count (t.m_ptr h)
        ((t.heap (t.m_ptr h)).m_count + 1) := by
    simp [copy_ctor, hp, inc_ref_count, cs_inc_ref_count, w1]
  have hm : ((t.set_m_ptr (Loc.tmp 3) (t.m_ptr h)).set_count (t.m_ptr h)
      ((t.heap (t.m_ptr h)).m_count + 1)).m_ptr (Loc.tmp 3) = t.m_ptr h := by
    rw [State.m_ptr_set_count, State.m_ptr_set_tmp_self]
  have ed : dtor del ((t.set_m_ptr (Loc.tmp 3) (t.m_ptr h)).set_count (t.m_ptr h)
      ((t.heap (t.m_ptr h)).m_count + 1)) (t.m_ptr h) =
      some (((t.set_m_ptr (Loc.tmp 3) (t.m_ptr h)).set_count (t.m_ptr h)
        ((t.heap (t.m_ptr h)).m_count + 1)).set_count (t.m_ptr h)
          (t.heap (t.m_ptr h)).m_count) := by
    simp only [dtor, ne_eq, hp, not_false_eq_true, if_true]
    rw [dec_ref_count_keep _ _ _ (by simp; omega)]
    simp only [State.set_count_count, if_true, w3]
  refine ⟨((t.set_m_ptr (Loc.tmp 3) (t.m_ptr h)).set_count (t.m_ptr h)
      ((t.heap (t.m_ptr h)).m_count + 1)).set_count (t.m_ptr h) (t.heap (t.m_ptr h)).m_count,
    ?_, ?_, ?_, ?_, ?_⟩
  · simp only [pred_by_value, e1, hm, ed]
  · have := State.set_count_restore (t.set_m_ptr (Loc.tmp 3) (t.m_ptr h)) (t.m_ptr h)
      ((t.heap (t.m_ptr h)).m_count + 1)
    simpa using this
  · simp [State.set_m_ptr]
  · simp
  · intro j hj
    have : j ≠ 3 := by omega
    simp [State.set_m_ptr, this]

/-- A predicate that takes the handle by reference only observes. -/
theorem pred_by_reference_observes {β : Type} (f : β → Pointer → Bool × β) :
    Observes (pred_by_reference f) f :=
  fun _ t _ _ _ _ => ⟨t, rfl, rfl, rfl, rfl, fun _ _ => rfl⟩

/-! ## `find_child`, `find_child(pred)`, `find_children(pred)` -/

theorem finding_stateless (k : Pointer → Bool) :
    ∀ (L : List Pointer),
      (walk (finding (stateless k)) L ()).1 =
        (if (L.find? k).isSome = true then VisitStatus.Finished else VisitStatus.VisitMore) ∧
      stop_at (finding (stateless k)) L () = (L.find? k).getD nullptr
  | [] => by simp [walk, stop_at]
  | p :: L => by
    obtain ⟨ih1, ih2⟩ := finding_stateless k L
    by_cases hk : k p = true
    · simp [walk, stop_at, finding, stateless, hk, List.find?_cons]
    · have hk' : k p = false := by simpa using hk
      simp only [walk, stop_at, finding, stateless, hk', Bool.false_eq_true, if_false,
        List.find?_cons]
      exact ⟨ih1, ih2⟩

theorem collecting_recording (k : Pointer → Bool) :
    ∀ (L ret log : List Pointer),
      L.foldl (collecting (recording k)) (ret, log) = (ret ++ L.filter k, log ++ L)
  | [], ret, log => by simp
  | p :: L, ret, log => by
    by_cases hk : k p = true
    · simp only [List.foldl_cons, collecting, recording, hk, if_true]
      rw [collecting_recording k L]
      simp [List.filter_cons_of_pos, hk]
    · simp only [List.foldl_cons, collecting, recording, hk, if_false]
      rw [collecting_recording k L]
      simp [List.filter_cons_of_neg, hk]

theorem find_child_eq_pred (same : Bool) (isU : Pointer → Bool)
    (del : State → Pointer → Option State) (fuel : Nat) (s : State) (this : Pointer)
    (retval : Loc) :
    find_child same isU del fuel s this retval =
      (find_child_pred same isU (pred_by_reference (stateless (fun _ => true))) del fuel s this
        retval ()).map Prod.snd := by
  have hl : find_child_lambda del retval =
      find_child_pred_lambda (pred_by_reference (stateless (fun _ => true))) del retval := by
    funext acc t arg
    simp only [find_child_lambda, find_child_pred_lambda, pred_by_reference, stateless]
  simp only [find_child, find_child_pred, hl]
  cases visit same isU
    (find_child_pred_lambda (pred_by_reference (stateless (fun _ => true))) del retval) del fuel
    VisitChildren.Recursive (ctor_null s retval) this () with
  | none => rfl
  | some x => rfl

/-- C28: on a tree below the manager `this` (pre-order sequence `l`, no empty entry), for a
predicate that only observes and tests the address with `k`, `find_child<U>(pred)` returns,
for enough fuel, in handle variable `r` the first candidate of `l` for which `k` holds, or an
empty handle when there is none. The candidates are those of the whole pre-order sequence,
so a node below a rejected candidate is still found. When a node is found its count is one
higher and nothing else has changed; otherwise the heap, the deletion log and the other
handle variables are as before. Every candidate has a count between 1 and the largest
`std::size_t` minus 3. -/
theorem find_child_pred_first (same : Bool) (isU : Pointer → Bool)
    (lambda : Unit → State → Loc → Option (Bool × Unit × State)) (k : Pointer → Bool)
    (hobs : Observes lambda (stateless k)) (del : State → Pointer → Option State) (s : State)
    (r : Nat) (this : Pointer) (l : List Pointer)
    (htree : PreOrder s (s.heap this).m_children l)
    (hmax : ∀ q ∈ l.filter (assignable same isU), 0 < (s.heap q).m_count ∧
      (s.heap q).m_count + 3 < SIZE_MODULUS) :
    ∃ N, ∀ fuel, N ≤ fuel →
      ∃ s', find_child_pred same isU lambda del fuel s this (Loc.var r) () = some ((), s') ∧
        s'.m_ptr (Loc.var r) = ((l.filter (assignable same isU)).find? k).getD nullptr ∧
        ((l.filter (assignable same isU)).find? k = none →
          (∀ j, j ≠ r → s'.handles j = s.handles j) ∧ s'.heap = s.heap ∧
          s'.deleted = s.deleted) ∧
        (∀ p, (l.filter (assignable same isU)).find? k = some p → Found r p s s') := by
  obtain ⟨N, hN⟩ := find_child_pred_walks same isU lambda (stateless k) hobs del s r this l
    htree hmax ()
  obtain ⟨w1, w2⟩ := finding_stateless k (l.filter (assignable same isU))
  refine ⟨N, fun fuel hfuel => ?_⟩
  obtain ⟨s', e, hmore, hfin⟩ := hN fuel hfuel
  rw [w1] at hmore hfin
  rw [w2] at hfin
  refine ⟨s', e, ?_, ?_, ?_⟩
  · cases hfind : (l.filter (assignable same isU)).find? k with
    | none =>
      rw [hfind] at hmore
      exact (hmore (by simp)).1
    | some p =>
      rw [hfind] at hfin
      exact (hfin (by simp)).result
  · intro hnone
    rw [hnone] at hmore
    exact (hmore (by simp)).2
  · intro p hsome
    rw [hsome] at hfin
    exact hfin (by simp)

/-- C28 on the tree of the test `find`, with all nodes of type `Button` and the by-value
predicate `tag == "obj_cb"` (the address is 14): the node cb is found although its parent
groupBox is rejected, and its count rises from 2 to 3. -/
theorem find_child_pred_first_witness :
    ∃ N, ∀ fuel, N ≤ fuel →
      ∃ s', find_child_pred false (fun _ => true)
          (pred_by_value (stateless (fun p => p == 14)) (delete_this 0)) (delete_this 0) fuel
          find_tree 10 (Loc.var 3) () = some ((), s') ∧
        s'.m_ptr (Loc.var 3) = 14 ∧ (s'.heap 14).m_count = 3 := by
  obtain ⟨N, hN⟩ := find_child_pred_first false (fun _ => true)
    (pred_by_value (stateless (fun p => p == 14)) (delete_this 0)) (fun p => p == 14)
    (pred_by_value_observes _ _) (delete_this 0) find_tree 3 10 [11, 12, 13, 14, 15]
    find_tree_preorder (by decide)
  refine ⟨N, fun fuel hfuel => ?_⟩
  obtain ⟨s', e, h1, _, h3⟩ := hN fuel hfuel
  have hf := h3 14 (by decide)
  exact ⟨s', e, hf.result, by rw [hf.count 14]; decide⟩

/-- C27: on a tree below the manager `this` (pre-order sequence `l`, no empty entry),
`find_child<U>()` returns, for enough fuel, in handle variable `r` a handle to the first
candidate of `l`, which is the first element of the result of `find_children<U>()`; its
count is one higher and nothing else has changed. When there is no candidate the returned
handle is empty and the heap, the deletion log and the other handle variables are as before.
Every candidate has a count of at least 1 that stays 3 below the largest `std::size_t` when
raised by the number of its occurrences. -/
theorem find_child_first (same : Bool) (isU : Pointer → Bool)
    (del : State → Pointer → Option State) (s : State) (r : Nat) (this : Pointer)
    (l : List Pointer) (htree : PreOrder s (s.heap this).m_children l)
    (hmax : ∀ q ∈ l.filter (assignable same isU), 0 < (s.heap q).m_count ∧
      (s.heap q).m_count + (l.filter (assignable same isU)).count q + 3 < SIZE_MODULUS) :
    ∃ N, ∀ fuel, N ≤ fuel →
      ∃ s' found s'', find_child same isU del fuel s this (Loc.var r) = some s' ∧
        find_children same isU del fuel s this = some (found, s'') ∧
        found = l.filter (assignable same isU) ∧
        s'.m_ptr (Loc.var r) = found.head?.getD nullptr ∧
        (found = [] → (∀ j, j ≠ r → s'.handles j = s.handles j) ∧ s'.heap = s.heap ∧
          s'.deleted = s.deleted) ∧
        (∀ p, found.head? = some p → Found r p s s') := by
  obtain ⟨N1, h1⟩ := find_child_pred_walks same isU
    (pred_by_reference (stateless (fun _ => true))) (stateless (fun _ => true))
    (pred_by_reference_observes _) del s r this l htree
    (fun q hq => ⟨(hmax q hq).1, by have := (hmax q hq).2; omega⟩) ()
  obtain ⟨N2, h2⟩ := find_children_walks same isU del s this l htree hmax
  obtain ⟨w1, w2⟩ := finding_stateless (fun _ => true) (l.filter (assignable same isU))
  have hhead : ∀ L : List Pointer, L.find? (fun _ => true) = L.head? := by
    intro L; cases L <;> simp
  rw [hhead] at w1 w2
  refine ⟨max N1 N2, fun fuel hfuel => ?_⟩
  obtain ⟨s', e, hmore, hfin⟩ := h1 fuel (le_trans (le_max_left _ _) hfuel)
  obtain ⟨s'', e2, _⟩ := h2 fuel (le_trans (le_max_right _ _) hfuel)
  rw [w1] at hmore hfin
  rw [w2] at hfin
  refine ⟨s', l.filter (assignable same isU), s'', ?_, e2, rfl, ?_, ?_, ?_⟩
  · rw [find_child_eq_pred, e]; rfl
  · cases hfind : (l.filter (assignable same isU)).head? with
    | none =>
      rw [hfind] at hmore
      exact (hmore (by simp)).1
    | some p =>
      rw [hfind] at hfin
      exact (hfin (by simp)).result
  · intro hnil
    rw [hnil] at hmore
    exact (hmore (by simp)).2
  · intro p hsome
    rw [hsome] at hfin
    exact hfin (by simp)

/-- C27 on the tree of the test `find`, root[pb1, pb2, groupBox[cb], textEdit] with all nodes
of type `Button`: `find_child<Button>()` returns pb1 (at 11), the first element of
`find_children<Button>()`; on a manager without children the returned handle is empty. -/
theorem find_child_first_witness :
    (∃ N, ∀ fuel, N ≤ fuel →
      ∃ s' s'', find_child false (fun _ => true) (delete_this 0) fuel find_tree 10 (Loc.var 3) =
          some s' ∧
        find_children false (fun _ => true) (delete_this 0) fuel find_tree 10 =
          some ([11, 12, 13, 14, 15], s'') ∧
        s'.m_ptr (Loc.var 3) = 11 ∧ (s'.heap 11).m_count = 2) ∧
    (∃ N, ∀ fuel, N ≤ fuel →
      ∃ s', find_child false (fun _ => true) (delete_this 0) fuel find_tree 11 (Loc.var 3) =
          some s' ∧
        s'.m_ptr (Loc.var 3) = nullptr ∧ s'.heap = find_tree.heap) := by
  obtain ⟨N1, h1⟩ := find_child_first false (fun _ => true) (delete_this 0) find_tree 3 10
    [11, 12, 13, 14, 15] find_tree_preorder (by decide)
  obtain ⟨N2, h2⟩ := find_child_first false (fun _ => true) (delete_this 0) find_tree 3 11
    [] PreOrder.nil (by decide)
  refine ⟨⟨N1, fun fuel hfuel => ?_⟩, ⟨N2, fun fuel hfuel => ?_⟩⟩
  · obtain ⟨s', found, s'', e1, e2, e3, e4, _, e6⟩ := h1 fuel hfuel
    subst e3
    have hf := e6 11 (by decide)
    exact ⟨s', s'', e1, e2, hf.result, by rw [hf.count 11]; decide⟩
  · obtain ⟨s', found, s'', e1, _, e3, e4, e5, _⟩ := h2 fuel hfuel
    subst e3
    exact ⟨s', e1, e4, (e5 rfl).2.1⟩

/-- C29: on a tree below the manager `this` (pre-order sequence `l`, no empty entry), for a
predicate that only observes, tests the address with `k` and records its calls,
`find_children<U>(pred)` returns, for enough fuel, handles to the candidates of `l` for which
`k` holds, in the order of `l`: the result of `find_children<U>()` filtered by `k`. The
recorded calls are the candidates of `l` in order, each once. Every count rises by the number
of returned handles to that object, and child vectors, the deletion log and the handle
variables are as before. Every candidate has a count of at least 1 that stays 3 below the
largest `std::size_t` when raised by the number of its occurrences. -/
theorem find_children_pred_filters (same : Bool) (isU : Pointer → Bool)
    (lambda : List Pointer → State → Loc → Option (Bool × List Pointer × State))
    (k : Pointer → Bool) (hobs : Observes lambda (recording k))
    (del : State → Pointer → Option State) (s : State) (this : Pointer) (l : List Pointer)
    (htree : PreOrder s (s.heap this).m_children l)
    (hmax : ∀ q ∈ l.filter (assignable same isU), 0 < (s.heap q).m_count ∧
      (s.heap q).m_count + (l.filter (assignable same isU)).count q + 3 < SIZE_MODULUS) :
    ∃ N, ∀ fuel, N ≤ fuel →
      ∃ s' all s'', find_children same isU del fuel s this = some (all, s'') ∧
        all = l.filter (assignable same isU) ∧
        find_children_pred same isU lambda del fuel s this [] =
          some (all.filter k, all, s') ∧
        (∀ q, (s'.heap q).m_children = (s.heap q).m_children) ∧
        (∀ q, (s'.heap q).m_count = (s.heap q).m_count + (all.filter k).count q) ∧
        s'.deleted = s.deleted ∧ s'.handles = s.handles := by
  obtain ⟨N1, h1⟩ := find_children_pred_walks same isU lambda (recording k) hobs del s this l
    htree hmax
  obtain ⟨N2, h2⟩ := find_children_walks same isU del s this l htree hmax
  refine ⟨max N1 N2, fun fuel hfuel => ?_⟩
  obtain ⟨s', e, k1, k2, k3, k4⟩ := h1 fuel (le_trans (le_max_left _ _) hfuel) []
  obtain ⟨s'', e2, _⟩ := h2 fuel (le_trans (le_max_right _ _) hfuel)
  rw [collecting_recording] at e k2
  simp only [List.nil_append] at e k2
  exact ⟨s', l.filter (assignable same isU), s'', e2, rfl, e, k1, k2, k3, k4⟩

/-- C29 on the tree of the test `find`, with the by-value predicate `tag contains "pb"`
(true for the addresses 11 and 12): of the 5 nodes returned by `find_children<Widget>()` the
2 nodes pb1 and pb2 are returned, and the predicate was called on the 5 nodes in order. -/
theorem find_children_pred_filters_witness :
    ∃ N, ∀ fuel, N ≤ fuel →
      ∃ s' s'', find_children true (fun _ => true) (delete_this 0) fuel find_tree 10 =
          some ([11, 12, 13, 14, 15], s'') ∧
        find_children_pred true (fun _ => true)
          (pred_by_value (recording (fun p => p == 11 || p == 12)) (delete_this 0))
          (delete_this 0) fuel find_tree 10 [] = some ([11, 12], [11, 12, 13, 14, 15], s') := by
  obtain ⟨N, hN⟩ := find_children_pred_filters true (fun _ => true)
    (pred_by_value (recording (fun p => p == 11 || p == 12)) (delete_this 0))
    (fun p => p == 11 || p == 12) (pred_by_value_observes _ _) (delete_this 0) find_tree 10
    [11, 12, 13, 14, 15] find_tree_preorder (by decide)
  refine ⟨N, fun fuel hfuel => ?_⟩
  obtain ⟨s', all, s'', e1, e2, e3, _⟩ := hN fuel hfuel
  subst e2
  exact ⟨s', s'', e1, e3⟩

/-! ## The option `NonRecursive` -/

/-- One round of the loop of `visit<U>` for a visitor that takes the handle by reference and
leaves the heap alone: the visitor is called exactly on a candidate, and the heap, the
deletion log and the handle variables are as before. -/
theorem by_reference_invoke {α : Type} (same : Bool) (isU : Pointer → Bool)
    (f : α → Pointer → VisitStatus × α) (del : State → Pointer → Option State) (σ : State)
    (item : Loc) (acc : α) (p : Pointer) (hitem : σ.m_ptr item = p)
    (hp : same = false → p ≠ nullptr ∧
      (isU p = true → 0 < (σ.heap p).m_count ∧ (σ.heap p).m_count < SIZE_MODULUS)) :
    ∃ σ', visit_invoke same isU (by_reference f) del σ item acc =
        some ((on_candidates same isU f acc p).1, (on_candidates same isU f acc p).2, σ') ∧
      σ'.heap = σ.heap ∧ σ'.deleted = σ.deleted ∧ σ'.handles = σ.handles := by
  cases same with
  | true =>
    exact ⟨σ, by simp [visit_invoke, by_reference, hitem, on_candidates, assignable],
      rfl, rfl, rfl⟩
  | false =>
    obtain ⟨hpn, hc⟩ := hp rfl
    by_cases hu : isU p = true
    · obtain ⟨c0, cmax⟩ := hc hu
      obtain ⟨w1, w2⟩ := inc_dec_wrap _ c0 cmax
      have hcast : dynamic_cast isU p = p := by simp [dynamic_cast, hpn, hu]
      have e1 : dynamic_pointer_cast isU σ (Loc.tmp 1) item =
          (σ.set_m_ptr (Loc.tmp 1) p).set_count p
            (((σ.heap p).m_count + 1) % SIZE_MODULUS) := by
        simp [dynamic_pointer_cast, hitem, hcast, ctor_raw, hpn, inc_ref_count,
          cs_inc_ref_count]
      have e2 : dtor del ((σ.set_m_ptr (Loc.tmp 1) p).set_count p
            (((σ.heap p).m_count + 1) % SIZE_MODULUS)) p =
          some (((σ.set_m_ptr (Loc.tmp 1) p).set_count p
            (((σ.heap p).m_count + 1) % SIZE_MODULUS)).set_count p (σ.heap p).m_count) := by
        simp only [dtor, ne_eq, hpn, not_false_eq_true, if_true]
        rw [dec_ref_count_keep _ _ _ (by simpa using w1)]
        simp [w2]
      have hheap : (((σ.set_m_ptr (Loc.tmp 1) p).set_count p
            (((σ.heap p).m_count + 1) % SIZE_MODULUS)).set_count p
              (σ.heap p).m_count).heap = σ.heap := by
        have := State.set_count_restore (σ.set_m_ptr (Loc.tmp 1) p) p
          (((σ.heap p).m_count + 1) % SIZE_MODULUS)
        simpa using this
      refine ⟨_, ?_, hheap, by simp, by simp [State.set_m_ptr]⟩
      simp only [visit_invoke, Bool.false_eq_true, if_false, e1]
      simp only [State.m_ptr_set_count, State.m_ptr_set_tmp_self, ne_eq, hpn,
        not_false_eq_true, if_true, by_reference, e2, on_candidates, assignable,
        Bool.false_or, hu]
    · have hcast : dynamic_cast isU p = nullptr := by simp [dynamic_cast, hu]
      refine ⟨σ.set_m_ptr (Loc.tmp 1) nullptr, ?_, by simp, by simp, by simp [State.set_m_ptr]⟩
      simp [visit_invoke, dynamic_pointer_cast, hitem, hcast, ctor_raw, on_candidates,
        assignable, hu]

/-- The loop of `visit<U>` with the option `NonRecursive` and a visitor that takes the
handle by reference: the visitor is walked along the candidates among the entries from
position `i` on, and `recurse` is never called. -/
theorem visit_loop_flat {α : Type} (same : Bool) (isU : Pointer → Bool)
    (f : α → Pointer → VisitStatus × α) (del : State → Pointer → Option State)
    (recurse : State → Pointer → α → Option (VisitStatus × α × State)) (s : State)
    (this : Pointer) :
    ∀ (kids : List Pointer) (i : Nat) (acc : α) (σ : State),
      σ.heap = s.heap → (s.heap this).m_children.drop i = kids →
      (same = false → ∀ c ∈ kids, c ≠ nullptr ∧
        (isU c = true → 0 < (s.heap c).m_count ∧ (s.heap c).m_count < SIZE_MODULUS)) →
      ∃ σ', visit_loop (visit_body same isU (by_reference f) del recurse
            VisitChildren.NonRecursive) this kids.length i σ acc =
          some ((walk (on_candidates same isU f) kids acc).1,
            (walk (on_candidates same isU f) kids acc).2, σ') ∧
        σ'.heap = s.heap ∧ σ'.deleted = σ.deleted ∧ σ'.handles = σ.handles
  | [], _, acc, σ, hh, _, _ => ⟨σ, rfl, hh, rfl, rfl⟩
  | c :: rest, i, acc, σ, hh, hdrop, hk => by
    obtain ⟨hget, hdrop'⟩ := getD_of_drop _ i c rest hdrop
    have hitem : σ.m_ptr (Loc.child this i) = c := by
      simp only [State.m_ptr]
      rw [hh]; exact hget
    obtain ⟨σ1, e1, a1, a2, a3⟩ := by_reference_invoke same isU f del σ (Loc.child this i) acc c
      hitem (fun hs => by
        have := hk hs c (List.mem_cons_self _ _)
        rw [hh]; exact this)
    rcases hg : on_candidates same isU f acc c with ⟨st, acc1⟩
    rw [hg] at e1
    simp only at e1
    cases st with
    | Finished =>
      refine ⟨σ1, ?_, by rw [a1, hh], a2, a3⟩
      simp only [List.length_cons, visit_loop, visit_body, e1, walk, hg]
    | VisitMore =>
      obtain ⟨σ2, e2, b1, b2, b3⟩ := visit_loop_flat same isU f del recurse s this rest (i + 1)
        acc1 σ1 (by rw [a1, hh]) hdrop' (fun hs x hx => hk hs x (List.mem_cons_of_mem _ hx))
      refine ⟨σ2, ?_, b1, by rw [b2, a2], by rw [b3, a3]⟩
      simp only [List.length_cons, visit_loop, visit_body, e1, walk, hg]
      simpa using e2

/-- The method `visit<U>` with the option `NonRecursive` and a visitor that takes the handle
by reference, for any positive fuel. -/
theorem visit_flat {α : Type} (same : Bool) (isU : Pointer → Bool)
    (f : α → Pointer → VisitStatus × α) (del : State → Pointer → Option State) (s : State)
    (this : Pointer)
    (hk : same = false → ∀ c ∈ (s.heap this).m_children, c ≠ nullptr ∧
      (isU c = true → 0 < (s.heap c).m_count ∧ (s.heap c).m_count < SIZE_MODULUS))
    (fuel : Nat) (hfuel : 0 < fuel) (acc : α) :
    ∃ s', visit same isU (by_reference f) del fuel VisitChildren.NonRecursive s this acc =
        some ((walk f ((s.heap this).m_children.filter (assignable same isU)) acc).1,
          (walk f ((s.heap this).m_children.filter (assignable same isU)) acc).2, s') ∧
      s'.heap = s.heap ∧ s'.deleted = s.deleted ∧ s'.handles = s.handles := by
  obtain ⟨n, rfl⟩ : ∃ n, fuel = n + 1 := ⟨fuel - 1, by omega⟩
  obtain ⟨s', e, h1, h2, h3⟩ := visit_loop_flat same isU f del
    (fun s item acc => visit same isU (by_reference f) del n VisitChildren.Recursive s item acc)
    s this (s.heap this).m_children 0 acc s rfl (by simp) hk
  rw [walk_on_candidates] at e
  exact ⟨s', by simp only [visit]; exact e, h1, h2, h3⟩

/-- C30: `visit<U>` with the option `NonRecursive` and a visitor `f` that takes the handle by
reference returns for any positive fuel; its status and captures are those of calling `f`
along the candidates among the direct children of the manager, in stored order, up to the
first `Finished`, the recorded calls are exactly those (`invoked`), on a prefix of the
candidates among the direct children, and the heap, the deletion log and the handle
variables are as before. With the option `Recursive`, for a first child `c` with pre-order
sequence `sub` below it and `tail` for the later siblings, the recorded calls run along the
candidates of `c`, then of `sub`, then of `tail`. When `T` and `U` differ, no entry is empty
and every candidate has a count between 1 and the largest `std::size_t`. -/
theorem visit_option_depth {α : Type} (same : Bool) (isU : Pointer → Bool)
    (f : α → Pointer → VisitStatus × α) (del : State → Pointer → Option State) (s : State)
    (this : Pointer)
    (hk : same = false → ∀ c ∈ (s.heap this).m_children, c ≠ nullptr ∧
      (isU c = true → 0 < (s.heap c).m_count ∧ (s.heap c).m_count < SIZE_MODULUS)) :
    (∀ fuel, 0 < fuel → ∀ acc,
      (∃ s', visit same isU (by_reference f) del fuel VisitChildren.NonRecursive s this acc =
          some ((walk f ((s.heap this).m_children.filter (assignable same isU)) acc).1,
            (walk f ((s.heap this).m_children.filter (assignable same isU)) acc).2, s') ∧
        s'.heap = s.heap ∧ s'.deleted = s.deleted ∧ s'.handles = s.handles) ∧
      (∃ s', visit same isU (by_reference (traced f)) del fuel VisitChildren.NonRecursive s
            this (acc, []) =
          some ((walk f ((s.heap this).m_children.filter (assignable same isU)) acc).1,
            ((walk f ((s.heap this).m_children.filter (assignable same isU)) acc).2,
              invoked f ((s.heap this).m_children.filter (assignable same isU)) acc), s')) ∧
      (invoked f ((s.heap this).m_children.filter (assignable same isU)) acc).map Prod.fst <+:
        (s.heap this).m_children.filter (assignable same isU)) ∧
    (∀ c rest sub tail, (s.heap this).m_children = c :: rest → c ≠ nullptr →
      PreOrder s (s.heap c).m_children sub → PreOrder s rest tail →
      (same = false → ∀ p ∈ c :: sub ++ tail, isU p = true →
        0 < (s.heap p).m_count ∧ (s.heap p).m_count < SIZE_MODULUS) →
      ∃ N, ∀ fuel, N ≤ fuel → ∀ acc,
        ∃ s', visit same isU (by_reference (traced f)) del fuel VisitChildren.Recursive s this
            (acc, []) =
          some ((walk f ([c].filter (assignable same isU) ++
                sub.filter (assignable same isU) ++ tail.filter (assignable same isU)) acc).1,
            ((walk f ([c].filter (assignable same isU) ++
                sub.filter (assignable same isU) ++ tail.filter (assignable same isU)) acc).2,
              invoked f ([c].filter (assignable same isU) ++
                sub.filter (assignable same isU) ++ tail.filter (assignable same isU)) acc),
            s')) := by
  constructor
  · intro fuel hfuel acc
    refine ⟨visit_flat same isU f del s this hk fuel hfuel acc, ?_, invoked_initial f _ acc⟩
    obtain ⟨s', e, _⟩ := visit_flat same isU (traced f) del s this hk fuel hfuel (acc, [])
    rw [walk_traced] at e
    exact ⟨s', by simpa using e⟩
  · intro c rest sub tail hch hc hsub htail hcount
    have htree : PreOrder s (s.heap this).m_children (c :: sub ++ tail) := by
      rw [hch]
      exact PreOrder.cons c rest sub tail hc hsub htail
    obtain ⟨N, hN⟩ := visit_by_reference same isU (traced f) del s this (c :: sub ++ tail)
      htree hcount
    refine ⟨N, fun fuel hfuel acc => ?_⟩
    obtain ⟨s', e, _⟩ := hN fuel hfuel (acc, [])
    rw [walk_traced] at e
    have hfil : (c :: sub ++ tail).filter (assignable same isU) =
        [c].filter (assignable same isU) ++ sub.filter (assignable same isU) ++
          tail.filter (assignable same isU) := by
      rw [← List.filter_append, ← List.filter_append]
      rfl
    rw [hfil] at e
    exact ⟨s', by simpa using e⟩

/-- C30 on the tree of the test `find`, root[pb1, pb2, groupBox[cb], textEdit] at the
addresses 10[11, 12, 13[14], 15], with a visitor that never finishes: with `NonRecursive` the
calls are on 11, 12, 13, 15 and never on 14; with `Recursive` the call on 14 comes right after
the call on 13 and before the call on 15. -/
theorem visit_option_depth_witness :
    (∃ s', visit false (fun _ => true)
        (by_reference (traced (fun (_ : Unit) (_ : Pointer) => (VisitStatus.VisitMore, ()))))
        (delete_this 0) 1 VisitChildren.NonRecursive find_tree 10 ((), []) =
      some (VisitStatus.VisitMore, ((), [(11, VisitStatus.VisitMore), (12, VisitStatus.VisitMore),
        (13, VisitStatus.VisitMore), (15, VisitStatus.VisitMore)]), s')) ∧
    (∃ N, ∀ fuel, N ≤ fuel →
      ∃ s', visit false (fun _ => true)
          (by_reference (traced (fun (_ : Unit) (_ : Pointer) => (VisitStatus.VisitMore, ()))))
          (delete_this 0) fuel VisitChildren.Recursive find_tree 10 ((), []) =
        some (VisitStatus.VisitMore, ((), [(11, VisitStatus.VisitMore),
          (12, VisitStatus.VisitMore), (13, VisitStatus.VisitMore), (14, VisitStatus.VisitMore),
          (15, VisitStatus.VisitMore)]), s')) := by
  have h := visit_option_depth false (fun _ => true)
    (fun (_ : Unit) (_ : Pointer) => (VisitStatus.VisitMore, ())) (delete_this 0) find_tree 10
    (by decide)
  refine ⟨(h.1 1 (by decide) ()).2.1, ?_⟩
  obtain ⟨N, hN⟩ := h.2 11 [12, 13, 15] [] [12, 13, 14, 15] rfl (by decide) PreOrder.nil
    (PreOrder.cons 12 [13, 15] [] [13, 14, 15] (by decide) PreOrder.nil
      (PreOrder.cons 13 [15] [14] [15] (by decide)
        (PreOrder.cons 14 [] [] [] (by decide) PreOrder.nil PreOrder.nil)
        (PreOrder.cons 15 [] [] [] (by decide) PreOrder.nil PreOrder.nil)))
    (by decide)
  exact ⟨N, fun fuel hfuel => hN fuel hfuel ()⟩

/-! ## Duplicates, empty entries, positions, counter bases -/

theorem count_eraseIdx_find (l : List Pointer) (t : Pointer) (h : t ∈ l) :
    (l.eraseIdx (std_find l t)).count t + 1 = l.count t := by
  have hsplit := std_find_split l t h
  have h2 : (l.take (std_find l t) ++ t :: l.drop (std_find l t + 1)).count t = l.count t := by
    rw [← hsplit]
  rw [List.eraseIdx_eq_take_drop_succ]
  simp only [List.count_append, List.count_cons_self] at h2 ⊢
  omega

/-- C31 fails as stated: in the test `duplicate_child` (the object at 11 added twice to the
manager at 10, count 3) the first `remove_child` returns true and leaves count 2, and the
second identical call returns true as well: it erases the remaining entry and lowers the
count to 1. -/
theorem remove_child_counterexample :
    duplicate_child.bind (fun s =>
      (remove_child (delete_this 1) s 10 (Loc.var 0)).bind (fun r1 =>
        (remove_child (delete_this 1) r1.2 10 (Loc.var 0)).map (fun r2 =>
          (r1.1, (r1.2.heap 11).m_count, r2.1, (r2.2.heap 10).m_children,
            (r2.2.heap 11).m_count)))) =
      some (true, 2, true, [], 1) := by
  decide

/-- C31 (amended): when the child sequence of `this` holds the target of the handle variable
`child` exactly twice (and other handles keep the count above 2), `remove_child(child)`
returns true, erases the first matching entry and lowers the count by one; a second
identical call returns true again, erases the remaining entry and lowers the count by one
more; only the third call returns false and leaves the state as it is. -/
theorem remove_child_twice (fuel : Nat) (s : State) (this : Pointer) (child : Nat)
    (hn : s.m_ptr (Loc.var child) ≠ nullptr)
    (h2 : (s.heap this).m_children.count (s.m_ptr (Loc.var child)) = 2)
    (hc : 2 < (s.heap (s.m_ptr (Loc.var child))).m_count ∧
      (s.heap (s.m_ptr (Loc.var child))).m_count < SIZE_MODULUS) :
    ∃ s1 s2, remove_child (delete_this fuel) s this (Loc.var child) = some (true, s1) ∧
      (s1.heap this).m_children = (s.heap this).m_children.eraseIdx
        (std_find (s.heap this).m_children (s.m_ptr (Loc.var child))) ∧
      (s1.heap (s.m_ptr (Loc.var child))).m_count =
        (s.heap (s.m_ptr (Loc.var child))).m_count - 1 ∧
      remove_child (delete_this fuel) s1 this (Loc.var child) = some (true, s2) ∧
      (s2.heap this).m_children = (s1.heap this).m_children.eraseIdx
        (std_find (s1.heap this).m_children (s.m_ptr (Loc.var child))) ∧
      (s2.heap this).m_children.length + 2 = (s.heap this).m_children.length ∧
      (s2.heap (s.m_ptr (Loc.var child))).m_count =
        (s.heap (s.m_ptr (Loc.var child))).m_count - 2 ∧
      remove_child (delete_this fuel) s2 this (Loc.var child) = some (false, s2) := by
  obtain ⟨c2, cmax⟩ := hc
  have hmem : s.m_ptr (Loc.var child) ∈ (s.heap this).m_children :=
    List.count_pos_iff.mp (by omega)
  obtain ⟨s1, e1, hch1, hh1, hcnt1⟩ := remove_child_raw_found [] fuel s this
    (s.m_ptr (Loc.var child)) hmem (fun _ h => by omega)
  have k1 : (s1.heap (s.m_ptr (Loc.var child))).m_count =
      (s.heap (s.m_ptr (Loc.var child))).m_count - 1 := by
    rw [hcnt1 hn, dec_wrap _ (by omega) cmax]
  have hm1 : s1.m_ptr (Loc.var child) = s.m_ptr (Loc.var child) := by
    show s1.handles child = s.handles child
    rw [hh1]
  have hcount1 : (s1.heap this).m_children.count (s.m_ptr (Loc.var child)) = 1 := by
    have := count_eraseIdx_find _ _ hmem
    rw [hch1]; omega
  have hmem1 : s.m_ptr (Loc.var child) ∈ (s1.heap this).m_children :=
    List.count_pos_iff.mp (by omega)
  obtain ⟨s2, e2, hch2, hh2, hcnt2⟩ := remove_child_raw_found [] fuel s1 this
    (s.m_ptr (Loc.var child)) hmem1 (fun _ h => by omega)
  have k2 : (s2.heap (s.m_ptr (Loc.var child))).m_count =
      (s.heap (s.m_ptr (Loc.var child))).m_count - 2 := by
    rw [hcnt2 hn, k1, dec_wrap _ (by omega) (by omega)]; omega
  have hm2 : s2.m_ptr (Loc.var child) = s.m_ptr (Loc.var child) := by
    show s2.handles child = s.handles child
    rw [hh2, hh1]
  have hcount2 : (s2.heap this).m_children.count (s.m_ptr (Loc.var child)) = 0 := by
    have := count_eraseIdx_find _ _ hmem1
    rw [hch2]; omega
  have hlen : (s2.heap this).m_children.length + 2 = (s.heap this).m_children.length := by
    have l1 : (s1.heap this).m_children.length + 1 = (s.heap this).m_children.length := by
      rw [hch1, List.length_eraseIdx]
      have := std_find_lt_of_mem _ _ hmem
      simp only [this, if_true]; omega
    have l2 : (s2.heap this).m_children.length + 1 = (s1.heap this).m_children.length := by
      rw [hch2, List.length_eraseIdx]
      have := std_find_lt_of_mem _ _ hmem1
      simp only [this, if_true]; omega
    omega
  refine ⟨s1, s2, e1, hch1, k1, ?_, hch2, hlen, k2, ?_⟩
  · show remove_child_raw _ s1 this (s1.m_ptr (Loc.var child)) = _
    rw [hm1]; exact e2
  · show remove_child_raw _ s2 this (s2.m_ptr (Loc.var child)) = _
    rw [hm2]
    simp [remove_child_raw, std_find_of_not_mem _ _ (List.count_eq_zero.mp hcount2)]

/-- C31 (amended) on the test `duplicate_child`: counts 3, 2, 1, and the third call returns
false. -/
theorem remove_child_twice_witness :
    ∃ s0 s1 s2, duplicate_child = some s0 ∧
      remove_child (delete_this 0) s0 10 (Loc.var 0) = some (true, s1) ∧
      (s1.heap 11).m_count = 2 ∧
      remove_child (delete_this 0) s1 10 (Loc.var 0) = some (true, s2) ∧
      (s2.heap 11).m_count = 1 ∧
      remove_child (delete_this 0) s2 10 (Loc.var 0) = some (false, s2) := by
  have h0 : ∃ s0, duplicate_child = some s0 ∧ s0.m_ptr (Loc.var 0) = 11 ∧
      (s0.heap 10).m_children = [11, 11] ∧ (s0.heap 11).m_count = 3 := by
    have e : duplicate_child.map (fun s => (s.m_ptr (Loc.var 0), (s.heap 10).m_children,
        (s.heap 11).m_count)) = some (11, [11, 11], 3) := by decide
    cases h : duplicate_child with
    | none => rw [h] at e; cases e
    | some s0 =>
      rw [h] at e
      simp only [Option.map_some', Option.some.injEq, Prod.mk.injEq] at e
      exact ⟨s0, rfl, e.1, e.2.1, e.2.2⟩
  obtain ⟨s0, e0, a1, a2, a3⟩ := h0
  obtain ⟨s1, s2, b1, _, b3, b4, _, _, b7, b8⟩ := remove_child_twice 0 s0 10 0
    (by rw [a1]; decide) (by rw [a1, a2]; decide) (by rw [a1, a3]; decide)
  rw [a1] at b3 b7
  rw [a3] at b3 b7
  exact ⟨s0, s1, s2, e0, b1, b3, b4, b7, b8⟩

/-- C32 fails as stated: `add_child(nullptr)` and `add_child` of an empty handle on a manager
without children both leave the child sequence `[nullptr]`, one empty entry, not the empty
sequence. -/
theorem add_child_null_counterexample :
    ((add_child_raw (delete_this 0) State.init 10 nullptr).map
        (fun s => (s.heap 10).m_children) = some [nullptr] ∧
      (add_child (delete_this 0) State.init 10 (Loc.var 0)).map
        (fun s => (s.heap 10).m_children) = some [nullptr]) ∧
    (State.init.heap 10).m_children = [] := by
  decide

/-- C32 (amended): `add_child` performs no validation. With a null raw address or an empty
handle the call succeeds and appends one empty entry to the child sequence of `this`; no
count, no other child sequence, no handle variable and no entry of the deletion log
changes. -/
theorem add_child_null_appends (del : State → Pointer → Option State) (s : State)
    (this : Pointer) (arg : Loc) (harg : s.m_ptr arg = nullptr) :
    (∃ s', add_child_raw del s this nullptr = some s' ∧
      (s'.heap this).m_children = (s.heap this).m_children ++ [nullptr] ∧
      (∀ q, q ≠ this → (s'.heap q).m_children = (s.heap q).m_children) ∧
      (∀ q, (s'.heap q).m_count = (s.heap q).m_count) ∧
      s'.handles = s.handles ∧ s'.deleted = s.deleted) ∧
    (∃ s', add_child del s this arg = some s' ∧
      (s'.heap this).m_children = (s.heap this).m_children ++ [nullptr] ∧
      (∀ q, q ≠ this → (s'.heap q).m_children = (s.heap q).m_children) ∧
      (∀ q, (s'.heap q).m_count = (s.heap q).m_count) ∧
      s'.handles = s.handles ∧ s'.deleted = s.deleted) := by
  obtain ⟨s', e, h1, h2, h3, h4, h5⟩ := add_child_raw_spec del s this nullptr
  have h3' : ∀ q, (s'.heap q).m_count = (s.heap q).m_count := by
    intro q; rw [h3 q]; simp
  refine ⟨⟨s', e, h1, h2, h3', h4, h5⟩, ⟨s', ?_, h1, h2, h3', h4, h5⟩⟩
  rw [add_child_eq_raw, harg]; exact e

/-- C32 (amended) on a fresh manager at 10: both forms leave the child sequence `[nullptr]`
and the count of the manager at 1. -/
theorem add_child_null_appends_witness :
    (∃ s', add_child_raw (delete_this 0) (make_intrusive State.init (Loc.var 0) 10) 10 nullptr =
        some s' ∧ (s'.heap 10).m_children = [nullptr] ∧ (s'.heap 10).m_count = 1) ∧
    (∃ s', add_child (delete_this 0) (make_intrusive State.init (Loc.var 0) 10) 10 (Loc.var 1) =
        some s' ∧ (s'.heap 10).m_children = [nullptr] ∧ (s'.heap 10).m_count = 1) := by
  obtain ⟨⟨s1, e1, a1, _, a3, _⟩, ⟨s2, e2, b1, _, b3, _⟩⟩ :=
    add_child_null_appends (delete_this 0) (make_intrusive State.init (Loc.var 0) 10) 10
      (Loc.var 1) (by decide)
  exact ⟨⟨s1, e1, a1.trans (by decide), (a3 10).trans (by decide)⟩,
    ⟨s2, e2, b1.trans (by decide), (b3 10).trans (by decide)⟩⟩

/-- C35: when the handles `a` and `b` hold the same address (both non-empty or both empty),
the move assignment `a = std::move(b)` returns the state as it is, in its same-type form and
in its converting form: both handles hold the address they held, `b` is not emptied, and no
count changes, whatever `delete this` would do. -/
theorem move_assign_same_address_noop (del : State → Pointer → Option State) (s : State)
    (a b : Loc) (h : s.m_ptr a = s.m_ptr b) :
    move_assign del s a b = some s ∧ converting_move_assign del s a b = some s := by
  simp [move_assign, converting_move_assign, h]

/-- C35 on two handle variables sharing the object at 10 (use count 2), and on two empty
handle variables. -/
theorem move_assign_same_address_noop_witness :
    (move_assign (delete_this 0) shared_pair (Loc.var 0) (Loc.var 1) = some shared_pair ∧
      converting_move_assign (delete_this 0) shared_pair (Loc.var 0) (Loc.var 1) =
        some shared_pair) ∧
    (move_assign (delete_this 0) State.init (Loc.var 0) (Loc.var 1) = some State.init ∧
      converting_move_assign (delete_this 0) State.init (Loc.var 0) (Loc.var 1) =
        some State.init) ∧
    shared_pair.m_ptr (Loc.var 0) = 10 ∧ shared_pair.m_ptr (Loc.var 1) = 10 ∧
    use_count shared_pair (Loc.var 1) = 2 :=
  ⟨move_assign_same_address_noop (delete_this 0) shared_pair (Loc.var 0) (Loc.var 1) (by decide),
    move_assign_same_address_noop (delete_this 0) State.init (Loc.var 0) (Loc.var 1) (by decide),
    by decide, by decide, by decide⟩

/-- C39: for a child sequence of length `n` and indices `source`, `dest` below `n`, every
position that `move_child` computes lies between 0 and `n`: `source`, `source + 1`,
`dest + 1` from `begin()` when `source < dest`, and `n - source - 1`, `n - source`,
`n - dest` from `rbegin()` when `dest < source`; these are the positions handed to
`std::rotate`. For equal indices, in range or not, no position is computed and the state is
returned as it is. -/
theorem move_child_in_bounds (s : State) (this : Pointer) (source dest : Nat) :
    (source < (s.heap this).m_children.length → dest < (s.heap this).m_children.length →
      (∀ p ∈ move_child_positions (s.heap this).m_children.length source dest,
        0 ≤ p ∧ p ≤ ((s.heap this).m_children.length : Int)) ∧
      (source < dest →
        move_child_positions (s.heap this).m_children.length source dest =
          [(source : Int), ((source + 1 : Nat) : Int), ((dest + 1 : Nat) : Int)] ∧
        move_child s this source dest = s.set_children this
          (std_rotate (s.heap this).m_children source (source + 1) (dest + 1))) ∧
      (dest < source →
        move_child_positions (s.heap this).m_children.length source dest =
          [(((s.heap this).m_children.length - source - 1 : Nat) : Int),
            (((s.heap this).m_children.length - source : Nat) : Int),
            (((s.heap this).m_children.length - dest : Nat) : Int)] ∧
        move_child s this source dest = s.set_children this
          (std_rotate (s.heap this).m_children.reverse
            ((s.heap this).m_children.length - source - 1)
            ((s.heap this).m_children.length - source)
            ((s.heap this).m_children.length - dest)).reverse)) ∧
    (move_child_positions (s.heap this).m_children.length source source = [] ∧
      move_child s this source source = s) := by
  refine ⟨fun hs hd => ⟨?_, ?_, ?_⟩, by simp [move_child_positions], by simp [move_child]⟩
  · intro p hp
    unfold move_child_positions at hp
    split_ifs at hp with h1 h2
    · simp at hp
    · simp only [List.mem_cons, List.mem_singleton, List.not_mem_nil, or_false] at hp
      rcases hp with rfl | rfl | rfl <;> constructor <;> omega
    · simp only [List.mem_cons, List.mem_singleton, List.not_mem_nil, or_false] at hp
      rcases hp with rfl | rfl | rfl <;> constructor <;> omega
  · intro hlt
    have hne : source ≠ dest := by omega
    refine ⟨?_, by simp [move_child, hne, hlt]⟩
    simp [move_child_positions, hne, hlt]
  · intro hlt
    have hne : source ≠ dest := by omega
    have hnl : ¬ source < dest := by omega
    refine ⟨?_, by simp [move_child, hne, hnl]⟩
    simp only [move_child_positions, hne, hnl, if_false]
    have e1 : (((s.heap this).m_children.length - source - 1 : Nat) : Int) =
        ((s.heap this).m_children.length : Int) - source - 1 := by omega
    have e2 : (((s.heap this).m_children.length - source : Nat) : Int) =
        ((s.heap this).m_children.length : Int) - source := by omega
    have e3 : (((s.heap this).m_children.length - dest : Nat) : Int) =
        ((s.heap this).m_children.length : Int) - dest := by omega
    rw [e1, e2, e3]

/-- C39 on the sequence of the test `move_children` (length 3): `move_child(1, 2)`,
`move_child(2, 0)` and `move_child(7, 7)`. -/
theorem move_child_in_bounds_witness :
    (∀ p ∈ move_child_positions 3 1 2, 0 ≤ p ∧ p ≤ 3) ∧
    (∀ p ∈ move_child_positions 3 2 0, 0 ≤ p ∧ p ≤ 3) ∧
    move_child_positions 3 2 0 = [0, 1, 3] ∧ move_child_positions 3 7 7 = [] := by
  have h := move_child_in_bounds (State.of [(10, ⟨1, [11, 12, 13]⟩)] []) 10 1 2
  have h' := move_child_in_bounds (State.of [(10, ⟨1, [11, 12, 13]⟩)] []) 10 2 0
  exact ⟨(h.1 (by decide) (by decide)).1, (h'.1 (by decide) (by decide)).1, by decide,
    by decide⟩

/-- C40: the counter functions of `CsIntrusiveBase_CM` are those of `CsIntrusiveBase`. For a
count below the largest `std::size_t`, `cs_inc_ref_count` raises it by one. For a count
between 1 and the largest `std::size_t`, `cs_dec_ref_count` lowers it by one and then runs
`delete this` exactly when the action is `Normal` and the count before was 1; with
`NoDelete` it never does, also when the count goes from 1 to 0. -/
theorem counter_bases_agree (del : State → Pointer → Option State) (s : State)
    (this : Pointer) (action : CsIntrusiveAction) :
    CsIntrusiveBase_CM.cs_inc_ref_count s this = cs_inc_ref_count s this ∧
    CsIntrusiveBase_CM.cs_dec_ref_count del s this action =
      cs_dec_ref_count del s this action ∧
    CsIntrusiveBase_CM.cs_get_ref_count s this = cs_get_ref_count s this ∧
    ((s.heap this).m_count + 1 < SIZE_MODULUS →
      cs_inc_ref_count s this = s.set_count this ((s.heap this).m_count + 1) ∧
      cs_get_ref_count (cs_inc_ref_count s this) this = cs_get_ref_count s this + 1) ∧
    (0 < (s.heap this).m_count → (s.heap this).m_count < SIZE_MODULUS →
      (action = CsIntrusiveAction.Normal ∧ (s.heap this).m_count = 1 →
        cs_dec_ref_count del s this action =
          del (s.set_count this ((s.heap this).m_count - 1)) this) ∧
      (¬ (action = CsIntrusiveAction.Normal ∧ (s.heap this).m_count = 1) →
        cs_dec_ref_count del s this action =
          some (s.set_count this ((s.heap this).m_count - 1))) ∧
      cs_dec_ref_count del s this CsIntrusiveAction.NoDelete =
        some (s.set_count this ((s.heap this).m_count - 1)) ∧
      cs_get_ref_count (s.set_count this ((s.heap this).m_count - 1)) this + 1 =
        cs_get_ref_count s this) := by
  refine ⟨rfl, rfl, rfl, fun hmax => ?_, fun h0 hmax => ?_⟩
  · have e : cs_inc_ref_count s this = s.set_count this ((s.heap this).m_count + 1) := by
      simp only [cs_inc_ref_count, inc_wrap _ hmax]
    refine ⟨e, ?_⟩
    rw [e]
    simp [cs_get_ref_count]
  · have w := dec_wrap _ h0 hmax
    refine ⟨?_, ?_, ?_, ?_⟩
    · rintro ⟨ha, h1⟩
      subst ha
      simp only [cs_dec_ref_count, w]
      simp [h1]
    · intro hnot
      cases action with
      | Normal =>
        have h1 : (s.heap this).m_count ≠ 1 := fun h => hnot ⟨rfl, h⟩
        simp [cs_dec_ref_count, h1, w]
      | NoDelete => simp [cs_dec_ref_count, w]
    · simp [cs_dec_ref_count, w]
    · simp only [cs_get_ref_count, State.set_count_count, if_true]
      omega

/-- C40 on a fresh object with count 1: `NoDelete` leaves it with count 0, `Normal` runs
`delete this`, and an increment gives count 2. -/
theorem counter_bases_agree_witness :
    cs_dec_ref_count (delete_this 1) (make_intrusive State.init (Loc.var 0) 10) 10
        CsIntrusiveAction.NoDelete =
      some ((make_intrusive State.init (Loc.var 0) 10).set_count 10 0) ∧
    cs_dec_ref_count (delete_this 1) (make_intrusive State.init (Loc.var 0) 10) 10
        CsIntrusiveAction.Normal =
      delete_this 1 ((make_intrusive State.init (Loc.var 0) 10).set_count 10 0) 10 ∧
    cs_get_ref_count (cs_inc_ref_count (make_intrusive State.init (Loc.var 0) 10) 10) 10 = 2 :=
  ⟨((counter_bases_agree (delete_this 1) (make_intrusive State.init (Loc.var 0) 10) 10
      CsIntrusiveAction.NoDelete).2.2.2.2 (by decide) (by decide)).2.2.1,
    ((counter_bases_agree (delete_this 1) (make_intrusive State.init (Loc.var 0) 10) 10
      CsIntrusiveAction.Normal).2.2.2.2 (by decide) (by decide)).1 ⟨rfl, by decide⟩,
    ((counter_bases_agree (delete_this 1) (make_intrusive State.init (Loc.var 0) 10) 10
      CsIntrusiveAction.Normal).2.2.2.1 (by decide)).2⟩

theorem PreOrder.kids_mem {s : State} {kids l : List Pointer} (h : PreOrder s kids l) :
    ∀ c ∈ kids, c ∈ l ∧ c ≠ nullptr := by
  induction h with
  | nil => intro c hc; cases hc
  | cons c rest sub tail hc _ _ _ ih2 =>
    intro x hx
    rcases List.mem_cons.mp hx with rfl | hx
    · exact ⟨by simp, hc⟩
    · obtain ⟨a, b⟩ := ih2 x hx
      exact ⟨by simp [a], b⟩

/-- C37: on a tree below the manager `this` (pre-order sequence `l`, no empty entry), for
enough fuel: `visit<U>` with a visitor that takes the handle by reference and leaves the heap
alone, with either option, returns with the heap unchanged, so every child sequence and every
count is as before; `find_children<U>()` returns handles `found` and leaves every child
sequence as it was and every count higher by the number of handles in `found` that hold the
object; `find_child<U>()` leaves every child sequence as it was and every count as it was,
except that the count of the object held by the returned handle (variable `r`) is one
higher. This includes the case that `T` and `U` differ, where a temporary handle is made for
every candidate. Every candidate has a count of at least 1 that stays 3 below the largest
`std::size_t` when raised by the number of its occurrences. -/
theorem traversal_frame {α : Type} (same : Bool) (isU : Pointer → Bool)
    (f : α → Pointer → VisitStatus × α) (del : State → Pointer → Option State) (s : State)
    (r : Nat) (this : Pointer) (l : List Pointer)
    (htree : PreOrder s (s.heap this).m_children l)
    (hmax : ∀ q ∈ l.filter (assignable same isU), 0 < (s.heap q).m_count ∧
      (s.heap q).m_count + (l.filter (assignable same isU)).count q + 3 < SIZE_MODULUS) :
    ∃ N, ∀ fuel, N ≤ fuel →
      (∀ option acc, ∃ st acc' s', visit same isU (by_reference f) del fuel option s this acc =
          some (st, acc', s') ∧ s'.heap = s.heap ∧ s'.deleted = s.deleted) ∧
      (∃ found s', find_children same isU del fuel s this = some (found, s') ∧
        (∀ q, (s'.heap q).m_children = (s.heap q).m_children) ∧
        (∀ q, (s'.heap q).m_count = (s.heap q).m_count + found.count q) ∧
        s'.deleted = s.deleted) ∧
      (∃ s', find_child same isU del fuel s this (Loc.var r) = some s' ∧
        (∀ q, (s'.heap q).m_children = (s.heap q).m_children) ∧
        (∀ q, q ≠ nullptr → (s'.heap q).m_count =
          (s.heap q).m_count + if s'.m_ptr (Loc.var r) = q then 1 else 0) ∧
        s'.deleted = s.deleted) := by
  have hcount : same = false → ∀ p ∈ l, isU p = true →
      0 < (s.heap p).m_count ∧ (s.heap p).m_count < SIZE_MODULUS := by
    intro hs p hp hu
    have := hmax p (List.mem_filter.mpr ⟨hp, by simp [assignable, hu]⟩)
    exact ⟨this.1, by omega⟩
  obtain ⟨N1, h1⟩ := visit_by_reference same isU f del s this l htree hcount
  obtain ⟨N2, h2⟩ := find_children_walks same isU del s this l htree hmax
  obtain ⟨N3, h3⟩ := find_child_pred_walks same isU
    (pred_by_reference (stateless (fun _ => true))) (stateless (fun _ => true))
    (pred_by_reference_observes _) del s r this l htree
    (fun q hq => ⟨(hmax q hq).1, by have := (hmax q hq).2; omega⟩) ()
  refine ⟨max (max N1 N2) (max N3 1), fun fuel hfuel => ⟨?_, ?_, ?_⟩⟩
  · intro option acc
    cases option with
    | Recursive =>
      obtain ⟨s', e, a1, a2, _⟩ := h1 fuel (by omega) acc
      exact ⟨_, _, s', e, a1, a2⟩
    | NonRecursive =>
      obtain ⟨s', e, a1, a2, _⟩ := visit_flat same isU f del s this
        (fun hs c hc => ⟨(htree.kids_mem c hc).2,
          fun hu => hcount hs c (htree.kids_mem c hc).1 hu⟩) fuel (by omega) acc
      exact ⟨_, _, s', e, a1, a2⟩
  · obtain ⟨s', e, a1, a2, a3, _⟩ := h2 fuel (by omega)
    exact ⟨_, s', e, a1, a2, a3⟩
  · obtain ⟨s', e, hmore, hfin⟩ := h3 fuel (by omega)
    refine ⟨s', by rw [find_child_eq_pred, e]; rfl, ?_⟩
    rcases hw : (walk (finding (stateless fun _ => true))
        (l.filter (assignable same isU)) ()).1 with _ | _
    · obtain ⟨b1, _, b3, b4⟩ := hmore hw
      refine ⟨fun q => by rw [b3], fun q hq => ?_, b4⟩
      rw [b3, b1, if_neg (Ne.symm hq)]
      rfl
    · have hf := hfin hw
      refine ⟨hf.children, fun q _ => ?_, hf.deleted⟩
      rw [hf.count q, hf.result]
      by_cases hq : q = stop_at (finding (stateless fun _ => true))
          (l.filter (assignable same isU)) ()
      · rw [if_pos hq, if_pos hq.symm, hq]
      · rw [if_neg hq, if_neg (Ne.symm hq)]
        rfl

/-- C37 on the tree of the test `find` with all nodes of type `Button` and `T` different
from `U`: after `find_children` the counts of the returned nodes 11 and 13 are 2 and 3 (one
higher); after `find_child` the count of 11 is 2 and that of 13 is still 2; the child
sequence of the root is as before. -/
theorem traversal_frame_witness :
    ∃ N, ∀ fuel, N ≤ fuel →
      (∃ found s', find_children false (fun _ => true) (delete_this 0) fuel find_tree 10 =
          some (found, s') ∧
        (s'.heap 10).m_children = [11, 12, 13, 15] ∧
        (s'.heap 11).m_count = 1 + found.count 11 ∧ (s'.heap 13).m_count = 2 + found.count 13) ∧
      (∃ s', find_child false (fun _ => true) (delete_this 0) fuel find_tree 10 (Loc.var 3) =
          some s' ∧
        (s'.heap 10).m_children = [11, 12, 13, 15] ∧
        (s'.heap 13).m_count = 2 + if s'.m_ptr (Loc.var 3) = 13 then 1 else 0) := by
  obtain ⟨N, hN⟩ := traversal_frame false (fun _ => true)
    (fun (_ : Unit) (_ : Pointer) => (VisitStatus.VisitMore, ())) (delete_this 0) find_tree 3 10
    [11, 12, 13, 14, 15] find_tree_preorder (by decide)
  refine ⟨N, fun fuel hfuel => ?_⟩
  obtain ⟨_, ⟨found, s1, e1, a1, a2, _⟩, ⟨s2, e2, b1, b2, _⟩⟩ := hN fuel hfuel
  exact ⟨⟨found, s1, e1, a1 10, a2 11, a2 13⟩, ⟨s2, e2, b1 10, b2 13 (by decide)⟩⟩

/-! ## Termination of the traversals on finite trees -/

theorem Reach.snoc {s : State} {x y d : Pointer} (h : Reach s x y)
    (hd : d ∈ (s.heap y).m_children) : Reach s x d := by
  induction h with
  | child x c hc => exact Reach.step x c d hc (Reach.child c d hd)
  | step x c e hc _ ih => exact Reach.step x c d hc (ih hd)

/-- A finite forest without cycles and without empty entries has a pre-order sequence. -/
theorem preorder_exists (s : State) :
    ∀ (n : Nat) (F : List Pointer), F.length ≤ n → (∀ x ∈ F, x ≠ nullptr) →
      (∀ x ∈ F, ∀ c ∈ (s.heap x).m_children, c ∈ F) → (∀ x ∈ F, ¬ Reach s x x) →
      ∀ kids : List Pointer, (∀ c ∈ kids, c ∈ F) → ∃ l, PreOrder s kids l := by
  intro n
  induction n with
  | zero =>
    intro F hlen _ _ _ kids hk
    have hF : F = [] := List.length_eq_zero.mp (by omega)
    cases kids with
    | nil => exact ⟨[], PreOrder.nil⟩
    | cons c rest =>
      have := hk c (List.mem_cons_self _ _)
      rw [hF] at this
      cases this
  | succ n ih =>
    intro F hlen hnn hcl hac kids
    induction kids with
    | nil => intro _; exact ⟨[], PreOrder.nil⟩
    | cons c rest ihk =>
      intro hk
      have hcF : c ∈ F := hk c (List.mem_cons_self _ _)
      obtain ⟨tail, htail⟩ := ihk (fun x hx => hk x (List.mem_cons_of_mem _ hx))
      have hsub : ∃ sub, PreOrder s (s.heap c).m_children sub := by
        classical
        refine ih (F.filter (fun x => decide (Reach s c x))) ?_ ?_ ?_ ?_ _ ?_
        · have hlt : (F.filter (fun x => decide (Reach s c x))).length < F.length := by
            apply List.length_filter_lt_length_iff_exists.mpr
            exact ⟨c, hcF, by simpa using hac c hcF⟩
          omega
        · intro x hx
          exact hnn x (List.mem_filter.mp hx).1
        · intro x hx d hd
          obtain ⟨hxF, hr⟩ := List.mem_filter.mp hx
          have hr' : Reach s c x := by simpa using hr
          exact List.mem_filter.mpr ⟨hcl x hxF d hd, by simpa using hr'.snoc hd⟩
        · intro x hx
          exact hac x (List.mem_filter.mp hx).1
        · intro d hd
          exact List.mem_filter.mpr ⟨hcl c hcF d hd, by simpa using Reach.child c d hd⟩
      obtain ⟨sub, hsub⟩ := hsub
      exact ⟨c :: sub ++ tail, PreOrder.cons c rest sub tail (hnn c hcF) hsub htail⟩

theorem PreOrder.with_paths {s : State} {kids l : List Pointer} (h : PreOrder s kids l) :
    ∀ (pfx : List Nat) (i : Nat), ∃ lp, PreOrderPaths s pfx i kids lp ∧ lp.map Prod.snd = l := by
  induction h with
  | nil => intro pfx i; exact ⟨[], PreOrderPaths.nil pfx i, rfl⟩
  | cons c rest sub tail hc _ _ ih1 ih2 =>
    intro pfx i
    obtain ⟨lp1, h1, e1⟩ := ih1 (pfx ++ [i]) 0
    obtain ⟨lp2, h2, e2⟩ := ih2 pfx (i + 1)
    exact ⟨(pfx ++ [i], c) :: lp1 ++ lp2, PreOrderPaths.cons pfx i c rest lp1 lp2 hc h1 h2,
      by simp [e1, e2]⟩

theorem PreOrderPaths.forget {s : State} {pfx : List Nat} {i : Nat} {kids : List Pointer}
    {lp : List (List Nat × Pointer)} (h : PreOrderPaths s pfx i kids lp) :
    PreOrder s kids (lp.map Prod.snd) := by
  induction h with
  | nil => exact PreOrder.nil
  | cons pfx i c rest sub tail hc _ _ ih1 ih2 =>
    have := PreOrder.cons c rest _ _ hc ih1 ih2
    simpa using this

/-- The pre-order sequence of a forest is determined by its roots. -/
theorem PreOrder.unique {s : State} {kids l : List Pointer} (h : PreOrder s kids l) :
    ∀ l', PreOrder s kids l' → l' = l := by
  induction h with
  | nil => intro l' h'; cases h'; rfl
  | cons c rest sub tail hc _ _ ih1 ih2 =>
    intro l' h'
    cases h' with
    | cons _ _ sub' tail' _ h1 h2 =>
      rw [ih1 sub' h1, ih2 tail' h2]

/-- The pre-order sequence of a concatenation of forests. -/
theorem PreOrder.split {s : State} :
    ∀ (k1 k2 l : List Pointer), PreOrder s (k1 ++ k2) l →
      ∃ l1 l2, l = l1 ++ l2 ∧ PreOrder s k1 l1 ∧ PreOrder s k2 l2
  | [], k2, l, h => ⟨[], l, rfl, PreOrder.nil, h⟩
  | c :: k1, k2, l, h => by
    cases h with
    | cons _ _ sub tail hc h1 h2 =>
      obtain ⟨l1, l2, e, a, b⟩ := PreOrder.split k1 k2 tail h2
      exact ⟨c :: sub ++ l1, l2, by simp [e], PreOrder.cons c k1 sub l1 hc h1 a, b⟩

/-- Every entry of the sequence with paths lies below the prefix, at a position from `i` on,
and its path leads to its node. -/
theorem PreOrderPaths.sound {s : State} {pfx : List Nat} {i : Nat} {kids : List Pointer}
    {lp : List (List Nat × Pointer)} (h : PreOrderPaths s pfx i kids lp) :
    ∀ (x : Pointer), (s.heap x).m_children.drop i = kids →
      ∀ e ∈ lp, ∃ j rest, i ≤ j ∧ e.1 = pfx ++ j :: rest ∧ node_at s x (j :: rest) = some e.2 := by
  induction h with
  | nil => intro x _ e he; cases he
  | cons pfx i c rest sub tail hc _ _ ih1 ih2 =>
    intro x hdrop e he
    obtain ⟨hget, hdrop'⟩ := getD_of_drop _ i c rest hdrop
    have hidx : (s.heap x).m_children[i]? = some c := by
      have hlt : i < (s.heap x).m_children.length := by
        by_contra hge
        rw [List.drop_eq_nil_of_le (by omega)] at hdrop
        cases hdrop
      rw [List.getElem?_eq_getElem hlt]
      rw [List.getD_eq_getElem _ _ hlt] at hget
      rw [hget]
    simp only [List.cons_append, List.mem_cons, List.mem_append] at he
    rcases he with rfl | he | he
    · exact ⟨i, [], Nat.le_refl _, rfl, by simp [node_at, hidx]⟩
    · obtain ⟨j, r, _, e1, e2⟩ := ih1 c (by simp) e he
      refine ⟨i, j :: r, Nat.le_refl _, by rw [e1]; simp, ?_⟩
      simp only [node_at, hidx]
      exact e2
    · obtain ⟨j, r, hj, e1, e2⟩ := ih2 x hdrop' e he
      exact ⟨j, r, by omega, e1, e2⟩

/-- No path occurs twice in the sequence with paths. -/
theorem PreOrderPaths.nodup {s : State} {pfx : List Nat} {i : Nat} {kids : List Pointer}
    {lp : List (List Nat × Pointer)} (h : PreOrderPaths s pfx i kids lp) :
    ∀ (x : Pointer), (s.heap x).m_children.drop i = kids → (lp.map Prod.fst).Nodup := by
  induction h with
  | nil => intro _ _; simp
  | cons pfx i c rest sub tail hc h1 h2 ih1 ih2 =>
    intro x hdrop
    obtain ⟨_, hdrop'⟩ := getD_of_drop _ i c rest hdrop
    have n1 := ih1 c (by simp)
    have n2 := ih2 x hdrop'
    have s1 := h1.sound c (by simp)
    have s2 := h2.sound x hdrop'
    simp only [List.cons_append, List.map_cons, List.map_append, List.nodup_cons,
      List.mem_append, List.mem_map, not_or, not_exists, not_and]
    refine ⟨⟨?_, ?_⟩, ?_⟩
    · intro e he heq
      obtain ⟨j, r, _, e1, _⟩ := s1 e he
      rw [e1] at heq
      have := congrArg List.length heq
      simp at this
    · intro e he heq
      obtain ⟨j, r, hj, e1, _⟩ := s2 e he
      rw [e1] at heq
      have h3 := List.append_cancel_left heq
      simp only [List.cons.injEq] at h3
      omega
    · rw [List.nodup_append]
      refine ⟨n1, n2, ?_⟩
      intro p hp1 hp2
      obtain ⟨e1, he1, rfl⟩ := List.mem_map.mp hp1
      obtain ⟨e2, he2, heq⟩ := List.mem_map.mp hp2
      obtain ⟨j1, r1, _, a1, _⟩ := s1 e1 he1
      obtain ⟨j2, r2, hj2, a2, _⟩ := s2 e2 he2
      rw [a1, a2] at heq
      simp only [List.append_assoc, List.singleton_append] at heq
      have h3 := List.append_cancel_left heq
      simp only [List.cons.injEq] at h3
      omega

/-- Every path from a position `i` on appears in the sequence with paths. -/
theorem PreOrderPaths.complete {s : State} {pfx : List Nat} {i : Nat} {kids : List Pointer}
    {lp : List (List Nat × Pointer)} (h : PreOrderPaths s pfx i kids lp) :
    ∀ (x : Pointer), (s.heap x).m_children.drop i = kids →
      ∀ (rest : List Nat) (j : Nat) (q : Pointer), i ≤ j →
        node_at s x (j :: rest) = some q → (pfx ++ j :: rest, q) ∈ lp := by
  induction h with
  | nil =>
    intro x hdrop rest j q hj hn
    have hlen : (s.heap x).m_children.length ≤ j := by
      have := congrArg List.length hdrop
      simp only [List.length_drop, List.length_nil] at this
      omega
    simp [node_at, List.getElem?_eq_none hlen] at hn
  | cons pfx i c rest sub tail hc _ _ ih1 ih2 =>
    intro x hdrop r j q hj hn
    obtain ⟨hget, hdrop'⟩ := getD_of_drop _ i c rest hdrop
    have hidx : (s.heap x).m_children[i]? = some c := by
      have hlt : i < (s.heap x).m_children.length := by
        by_contra hge
        rw [List.drop_eq_nil_of_le (by omega)] at hdrop
        cases hdrop
      rw [List.getElem?_eq_getElem hlt]
      rw [List.getD_eq_getElem _ _ hlt] at hget
      rw [hget]
    by_cases hji : j = i
    · subst hji
      simp only [node_at, hidx] at hn
      cases r with
      | nil =>
        simp only [node_at, Option.some.injEq] at hn
        subst hn
        simp
      | cons j' r' =>
        have := ih1 c (by simp) r' j' q (Nat.zero_le _) hn
        simp only [List.cons_append, List.mem_cons, List.mem_append]
        right; left
        simpa using this
    · have := ih2 x hdrop' r j q (by omega) hn
      simp only [List.cons_append, List.mem_cons, List.mem_append]
      right; right
      exact this

/-- C38: on a finite tree below the manager `this` (finite set `F`, no node reachable from
itself, no empty child entry) there is a pre-order sequence `lp` of nodes with their paths,
which holds every path from the manager to a descendant exactly once. For enough fuel
`visit<U>` with a visitor that takes the handle by reference returns, and its calls run along
a prefix of the candidates of `lp`, so the visitor is called at most once per path;
`find_children<U>()` and `find_child<U>()` return as well. A node stored twice as a child of
the manager occurs twice in the sequence, each time followed by the sequence of its subtree.
Counts of candidates are at least 1 and stay representable in `std::size_t`. -/
theorem traversal_terminates {α : Type} (same : Bool) (isU : Pointer → Bool)
    (f : α → Pointer → VisitStatus × α) (del : State → Pointer → Option State) (s : State)
    (r : Nat) (this : Pointer) (F : List Pointer) (htree : FiniteTree s this F) :
    ∃ lp, PreOrderPaths s [] 0 (s.heap this).m_children lp ∧
      (lp.map Prod.fst).Nodup ∧
      (∀ e ∈ lp, e.1 ≠ [] ∧ node_at s this e.1 = some e.2) ∧
      (∀ path q, path ≠ [] → node_at s this path = some q → (path, q) ∈ lp) ∧
      ((same = false → ∀ p ∈ lp.map Prod.snd, isU p = true →
          0 < (s.heap p).m_count ∧ (s.heap p).m_count < SIZE_MODULUS) →
        ∃ N, ∀ fuel, N ≤ fuel → ∀ acc,
          ∃ s', visit same isU (by_reference (traced f)) del fuel VisitChildren.Recursive s this
              (acc, []) =
            some ((walk f ((lp.map Prod.snd).filter (assignable same isU)) acc).1,
              ((walk f ((lp.map Prod.snd).filter (assignable same isU)) acc).2,
                invoked f ((lp.map Prod.snd).filter (assignable same isU)) acc), s') ∧
            (invoked f ((lp.map Prod.snd).filter (assignable same isU)) acc).map Prod.fst <+:
              (lp.map Prod.snd).filter (assignable same isU)) ∧
      ((∀ q ∈ (lp.map Prod.snd).filter (assignable same isU), 0 < (s.heap q).m_count ∧
          (s.heap q).m_count + ((lp.map Prod.snd).filter (assignable same isU)).count q + 3 <
            SIZE_MODULUS) →
        ∃ N, ∀ fuel, N ≤ fuel →
          (∃ s', find_children same isU del fuel s this =
            some ((lp.map Prod.snd).filter (assignable same isU), s')) ∧
          (∃ s', find_child same isU del fuel s this (Loc.var r) = some s')) ∧
      (∀ k1 c k2 k3, (s.heap this).m_children = k1 ++ c :: k2 ++ c :: k3 →
        ∃ l1 sub l2 l3, lp.map Prod.snd = l1 ++ (c :: sub) ++ l2 ++ (c :: sub) ++ l3 ∧
          PreOrder s (s.heap c).m_children sub) := by
  obtain ⟨l, hl⟩ := preorder_exists s F.length F (Nat.le_refl _) htree.nonnull htree.closed
    htree.acyclic (s.heap this).m_children htree.root
  obtain ⟨lp, hlp, rfl⟩ := hl.with_paths [] 0
  refine ⟨lp, hlp, hlp.nodup this (by simp), ?_, ?_, ?_, ?_, ?_⟩
  · intro e he
    obtain ⟨j, rest, _, e1, e2⟩ := hlp.sound this (by simp) e he
    rw [e1]
    exact ⟨by simp, by simpa using e2⟩
  · intro path q hne hn
    cases path with
    | nil => exact absurd rfl hne
    | cons j rest =>
      have := hlp.complete this (by simp) rest j q (Nat.zero_le _) hn
      simpa using this
  · intro hcount
    obtain ⟨N, hN⟩ := visit_by_reference same isU (traced f) del s this _ hl hcount
    refine ⟨N, fun fuel hfuel acc => ?_⟩
    obtain ⟨s', e, _⟩ := hN fuel hfuel (acc, [])
    rw [walk_traced] at e
    exact ⟨s', by simpa using e, invoked_initial f _ acc⟩
  · intro hmax
    obtain ⟨N2, h2⟩ := find_children_walks same isU del s this _ hl hmax
    obtain ⟨N3, h3⟩ := find_child_pred_walks same isU
      (pred_by_reference (stateless (fun _ => true))) (stateless (fun _ => true))
      (pred_by_reference_observes _) del s r this _ hl
      (fun q hq => ⟨(hmax q hq).1, by have := (hmax q hq).2; omega⟩) ()
    refine ⟨max N2 N3, fun fuel hfuel => ⟨?_, ?_⟩⟩
    · obtain ⟨s', e, _⟩ := h2 fuel (by omega)
      exact ⟨s', e⟩
    · obtain ⟨s', e, _⟩ := h3 fuel (by omega)
      exact ⟨s', by rw [find_child_eq_pred, e]; rfl⟩
  · intro k1 c k2 k3 hch
    rw [hch] at hl
    have hl' : PreOrder s (k1 ++ (c :: k2 ++ c :: k3)) (lp.map Prod.snd) := by
      simpa using hl
    obtain ⟨l1, m1, e1, _, a2⟩ := PreOrder.split k1 _ _ hl'
    cases a2 with
    | cons _ _ sub tail hc hsub htail =>
      obtain ⟨l2, m2, e2, _, b2⟩ := PreOrder.split k2 _ _ htail
      cases b2 with
      | cons _ _ sub' l3 _ hsub' _ =>
        have hs : sub' = sub := hsub.unique sub' hsub'
        subst hs
        refine ⟨l1, sub', l2, l3, ?_, hsub⟩
        rw [e1, e2]
        simp

theorem twice_stored_tree : FiniteTree twice_stored 10 [11, 12] := by
  have inv : ∀ x y, Reach twice_stored x y →
      ∃ c ∈ (twice_stored.heap x).m_children, c = y ∨ Reach twice_stored c y := by
    intro x y h
    cases h with
    | child _ _ hc => exact ⟨y, hc, Or.inl rfl⟩
    | step _ c _ hc hr => exact ⟨c, hc, Or.inr hr⟩
  have h12 : ∀ y, ¬ Reach twice_stored 12 y := by
    intro y h
    obtain ⟨c, hc, _⟩ := inv 12 y h
    have : (twice_stored.heap 12).m_children = [] := by decide
    rw [this] at hc
    cases hc
  have h11 : ¬ Reach twice_stored 11 11 := by
    intro h
    obtain ⟨c, hc, h2⟩ := inv 11 11 h
    have : (twice_stored.heap 11).m_children = [12] := by decide
    rw [this] at hc
    have hc' : c = 12 := by simpa using hc
    subst hc'
    rcases h2 with h2 | h2
    · exact absurd h2 (by decide)
    · exact h12 _ h2
  refine ⟨by decide, by decide, by decide, ?_⟩
  intro x hx
  simp only [List.mem_cons, List.mem_singleton, List.not_mem_nil, or_false] at hx
  rcases hx with rfl | rfl
  · exact h11
  · exact h12 _

/-- C38 on the manager at 10 that stores the object at 11 twice, where 11 has the child 12:
a visitor that never finishes is called on 11, 12, 11, 12, once per path. -/
theorem traversal_terminates_witness :
    ∃ N, ∀ fuel, N ≤ fuel →
      ∃ s', visit true (fun _ => true)
          (by_reference (traced (fun (_ : Unit) (_ : Pointer) => (VisitStatus.VisitMore, ()))))
          (delete_this 0) fuel VisitChildren.Recursive twice_stored 10 ((), []) =
        some (VisitStatus.VisitMore, ((), [(11, VisitStatus.VisitMore),
          (12, VisitStatus.VisitMore), (11, VisitStatus.VisitMore),
          (12, VisitStatus.VisitMore)]), s') := by
  obtain ⟨lp, hlp, _, _, _, hvisit, _, _⟩ := traversal_terminates true (fun _ => true)
    (fun (_ : Unit) (_ : Pointer) => (VisitStatus.VisitMore, ())) (delete_this 0) twice_stored 0
    10 [11, 12] twice_stored_tree
  have hl : lp.map Prod.snd = [11, 12, 11, 12] :=
    PreOrder.unique
      (PreOrder.cons 11 [11] [12] [11, 12] (by decide)
        (PreOrder.cons 12 [] [] [] (by decide) PreOrder.nil PreOrder.nil)
        (PreOrder.cons 11 [] [12] [] (by decide)
          (PreOrder.cons 12 [] [] [] (by decide) PreOrder.nil PreOrder.nil) PreOrder.nil))
      _ hlp.forget
  obtain ⟨N, hN⟩ := hvisit (fun h => absurd h (by decide))
  refine ⟨N, fun fuel hfuel => ?_⟩
  obtain ⟨s', e, _⟩ := hN fuel hfuel ()
  rw [hl] at e
  exact ⟨s', e⟩

/-! ## Weak handles -/

/-- C33: a weak handle obtained from a shared handle whose control block `id` observes the
address of the handle. While the target is alive (strong count above 0) the weak handle and
the shared handle compare equal, in both orders, and `lock()` and `toStrongRef()` return a
shared handle equal to it. When the shared handle is the last owning one (strong count 1) and
is reset, then `lock()` and `toStrongRef()` return an empty shared handle, the weak handle is
null, and the weak handle compares unequal to every shared handle, in both orders, also to
the handle that was reset and is empty now. -/
theorem weak_follows_target (w : Blocks) (p : CsSharedPointer) (id : Nat)
    (hb : p.block = some id) (ha : (w.at_id id).target_address = p.m_ptr)
    (hs : 0 < (w.at_id id).strong_count) :
    CsWeakPointer.operator_eq (CsSharedPointer.toWeakRef w p).2 (CsSharedPointer.toWeakRef w p).1
        p = true ∧
      CsWeakPointer.shared_operator_eq (CsSharedPointer.toWeakRef w p).2 p
        (CsSharedPointer.toWeakRef w p).1 = true ∧
      CsSharedPointer.operator_eq p
        (CsWeakPointer.lock (CsSharedPointer.toWeakRef w p).2
          (CsSharedPointer.toWeakRef w p).1).1 = true ∧
      CsSharedPointer.operator_eq p
        (CsWeakPointer.toStrongRef (CsSharedPointer.toWeakRef w p).2
          (CsSharedPointer.toWeakRef w p).1).1 = true ∧
      ((w.at_id id).strong_count = 1 →
        (CsWeakPointer.lock
            (CsSharedPointer.reset (CsSharedPointer.toWeakRef w p).2 p).2
            (CsSharedPointer.toWeakRef w p).1).1 = CsSharedPointer.empty ∧
          (CsWeakPointer.toStrongRef
            (CsSharedPointer.reset (CsSharedPointer.toWeakRef w p).2 p).2
            (CsSharedPointer.toWeakRef w p).1).1 = CsSharedPointer.empty ∧
          CsWeakPointer.is_null
            (CsSharedPointer.reset (CsSharedPointer.toWeakRef w p).2 p).2
            (CsSharedPointer.toWeakRef w p).1 = true ∧
          (CsSharedPointer.reset (CsSharedPointer.toWeakRef w p).2 p).1 =
            CsSharedPointer.empty ∧
          (CsSharedPointer.reset (CsSharedPointer.toWeakRef w p).2 p).2.disposed =
            w.disposed ++ [p.m_ptr] ∧
          ∀ q : CsSharedPointer,
            CsWeakPointer.operator_eq
                (CsSharedPointer.reset (CsSharedPointer.toWeakRef w p).2 p).2
                (CsSharedPointer.toWeakRef w p).1 q = false ∧
              CsWeakPointer.shared_operator_eq
                (CsSharedPointer.reset (CsSharedPointer.toWeakRef w p).2 p).2 q
                (CsSharedPointer.toWeakRef w p).1 = false) := by
  have hpos : ¬ (w.at_id id).strong_count = 0 := by omega
  refine ⟨?_, ?_, ?_, ?_, ?_⟩
  · simp [CsWeakPointer.operator_eq, CsSharedPointer.toWeakRef, hb, hs, ha]
  · simp [CsWeakPointer.shared_operator_eq, CsWeakPointer.operator_eq,
      CsSharedPointer.toWeakRef, hb, hs, ha]
  · simp [CsSharedPointer.operator_eq, CsWeakPointer.lock, CsSharedPointer.toWeakRef, hb, hs,
      ha]
  · simp [CsSharedPointer.operator_eq, CsWeakPointer.toStrongRef, CsWeakPointer.lock,
      CsSharedPointer.toWeakRef, hb, hs, ha]
  · intro h1
    refine ⟨?_, ?_, ?_, ?_, ?_, ?_⟩
    · simp [CsWeakPointer.lock, CsSharedPointer.reset, CsSharedPointer.toWeakRef, hb, h1]
    · simp [CsWeakPointer.toStrongRef, CsWeakPointer.lock, CsSharedPointer.reset,
        CsSharedPointer.toWeakRef, hb, h1]
    · simp [CsWeakPointer.is_null, CsSharedPointer.reset, CsSharedPointer.toWeakRef, hb, h1]
    · simp [CsSharedPointer.reset, CsSharedPointer.toWeakRef, hb]
    · simp [CsSharedPointer.reset, CsSharedPointer.toWeakRef, hb, h1, ha]
    · intro q
      simp [CsWeakPointer.shared_operator_eq, CsWeakPointer.operator_eq, CsSharedPointer.reset,
        CsSharedPointer.toWeakRef, hb, h1]

/-- C33 on the scenario of the test: `make_shared`, `toWeakRef()`, then `reset()` of the only
shared handle. -/
theorem weak_follows_target_witness :
    CsWeakPointer.operator_eq
        (CsSharedPointer.toWeakRef (CsSharedPointer.make_shared ⟨fun _ => ⟨0, 0, 0⟩, []⟩ 0 10).2
          (CsSharedPointer.make_shared ⟨fun _ => ⟨0, 0, 0⟩, []⟩ 0 10).1).2
        (CsSharedPointer.toWeakRef (CsSharedPointer.make_shared ⟨fun _ => ⟨0, 0, 0⟩, []⟩ 0 10).2
          (CsSharedPointer.make_shared ⟨fun _ => ⟨0, 0, 0⟩, []⟩ 0 10).1).1
        (CsSharedPointer.make_shared ⟨fun _ => ⟨0, 0, 0⟩, []⟩ 0 10).1 = true ∧
      CsWeakPointer.operator_eq
        (CsSharedPointer.reset
          (CsSharedPointer.toWeakRef
            (CsSharedPointer.make_shared ⟨fun _ => ⟨0, 0, 0⟩, []⟩ 0 10).2
            (CsSharedPointer.make_shared ⟨fun _ => ⟨0, 0, 0⟩, []⟩ 0 10).1).2
          (CsSharedPointer.make_shared ⟨fun _ => ⟨0, 0, 0⟩, []⟩ 0 10).1).2
        (CsSharedPointer.toWeakRef (CsSharedPointer.make_shared ⟨fun _ => ⟨0, 0, 0⟩, []⟩ 0 10).2
          (CsSharedPointer.make_shared ⟨fun _ => ⟨0, 0, 0⟩, []⟩ 0 10).1).1
        CsSharedPointer.empty = false := by
  have h := weak_follows_target (CsSharedPointer.make_shared ⟨fun _ => ⟨0, 0, 0⟩, []⟩ 0 10).2
    (CsSharedPointer.make_shared ⟨fun _ => ⟨0, 0, 0⟩, []⟩ 0 10).1 0 rfl (by decide) (by decide)
  exact ⟨h.1, ((h.2.2.2.2 (by decide)).2.2.2.2.2 CsSharedPointer.empty).1⟩

/-! ## Counting handles through a cascade of destructors -/

theorem child_entries_congr (s s' : State) (U : List Pointer) (q : Pointer)
    (h : ∀ x ∈ U, (s'.heap x).m_children.count q = (s.heap x).m_children.count q) :
    child_entries s' U q = child_entries s U q := by
  unfold child_entries
  congr 1
  exact List.map_congr_left h

theorem child_entries_update (s s' : State) (q p : Pointer) :
    ∀ (U : List Pointer), U.Nodup → p ∈ U →
      (∀ x ∈ U, x ≠ p → (s'.heap x).m_children.count q = (s.heap x).m_children.count q) →
      child_entries s' U q + (s.heap p).m_children.count q =
        child_entries s U q + (s'.heap p).m_children.count q
  | [], _, hp, _ => by cases hp
  | y :: U, hnd, hp, h => by
    have hnd' := List.nodup_cons.mp hnd
    by_cases hy : y = p
    · subst hy
      have : child_entries s' U q = child_entries s U q :=
        child_entries_congr s s' U q
          (fun x hx => h x (List.mem_cons_of_mem _ hx) (fun e => hnd'.1 (e ▸ hx)))
      simp only [child_entries, List.map_cons, List.sum_cons] at this ⊢
      omega
    · have hp' : p ∈ U := by
        rcases List.mem_cons.mp hp with e | e
        · exact absurd e.symm hy
        · exact e
      have ih := child_entries_update s s' q p U hnd'.2 hp'
        (fun x hx hne => h x (List.mem_cons_of_mem _ hx) hne)
      have hyq := h y (List.mem_cons_self _ _) hy
      simp only [child_entries, List.map_cons, List.sum_cons] at ih ⊢
      omega

theorem Cascade.same (s : State) : Cascade s s :=
  ⟨rfl, rfl, fun _ => Or.inl rfl, fun _ hx => hx, fun _ => Nat.le_refl _, fun _ hx => Or.inl hx⟩

theorem Cascade.chain {a b c : State} (h1 : Cascade a b) (h2 : Cascade b c) :
    Cascade a c := by
  refine ⟨h2.handles.trans h1.handles, h2.temps.trans h1.temps, ?_,
    fun x hx => h2.deleted x (h1.deleted x hx),
    fun x => Nat.le_trans (h2.count_le x) (h1.count_le x), ?_⟩
  · intro x
    rcases h1.children x with e1 | ⟨e1, d1, n1⟩
    · rcases h2.children x with e2 | ⟨e2, d2, n2⟩
      · exact Or.inl (e2.trans e1)
      · exact Or.inr ⟨e2, d2, fun h => n2 (h1.deleted x h)⟩
    · rcases h2.children x with e2 | ⟨e2, d2, _⟩
      · exact Or.inr ⟨e2.trans e1, h2.deleted x d1, n1⟩
      · exact Or.inr ⟨e2, d2, n1⟩
  · intro x hx
    rcases h2.deleted_new x hx with h | h
    · exact h1.deleted_new x h
    · exact Or.inr (Nat.lt_of_lt_of_le h (h1.count_le x))

theorem Cascade.busy_mono {a b : State} (h : Cascade a b) (U : List Pointer) :
    busy b U ≤ busy a U := by
  unfold busy
  apply List.countP_mono_left
  intro x _ hx
  rcases h.children x with e | ⟨e, _, _⟩
  · rw [e] at hx; exact hx
  · rw [e] at hx; simp at hx

/-- The destructor of a vector of handles `P` in a balanced state: for enough fuel the cascade
returns, every decrement is applied to a count of at least 1, and the state is balanced
again, with the same other handles `ext` and nothing pending. -/
theorem destroy_elements_balanced (U : List Pointer) :
    ∀ (n fuel : Nat), n < fuel → ∀ (P : List Pointer) (s : State) (ext : Pointer → Nat),
      busy s U ≤ n → Balanced U ext P s →
      ∃ s', destroy_elements (delete_this fuel) s P = some s' ∧ Balanced U ext [] s' ∧
        Cascade s s' := by
  intro n
  induction n using Nat.strong_induction_on with
  | _ n ihn =>
    intro fuel hfuel P
    induction P with
    | nil =>
      intro s ext _ hB
      exact ⟨s, rfl, hB, Cascade.same s⟩
    | cons p rest ihP =>
      intro s ext hbusy hB
      by_cases hp : p = nullptr
      · subst hp
        have hB' : Balanced U ext rest s := by
          refine ⟨?_, hB.small, hB.outside, hB.nodup, hB.deleted, hB.deleted_nodup⟩
          intro q hq
          have := hB.count q hq
          rw [List.count_cons_of_ne hq] at this
          exact this
        obtain ⟨s', e, hB2, hC⟩ := ihP s ext hbusy hB'
        exact ⟨s', by simp [destroy_elements, dtor, e], hB2, hC⟩
      · have hcp := hB.count p hp
        rw [List.count_cons_self] at hcp
        have hpos : 0 < (s.heap p).m_count := by omega
        have hsm := hB.small p
        have hw := dec_wrap _ hpos hsm
        have hpd : p ∉ s.deleted := fun h => by
          have := (hB.deleted p h).2.1
          omega
        by_cases h1 : (s.heap p).m_count = 1
        · -- the last handle: `delete this`
          obtain ⟨f, rfl⟩ : ∃ f, fuel = f + 1 := ⟨fuel - 1, by omega⟩
          let s2 : State :=
            ({ s.set_count p 0 with deleted := s.deleted ++ [p] } : State).set_children p []
          have hdt : dtor (delete_this (f + 1)) s p =
              destroy_elements (delete_this f) s2 (s.heap p).m_children := by
            have hw0 : (1 + (SIZE_MODULUS - 1)) % SIZE_MODULUS = 0 := by decide
            simp only [dtor, dec_ref_count, cs_dec_ref_count, h1]
            simp [delete_this, CsNodeManager.clear, hp, s2, hw0]
          have hkids : ∀ q, child_entries s2 U q + (s.heap p).m_children.count q =
              child_entries s U q := by
            intro q
            by_cases hpU : p ∈ U
            · have := child_entries_update s s2 q p U hB.nodup hpU
                (fun x _ hne => by simp [s2, hne])
              have h0 : (s2.heap p).m_children.count q = 0 := by simp [s2]
              omega
            · have hnil : (s.heap p).m_children = [] := by
                rcases hB.outside p hpU hp with e | e
                · exact e
                · omega
              rw [hnil]
              simp only [List.count_nil, Nat.add_zero]
              apply child_entries_congr
              intro x hx
              have : x ≠ p := fun e => hpU (e ▸ hx)
              simp [s2, this]
          have hC2 : Cascade s s2 := by
            refine ⟨rfl, rfl, ?_, fun x hx => by simp [s2, hx], ?_, ?_⟩
            · intro x
              by_cases hx : x = p
              · subst hx
                exact Or.inr ⟨by simp [s2], by simp [s2], hpd⟩
              · exact Or.inl (by simp [s2, hx])
            · intro x
              by_cases hx : x = p
              · simp [s2, hx]
              · simp [s2, hx]
            · intro x hx
              have hx' : x ∈ s.deleted ∨ x = p := by simpa [s2] using hx
              rcases hx' with hx' | hx'
              · exact Or.inl hx'
              · exact Or.inr (hx' ▸ hpos)
          have hB2 : Balanced U (fun q => rest.count q + ext q) (s.heap p).m_children s2 := by
            refine ⟨?_, ?_, ?_, hB.nodup, ?_, ?_⟩
            · intro q hq
              have hk := hkids q
              by_cases hqp : q = p
              · subst hqp
                have : (s2.heap q).m_count = 0 := by simp [s2]
                omega
              · have hc := hB.count q hq
                rw [List.count_cons_of_ne hqp] at hc
                have : (s2.heap q).m_count = (s.heap q).m_count := by simp [s2, hqp]
                omega
            · intro q
              have := hB.small q
              by_cases hqp : q = p
              · subst hqp
                have : (s2.heap q).m_count = 0 := by simp [s2]
                omega
              · have : (s2.heap q).m_count = (s.heap q).m_count := by simp [s2, hqp]
                omega
            · intro x hx hxn
              rcases hB.outside x hx hxn with e | e
              · left
                by_cases hxp : x = p
                · simp [s2, hxp]
                · simp [s2, hxp, e]
              · right; omega
            · intro x hx
              have hx' : x ∈ s.deleted ∨ x = p := by simpa [s2] using hx
              rcases hx' with hx' | hx'
              · have hd := hB.deleted x hx'
                have hxp : x ≠ p := fun e => hpd (e ▸ hx')
                exact ⟨hd.1, by simp [s2, hxp, hd.2.1], by simp [s2, hxp, hd.2.2]⟩
              · subst hx'
                exact ⟨hp, by simp [s2], by simp [s2]⟩
            · show (s.deleted ++ [p]).Nodup
              rw [List.nodup_append]
              exact ⟨hB.deleted_nodup, List.nodup_singleton p, by
                intro x hx hx'
                have : x = p := by simpa using hx'
                exact hpd (this ▸ hx)⟩
          have inner : ∃ s3, destroy_elements (delete_this f) s2 (s.heap p).m_children =
              some s3 ∧ Balanced U (fun q => rest.count q + ext q) [] s3 ∧ Cascade s2 s3 := by
            by_cases hemp : (s.heap p).m_children = []
            · rw [hemp] at hB2 ⊢
              exact ⟨s2, rfl, hB2, Cascade.same s2⟩
            · have hpU : p ∈ U := by
                by_contra hpU
                rcases hB.outside p hpU hp with e | e
                · exact hemp e
                · omega
              have hlt : busy s2 U < busy s U := by
                unfold busy
                apply countP_lt_of_mem U p hpU
                · intro y hy
                  rcases hC2.children y with e | ⟨e, _, _⟩
                  · rw [e] at hy; exact hy
                  · rw [e] at hy; simp at hy
                · cases h : (s.heap p).m_children with
                  | nil => exact absurd h hemp
                  | cons => simp
                · simp [s2]
              exact ihn (n - 1) (by omega) f (by omega) _ s2 _ (by omega) hB2
          obtain ⟨s3, e3, hB3, hC3⟩ := inner
          have hC13 : Cascade s s3 := hC2.chain hC3
          have hB3' : Balanced U ext rest s3 := by
            refine ⟨?_, hB3.small, ?_, hB.nodup, hB3.deleted, hB3.deleted_nodup⟩
            · intro q hq
              have := hB3.count q hq
              simp only [List.count_nil] at this
              omega
            · intro x hx hxn
              rcases hB.outside x hx hxn with e | e
              · left
                rcases hC13.children x with e' | ⟨e', _, _⟩
                · rw [e', e]
                · exact e'
              · right; exact e
          obtain ⟨s4, e4, hB4, hC4⟩ := ihP s3 ext
            (Nat.le_trans (hC13.busy_mono U) hbusy) hB3'
          refine ⟨s4, ?_, hB4, hC13.chain hC4⟩
          simp only [destroy_elements, hdt, e3, e4]
        · -- other handles remain
          let s1 : State := s.set_count p ((s.heap p).m_count - 1)
          have hdt : dtor (delete_this fuel) s p = some s1 := by
            simp [dtor, dec_ref_count, cs_dec_ref_count, hw, h1, hp, s1]
          have hC1 : Cascade s s1 := by
            refine ⟨rfl, rfl, fun x => Or.inl (by simp [s1]),
              fun x hx => by simpa [s1] using hx, ?_, fun x hx => Or.inl (by simpa [s1] using hx)⟩
            intro x
            by_cases hx : x = p
            · subst hx
              simp [s1]
            · simp [s1, hx]
          have hB1 : Balanced U ext rest s1 := by
            refine ⟨?_, ?_, ?_, hB.nodup, ?_, ?_⟩
            · intro q hq
              have hk : child_entries s1 U q = child_entries s U q :=
                child_entries_congr s s1 U q (fun x _ => by simp [s1])
              by_cases hqp : q = p
              · subst hqp
                have : (s1.heap q).m_count = (s.heap q).m_count - 1 := by simp [s1]
                omega
              · have hc := hB.count q hq
                rw [List.count_cons_of_ne hqp] at hc
                have : (s1.heap q).m_count = (s.heap q).m_count := by simp [s1, hqp]
                omega
            · intro q
              have := hB.small q
              by_cases hqp : q = p
              · subst hqp
                have : (s1.heap q).m_count = (s.heap q).m_count - 1 := by simp [s1]
                omega
              · have : (s1.heap q).m_count = (s.heap q).m_count := by simp [s1, hqp]
                omega
            · intro x hx hxn
              rcases hB.outside x hx hxn with e | e
              · left; simp [s1, e]
              · right; exact e
            · intro x hx
              have hx' : x ∈ s.deleted := by simpa [s1] using hx
              have hd := hB.deleted x hx'
              have hxp : x ≠ p := fun e => hpd (e ▸ hx')
              exact ⟨hd.1, by simp [s1, hxp, hd.2.1], by simp [s1, hd.2.2]⟩
            · exact hB.deleted_nodup
          obtain ⟨s4, e4, hB4, hC4⟩ := ihP s1 ext
            (Nat.le_trans (hC1.busy_mono U) hbusy) hB1
          refine ⟨s4, ?_, hB4, hC1.chain hC4⟩
          simp only [destroy_elements, hdt, e4]

/-! ## The count invariant under the elementary steps -/

theorem var_handles_of_handles (s s' : State) (V : List Nat) (q : Pointer)
    (h : s'.handles = s.handles) : var_handles s' V q = var_handles s V q := by
  unfold var_handles
  rw [h]

theorem var_handles_cons (s : State) (i : Nat) (V : List Nat) (q : Pointer) :
    var_handles s (i :: V) q = var_handles s V q + (if s.handles i = q then 1 else 0) := by
  unfold var_handles
  by_cases h : s.handles i = q
  · simp [h]
  · simp [h, List.count_cons]

theorem var_handles_set_not_mem (s : State) (i : Nat) (p : Pointer) (V : List Nat)
    (q : Pointer) (h : i ∉ V) :
    var_handles (s.set_m_ptr (Loc.var i) p) V q = var_handles s V q := by
  unfold var_handles
  congr 1
  apply List.map_congr_left
  intro j hj
  have : j ≠ i := fun e => h (e ▸ hj)
  simp [State.set_m_ptr, this]

theorem var_handles_set_mem (s : State) (i : Nat) (p q : Pointer) :
    ∀ (V : List Nat), V.Nodup → i ∈ V →
      var_handles (s.set_m_ptr (Loc.var i) p) V q + (if s.handles i = q then 1 else 0) =
        var_handles s V q + (if p = q then 1 else 0)
  | [], _, hi => by cases hi
  | j :: V, hnd, hi => by
    have hnd' := List.nodup_cons.mp hnd
    rw [var_handles_cons, var_handles_cons]
    by_cases hj : j = i
    · subst hj
      rw [var_handles_set_not_mem s j p V q hnd'.1]
      have : (s.set_m_ptr (Loc.var j) p).handles j = p := by simp [State.set_m_ptr]
      rw [this]
      omega
    · have hi' : i ∈ V := by
        rcases List.mem_cons.mp hi with e | e
        · exact absurd e.symm hj
        · exact e
      have ih := var_handles_set_mem s i p q V hnd'.2 hi'
      have : (s.set_m_ptr (Loc.var i) p).handles j = s.handles j := by
        simp [State.set_m_ptr, hj]
      rw [this]
      omega

theorem var_handles_erase (s : State) (i : Nat) (q : Pointer) :
    ∀ (V : List Nat), V.Nodup → i ∈ V →
      var_handles s (V.erase i) q + (if s.handles i = q then 1 else 0) = var_handles s V q
  | [], _, hi => by cases hi
  | j :: V, hnd, hi => by
    have hnd' := List.nodup_cons.mp hnd
    by_cases hj : j = i
    · subst hj
      rw [List.erase_cons_head, var_handles_cons]
    · have hi' : i ∈ V := by
        rcases List.mem_cons.mp hi with e | e
        · exact absurd e.symm hj
        · exact e
      have ih := var_handles_erase s i q V hnd'.2 hi'
      rw [List.erase_cons_tail (by simpa using hj), var_handles_cons, var_handles_cons]
      omega

theorem Cascade.child_entries_le {s s' : State} (h : Cascade s s') (q : Pointer) :
    ∀ (U : List Pointer), child_entries s' U q ≤ child_entries s U q
  | [] => by simp [child_entries]
  | x :: U => by
    have ih := h.child_entries_le q U
    have hx : (s'.heap x).m_children.count q ≤ (s.heap x).m_children.count q := by
      rcases h.children x with e | ⟨e, _, _⟩
      · rw [e]
      · rw [e]; simp
    simp only [child_entries, List.map_cons, List.sum_cons] at ih ⊢
    omega

/-- The invariant only reads the heap, the log of deletions and the sum of the handles. -/
theorem Counted.transfer {U : List Pointer} {V V' : List Nat} {E E' : List Pointer}
    {s s' : State} (h : Counted U V E s) (hh : s'.heap = s.heap)
    (hd : s'.deleted = s.deleted) (hV : V'.Nodup)
    (he : ∀ q, q ≠ nullptr →
      var_handles s' V' q + E'.count q = var_handles s V q + E.count q) :
    Counted U V' E' s' := by
  have hk : ∀ q, child_entries s' U q = child_entries s U q :=
    fun q => child_entries_congr s s' U q (fun x _ => by rw [hh])
  refine ⟨⟨?_, ?_, ?_, h.balanced.nodup, ?_, ?_⟩, hV, ?_, ?_, h.null⟩
  · intro q hq
    have := h.balanced.count q hq
    have := he q hq
    rw [hh, hk]
    simp only [List.count_nil] at *
    omega
  · intro q
    rw [hh]
    exact h.balanced.small q
  · intro x hx _
    left
    rw [hh]
    exact (h.fresh x hx).2
  · intro x hx
    rw [hd] at hx
    rw [hh]
    exact h.balanced.deleted x hx
  · rw [hd]
    exact h.balanced.deleted_nodup
  · intro x hx
    rw [hh]
    exact h.fresh x hx
  · intro x hx
    rw [hd] at hx
    exact h.deleted_mem x hx

/-- A further handle is made for the object at `p`: the count is raised. -/
theorem Counted.inc {U : List Pointer} {V : List Nat} {E : List Pointer} {s : State}
    (h : Counted U V E s) (p : Pointer) (hp : p ≠ nullptr) (hU : p ∈ U) (hd : p ∉ s.deleted)
    (hm : (s.heap p).m_count + 1 < SIZE_MODULUS) :
    Counted U V (p :: E) (inc_ref_count s p) := by
  have hs : inc_ref_count s p = s.set_count p ((s.heap p).m_count + 1) := by
    simp [inc_ref_count, cs_inc_ref_count, inc_wrap _ hm]
  rw [hs]
  have hk : ∀ q, child_entries (s.set_count p ((s.heap p).m_count + 1)) U q =
      child_entries s U q :=
    fun q => child_entries_congr _ _ U q (fun x _ => by simp)
  have hv : ∀ q, var_handles (s.set_count p ((s.heap p).m_count + 1)) V q =
      var_handles s V q := fun q => var_handles_of_handles _ _ V q rfl
  refine ⟨⟨?_, ?_, ?_, h.balanced.nodup, ?_, ?_⟩, h.vars, ?_,
    fun x hx => h.deleted_mem x (by simpa using hx), h.null⟩
  · intro q hq
    have := h.balanced.count q hq
    rw [hk, hv]
    simp only [List.count_nil, State.set_count_count] at *
    by_cases hqp : q = p
    · subst hqp
      simp only [if_true, List.count_cons_self]
      omega
    · rw [if_neg hqp, List.count_cons_of_ne hqp]
      omega
  · intro q
    have := h.balanced.small q
    simp only [State.set_count_count]
    split <;> omega
  · intro x hx _
    left
    simp [(h.fresh x hx).2]
  · intro x hx
    have hx' : x ∈ s.deleted := by simpa using hx
    have hxp : x ≠ p := fun e => hd (e ▸ hx')
    have := h.balanced.deleted x hx'
    exact ⟨this.1, by simp [hxp, this.2.1], by simp [this.2.2]⟩
  · exact h.balanced.deleted_nodup
  · intro x hx
    have hxp : x ≠ p := fun e => hx (e ▸ hU)
    have := h.fresh x hx
    exact ⟨by simp [hxp, this.1], by simp [this.2]⟩

theorem destroy_elements_singleton (del : State → Pointer → Option State) (s : State)
    (p : Pointer) : destroy_elements del s [p] = dtor del s p := by
  simp only [destroy_elements]
  cases dtor del s p <;> rfl

/-- Some of the further handles are destroyed, as the elements of a vector: for enough fuel
the destructor returns and the invariant holds for the remaining handles. -/
theorem Counted.release_all {U : List Pointer} {V : List Nat} {E : List Pointer} {s : State}
    (P : List Pointer) (h : Counted U V (P ++ E) s) (fuel : Nat) (hf : busy s U < fuel) :
    ∃ s', destroy_elements (delete_this fuel) s P = some s' ∧ Counted U V E s' ∧
      Cascade s s' := by
  have hB : Balanced U (fun q => var_handles s V q + E.count q) P s := by
    refine ⟨?_, h.balanced.small, ?_, h.balanced.nodup, h.balanced.deleted,
      h.balanced.deleted_nodup⟩
    · intro q hq
      have := h.balanced.count q hq
      simp only [List.count_nil, List.count_append] at this
      omega
    · intro x hx _
      exact Or.inl (h.fresh x hx).2
  obtain ⟨s', e, hB', hC⟩ := destroy_elements_balanced U (busy s U) fuel hf P s _
    (Nat.le_refl _) hB
  refine ⟨s', e, ⟨?_, h.vars, ?_, ?_, h.null⟩, hC⟩
  · refine ⟨?_, hB'.small, ?_, hB'.nodup, hB'.deleted, hB'.deleted_nodup⟩
    · intro q hq
      have := hB'.count q hq
      rw [var_handles_of_handles s s' V q hC.handles]
      exact this
    · intro x hx _
      left
      rcases hC.children x with e' | ⟨e', _, _⟩
      · rw [e']; exact (h.fresh x hx).2
      · exact e'
  · intro x hx
    have hf := h.fresh x hx
    have hle := hC.count_le x
    refine ⟨by omega, ?_⟩
    rcases hC.children x with e' | ⟨e', _, _⟩
    · rw [e']; exact hf.2
    · exact e'
  · intro x hx
    rcases hC.deleted_new x hx with hx' | hx'
    · exact h.deleted_mem x hx'
    · by_contra hU
      have := (h.fresh x hU).1
      omega

/-- One of the further handles is destroyed: for enough fuel the destructor returns and the
invariant holds for the remaining handles. -/
theorem Counted.release {U : List Pointer} {V : List Nat} {E : List Pointer} {s : State}
    {p : Pointer} (h : Counted U V (p :: E) s) (fuel : Nat) (hf : busy s U < fuel) :
    ∃ s', dtor (delete_this fuel) s p = some s' ∧ Counted U V E s' ∧ Cascade s s' := by
  obtain ⟨s', e, h', hC⟩ := Counted.release_all [p] h fuel hf
  rw [destroy_elements_singleton] at e
  exact ⟨s', e, h', hC⟩

/-- A handle variable takes over the address of one of the further handles and gives its
own address to it. -/
theorem Counted.set_var {U : List Pointer} {V : List Nat} {E : List Pointer} {s : State}
    {p : Pointer} (h : Counted U V (p :: E) s) (i : Nat) (hi : i ∈ V) :
    Counted U V (s.handles i :: E) (s.set_m_ptr (Loc.var i) p) := by
  refine h.transfer rfl (by simp) h.vars ?_
  intro q _
  have := var_handles_set_mem s i p q V h.vars hi
  simp only [List.count_cons, beq_iff_eq]
  omega

/-- A new handle variable takes over the address of one of the further handles. -/
theorem Counted.new_var {U : List Pointer} {V : List Nat} {E : List Pointer} {s : State}
    {p : Pointer} (h : Counted U V (p :: E) s) (i : Nat) (hi : i ∉ V) :
    Counted U (i :: V) E (s.set_m_ptr (Loc.var i) p) := by
  refine h.transfer rfl (by simp) (List.nodup_cons.mpr ⟨hi, h.vars⟩) ?_
  intro q _
  rw [var_handles_cons, var_handles_set_not_mem s i p V q hi]
  have : (s.set_m_ptr (Loc.var i) p).handles i = p := by simp [State.set_m_ptr]
  rw [this]
  simp only [List.count_cons, beq_iff_eq]
  omega

/-- A handle variable goes out of use: its handle is one of the further handles now. -/
theorem Counted.drop_var {U : List Pointer} {V : List Nat} {E : List Pointer} {s : State}
    (h : Counted U V E s) (i : Nat) (hi : i ∈ V) :
    Counted U (V.erase i) (s.handles i :: E) s := by
  refine h.transfer rfl rfl (h.vars.erase i) ?_
  intro q _
  have := var_handles_erase s i q V h.vars hi
  simp only [List.count_cons, beq_iff_eq]
  omega

/-- Writing a temporary does not touch the invariant. -/
theorem Counted.set_tmp {U : List Pointer} {V : List Nat} {E : List Pointer} {s : State}
    (h : Counted U V E s) (k : Nat) (p : Pointer) :
    Counted U V E (s.set_m_ptr (Loc.tmp k) p) :=
  h.transfer rfl (by simp) h.vars
    (fun q _ => by rw [var_handles_of_handles s (s.set_m_ptr (Loc.tmp k) p) V q rfl])

/-- The further handles may be listed in any order, with or without empty ones. -/
theorem Counted.further {U : List Pointer} {V : List Nat} {E E' : List Pointer} {s : State}
    (h : Counted U V E s) (he : ∀ q, q ≠ nullptr → E'.count q = E.count q) :
    Counted U V E' s :=
  h.transfer rfl rfl h.vars (fun q hq => by rw [he q hq])

/-- The child vector of a live object in `U` is replaced: handles move between the vector
and the further handles. -/
theorem Counted.set_children {U : List Pointer} {V : List Nat} {E E' : List Pointer}
    {s : State} (h : Counted U V E s) (this : Pointer) (l : List Pointer) (hU : this ∈ U)
    (hd : this ∉ s.deleted)
    (he : ∀ q, q ≠ nullptr →
      l.count q + E'.count q = (s.heap this).m_children.count q + E.count q) :
    Counted U V E' (s.set_children this l) := by
  have hv : ∀ q, var_handles (s.set_children this l) V q = var_handles s V q :=
    fun q => var_handles_of_handles _ _ V q rfl
  refine ⟨⟨?_, ?_, ?_, h.balanced.nodup, ?_, ?_⟩, h.vars, ?_,
    fun x hx => h.deleted_mem x (by simpa using hx), h.null⟩
  · intro q hq
    have hc := h.balanced.count q hq
    have hk := child_entries_update s (s.set_children this l) q this U h.balanced.nodup hU
      (fun x _ hne => by simp [hne])
    have hl : ((s.set_children this l).heap this).m_children.count q = l.count q := by simp
    have := he q hq
    rw [hv]
    simp only [List.count_nil, State.set_children_count] at *
    omega
  · intro q
    simpa using h.balanced.small q
  · intro x hx _
    left
    have hxt : x ≠ this := fun e => hx (e ▸ hU)
    simp [hxt, (h.fresh x hx).2]
  · intro x hx
    have hx' : x ∈ s.deleted := by simpa using hx
    have hxt : x ≠ this := fun e => hd (e ▸ hx')
    have := h.balanced.deleted x hx'
    exact ⟨this.1, by simp [this.2.1], by simp [hxt, this.2.2]⟩
  · exact h.balanced.deleted_nodup
  · intro x hx
    have hxt : x ≠ this := fun e => hx (e ▸ hU)
    have := h.fresh x hx
    exact ⟨by simp [this.1], by simp [hxt, this.2]⟩

/-! ## The new target is counted before the old one is released -/

/-- A handle variable that is out of use takes over the address of a further handle and is
in use again. -/
theorem Counted.assign_var {U : List Pointer} {V : List Nat} {E : List Pointer} {s : State}
    {p : Pointer} (i : Nat) (h : Counted U (V.erase i) (p :: E) s) (hV : V.Nodup)
    (hi : i ∈ V) : Counted U V E (s.set_m_ptr (Loc.var i) p) := by
  refine h.transfer rfl (by simp) hV ?_
  intro q _
  have h1 := var_handles_set_mem s i p q V hV hi
  have h2 := var_handles_erase s i q V hV hi
  simp only [List.count_cons, beq_iff_eq]
  omega

theorem Counted.alive {U : List Pointer} {V : List Nat} {E : List Pointer} {s : State}
    (h : Counted U V E s) (q : Pointer) (hq : q ≠ nullptr)
    (hheld : 0 < child_entries s U q + var_handles s V q + E.count q) :
    0 < (s.heap q).m_count ∧ q ∉ s.deleted ∧ q ∈ U := by
  have hc := h.balanced.count q hq
  simp only [List.count_nil] at hc
  refine ⟨by omega, fun hd => ?_, ?_⟩
  · have := (h.balanced.deleted q hd).2.1
    omega
  · by_contra hU
    have := (h.fresh q hU).1
    omega

theorem var_handles_pos (s : State) (V : List Nat) (i : Nat) (hi : i ∈ V) :
    0 < var_handles s V (s.handles i) := by
  unfold var_handles
  exact List.count_pos_iff.mpr (List.mem_map.mpr ⟨i, hi, rfl⟩)

/-- Releasing the address held by the handle variable `i` and storing a new address, which
has been counted already, into the variable. -/
theorem Counted.replace {U : List Pointer} {V : List Nat} {E : List Pointer} {s : State}
    {q : Pointer} (h : Counted U V (q :: E) s) (i : Nat) (hi : i ∈ V) (fuel : Nat)
    (hf : busy s U < fuel) :
    ∃ s', dtor (delete_this fuel) s (s.handles i) = some s' ∧
      Counted U V E (s'.set_m_ptr (Loc.var i) q) ∧ Cascade s s' := by
  have h1 : Counted U (V.erase i) (s.handles i :: q :: E) s := h.drop_var i hi
  obtain ⟨s', e, h2, hC⟩ := h1.release fuel hf
  exact ⟨s', e, Counted.assign_var i h2 h.vars hi, hC⟩

theorem busy_of_children (s s' : State) (U : List Pointer)
    (h : ∀ x, (s'.heap x).m_children = (s.heap x).m_children) : busy s' U = busy s U := by
  unfold busy
  congr 1
  funext x
  rw [h]

/-- C36: in a state that satisfies the count invariant, the handle variable `i` holds a
non-null address and is given another non-null address `q` of a live object, by raw-address
assignment, by copy assignment from a variable `j` that holds `q`, or by `reset(q)`. The
decrement of the old target runs in a state in which the count of `q` has been raised
already; so for enough fuel the operation returns, with `q` in the variable, not deleted and
with a count of at least 1, whatever the disposal of the old target releases. The count of
`q` stays below the largest `std::size_t`. -/
theorem new_target_raised_first (U : List Pointer) (V : List Nat) (s : State) (i : Nat)
    (q : Pointer) (fuel : Nat) (hI : Counted U V [] s) (hi : i ∈ V)
    (hold : s.handles i ≠ nullptr) (hq : q ≠ nullptr) (hne : s.handles i ≠ q) (hqU : q ∈ U)
    (hqd : q ∉ s.deleted) (hm : (s.heap q).m_count + 1 < SIZE_MODULUS)
    (hf : busy s U < fuel) :
    (∀ del, assign_raw del s (Loc.var i) q =
        (dec_ref_count del (inc_ref_count s q) (s.handles i) CsIntrusiveAction.Normal).map
          (fun t => t.set_m_ptr (Loc.var i) q)) ∧
      (∀ del j, s.handles j = q → copy_assign del s (Loc.var i) (Loc.var j) =
        (dec_ref_count del (inc_ref_count s q) (s.handles i) CsIntrusiveAction.Normal).map
          (fun t => t.set_m_ptr (Loc.var i) q)) ∧
      (∀ del, reset_raw del s (Loc.var i) q =
        dec_ref_count del (swap (ctor_raw s (Loc.tmp 0) q) (Loc.tmp 0) (Loc.var i))
          (s.handles i) CsIntrusiveAction.Normal) ∧
      (swap (ctor_raw s (Loc.tmp 0) q) (Loc.tmp 0) (Loc.var i)).heap =
        (inc_ref_count s q).heap ∧
      ((inc_ref_count s q).heap q).m_count = (s.heap q).m_count + 1 ∧
      (∃ s', assign_raw (delete_this fuel) s (Loc.var i) q = some s' ∧ s'.handles i = q ∧
        q ∉ s'.deleted ∧ 1 ≤ (s'.heap q).m_count ∧ Counted U V [] s') ∧
      (∀ j, j ∈ V → s.handles j = q →
        ∃ s', copy_assign (delete_this fuel) s (Loc.var i) (Loc.var j) = some s' ∧
          s'.handles i = q ∧ q ∉ s'.deleted ∧ 1 ≤ (s'.heap q).m_count ∧ Counted U V [] s') ∧
      (∃ s', reset_raw (delete_this fuel) s (Loc.var i) q = some s' ∧ s'.handles i = q ∧
        q ∉ s'.deleted ∧ 1 ≤ (s'.heap q).m_count ∧ Counted U V [] s') := by
  have hassign : ∀ del, assign_raw del s (Loc.var i) q =
      (dec_ref_count del (inc_ref_count s q) (s.handles i) CsIntrusiveAction.Normal).map
        (fun t => t.set_m_ptr (Loc.var i) q) := by
    intro del
    have hh : (inc_ref_count s q).handles i = s.handles i := rfl
    simp only [assign_raw, State.m_ptr, ne_eq, hne, not_false_eq_true, if_true, hq, hh, hold]
    cases dec_ref_count del (inc_ref_count s q) (s.handles i) CsIntrusiveAction.Normal <;> rfl
  have hinc : Counted U V [q] (inc_ref_count s q) := hI.inc q hq hqU hqd hm
  have hb : busy (inc_ref_count s q) U = busy s U :=
    busy_of_children _ _ U (fun x => by simp [inc_ref_count, cs_inc_ref_count])
  have hdone : ∃ s', assign_raw (delete_this fuel) s (Loc.var i) q = some s' ∧
      s'.handles i = q ∧ q ∉ s'.deleted ∧ 1 ≤ (s'.heap q).m_count ∧ Counted U V [] s' := by
    obtain ⟨s1, e1, h1, _⟩ := hinc.replace i hi fuel (by omega)
    have hs : (inc_ref_count s q).handles i = s.handles i := rfl
    rw [hs] at e1
    simp only [dtor, ne_eq, hold, not_false_eq_true, if_true] at e1
    have hv : (s1.set_m_ptr (Loc.var i) q).handles i = q := by simp [State.set_m_ptr]
    have hal := h1.alive q hq (by
      have := var_handles_pos (s1.set_m_ptr (Loc.var i) q) V i hi
      rw [hv] at this
      omega)
    exact ⟨_, by rw [hassign, e1]; rfl, hv, hal.2.1, hal.1, h1⟩
  have ht_heap : (swap (ctor_raw s (Loc.tmp 0) q) (Loc.tmp 0) (Loc.var i)).heap =
      (inc_ref_count s q).heap := by
    simp [swap, ctor_raw, State.m_ptr, State.set_m_ptr, hq, inc_ref_count, cs_inc_ref_count,
      State.set_count]
  have ht_handles : (swap (ctor_raw s (Loc.tmp 0) q) (Loc.tmp 0) (Loc.var i)).handles =
      ((inc_ref_count s q).set_m_ptr (Loc.var i) q).handles := by
    simp [swap, ctor_raw, State.m_ptr, State.set_m_ptr, hq, inc_ref_count, cs_inc_ref_count,
      State.set_count]
  have ht_deleted : (swap (ctor_raw s (Loc.tmp 0) q) (Loc.tmp 0) (Loc.var i)).deleted =
      s.deleted := by
    simp [swap, ctor_raw, State.m_ptr, State.set_m_ptr, hq, inc_ref_count, cs_inc_ref_count,
      State.set_count]
  have ht_tmp : (swap (ctor_raw s (Loc.tmp 0) q) (Loc.tmp 0) (Loc.var i)).m_ptr (Loc.tmp 0) =
      s.handles i := by
    simp [swap, ctor_raw, State.m_ptr, State.set_m_ptr, hq, inc_ref_count, cs_inc_ref_count,
      State.set_count]
  have hreset : ∀ del, reset_raw del s (Loc.var i) q =
      dec_ref_count del (swap (ctor_raw s (Loc.tmp 0) q) (Loc.tmp 0) (Loc.var i))
        (s.handles i) CsIntrusiveAction.Normal := by
    intro del
    show dtor del _ ((swap (ctor_raw s (Loc.tmp 0) q) (Loc.tmp 0) (Loc.var i)).m_ptr
      (Loc.tmp 0)) = _
    rw [ht_tmp]
    simp [dtor, hold]
  refine ⟨hassign, ?_, hreset, ht_heap, ?_, hdone, ?_, ?_⟩
  · intro del j hj
    simp only [copy_assign, State.m_ptr, hj]
    exact hassign del
  · simp [inc_ref_count, cs_inc_ref_count, inc_wrap _ hm]
  · intro j _ hj
    simp only [copy_assign, State.m_ptr, hj]
    exact hdone
  · have h1 : Counted U V [s.handles i] ((inc_ref_count s q).set_m_ptr (Loc.var i) q) :=
      hinc.set_var i hi
    have h2 : Counted U V [s.handles i]
        (swap (ctor_raw s (Loc.tmp 0) q) (Loc.tmp 0) (Loc.var i)) :=
      h1.transfer ht_heap ht_deleted h1.vars
        (fun x _ => by rw [var_handles_of_handles _ _ V x ht_handles])
    obtain ⟨s2, e2, h3, hC⟩ := h2.release fuel (by
      have : busy (swap (ctor_raw s (Loc.tmp 0) q) (Loc.tmp 0) (Loc.var i)) U = busy s U :=
        busy_of_children _ _ U (fun x => by
          rw [ht_heap]
          simp [inc_ref_count, cs_inc_ref_count])
      omega)
    have hv : s2.handles i = q := by
      rw [hC.handles, ht_handles]
      simp [State.set_m_ptr]
    have hal := h3.alive q hq (by
      have := var_handles_pos s2 V i hi
      rw [hv] at this
      omega)
    refine ⟨s2, ?_, hv, hal.2.1, hal.1, h3⟩
    rw [hreset, ← e2]
    simp [dtor, hold]

theorem parent_owns_child_counted : Counted [10, 11] [0] [] parent_owns_child := by
  have hheap : ∀ x : Pointer, x ≠ 10 → x ≠ 11 →
      parent_owns_child.heap x = { m_count := 0, m_children := [] } := by
    intro x h10 h11
    have e10 : (x == 10) = false := beq_eq_false_iff_ne.mpr h10
    have e11 : (x == 11) = false := beq_eq_false_iff_ne.mpr h11
    simp only [parent_owns_child, State.of, List.lookup, e10, e11]
    rfl
  have hcases : ∀ (P : Pointer → Prop), P 10 → P 11 →
      (∀ x, x ≠ 10 → x ≠ 11 → P x) → ∀ x, P x := by
    intro P a b c x
    by_cases h10 : x = 10
    · exact h10 ▸ a
    · by_cases h11 : x = 11
      · exact h11 ▸ b
      · exact c x h10 h11
  have hk : ∀ q, child_entries parent_owns_child [10, 11] q = [11].count q := by
    intro q
    have h10 : (parent_owns_child.heap 10).m_children = [11] := by decide
    have h11 : (parent_owns_child.heap 11).m_children = [] := by decide
    simp [child_entries, h10, h11]
  have hv : ∀ q, var_handles parent_owns_child [0] q = [10].count q := by
    intro q
    have h0 : parent_owns_child.handles 0 = 10 := by decide
    simp [var_handles, h0]
  have hnot : ∀ x : Pointer, x ∉ [10, 11] → x ≠ 10 ∧ x ≠ 11 := by
    intro x hx
    simpa using hx
  refine ⟨⟨?_, ?_, ?_, by decide, ?_, ?_⟩, by decide, ?_,
    fun x hx => absurd hx (List.not_mem_nil x), by decide⟩
  · intro q _
    rw [hk, hv]
    revert q
    apply hcases
    · decide
    · decide
    · intro x h10 h11
      rw [hheap x h10 h11]
      simp [List.count_cons, Ne.symm h10, Ne.symm h11]
  · apply hcases
    · decide
    · decide
    · intro x h10 h11
      rw [hheap x h10 h11]
      decide
  · intro x hx _
    left
    rw [hheap x (hnot x hx).1 (hnot x hx).2]
  · intro x hx
    exact absurd hx (List.not_mem_nil x)
  · exact List.nodup_nil
  · intro x hx
    rw [hheap x (hnot x hx).1 (hnot x hx).2]
    exact ⟨rfl, rfl⟩

/-- C36 on a parent at 10 whose child sequence holds the only handle to 11: variable 0, the
only handle to the parent, is assigned the raw address 11. The parent is disposed and
releases its child entry, and 11 is still alive, with count 1. -/
theorem new_target_raised_first_witness :
    ∃ s', assign_raw (delete_this 2) parent_owns_child (Loc.var 0) 11 = some s' ∧
      s'.handles 0 = 11 ∧ 11 ∉ s'.deleted ∧ 1 ≤ (s'.heap 11).m_count ∧
      Counted [10, 11] [0] [] s' :=
  (new_target_raised_first [10, 11] [0] parent_owns_child 0 11 2 parent_owns_child_counted
    (by decide) (by decide) (by decide) (by decide) (by decide) (by decide) (by decide)
    (by decide)).2.2.2.2.2.1

/-! ## The count invariant under the operations on handles -/

/-- The invariant does not read the temporaries. -/
theorem Counted.of_same_heap {U : List Pointer} {V : List Nat} {E : List Pointer} {s s' : State}
    (h : Counted U V E s) (hh : s'.heap = s.heap) (hd : s'.deleted = s.deleted)
    (hv : s'.handles = s.handles) : Counted U V E s' :=
  h.transfer hh hd h.vars (fun q _ => by rw [var_handles_of_handles s s' V q hv])

theorem Counted.held_alive {U : List Pointer} {V : List Nat} {E : List Pointer} {s : State}
    (h : Counted U V E s) (j : Nat) (hj : j ∈ V) (hne : s.handles j ≠ nullptr) :
    0 < (s.heap (s.handles j)).m_count ∧ s.handles j ∉ s.deleted ∧ s.handles j ∈ U :=
  h.alive _ hne (by have := var_handles_pos s V j hj; omega)

theorem Counted.add_null {U : List Pointer} {V : List Nat} {E : List Pointer} {s : State}
    (h : Counted U V E s) : Counted U V (nullptr :: E) s :=
  h.further (fun _ hq => List.count_cons_of_ne hq E)

theorem Counted.drop_null {U : List Pointer} {V : List Nat} {E : List Pointer} {s : State}
    (h : Counted U V (nullptr :: E) s) : Counted U V E s :=
  h.further (fun _ hq => (List.count_cons_of_ne hq E).symm)

/-- A further handle is made for the address `p`, which is null or the address of an object
that is not deleted. -/
theorem Counted.inc_or_null {U : List Pointer} {V : List Nat} {E : List Pointer} {s : State}
    (h : Counted U V E s) (p : Pointer)
    (hp : p = nullptr ∨ (p ∈ U ∧ p ∉ s.deleted ∧ (s.heap p).m_count + 1 < SIZE_MODULUS)) :
    Counted U V (p :: E) (if p ≠ nullptr then inc_ref_count s p else s) := by
  by_cases hn : p = nullptr
  · subst hn
    simpa using h.add_null
  · rcases hp with hp | ⟨a, b, c⟩
    · exact absurd hp hn
    · simpa [hn] using h.inc p hn a b c

theorem Counted.usable_of_var {U : List Pointer} {V : List Nat} {E : List Pointer}
    {s : State} (h : Counted U V E s) (j : Nat) (hj : j ∈ V)
    (hr : (s.heap (s.handles j)).m_count + 1 < SIZE_MODULUS) :
    s.handles j = nullptr ∨ (s.handles j ∈ U ∧ s.handles j ∉ s.deleted ∧
      (s.heap (s.handles j)).m_count + 1 < SIZE_MODULUS) := by
  by_cases hn : s.handles j = nullptr
  · exact Or.inl hn
  · have := h.held_alive j hj hn
    exact Or.inr ⟨this.2.2, this.2.1, hr⟩

theorem ctor_raw_eq (s : State) (i : Nat) (p : Pointer) :
    ctor_raw s (Loc.var i) p =
      (if p ≠ nullptr then inc_ref_count s p else s).set_m_ptr (Loc.var i) p := by
  by_cases hn : p = nullptr
  · simp [ctor_raw, hn]
  · simp only [ctor_raw, State.m_ptr_set_var_self, ne_eq, hn, not_false_eq_true, if_true]
    rfl

theorem ctor_raw_tmp_eq (s : State) (k : Nat) (p : Pointer) :
    ctor_raw s (Loc.tmp k) p =
      (if p ≠ nullptr then inc_ref_count s p else s).set_m_ptr (Loc.tmp k) p := by
  by_cases hn : p = nullptr
  · simp [ctor_raw, hn]
  · simp only [ctor_raw, State.m_ptr_set_tmp_self, ne_eq, hn, not_false_eq_true, if_true]
    rfl

/-- Constructor from a raw address into a new handle variable. -/
theorem Counted.ctor_raw {U : List Pointer} {V : List Nat} {E : List Pointer} {s : State}
    (h : Counted U V E s) (i : Nat) (hi : i ∉ V) (p : Pointer)
    (hp : p = nullptr ∨ (p ∈ U ∧ p ∉ s.deleted ∧ (s.heap p).m_count + 1 < SIZE_MODULUS)) :
    Counted U (i :: V) E (CsIntrusivePointer.ctor_raw s (Loc.var i) p) := by
  rw [ctor_raw_eq]
  exact (h.inc_or_null p hp).new_var i hi

theorem var_handles_swap (s : State) (i j : Nat) (V : List Nat) (hV : V.Nodup) (hi : i ∈ V)
    (hj : j ∈ V) (q : Pointer) :
    var_handles (swap s (Loc.var i) (Loc.var j)) V q = var_handles s V q := by
  have h1 := var_handles_set_mem s i (s.handles j) q V hV hi
  have h2 := var_handles_set_mem (s.set_m_ptr (Loc.var i) (s.handles j)) j (s.handles i) q V
    hV hj
  have h3 : (s.set_m_ptr (Loc.var i) (s.handles j)).handles j = s.handles j := by
    by_cases hji : j = i
    · simp [State.set_m_ptr, hji]
    · simp [State.set_m_ptr, hji]
  rw [h3] at h2
  show var_handles ((s.set_m_ptr (Loc.var i) (s.handles j)).set_m_ptr (Loc.var j)
    (s.handles i)) V q = _
  omega

/-- Member `swap` on two live handle variables. -/
theorem Counted.swap {U : List Pointer} {V : List Nat} {E : List Pointer} {s : State}
    (h : Counted U V E s) (i j : Nat) (hi : i ∈ V) (hj : j ∈ V) :
    Counted U V E (CsIntrusivePointer.swap s (Loc.var i) (Loc.var j)) :=
  h.transfer rfl rfl h.vars (fun q _ => by rw [var_handles_swap s i j V h.vars hi hj q])

/-- Move constructor into a new handle variable. -/
theorem Counted.move_ctor {U : List Pointer} {V : List Nat} {E : List Pointer} {s : State}
    (h : Counted U V E s) (i j : Nat) (hi : i ∉ V) (hj : j ∈ V) :
    Counted U (i :: V) E (CsIntrusivePointer.move_ctor s (Loc.var i) (Loc.var j)) := by
  have hij : j ≠ i := fun e => hi (e ▸ hj)
  have h1 : Counted U (i :: V) E ((s.set_m_ptr (Loc.var j) nullptr).set_m_ptr (Loc.var i)
      (s.handles j)) := by
    have := (h.add_null.set_var j hj).new_var i hi
    simpa [State.set_m_ptr] using this
  refine h1.of_same_heap rfl rfl ?_
  funext k
  simp only [CsIntrusivePointer.move_ctor, State.set_m_ptr, State.m_ptr]
  by_cases hki : k = i
  · simp [hki, Ne.symm hij]
  · by_cases hkj : k = j
    · simp [hkj, hij]
    · simp [hki, hkj]

theorem busy_inc (s : State) (U : List Pointer) (p : Pointer) :
    busy (if p ≠ nullptr then inc_ref_count s p else s) U = busy s U := by
  apply busy_of_children
  intro x
  split <;> simp [inc_ref_count, cs_inc_ref_count]

theorem busy_set_var (s : State) (U : List Pointer) (i : Nat) (p : Pointer) :
    busy (s.set_m_ptr (Loc.var i) p) U = busy s U :=
  busy_of_children _ _ U (fun _ => rfl)

theorem assign_raw_eq (del : State → Pointer → Option State) (s : State) (i : Nat)
    (p : Pointer) :
    assign_raw del s (Loc.var i) p =
      if s.handles i ≠ p then
        (dtor del (if p ≠ nullptr then inc_ref_count s p else s) (s.handles i)).map
          (fun t => t.set_m_ptr (Loc.var i) p)
      else some s := by
  by_cases hne : s.handles i = p
  · simp [assign_raw, State.m_ptr, hne]
  · have hh : (if p ≠ nullptr then inc_ref_count s p else s).handles i = s.handles i := by
      split <;> rfl
    simp only [assign_raw, State.m_ptr, ne_eq, hne, not_false_eq_true, if_true, dtor, hh]
    cases (if ¬s.handles i = nullptr then
      dec_ref_count del (if ¬p = nullptr then inc_ref_count s p else s) (s.handles i)
        CsIntrusiveAction.Normal else some (if ¬p = nullptr then inc_ref_count s p else s)) <;>
      rfl

/-- Raw-address assignment to a live handle variable. -/
theorem Counted.assign_raw {U : List Pointer} {V : List Nat} {E : List Pointer} {s : State}
    (h : Counted U V E s) (i : Nat) (hi : i ∈ V) (p : Pointer)
    (hp : p = nullptr ∨ (p ∈ U ∧ p ∉ s.deleted ∧ (s.heap p).m_count + 1 < SIZE_MODULUS))
    (fuel : Nat) (hf : busy s U < fuel) :
    ∃ s', CsIntrusivePointer.assign_raw (delete_this fuel) s (Loc.var i) p = some s' ∧
      Counted U V E s' := by
  rw [assign_raw_eq]
  by_cases hne : s.handles i = p
  · exact ⟨s, by rw [if_neg (not_not.mpr hne)], h⟩
  · obtain ⟨s1, e1, h1, _⟩ := (h.inc_or_null p hp).replace i hi fuel
      (by rw [busy_inc]; exact hf)
    have hh : (if p ≠ nullptr then inc_ref_count s p else s).handles i = s.handles i := by
      split <;> rfl
    rw [hh] at e1
    exact ⟨_, by rw [if_pos hne, e1]; rfl, h1⟩

/-- Destructor of a live handle variable. -/
theorem Counted.dtor_var {U : List Pointer} {V : List Nat} {E : List Pointer} {s : State}
    (h : Counted U V E s) (i : Nat) (hi : i ∈ V) (fuel : Nat) (hf : busy s U < fuel) :
    ∃ s', dtor (delete_this fuel) s (s.handles i) = some s' ∧ Counted U (V.erase i) E s' := by
  obtain ⟨s1, e1, h1, _⟩ := (h.drop_var i hi).release fuel hf
  exact ⟨s1, e1, h1⟩

/-- Method `reset()` of a live handle variable. -/
theorem Counted.reset {U : List Pointer} {V : List Nat} {E : List Pointer} {s : State}
    (h : Counted U V E s) (i : Nat) (hi : i ∈ V) (fuel : Nat) (hf : busy s U < fuel) :
    ∃ s', CsIntrusivePointer.reset (delete_this fuel) s (Loc.var i) = some s' ∧
      Counted U V E s' := by
  obtain ⟨s1, e1, h1, _⟩ := h.add_null.replace i hi fuel hf
  refine ⟨_, ?_, h1⟩
  have : CsIntrusivePointer.reset (delete_this fuel) s (Loc.var i) =
      (dtor (delete_this fuel) s (s.handles i)).map (fun t => t.set_m_ptr (Loc.var i) nullptr) := by
    simp only [CsIntrusivePointer.reset, dtor, State.m_ptr]
    cases (if s.handles i ≠ nullptr then
      dec_ref_count (delete_this fuel) s (s.handles i) CsIntrusiveAction.Normal
      else some s) <;> rfl
  rw [this, e1]
  rfl

/-- A temporary handle that holds `q`, which is counted already, is swapped with the live
handle variable `i` and destroyed: the body of `reset(q)` and of the converting copy
assignment after the temporary has been constructed. -/
theorem Counted.swap_release {U : List Pointer} {V : List Nat} {E : List Pointer}
    {s : State} {q : Pointer} (h : Counted U V (q :: E) s) (i : Nat) (hi : i ∈ V)
    (ht : s.temps 0 = q) (fuel : Nat) (hf : busy s U < fuel) :
    ∃ s', dtor (delete_this fuel) (CsIntrusivePointer.swap s (Loc.tmp 0) (Loc.var i))
        ((CsIntrusivePointer.swap s (Loc.tmp 0) (Loc.var i)).m_ptr (Loc.tmp 0)) = some s' ∧
      Counted U V E s' := by
  have h1 : Counted U V (s.handles i :: E) (s.set_m_ptr (Loc.var i) q) := h.set_var i hi
  have h2 : Counted U V (s.handles i :: E) (CsIntrusivePointer.swap s (Loc.tmp 0) (Loc.var i)) :=
    h1.of_same_heap rfl rfl (by simp [CsIntrusivePointer.swap, State.set_m_ptr, State.m_ptr, ht])
  have ht' : (CsIntrusivePointer.swap s (Loc.tmp 0) (Loc.var i)).m_ptr (Loc.tmp 0) =
      s.handles i := by
    simp [CsIntrusivePointer.swap, State.set_m_ptr, State.m_ptr]
  rw [ht']
  obtain ⟨s2, e2, h3, _⟩ := h2.release fuel (by
    have : busy (CsIntrusivePointer.swap s (Loc.tmp 0) (Loc.var i)) U = busy s U :=
      busy_of_children _ _ U (fun _ => rfl)
    omega)
  exact ⟨s2, e2, h3⟩

/-- Method `reset(p)` of a live handle variable. -/
theorem Counted.reset_raw {U : List Pointer} {V : List Nat} {E : List Pointer} {s : State}
    (h : Counted U V E s) (i : Nat) (hi : i ∈ V) (p : Pointer)
    (hp : p = nullptr ∨ (p ∈ U ∧ p ∉ s.deleted ∧ (s.heap p).m_count + 1 < SIZE_MODULUS))
    (fuel : Nat) (hf : busy s U < fuel) :
    ∃ s', CsIntrusivePointer.reset_raw (delete_this fuel) s (Loc.var i) p = some s' ∧
      Counted U V E s' := by
  have h0 : Counted U V (p :: E) (CsIntrusivePointer.ctor_raw s (Loc.tmp 0) p) := by
    rw [ctor_raw_tmp_eq]
    exact (h.inc_or_null p hp).set_tmp 0 p
  have ht : (CsIntrusivePointer.ctor_raw s (Loc.tmp 0) p).temps 0 = p := by
    rw [ctor_raw_tmp_eq]
    simp [State.set_m_ptr]
  have hb : busy (CsIntrusivePointer.ctor_raw s (Loc.tmp 0) p) U = busy s U := by
    rw [ctor_raw_tmp_eq]
    exact (busy_of_children _ _ U (fun _ => rfl)).trans (busy_inc s U p)
  exact h0.swap_release i hi ht fuel (by omega)

/-- Converting copy assignment between live handle variables. -/
theorem Counted.converting_copy_assign {U : List Pointer} {V : List Nat} {E : List Pointer}
    {s : State} (h : Counted U V E s) (i j : Nat) (hi : i ∈ V) (hj : j ∈ V)
    (hr : (s.heap (s.handles j)).m_count + 1 < SIZE_MODULUS)
    (fuel : Nat) (hf : busy s U < fuel) :
    ∃ s', CsIntrusivePointer.converting_copy_assign (delete_this fuel) s (Loc.var i)
        (Loc.var j) = some s' ∧ Counted U V E s' :=
  h.reset_raw i hi (s.handles j) (h.usable_of_var j hj hr) fuel hf

/-- Move assignment between live handle variables. -/
theorem Counted.move_assign {U : List Pointer} {V : List Nat} {E : List Pointer} {s : State}
    (h : Counted U V E s) (i j : Nat) (hi : i ∈ V) (hj : j ∈ V)
    (fuel : Nat) (hf : busy s U < fuel) :
    ∃ s', CsIntrusivePointer.move_assign (delete_this fuel) s (Loc.var i) (Loc.var j) =
        some s' ∧ Counted U V E s' := by
  by_cases he : s.handles i = s.handles j
  · exact ⟨s, by simp [CsIntrusivePointer.move_assign, State.m_ptr, he], h⟩
  · by_cases hn : s.handles i = nullptr
    · have he' : ¬ nullptr = s.handles j := hn ▸ he
      refine ⟨CsIntrusivePointer.swap s (Loc.var i) (Loc.var j), ?_, h.swap i j hi hj⟩
      simp [CsIntrusivePointer.move_assign, State.m_ptr, hn, he']
    · obtain ⟨s1, e1, h1, _⟩ := h.add_null.replace i hi fuel hf
      simp only [dtor, ne_eq, hn, not_false_eq_true, if_true] at e1
      refine ⟨CsIntrusivePointer.swap (s1.set_m_ptr (Loc.var i) nullptr) (Loc.var i)
        (Loc.var j), ?_, h1.swap i j hi hj⟩
      simp [CsIntrusivePointer.move_assign, State.m_ptr, he, hn, e1]

/-- Converting move assignment between live handle variables. -/
theorem Counted.converting_move_assign {U : List Pointer} {V : List Nat} {E : List Pointer}
    {s : State} (h : Counted U V E s) (i j : Nat) (hi : i ∈ V) (hj : j ∈ V)
    (fuel : Nat) (hf : busy s U < fuel) :
    ∃ s', CsIntrusivePointer.converting_move_assign (delete_this fuel) s (Loc.var i)
        (Loc.var j) = some s' ∧ Counted U V E s' := by
  by_cases he : s.handles i = s.handles j
  · exact ⟨s, by simp [CsIntrusivePointer.converting_move_assign, State.m_ptr, he], h⟩
  · have hij : i ≠ j := fun e => he (by rw [e])
    have hfin : ∀ t : State,
        ((t.set_m_ptr (Loc.var i) (t.handles j)).set_m_ptr (Loc.var j) nullptr).handles =
          (CsIntrusivePointer.swap (t.set_m_ptr (Loc.var i) nullptr) (Loc.var i)
            (Loc.var j)).handles := by
      intro t
      funext k
      simp only [CsIntrusivePointer.swap, State.set_m_ptr, State.m_ptr]
      by_cases hki : k = i
      · subst hki
        simp [hij, Ne.symm hij]
      · by_cases hkj : k = j
        · subst hkj
          simp [hij, Ne.symm hij]
        · simp [hki, hkj]
    obtain ⟨s1, e1, h1, _⟩ := h.add_null.replace i hi fuel hf
    have h2 := h1.swap i j hi hj
    by_cases hn : s.handles i = nullptr
    · have he' : ¬ nullptr = s.handles j := hn ▸ he
      have e1' : s1 = s := by
        simp [dtor, hn] at e1
        exact e1.symm
      subst e1'
      refine ⟨(s1.set_m_ptr (Loc.var i) (s1.handles j)).set_m_ptr (Loc.var j) nullptr, ?_,
        h2.of_same_heap rfl rfl (hfin s1)⟩
      simp [CsIntrusivePointer.converting_move_assign, State.m_ptr, hn, he']
    · simp only [dtor, ne_eq, hn, not_false_eq_true, if_true] at e1
      refine ⟨(s1.set_m_ptr (Loc.var i) (s1.handles j)).set_m_ptr (Loc.var j) nullptr, ?_,
        h2.of_same_heap rfl rfl (hfin s1)⟩
      simp [CsIntrusivePointer.converting_move_assign, State.m_ptr, he, hn, e1]

/-- Method `release_if()` of a live handle variable. -/
theorem Counted.release_if {U : List Pointer} {V : List Nat} {E : List Pointer} {s : State}
    (h : Counted U V E s) (i : Nat) (hi : i ∈ V) (del : State → Pointer → Option State) :
    ∃ r, CsIntrusivePointer.release_if del s (Loc.var i) = some r ∧ Counted U V E r.2 := by
  by_cases h1 : use_count s (Loc.var i) = 1
  · have hn : s.handles i ≠ nullptr := by
      intro e
      simp [use_count, State.m_ptr, e] at h1
    have hc : (s.heap (s.handles i)).m_count = 1 := by
      simpa [use_count, State.m_ptr, hn, get_ref_count, cs_get_ref_count] using h1
    have hw0 : (1 + (SIZE_MODULUS - 1)) % SIZE_MODULUS = 0 := by decide
    refine ⟨(s.handles i, (s.set_count (s.handles i) 0).set_m_ptr (Loc.var i) nullptr), ?_, ?_⟩
    · simp [CsIntrusivePointer.release_if, h1, dec_ref_count, cs_dec_ref_count, State.m_ptr,
        hc, hw0]
    · have hal := h.held_alive i hi hn
      have hk : ∀ q, child_entries (s.set_count (s.handles i) 0) U q = child_entries s U q :=
        fun q => child_entries_congr _ _ U q (fun x _ => by simp)
      have hvs : ∀ q, var_handles (s.set_count (s.handles i) 0) V q = var_handles s V q :=
        fun q => var_handles_of_handles _ _ V q rfl
      have h2 : Counted U (V.erase i) E (s.set_count (s.handles i) 0) := by
        have hd := h.drop_var i hi
        refine ⟨⟨?_, ?_, ?_, h.balanced.nodup, ?_, ?_⟩, hd.vars, ?_,
          fun x hx => h.deleted_mem x (by simpa using hx), h.null⟩
        · intro q hq
          have := hd.balanced.count q hq
          rw [hk, var_handles_of_handles s (s.set_count (s.handles i) 0) (V.erase i) q rfl]
          simp only [List.count_nil, State.set_count_count, List.count_cons, beq_iff_eq] at *
          by_cases hqp : q = s.handles i
          · subst hqp
            simp only [if_true] at *
            omega
          · rw [if_neg hqp]
            rw [if_neg (Ne.symm hqp)] at this
            omega
        · intro q
          have := h.balanced.small q
          simp only [State.set_count_count]
          split <;> omega
        · intro x hx _
          left
          simp [(h.fresh x hx).2]
        · intro x hx
          have hx' : x ∈ s.deleted := by simpa using hx
          have := h.balanced.deleted x hx'
          refine ⟨this.1, ?_, by simp [this.2.2]⟩
          simp only [State.set_count_count]
          split
          · rfl
          · exact this.2.1
        · exact h.balanced.deleted_nodup
        · intro x hx
          have := h.fresh x hx
          refine ⟨?_, by simp [this.2]⟩
          simp only [State.set_count_count]
          split
          · rfl
          · exact this.1
      exact Counted.assign_var i h2.add_null h.vars hi
  · exact ⟨(nullptr, s), by simp [CsIntrusivePointer.release_if, h1], h⟩

/-! ## The count invariant under `make_intrusive` and the operations of the node manager -/

theorem child_entries_cons (s : State) (a : Pointer) (U : List Pointer) (q : Pointer) :
    child_entries s (a :: U) q = (s.heap a).m_children.count q + child_entries s U q := by
  simp [child_entries]

/-- A new object is created at a fresh address. -/
theorem Counted.allocate {U : List Pointer} {V : List Nat} {E : List Pointer} {s : State}
    (h : Counted U V E s) (a : Pointer) (ha : a ∉ U) (hn : a ≠ nullptr) :
    Counted (a :: U) V E
      { s with heap := fun x => if x = a then { m_count := 0, m_children := [] } else s.heap x } := by
  have hobj : s.heap a = { m_count := 0, m_children := [] } := by
    have := h.fresh a ha
    cases hs : s.heap a with
    | mk c k =>
      rw [hs] at this
      simp only at this
      rw [this.1, this.2]
  have hheap : (fun x => if x = a then ({ m_count := 0, m_children := [] } : Object)
      else s.heap x) = s.heap := by
    funext x
    by_cases hx : x = a
    · rw [if_pos hx, hx, hobj]
    · rw [if_neg hx]
  have h1 : Counted (a :: U) V E s := by
    have hk : ∀ q, child_entries s (a :: U) q = child_entries s U q := by
      intro q
      rw [child_entries_cons, (h.fresh a ha).2]
      simp
    refine ⟨⟨?_, h.balanced.small, ?_, List.nodup_cons.mpr ⟨ha, h.balanced.nodup⟩,
      h.balanced.deleted, h.balanced.deleted_nodup⟩, h.vars, ?_, ?_, ?_⟩
    · intro q hq
      rw [hk]
      exact h.balanced.count q hq
    · intro x hx _
      exact Or.inl (h.fresh x (fun e => hx (List.mem_cons_of_mem _ e))).2
    · intro x hx
      exact h.fresh x (fun e => hx (List.mem_cons_of_mem _ e))
    · intro x hx
      exact List.mem_cons_of_mem _ (h.deleted_mem x hx)
    · intro e
      rcases List.mem_cons.mp e with e | e
      · exact hn e.symm
      · exact h.null e
  exact h1.of_same_heap hheap rfl rfl

/-- Factory `make_intrusive` into a new handle variable. -/
theorem Counted.make_intrusive {U : List Pointer} {V : List Nat} {E : List Pointer}
    {s : State} (h : Counted U V E s) (i : Nat) (hi : i ∉ V) (a : Pointer) (ha : a ∉ U)
    (hn : a ≠ nullptr) :
    Counted (a :: U) (i :: V) E (CsPointer.make_intrusive s (Loc.var i) a) := by
  have h1 := h.allocate a ha hn
  refine h1.ctor_raw i hi a (Or.inr ⟨List.mem_cons_self _ _, ?_, ?_⟩)
  · intro hd
    exact ha (h.deleted_mem a hd)
  · simp only [if_true]
    decide

theorem busy_set_children_le (s : State) (U : List Pointer) (this : Pointer)
    (l : List Pointer) (hl : l ≠ [] → (s.heap this).m_children ≠ []) :
    busy (s.set_children this l) U ≤ busy s U := by
  unfold busy
  apply List.countP_mono_left
  intro x _ hx
  by_cases hxt : x = this
  · subst hxt
    simp only [State.set_children_children, if_true] at hx
    have : l ≠ [] := by
      intro e
      rw [e] at hx
      simp at hx
    have := hl this
    cases hc : (s.heap x).m_children with
    | nil => exact absurd hc this
    | cons => simp
  · simpa [hxt] using hx

/-- Method `add_child(T *)` of a live node manager. -/
theorem Counted.add_child_raw {U : List Pointer} {V : List Nat} {E : List Pointer}
    {s : State} (h : Counted U V E s) (this : Pointer) (hU : this ∈ U)
    (hd : this ∉ s.deleted) (p : Pointer)
    (hp : p = nullptr ∨ (p ∈ U ∧ p ∉ s.deleted ∧ (s.heap p).m_count + 1 < SIZE_MODULUS))
    (del : State → Pointer → Option State) :
    ∃ s', CsNodeManager.add_child_raw del s this p = some s' ∧ Counted U V E s' := by
  obtain ⟨s', e, c1, c2, c3, c4, c5⟩ := add_child_raw_spec del s this p
  refine ⟨s', e, ?_⟩
  have hinc := h.inc_or_null p hp
  have hch : ∀ x, ((if p ≠ nullptr then inc_ref_count s p else s).heap x).m_children =
      (s.heap x).m_children := by
    intro x
    split <;> simp [inc_ref_count, cs_inc_ref_count]
  have hdl : (if p ≠ nullptr then inc_ref_count s p else s).deleted = s.deleted := by
    split <;> rfl
  have hN : Counted U V E ((if p ≠ nullptr then inc_ref_count s p else s).set_children this
      ((s.heap this).m_children ++ [p])) := by
    refine hinc.set_children this _ hU (by rw [hdl]; exact hd) ?_
    intro q _
    rw [hch, List.count_append]
    simp only [List.count_cons, List.count_nil]
    omega
  refine hN.of_same_heap (heap_ext _ _ ?_ ?_)
    (by show s'.deleted = (if p ≠ nullptr then inc_ref_count s p else s).deleted
        rw [c5, hdl])
    (by rw [c4]; split <;> rfl)
  · intro q
    by_cases hq : q = this
    · subst hq
      rw [c1, State.set_children_children, if_pos rfl]
    · rw [c2 q hq, State.set_children_children, if_neg hq, hch]
  · intro q
    rw [c3]
    by_cases hn : p = nullptr
    · simp [hn]
    · by_cases hq : q = p
      · subst hq
        simp [hn, inc_ref_count, cs_inc_ref_count]
      · simp [hn, hq, inc_ref_count, cs_inc_ref_count]

/-- Method `move_child` of a live node manager with both positions inside the sequence. -/
theorem Counted.move_child {U : List Pointer} {V : List Nat} {E : List Pointer}
    {s : State} (h : Counted U V E s) (this : Pointer) (hU : this ∈ U)
    (hd : this ∉ s.deleted) (source dest : Nat)
    (h1 : source < (s.heap this).m_children.length)
    (h2 : dest < (s.heap this).m_children.length) :
    Counted U V E (CsNodeManager.move_child s this source dest) := by
  by_cases he : source = dest
  · simpa [CsNodeManager.move_child, he] using h
  · by_cases hlt : source < dest
    · have e : CsNodeManager.move_child s this source dest = s.set_children this
          (std_rotate (s.heap this).m_children source (source + 1) (dest + 1)) := by
        simp [CsNodeManager.move_child, he, hlt]
      rw [e]
      refine h.set_children this _ hU hd ?_
      intro q _
      have r := rotate_forward (s.heap this).m_children source dest hlt h2
      have sp := split_forward (s.heap this).m_children source dest hlt h2
      rw [r]
      conv_rhs => rw [sp]
      simp only [List.count_append, List.count_cons]
      omega
    · have hgt : dest < source := by omega
      have e : CsNodeManager.move_child s this source dest = s.set_children this
          (std_rotate (s.heap this).m_children.reverse
            ((s.heap this).m_children.length - source - 1)
            ((s.heap this).m_children.length - source)
            ((s.heap this).m_children.length - dest)).reverse := by
        simp [CsNodeManager.move_child, he, hlt]
      rw [e]
      refine h.set_children this _ hU hd ?_
      intro q _
      have r := rotate_backward (s.heap this).m_children source dest hgt h1
      have sp := split_backward (s.heap this).m_children source dest hgt h1
      rw [r]
      conv_rhs => rw [sp]
      simp only [List.count_append, List.count_cons]
      omega

/-- Method `clear()` of a live node manager. -/
theorem Counted.clear {U : List Pointer} {V : List Nat} {E : List Pointer}
    {s : State} (h : Counted U V E s) (this : Pointer) (hU : this ∈ U)
    (hd : this ∉ s.deleted) (fuel : Nat) (hf : busy s U < fuel) :
    ∃ s', CsNodeManager.clear (delete_this fuel) s this = some s' ∧ Counted U V E s' := by
  have h1 : Counted U V ((s.heap this).m_children ++ E) (s.set_children this []) := by
    refine h.set_children this [] hU hd ?_
    intro q _
    simp only [List.count_nil, List.count_append]
    omega
  obtain ⟨s', e, h2, _⟩ := Counted.release_all _ h1 fuel
    (Nat.lt_of_le_of_lt (busy_set_children_le s U this [] (fun e => absurd rfl e)) hf)
  exact ⟨s', e, h2⟩

/-! ## The count invariant under `remove_child` -/

theorem count_set (q v : Pointer) : ∀ (l : List Pointer) (j : Nat), j < l.length →
    (l.set j v).count q + (if l.getD j nullptr = q then 1 else 0) =
      l.count q + (if v = q then 1 else 0)
  | [], _, h => by simp at h
  | x :: l, 0, _ => by
    simp only [List.set_cons_zero, List.getD_cons_zero, List.count_cons, beq_iff_eq]
    omega
  | x :: l, j + 1, h => by
    have ih := count_set q v l j (by simpa using h)
    simp only [List.set_cons_succ, List.getD_cons_succ, List.count_cons, beq_iff_eq]
    omega

theorem child_entries_erase (s : State) (q this : Pointer) :
    ∀ (U : List Pointer), U.Nodup → this ∈ U →
      child_entries s U q =
        child_entries s (U.erase this) q + (s.heap this).m_children.count q
  | [], _, h => by cases h
  | y :: U, hnd, h => by
    have hnd' := List.nodup_cons.mp hnd
    by_cases hy : y = this
    · subst hy
      rw [List.erase_cons_head, child_entries_cons]
      omega
    · have h' : this ∈ U := by
        rcases List.mem_cons.mp h with e | e
        · exact absurd e.symm hy
        · exact e
      have ih := child_entries_erase s q this U hnd'.2 h'
      rw [List.erase_cons_tail (by simpa using hy), child_entries_cons, child_entries_cons]
      omega

theorem busy_erase_le (s : State) (U : List Pointer) (this : Pointer) :
    busy s (U.erase this) ≤ busy s U := by
  unfold busy
  exact (List.erase_sublist this U).countP_le _

/-- An entry of the child vector of a node manager that a live handle variable holds is
released while it is still in the vector, as in the move assignment of `std::vector::erase`:
for enough fuel the decrement returns, the manager keeps its children, and the invariant
holds once the entry has been set to null. -/
theorem Counted.release_entry {U : List Pointer} {V : List Nat} {E : List Pointer}
    {s : State} (h : Counted U V E s) (this : Pointer) (k : Nat) (hk : k ∈ V)
    (hheld : s.handles k = this) (hthis : this ≠ nullptr) (j : Nat)
    (hj : j < (s.heap this).m_children.length)
    (ha : (s.heap this).m_children.getD j nullptr ≠ nullptr) (fuel : Nat)
    (hf : busy s U < fuel) :
    ∃ s1, dec_ref_count (delete_this fuel) s ((s.heap this).m_children.getD j nullptr)
        CsIntrusiveAction.Normal = some s1 ∧
      s1.handles = s.handles ∧ (s1.heap this).m_children = (s.heap this).m_children ∧
      busy s1 U ≤ busy s U ∧
      Counted U V E (s1.set_children this ((s.heap this).m_children.set j nullptr)) := by
  have hal := h.held_alive k hk (by rw [hheld]; exact hthis)
  rw [hheld] at hal
  have hU : this ∈ U := hal.2.2
  have hcs : ∀ q, q ≠ nullptr →
      ((s.heap this).m_children.set j nullptr).count q +
        (if (s.heap this).m_children.getD j nullptr = q then 1 else 0) =
      (s.heap this).m_children.count q := by
    intro q hq
    have := count_set q nullptr (s.heap this).m_children j hj
    rw [if_neg (Ne.symm hq)] at this
    omega
  have hvpos : 0 < var_handles s V this := by
    have := var_handles_pos s V k hk
    rwa [hheld] at this
  have hB : Balanced (U.erase this)
      (fun q => var_handles s V q + E.count q +
        ((s.heap this).m_children.set j nullptr).count q)
      [(s.heap this).m_children.getD j nullptr] s := by
    refine ⟨?_, h.balanced.small, ?_, h.balanced.nodup.erase this, h.balanced.deleted,
      h.balanced.deleted_nodup⟩
    · intro q hq
      have h1 := h.balanced.count q hq
      have h2 := child_entries_erase s q this U h.balanced.nodup hU
      have h3 := hcs q hq
      simp only [List.count_nil, List.count_cons, beq_iff_eq] at *
      omega
    · intro x hx _
      by_cases hxt : x = this
      · right
        rw [hxt]
        omega
      · left
        have : x ∉ U := fun e => hx ((List.Nodup.mem_erase_iff h.balanced.nodup).mpr ⟨hxt, e⟩)
        exact (h.fresh x this).2
  obtain ⟨s1, e, hB1, hC⟩ := destroy_elements_balanced (U.erase this) (busy s U) fuel hf
    [(s.heap this).m_children.getD j nullptr] s _ (busy_erase_le s U this) hB
  rw [destroy_elements_singleton] at e
  simp only [dtor, ne_eq, ha, not_false_eq_true, if_true] at e
  have hnd : this ∉ s1.deleted := by
    intro hd1
    have c0 := (hB1.deleted this hd1).2.1
    have c1 := hB1.count this hthis
    omega
  have hch : (s1.heap this).m_children = (s.heap this).m_children := by
    rcases hC.children this with e' | ⟨_, d, _⟩
    · exact e'
    · exact absurd d hnd
  refine ⟨s1, e, hC.handles, hch, hC.busy_mono U, ?_⟩
  have hk2 : ∀ q, child_entries (s1.set_children this
      ((s.heap this).m_children.set j nullptr)) U q =
      child_entries s1 (U.erase this) q + ((s.heap this).m_children.set j nullptr).count q := by
    intro q
    rw [child_entries_erase _ q this U h.balanced.nodup hU]
    congr 1
    · apply child_entries_congr
      intro x hx
      have : x ≠ this := ((List.Nodup.mem_erase_iff h.balanced.nodup).mp hx).1
      simp [this]
    · simp
  have hout : ∀ x, x ∉ U → ((s1.set_children this
      ((s.heap this).m_children.set j nullptr)).heap x).m_count = 0 ∧
      ((s1.set_children this ((s.heap this).m_children.set j nullptr)).heap x).m_children =
        [] := by
    intro x hx
    have hxt : x ≠ this := fun e => hx (e ▸ hU)
    have hf := h.fresh x hx
    have hle := hC.count_le x
    refine ⟨by simp only [State.set_children_count]; omega, ?_⟩
    simp only [State.set_children_children, if_neg hxt]
    rcases hC.children x with e' | ⟨e', _, _⟩
    · rw [e']; exact hf.2
    · exact e'
  refine ⟨⟨?_, ?_, ?_, h.balanced.nodup, ?_, ?_⟩, h.vars, hout, ?_, h.null⟩
  · intro q hq
    have c1 := hB1.count q hq
    rw [hk2, var_handles_of_handles s _ V q (by simpa using hC.handles)]
    simp only [List.count_nil, State.set_children_count] at *
    omega
  · intro q
    simpa using hB1.small q
  · intro x hx _
    exact Or.inl (hout x hx).2
  · intro x hx
    have hx' : x ∈ s1.deleted := by simpa using hx
    have hxt : x ≠ this := fun e => hnd (e ▸ hx')
    have := hB1.deleted x hx'
    exact ⟨this.1, by simpa using this.2.1, by simpa [hxt] using this.2.2⟩
  · simpa using hB1.deleted_nodup
  · intro x hx
    have hx' : x ∈ s1.deleted := by simpa using hx
    rcases hC.deleted_new x hx' with d | d
    · exact h.deleted_mem x d
    · by_contra hxU
      have := (h.fresh x hxU).1
      omega

theorem split_adjacent : ∀ (l : List Pointer) (j : Nat), j + 1 < l.length →
    ∃ pre x y post, l = pre ++ x :: y :: post ∧ pre.length = j
  | [], _, h => by simp at h
  | [_], _, h => by simp at h
  | x :: y :: l, 0, _ => ⟨[], x, y, l, rfl, rfl⟩
  | x :: y :: l, j + 1, h => by
    obtain ⟨pre, a, b, post, e, hl⟩ := split_adjacent (y :: l) j (by simpa using h)
    exact ⟨x :: pre, a, b, post, by rw [e]; rfl, by simp [hl]⟩

theorem set_children_twice (s : State) (a : Pointer) (A B : List Pointer) :
    (s.set_children a A).set_children a B = s.set_children a B := by
  apply State.eq_of_fields
  · funext x
    by_cases hx : x = a
    · simp [State.set_children, hx]
    · simp [State.set_children, hx]
  · rfl
  · rfl
  · rfl

theorem swap_adjacent (s : State) (this : Pointer) (pre post : List Pointer) (x y : Pointer)
    (hch : (s.heap this).m_children = pre ++ x :: y :: post) :
    CsIntrusivePointer.swap s (Loc.child this pre.length) (Loc.child this (pre.length + 1)) =
      s.set_children this (pre ++ y :: x :: post) := by
  have ha : s.m_ptr (Loc.child this pre.length) = x := by
    simp only [State.m_ptr, hch]
    exact getD_hole pre x (y :: post)
  have hb : s.m_ptr (Loc.child this (pre.length + 1)) = y := by
    simp only [State.m_ptr, hch]
    exact getD_after_hole pre x y post
  simp only [CsIntrusivePointer.swap, ha, hb, State.set_m_ptr, hch, set_hole,
    State.set_children_children, if_true, set_after_hole, set_children_twice]

/-- Two neighbouring entries of the child vector of a live node manager are exchanged. -/
theorem Counted.swap_entries {U : List Pointer} {V : List Nat} {E : List Pointer}
    {s : State} (h : Counted U V E s) (this : Pointer) (hU : this ∈ U)
    (hd : this ∉ s.deleted) (j : Nat) (hj : j + 1 < (s.heap this).m_children.length) :
    Counted U V E (CsIntrusivePointer.swap s (Loc.child this j) (Loc.child this (j + 1))) ∧
      (CsIntrusivePointer.swap s (Loc.child this j) (Loc.child this (j + 1))).handles =
        s.handles ∧
      ((CsIntrusivePointer.swap s (Loc.child this j) (Loc.child this (j + 1))).heap
        this).m_children.length = (s.heap this).m_children.length ∧
      busy (CsIntrusivePointer.swap s (Loc.child this j) (Loc.child this (j + 1))) U ≤
        busy s U := by
  obtain ⟨pre, x, y, post, e, hl⟩ := split_adjacent _ j hj
  subst hl
  rw [swap_adjacent s this pre post x y e]
  refine ⟨?_, rfl, by simp [e], ?_⟩
  · refine h.set_children this _ hU hd ?_
    intro q _
    rw [e]
    simp only [List.count_append, List.count_cons]
    omega
  · apply busy_set_children_le
    intro _
    rw [e]
    simp


/-- One move assignment `v[j] = std::move(v[j + 1])` of `std::vector::erase` on the child
vector of a node manager that a live handle variable holds. -/
theorem Erasing.shift_step {U : List Pointer} {V : List Nat} {E : List Pointer}
    {this : Pointer} {k n bound : Nat} {s : State} (h : Erasing U V E this k n bound s)
    (hk : k ∈ V) (hthis : this ≠ nullptr) (j : Nat) (hj : j + 1 < n) (fuel : Nat)
    (hf : bound < fuel) :
    ∃ s', CsIntrusivePointer.move_assign (delete_this fuel) s (Loc.child this j)
        (Loc.child this (j + 1)) = some s' ∧ Erasing U V E this k n bound s' := by
  have hal := h.counted.held_alive k hk (by rw [h.held]; exact hthis)
  rw [h.held] at hal
  have hjl : j + 1 < (s.heap this).m_children.length := by rw [h.length]; exact hj
  by_cases he : (s.heap this).m_children.getD j nullptr =
      (s.heap this).m_children.getD (j + 1) nullptr
  · refine ⟨s, ?_, h⟩
    simp only [CsIntrusivePointer.move_assign, State.m_ptr]
    rw [if_pos he]
  · by_cases hn : (s.heap this).m_children.getD j nullptr = nullptr
    · obtain ⟨c1, c2, c3, c4⟩ := h.counted.swap_entries this hal.2.2 hal.2.1 j hjl
      refine ⟨CsIntrusivePointer.swap s (Loc.child this j) (Loc.child this (j + 1)), ?_,
        ⟨c1, by rw [c2]; exact h.held, by rw [c3]; exact h.length,
          Nat.le_trans c4 h.bounded⟩⟩
      simp only [CsIntrusivePointer.move_assign, State.m_ptr]
      rw [if_neg he]
      simp only [ne_eq, hn, not_true_eq_false, if_false]
    · obtain ⟨s1, e1, a1, a2, a3, a4⟩ := h.counted.release_entry this k hk h.held hthis j
        (by omega) hn fuel (Nat.lt_of_le_of_lt h.bounded hf)
      have hs2 : s1.set_m_ptr (Loc.child this j) nullptr =
          s1.set_children this ((s.heap this).m_children.set j nullptr) := by
        simp only [State.set_m_ptr, a2]
      have hheld2 : (s1.set_children this ((s.heap this).m_children.set j nullptr)).handles k =
          this := by
        simp only [State.set_children_handles, a1]
        exact h.held
      have hal2 := a4.held_alive k hk (by rw [hheld2]; exact hthis)
      rw [hheld2] at hal2
      have hlen2 : ((s1.set_children this ((s.heap this).m_children.set j nullptr)).heap
          this).m_children.length = n := by
        simp [h.length]
      have hb2 : busy (s1.set_children this ((s.heap this).m_children.set j nullptr)) U ≤
          bound := by
        refine Nat.le_trans (busy_set_children_le s1 U this _ ?_) (Nat.le_trans a3 h.bounded)
        intro _
        rw [a2]
        intro e0
        rw [e0] at hjl
        simp at hjl
      obtain ⟨c1, c2, c3, c4⟩ := a4.swap_entries this hal2.2.2 hal2.2.1 j
        (by rw [hlen2]; exact hj)
      refine ⟨CsIntrusivePointer.swap (s1.set_children this
        ((s.heap this).m_children.set j nullptr)) (Loc.child this j) (Loc.child this (j + 1)),
        ?_, ⟨c1, by rw [c2]; exact hheld2, by rw [c3]; exact hlen2, Nat.le_trans c4 hb2⟩⟩
      simp only [CsIntrusivePointer.move_assign, State.m_ptr]
      rw [if_neg he]
      simp only [ne_eq, hn, not_false_eq_true, if_true, e1, hs2]

/-- The loop of move assignments of `std::vector::erase`. -/
theorem Erasing.erase_shift {U : List Pointer} {V : List Nat} {E : List Pointer}
    {this : Pointer} {k n bound : Nat} (hk : k ∈ V) (hthis : this ≠ nullptr) (fuel : Nat)
    (hf : bound < fuel) :
    ∀ (count j : Nat) (s : State), Erasing U V E this k n bound s → j + count + 1 ≤ n →
      ∃ s', CsNodeManager.erase_shift (delete_this fuel) this count j s = some s' ∧
        Erasing U V E this k n bound s'
  | 0, _, s, h, _ => ⟨s, rfl, h⟩
  | count + 1, j, s, h, hn => by
    obtain ⟨s1, e1, h1⟩ := h.shift_step hk hthis j (by omega) fuel hf
    obtain ⟨s2, e2, h2⟩ := Erasing.erase_shift hk hthis fuel hf count (j + 1) s1 h1 (by omega)
    exact ⟨s2, by simp only [CsNodeManager.erase_shift, e1, e2], h2⟩

theorem take_append_last (l : List Pointer) (n : Nat) (hl : l.length = n) (hn : 0 < n) :
    l = l.take (n - 1) ++ [l.getD (n - 1) nullptr] := by
  have hlt : n - 1 < l.length := by omega
  have h1 := List.take_append_drop (n - 1) l
  have h2 : l.drop (n - 1) = [l.getD (n - 1) nullptr] := by
    rw [List.drop_eq_getElem_cons hlt, List.getD_eq_getElem _ _ hlt]
    have : l.drop (n - 1 + 1) = [] := List.drop_eq_nil_of_le (by omega)
    rw [this]
  rw [h2] at h1
  exact h1.symm

/-- The end of `std::vector::erase`: the last element is destroyed. -/
theorem Erasing.erase_tail {U : List Pointer} {V : List Nat} {E : List Pointer}
    {this : Pointer} {k n bound : Nat} {s : State} (h : Erasing U V E this k n bound s)
    (hk : k ∈ V) (hthis : this ≠ nullptr) (hn : 0 < n) (fuel : Nat) (hf : bound < fuel) :
    ∃ s', erase_tail (delete_this fuel) this n s = some s' ∧ Counted U V E s' := by
  have hal := h.counted.held_alive k hk (by rw [h.held]; exact hthis)
  rw [h.held] at hal
  have hsplit := take_append_last (s.heap this).m_children n h.length hn
  have h1 : Counted U V ((s.heap this).m_children.getD (n - 1) nullptr :: E)
      (s.set_children this ((s.heap this).m_children.take (n - 1))) := by
    refine h.counted.set_children this _ hal.2.2 hal.2.1 ?_
    intro q _
    conv_rhs => rw [hsplit]
    simp only [List.count_append, List.count_cons, List.count_nil]
    omega
  obtain ⟨s', e, h2, _⟩ := h1.release fuel (by
    have := busy_set_children_le s U this ((s.heap this).m_children.take (n - 1)) (by
      intro hne e0
      rw [e0] at hne
      simp at hne)
    have := h.bounded
    omega)
  exact ⟨s', e, h2⟩

/-- Method `remove_child(T *)` of a node manager that a live handle variable holds. -/
theorem Counted.remove_child_raw {U : List Pointer} {V : List Nat} {E : List Pointer}
    {s : State} (h : Counted U V E s) (this : Pointer) (k : Nat) (hk : k ∈ V)
    (hheld : s.handles k = this) (hthis : this ≠ nullptr) (p : Pointer) (fuel : Nat)
    (hf : busy s U < fuel) :
    ∃ r, CsNodeManager.remove_child_raw (delete_this fuel) s this p = some r ∧
      Counted U V E r.2 := by
  by_cases hi : std_find (s.heap this).m_children p = (s.heap this).m_children.length
  · exact ⟨(false, s), by simp [CsNodeManager.remove_child_raw, hi], h⟩
  · have hlt : std_find (s.heap this).m_children p < (s.heap this).m_children.length :=
      Nat.lt_of_le_of_ne (std_find_le _ _) hi
    have h0 : Erasing U V E this k (s.heap this).m_children.length (busy s U) s :=
      ⟨h, hheld, rfl, Nat.le_refl _⟩
    obtain ⟨s1, e1, h1⟩ := Erasing.erase_shift hk hthis fuel hf
      ((s.heap this).m_children.length - 1 - std_find (s.heap this).m_children p)
      (std_find (s.heap this).m_children p) s h0 (by omega)
    obtain ⟨s2, e2, h2⟩ := h1.erase_tail hk hthis (by omega) fuel hf
    refine ⟨(true, s2), ?_, h2⟩
    simp only [CsNodeManager.remove_child_raw, ne_eq, hi, not_false_eq_true, if_true,
      vector_erase_eq, e1]
    have hb : ((some s1).bind fun a =>
        erase_tail (delete_this fuel) this (s.heap this).m_children.length a) = some s2 := e2
    rw [hb]

/-! ## The count invariant under the finders -/

theorem visit_loop_mono {α : Type}
    (body1 body2 : State → Loc → α → Option (VisitStatus × α × State))
    (hbody : ∀ s item acc r, body1 s item acc = some r → body2 s item acc = some r)
    (this : Pointer) :
    ∀ (count i : Nat) (s : State) (acc : α) (r : VisitStatus × α × State),
      visit_loop body1 this count i s acc = some r →
        visit_loop body2 this count i s acc = some r
  | 0, _, _, _, _, h => h
  | count + 1, i, s, acc, r, h => by
    cases hb : body1 s (Loc.child this i) acc with
    | none => simp [visit_loop, hb] at h
    | some x =>
      obtain ⟨st, acc1, s1⟩ := x
      have hb2 := hbody _ _ _ _ hb
      cases st with
      | Finished =>
        simp only [visit_loop, hb] at h
        simp only [visit_loop, hb2]
        exact h
      | VisitMore =>
        simp only [visit_loop, hb] at h
        simp only [visit_loop, hb2]
        exact visit_loop_mono body1 body2 hbody this count (i + 1) s1 acc1 r h

theorem visit_body_mono {α : Type} (same : Bool) (isU : Pointer → Bool)
    (lambda : α → State → Loc → Option (VisitStatus × α × State))
    (del : State → Pointer → Option State)
    (recurse1 recurse2 : State → Pointer → α → Option (VisitStatus × α × State))
    (hrec : ∀ s p acc r, recurse1 s p acc = some r → recurse2 s p acc = some r)
    (option : VisitChildren) (s : State) (item : Loc) (acc : α)
    (r : VisitStatus × α × State)
    (h : visit_body same isU lambda del recurse1 option s item acc = some r) :
    visit_body same isU lambda del recurse2 option s item acc = some r := by
  cases hv : visit_invoke same isU lambda del s item acc with
  | none => simp [visit_body, hv] at h
  | some x =>
    obtain ⟨st, acc1, s1⟩ := x
    cases st with
    | Finished =>
      simp only [visit_body, hv] at h ⊢
      exact h
    | VisitMore =>
      simp only [visit_body, hv] at h ⊢
      by_cases ho : option = VisitChildren.Recursive
      · rw [if_pos ho] at h ⊢
        exact hrec _ _ _ _ h
      · rw [if_neg ho] at h ⊢
        exact h

/-- More fuel does not change what a traversal returns. -/
theorem visit_mono {α : Type} (same : Bool) (isU : Pointer → Bool)
    (lambda : α → State → Loc → Option (VisitStatus × α × State))
    (del : State → Pointer → Option State) :
    ∀ (fuel : Nat) (option : VisitChildren) (s : State) (this : Pointer) (acc : α)
      (r : VisitStatus × α × State),
      visit same isU lambda del fuel option s this acc = some r →
        visit same isU lambda del (fuel + 1) option s this acc = some r
  | 0, _, _, _, _, _, h => by simp [visit] at h
  | fuel + 1, option, s, this, acc, r, h => by
    have ih := visit_mono same isU lambda del fuel
    simp only [visit] at h ⊢
    refine visit_loop_mono _ _ ?_ this _ 0 s acc r h
    intro s1 item acc1 r1 h1
    exact visit_body_mono same isU lambda del _ _
      (fun s2 p acc2 r2 h2 => ih VisitChildren.Recursive s2 p acc2 r2 h2) option s1 item acc1
      r1 h1

theorem visit_mono_le {α : Type} (same : Bool) (isU : Pointer → Bool)
    (lambda : α → State → Loc → Option (VisitStatus × α × State))
    (del : State → Pointer → Option State) (option : VisitChildren) (s : State)
    (this : Pointer) (acc : α) (r : VisitStatus × α × State) (fuel : Nat)
    (h : visit same isU lambda del fuel option s this acc = some r) :
    ∀ d, fuel ≤ d → visit same isU lambda del d option s this acc = some r := by
  intro d hd
  induction d with
  | zero =>
    have : fuel = 0 := by omega
    subst this
    exact h
  | succ d ih =>
    by_cases he : fuel = d + 1
    · subst he
      exact h
    · exact visit_mono same isU lambda del d option s this acc r (ih (by omega))


theorem PreOrder.mem_parent {s : State} {kids l : List Pointer} (h : PreOrder s kids l) :
    ∀ q ∈ l, q ≠ nullptr ∧ (q ∈ kids ∨ ∃ x ∈ l, q ∈ (s.heap x).m_children) := by
  induction h with
  | nil => intro q hq; cases hq
  | cons c rest sub tail hc _ _ ih1 ih2 =>
    intro q hq
    rcases List.mem_cons.mp hq with e | hq
    · subst e
      exact ⟨hc, Or.inl (List.mem_cons_self _ _)⟩
    · rcases List.mem_append.mp hq with hq | hq
      · obtain ⟨a, b⟩ := ih1 q hq
        refine ⟨a, Or.inr ?_⟩
        rcases b with b | ⟨x, hx, b⟩
        · exact ⟨c, List.mem_cons_self _ _, b⟩
        · exact ⟨x, List.mem_cons_of_mem _ (List.mem_append_left _ hx), b⟩
      · obtain ⟨a, b⟩ := ih2 q hq
        refine ⟨a, ?_⟩
        rcases b with b | ⟨x, hx, b⟩
        · exact Or.inl (List.mem_cons_of_mem _ b)
        · exact Or.inr ⟨x, List.mem_cons_of_mem _ (List.mem_append_right _ hx), b⟩

theorem child_entries_pos (s : State) (U : List Pointer) (hU : U.Nodup) (x q : Pointer)
    (hx : x ∈ U) (hq : q ∈ (s.heap x).m_children) : 0 < child_entries s U q := by
  have := child_entries_erase s q x U hU hx
  have : 0 < (s.heap x).m_children.count q := List.count_pos_iff.mpr hq
  omega

/-- Every node of a tree below a manager is held by a child entry, so it is alive. -/
theorem Counted.tree_alive {U : List Pointer} {V : List Nat} {E : List Pointer} {s : State}
    (h : Counted U V E s) (this : Pointer) (l : List Pointer)
    (ht : PreOrder s (s.heap this).m_children l) (q : Pointer) (hq : q ∈ l) :
    q ≠ nullptr ∧ 0 < (s.heap q).m_count ∧ q ∉ s.deleted ∧ q ∈ U := by
  obtain ⟨hn, hp⟩ := ht.mem_parent q hq
  have hx : ∃ x, q ∈ (s.heap x).m_children := by
    rcases hp with hp | ⟨x, _, hp⟩
    · exact ⟨this, hp⟩
    · exact ⟨x, hp⟩
  obtain ⟨x, hx⟩ := hx
  have hxU : x ∈ U := by
    by_contra hxU
    rw [(h.fresh x hxU).2] at hx
    cases hx
  have := child_entries_pos s U h.balanced.nodup x q hxU hx
  exact ⟨hn, h.alive q hn (by omega)⟩

/-- Further handles are made for live objects: every count is raised by the number of the
new handles to the object, and nothing else changes. -/
theorem Counted.add_handles {U : List Pointer} {V : List Nat} {E : List Pointer}
    {s s' : State} (h : Counted U V E s) (L : List Pointer)
    (hL : ∀ q ∈ L, q ∉ s.deleted ∧ q ∈ U)
    (hch : ∀ q, (s'.heap q).m_children = (s.heap q).m_children)
    (hco : ∀ q, (s'.heap q).m_count = (s.heap q).m_count + L.count q)
    (hd : s'.deleted = s.deleted) (hv : s'.handles = s.handles)
    (hsm : ∀ q, (s'.heap q).m_count < SIZE_MODULUS) : Counted U V (E ++ L) s' := by
  have hk : ∀ q, child_entries s' U q = child_entries s U q :=
    fun q => child_entries_congr s s' U q (fun x _ => by rw [hch])
  have h0 : ∀ q, (q ∈ s.deleted ∨ q ∉ U) → L.count q = 0 := by
    intro q hq
    apply List.count_eq_zero_of_not_mem
    intro hm
    rcases hq with hq | hq
    · exact (hL q hm).1 hq
    · exact hq (hL q hm).2
  refine ⟨⟨?_, hsm, ?_, h.balanced.nodup, ?_, ?_⟩, h.vars, ?_, ?_, h.null⟩
  · intro q hq
    have := h.balanced.count q hq
    rw [hco, hk, var_handles_of_handles s s' V q hv, List.count_append]
    simp only [List.count_nil] at *
    omega
  · intro x hx _
    left
    rw [hch]
    exact (h.fresh x hx).2
  · intro x hx
    rw [hd] at hx
    have := h.balanced.deleted x hx
    refine ⟨this.1, ?_, by rw [hch]; exact this.2.2⟩
    rw [hco, h0 x (Or.inl hx), this.2.1]
  · rw [hd]
    exact h.balanced.deleted_nodup
  · intro x hx
    have := h.fresh x hx
    refine ⟨?_, by rw [hch]; exact this.2⟩
    rw [hco, h0 x (Or.inr hx), this.1]
  · intro x hx
    rw [hd] at hx
    exact h.deleted_mem x hx

/-- Method `find_children<U>()` on a finite tree: from some depth on it returns the same
result, and the invariant holds with the returned handles among the further handles. -/
theorem Counted.find_children {U : List Pointer} {V : List Nat} {E : List Pointer}
    {s : State} (h : Counted U V E s) (same : Bool) (isU : Pointer → Bool) (this : Pointer)
    (l : List Pointer) (ht : PreOrder s (s.heap this).m_children l)
    (hr : ∀ q ∈ l, (s.heap q).m_count + l.count q + 3 < SIZE_MODULUS)
    (del : State → Pointer → Option State) :
    ∃ N r, (∀ d, N ≤ d → CsNodeManager.find_children same isU del d s this = some r) ∧
      Counted U V (E ++ r.1) r.2 := by
  have hle : ∀ q, (l.filter (assignable same isU)).count q ≤ l.count q :=
    fun q => (List.filter_sublist l).count_le q
  have hmax : ∀ q ∈ l.filter (assignable same isU), 0 < (s.heap q).m_count ∧
      (s.heap q).m_count + (l.filter (assignable same isU)).count q + 3 < SIZE_MODULUS := by
    intro q hq
    have hql : q ∈ l := (List.mem_filter.mp hq).1
    have c1 := hr q hql
    have c2 := hle q
    exact ⟨(h.tree_alive this l ht q hql).2.1, by omega⟩
  obtain ⟨N, hN⟩ := find_children_walks same isU del s this l ht hmax
  obtain ⟨s', e, a1, a2, a3, a4⟩ := hN N (Nat.le_refl _)
  refine ⟨N, (l.filter (assignable same isU), s'), ?_, ?_⟩
  · intro d hd
    cases hv : visit same isU (find_children_lambda del) del N VisitChildren.Recursive s this
        [] with
    | none => simp [CsNodeManager.find_children, hv] at e
    | some x =>
      have hx := visit_mono_le same isU (find_children_lambda del) del _ s this [] x N hv d hd
      simp only [CsNodeManager.find_children, hv] at e
      simp only [CsNodeManager.find_children, hx]
      exact e
  · refine h.add_handles _ ?_ a1 a2 a3 a4 ?_
    · intro q hq
      have c1 := h.tree_alive this l ht q (List.mem_filter.mp hq).1
      exact ⟨c1.2.2.1, c1.2.2.2⟩
    · intro q
      rw [a2]
      by_cases hq : q ∈ l.filter (assignable same isU)
      · have c1 := (hmax q hq).2
        omega
      · rw [List.count_eq_zero_of_not_mem hq]
        exact h.balanced.small q

theorem stop_at_mem {α : Type} (g : α → Pointer → VisitStatus × α) :
    ∀ (l : List Pointer) (acc : α), (walk g l acc).1 = VisitStatus.Finished →
      stop_at g l acc ∈ l
  | [], _, h => by simp [walk] at h
  | p :: l, acc, h => by
    rcases hg : g acc p with ⟨st, acc1⟩
    cases st with
    | Finished => simp [stop_at, hg]
    | VisitMore =>
      simp only [walk, hg] at h
      simp only [stop_at, hg]
      exact List.mem_cons_of_mem _ (stop_at_mem g l acc1 h)

/-- Method `find_child<U>()` on a finite tree, with the result in a new handle variable: from
some depth on it returns the same state, in which the invariant holds. -/
theorem Counted.find_child {U : List Pointer} {V : List Nat} {E : List Pointer}
    {s : State} (h : Counted U V E s) (same : Bool) (isU : Pointer → Bool) (this : Pointer)
    (r : Nat) (hr : r ∉ V) (l : List Pointer) (ht : PreOrder s (s.heap this).m_children l)
    (hroom : ∀ q ∈ l, (s.heap q).m_count + l.count q + 3 < SIZE_MODULUS)
    (del : State → Pointer → Option State) :
    ∃ N s', (∀ d, N ≤ d →
        CsNodeManager.find_child same isU del d s this (Loc.var r) = some s') ∧
      Counted U (r :: V) E s' := by
  have hmax : ∀ q ∈ l.filter (assignable same isU), 0 < (s.heap q).m_count ∧
      (s.heap q).m_count + 3 < SIZE_MODULUS := by
    intro q hq
    have hql : q ∈ l := (List.mem_filter.mp hq).1
    have c1 := hroom q hql
    exact ⟨(h.tree_alive this l ht q hql).2.1, by omega⟩
  obtain ⟨N, hN⟩ := find_child_pred_walks same isU
    (pred_by_reference (stateless (fun _ => true))) (stateless (fun _ => true))
    (pred_by_reference_observes _) del s r this l ht hmax ()
  obtain ⟨s', e, hmore, hfin⟩ := hN N (Nat.le_refl _)
  refine ⟨N, s', ?_, ?_⟩
  · intro d hd
    have e0 : CsNodeManager.find_child same isU del N s this (Loc.var r) = some s' := by
      rw [find_child_eq_pred, e]
      rfl
    cases hv : visit same isU (find_child_lambda del (Loc.var r)) del N
        VisitChildren.Recursive (ctor_null s (Loc.var r)) this () with
    | none => simp [CsNodeManager.find_child, hv] at e0
    | some x =>
      have hx := visit_mono_le same isU (find_child_lambda del (Loc.var r)) del _ _ this () x
        N hv d hd
      simp only [CsNodeManager.find_child, hv] at e0
      simp only [CsNodeManager.find_child, hx]
      exact e0
  · rcases hw : (walk (finding (stateless fun _ => true))
        (l.filter (assignable same isU)) ()).1 with _ | _
    · obtain ⟨b1, b2, b3, b4⟩ := hmore hw
      have h1 : Counted U (r :: V) E (s.set_m_ptr (Loc.var r) nullptr) :=
        h.add_null.new_var r hr
      refine h1.of_same_heap b3 b4 ?_
      funext j
      by_cases hj : j = r
      · subst hj
        simpa [State.m_ptr, State.set_m_ptr] using b1
      · rw [b2 j hj]
        simp [State.set_m_ptr, hj]
    · have hf := hfin hw
      have hmem := stop_at_mem _ _ _ hw
      have hql := (List.mem_filter.mp hmem).1
      have hal := h.tree_alive this l ht _ hql
      have hrm : (s.heap (stop_at (finding (stateless fun _ => true))
          (l.filter (assignable same isU)) ())).m_count + 1 < SIZE_MODULUS := by
        have c1 := hroom _ hql
        omega
      have h1 := (h.inc _ hal.1 hal.2.2.2 hal.2.2.1 hrm).new_var r hr
      refine h1.of_same_heap (heap_ext _ _ ?_ ?_) (by rw [hf.deleted]; rfl) ?_
      · intro q
        rw [hf.children]
        simp [inc_ref_count, cs_inc_ref_count]
      · intro q
        rw [hf.count]
        by_cases hq : q = stop_at (finding (stateless fun _ => true))
            (l.filter (assignable same isU)) ()
        · subst hq
          simp [inc_ref_count, cs_inc_ref_count, inc_wrap _ hrm]
        · simp [hq, inc_ref_count, cs_inc_ref_count]
      · funext j
        by_cases hj : j = r
        · subst hj
          have c1 := hf.result
          simpa [State.m_ptr, State.set_m_ptr] using c1
        · rw [hf.handles j hj]
          simp [State.set_m_ptr, hj, inc_ref_count, cs_inc_ref_count]

/-! ## The count invariant in every reachable configuration -/

theorem Counted.init : Counted [] [] [] State.init := by
  refine ⟨⟨?_, ?_, ?_, List.nodup_nil, ?_, List.nodup_nil⟩, List.nodup_nil, ?_, ?_, ?_⟩
  · intro q _
    simp [State.init, child_entries, var_handles]
  · intro q
    show 0 < SIZE_MODULUS
    decide
  · intro x _ _
    exact Or.inl rfl
  · intro x hx
    cases hx
  · intro x _
    exact ⟨rfl, rfl⟩
  · intro x hx
    cases hx
  · intro h
    cases h

/-- Every operation whose precondition holds in a configuration with the count invariant
returns, for more fuel than there are objects with children and every depth from some depth
on, a configuration with the count invariant. -/
theorem Op.preserves (op : Op) (c : Config) (fuel : Nat) (h : Counted c.U c.V c.E c.s)
    (hp : op.pre c) (hf : busy c.s c.U < fuel) :
    ∃ depth c', (∀ d, depth ≤ d → op.run fuel d c = some c') ∧
      Counted c'.U c'.V c'.E c'.s := by
  obtain ⟨U, V, E, s⟩ := c
  cases op with
  | make_intrusive i a =>
    exact ⟨0, _, fun _ _ => rfl, h.make_intrusive i hp.1 a hp.2.1 hp.2.2⟩
  | ctor_null i =>
    exact ⟨0, _, fun _ _ => rfl, h.add_null.new_var i hp⟩
  | ctor_raw i p =>
    exact ⟨0, _, fun _ _ => rfl, h.ctor_raw i hp.1 p hp.2⟩
  | copy_ctor i j =>
    exact ⟨0, _, fun _ _ => rfl,
      h.ctor_raw i hp.1 (s.handles j) (h.usable_of_var j hp.2.1 hp.2.2)⟩
  | converting_copy_ctor i j =>
    exact ⟨0, _, fun _ _ => rfl,
      h.ctor_raw i hp.1 (s.handles j) (h.usable_of_var j hp.2.1 hp.2.2)⟩
  | move_ctor i j =>
    exact ⟨0, _, fun _ _ => rfl, h.move_ctor i j hp.1 hp.2⟩
  | dtor i =>
    obtain ⟨s', e, h'⟩ := h.dtor_var i hp fuel hf
    refine ⟨0, ⟨U, V.erase i, E, s'⟩, fun _ _ => ?_, h'⟩
    show (CsIntrusivePointer.dtor (delete_this fuel) s (s.handles i)).map _ = _
    rw [e]
    rfl
  | assign_raw i p =>
    obtain ⟨s', e, h'⟩ := h.assign_raw i hp.1 p hp.2 fuel hf
    refine ⟨0, ⟨U, V, E, s'⟩, fun _ _ => ?_, h'⟩
    show (CsIntrusivePointer.assign_raw (delete_this fuel) s (Loc.var i) p).map _ = _
    rw [e]
    rfl
  | copy_assign i j =>
    obtain ⟨s', e, h'⟩ := h.assign_raw i hp.1 (s.handles j)
      (h.usable_of_var j hp.2.1 hp.2.2) fuel hf
    refine ⟨0, ⟨U, V, E, s'⟩, fun _ _ => ?_, h'⟩
    show (CsIntrusivePointer.assign_raw (delete_this fuel) s (Loc.var i) (s.handles j)).map _ =
      _
    rw [e]
    rfl
  | move_assign i j =>
    obtain ⟨s', e, h'⟩ := h.move_assign i j hp.1 hp.2 fuel hf
    refine ⟨0, ⟨U, V, E, s'⟩, fun _ _ => ?_, h'⟩
    show (CsIntrusivePointer.move_assign (delete_this fuel) s (Loc.var i) (Loc.var j)).map _ =
      _
    rw [e]
    rfl
  | converting_copy_assign i j =>
    obtain ⟨s', e, h'⟩ := h.converting_copy_assign i j hp.1 hp.2.1 hp.2.2 fuel hf
    refine ⟨0, ⟨U, V, E, s'⟩, fun _ _ => ?_, h'⟩
    show (CsIntrusivePointer.converting_copy_assign (delete_this fuel) s (Loc.var i)
      (Loc.var j)).map _ = _
    rw [e]
    rfl
  | converting_move_assign i j =>
    obtain ⟨s', e, h'⟩ := h.converting_move_assign i j hp.1 hp.2 fuel hf
    refine ⟨0, ⟨U, V, E, s'⟩, fun _ _ => ?_, h'⟩
    show (CsIntrusivePointer.converting_move_assign (delete_this fuel) s (Loc.var i)
      (Loc.var j)).map _ = _
    rw [e]
    rfl
  | reset i =>
    obtain ⟨s', e, h'⟩ := h.reset i hp fuel hf
    refine ⟨0, ⟨U, V, E, s'⟩, fun _ _ => ?_, h'⟩
    show (CsIntrusivePointer.reset (delete_this fuel) s (Loc.var i)).map _ = _
    rw [e]
    rfl
  | handle_clear i =>
    obtain ⟨s', e, h'⟩ := h.reset i hp fuel hf
    refine ⟨0, ⟨U, V, E, s'⟩, fun _ _ => ?_, h'⟩
    show (CsIntrusivePointer.reset (delete_this fuel) s (Loc.var i)).map _ = _
    rw [e]
    rfl
  | reset_raw i p =>
    obtain ⟨s', e, h'⟩ := h.reset_raw i hp.1 p hp.2 fuel hf
    refine ⟨0, ⟨U, V, E, s'⟩, fun _ _ => ?_, h'⟩
    show (CsIntrusivePointer.reset_raw (delete_this fuel) s (Loc.var i) p).map _ = _
    rw [e]
    rfl
  | swap i j =>
    exact ⟨0, _, fun _ _ => rfl, h.swap i j hp.1 hp.2⟩
  | const_pointer_cast i j =>
    exact ⟨0, _, fun _ _ => rfl,
      h.ctor_raw i hp.1 (s.handles j) (h.usable_of_var j hp.2.1 hp.2.2)⟩
  | static_pointer_cast i j =>
    exact ⟨0, _, fun _ _ => rfl,
      h.ctor_raw i hp.1 (s.handles j) (h.usable_of_var j hp.2.1 hp.2.2)⟩
  | dynamic_pointer_cast isU i j =>
    refine ⟨0, _, fun _ _ => rfl,
      h.ctor_raw i hp.1 (dynamic_cast isU (s.handles j)) ?_⟩
    by_cases hc : s.handles j ≠ nullptr ∧ isU (s.handles j) = true
    · have e : dynamic_cast isU (s.handles j) = s.handles j := by simp [dynamic_cast, hc]
      rw [e]
      exact h.usable_of_var j hp.2.1 hp.2.2
    · left
      simp only [dynamic_cast]
      rw [if_neg hc]
  | release_if i =>
    obtain ⟨r, e, h'⟩ := h.release_if i hp (delete_this fuel)
    refine ⟨0, ⟨U, V, E, r.2⟩, fun _ _ => ?_, h'⟩
    show (CsIntrusivePointer.release_if (delete_this fuel) s (Loc.var i)).map _ = _
    rw [e]
    rfl
  | add_child_raw this p =>
    obtain ⟨s', e, h'⟩ := h.add_child_raw this hp.1.1 hp.1.2 p hp.2 (delete_this fuel)
    refine ⟨0, ⟨U, V, E, s'⟩, fun _ _ => ?_, h'⟩
    show (CsNodeManager.add_child_raw (delete_this fuel) s this p).map _ = _
    rw [e]
    rfl
  | add_child this j =>
    obtain ⟨s', e, h'⟩ := h.add_child_raw this hp.1.1 hp.1.2 (s.handles j)
      (h.usable_of_var j hp.2.1 hp.2.2) (delete_this fuel)
    refine ⟨0, ⟨U, V, E, s'⟩, fun _ _ => ?_, h'⟩
    show (CsNodeManager.add_child_raw (delete_this fuel) s this (s.handles j)).map _ = _
    rw [e]
    rfl
  | remove_child_raw this p =>
    obtain ⟨hthis, k, hk, hheld⟩ := hp
    obtain ⟨r, e, h'⟩ := h.remove_child_raw this k hk hheld hthis p fuel hf
    refine ⟨0, ⟨U, V, E, r.2⟩, fun _ _ => ?_, h'⟩
    show (CsNodeManager.remove_child_raw (delete_this fuel) s this p).map _ = _
    rw [e]
    rfl
  | remove_child this j =>
    obtain ⟨⟨hthis, k, hk, hheld⟩, _⟩ := hp
    obtain ⟨r, e, h'⟩ := h.remove_child_raw this k hk hheld hthis (s.handles j) fuel hf
    refine ⟨0, ⟨U, V, E, r.2⟩, fun _ _ => ?_, h'⟩
    show (CsNodeManager.remove_child_raw (delete_this fuel) s this (s.handles j)).map _ = _
    rw [e]
    rfl
  | move_child this source dest =>
    exact ⟨0, _, fun _ _ => rfl, h.move_child this hp.1.1 hp.1.2 source dest hp.2.1 hp.2.2⟩
  | clear this =>
    obtain ⟨s', e, h'⟩ := h.clear this hp.1 hp.2 fuel hf
    refine ⟨0, ⟨U, V, E, s'⟩, fun _ _ => ?_, h'⟩
    show (CsNodeManager.clear (delete_this fuel) s this).map _ = _
    rw [e]
    rfl
  | find_child same isU this r =>
    obtain ⟨hr, l, ht, hroom⟩ := hp
    obtain ⟨N, s', e, h'⟩ := h.find_child same isU this r hr l ht hroom (delete_this fuel)
    refine ⟨N, ⟨U, r :: V, E, s'⟩, fun d hd => ?_, h'⟩
    show (CsNodeManager.find_child same isU (delete_this fuel) d s this (Loc.var r)).map _ = _
    rw [e d hd]
    rfl
  | find_children same isU this =>
    obtain ⟨l, ht, hroom⟩ := hp
    obtain ⟨N, r, e, h'⟩ := h.find_children same isU this l ht hroom (delete_this fuel)
    refine ⟨N, ⟨U, V, E ++ r.1, r.2⟩, fun d hd => ?_, h'⟩
    show (CsNodeManager.find_children same isU (delete_this fuel) d s this).map _ = _
    rw [e d hd]
    rfl
  | destroy_found =>
    obtain ⟨s', e, h', _⟩ := Counted.release_all E
      (show Counted U V (E ++ []) s by simpa using h) fuel hf
    refine ⟨0, ⟨U, V, [], s'⟩, fun _ _ => ?_, h'⟩
    show (CsNodeManager.destroy_elements (delete_this fuel) s E).map _ = _
    rw [e]
    rfl

/-- The count invariant holds in every reachable configuration. -/
theorem Reachable.counted {c : Config} (h : Reachable c) : Counted c.U c.V c.E c.s := by
  induction h with
  | init => exact Counted.init
  | step c c' op fuel depth _ hp hf hrun ih =>
    obtain ⟨N, c'', e, h'⟩ := op.preserves c fuel ih hp hf
    have e1 := hrun (max depth N) (Nat.le_max_left _ _)
    have e2 := e (max depth N) (Nat.le_max_right _ _)
    rw [e1] at e2
    cases e2
    exact h'

/-- C34: in every configuration reached from the empty one by `make_intrusive`, the
operations on handle variables (construction from a raw address, copy, move, every form of
assignment, `reset`, `swap`, the casts, `release_if`, destruction) and the operations of the
node manager (`add_child`, `remove_child`, `move_child`, `clear`, `find_child`,
`find_children`), the count of every object is the number of child entries, live handle
variables and returned handles that hold its address. So every address held by a handle has
a count between 1 and the largest `std::size_t`, its decrement does not wrap, and it is not
deleted; a deleted object has count 0, no children and no handle, and is deleted once.
`cs_dec_ref_count` runs `delete this` exactly when the action is not `NoDelete` and the count
goes from 1 to 0. Every operation whose precondition holds returns, for enough fuel, a
configuration that is reachable again. -/
theorem count_invariant (c : Config) (h : Reachable c) :
    (∀ q, q ≠ nullptr → (c.s.heap q).m_count =
      child_entries c.s c.U q + var_handles c.s c.V q + c.E.count q) ∧
    (∀ q, q ≠ nullptr → 0 < child_entries c.s c.U q + var_handles c.s c.V q + c.E.count q →
      0 < (c.s.heap q).m_count ∧ (c.s.heap q).m_count < SIZE_MODULUS ∧
      ((c.s.heap q).m_count + (SIZE_MODULUS - 1)) % SIZE_MODULUS = (c.s.heap q).m_count - 1 ∧
      q ∉ c.s.deleted ∧ q ∈ c.U) ∧
    (∀ x ∈ c.s.deleted, x ∈ c.U ∧ (c.s.heap x).m_count = 0 ∧ (c.s.heap x).m_children = [] ∧
      child_entries c.s c.U x + var_handles c.s c.V x + c.E.count x = 0) ∧
    c.s.deleted.Nodup ∧
    (∀ (del : State → Pointer → Option State) (s : State) (p : Pointer)
        (action : CsIntrusiveAction),
      cs_dec_ref_count del s p action =
        if action ≠ CsIntrusiveAction.NoDelete ∧ (s.heap p).m_count = 1 then
          del (s.set_count p 0) p
        else some (s.set_count p (((s.heap p).m_count + (SIZE_MODULUS - 1)) % SIZE_MODULUS))) ∧
    (∀ (op : Op) (fuel : Nat), op.pre c → busy c.s c.U < fuel →
      ∃ depth c', (∀ d, depth ≤ d → op.run fuel d c = some c') ∧ Reachable c') := by
  have hI := h.counted
  refine ⟨?_, ?_, ?_, hI.balanced.deleted_nodup, ?_, ?_⟩
  · intro q hq
    have := hI.balanced.count q hq
    simp only [List.count_nil] at this
    omega
  · intro q hq hheld
    have hal := hI.alive q hq hheld
    have hsm := hI.balanced.small q
    exact ⟨hal.1, hsm, dec_wrap _ hal.1 hsm, hal.2.1, hal.2.2⟩
  · intro x hx
    have hd := hI.balanced.deleted x hx
    have hc := hI.balanced.count x hd.1
    simp only [List.count_nil] at hc
    exact ⟨hI.deleted_mem x hx, hd.2.1, hd.2.2, by omega⟩
  · intro del s p action
    have hw0 : (1 + (SIZE_MODULUS - 1)) % SIZE_MODULUS = 0 := by decide
    by_cases ha : action = CsIntrusiveAction.NoDelete
    · simp [cs_dec_ref_count, ha]
    · by_cases h1 : (s.heap p).m_count = 1
      · simp [cs_dec_ref_count, ha, h1, hw0]
      · simp [cs_dec_ref_count, ha, h1]
  · intro op fuel hp hf
    obtain ⟨depth, c', e, _⟩ := op.preserves c fuel hI hp hf
    exact ⟨depth, c', e, Reachable.step c c' op fuel depth h hp hf e⟩

theorem shared_pair_reachable : Reachable ⟨[10], [1, 0], [], shared_pair⟩ := by
  have h1 : Reachable ⟨[10], [0], [], make_intrusive State.init (Loc.var 0) 10⟩ :=
    Reachable.step ⟨[], [], [], State.init⟩ _ (Op.make_intrusive 0 10) 1 0 Reachable.init
      ⟨by decide, by decide, by decide⟩ (by decide) (fun _ _ => rfl)
  exact Reachable.step _ _ (Op.copy_ctor 1 0) 1 0 h1
    ⟨by decide, by decide, show (_ : Nat) + 1 < SIZE_MODULUS by decide⟩ (by decide)
    (fun _ _ => rfl)

/-- C34 on two handle variables that share an object made by `make_intrusive`: the count of
the object is 2, the number of the handle variables that hold it; a `reset()` of the first
variable returns and leads to a reachable configuration. -/
theorem count_invariant_witness :
    (shared_pair.heap 10).m_count =
        child_entries shared_pair [10] 10 + var_handles shared_pair [1, 0] 10 +
          ([] : List Pointer).count 10 ∧
      var_handles shared_pair [1, 0] 10 = 2 ∧
      ∃ depth c', (∀ d, depth ≤ d →
          (Op.reset 0).run 1 d ⟨[10], [1, 0], [], shared_pair⟩ = some c') ∧ Reachable c' :=
  ⟨(count_invariant ⟨[10], [1, 0], [], shared_pair⟩ shared_pair_reachable).1 10 (by decide),
    by decide,
    (count_invariant ⟨[10], [1, 0], [], shared_pair⟩ shared_pair_reachable).2.2.2.2.2
      (Op.reset 0) 1 (show (0 : Nat) ∈ [1, 0] by decide) (by decide)⟩

end CsPointer
